import Mathlib

/-!
# sveltigo: the text-rewriting pipeline of `parse/parse.go`

A shallow embedding of `renameIdentifiers`, `scopeCSS`, `addComponentClass`,
`mergeScriptsAndStyles`, `processComponent` and the assembling part of
`AutoParse`, followed by theorems about them.

Modelling conventions.

* A Go `string` is read as its sequence of Unicode code points, `List Char`.
* Every regular expression of the source is a `Matcher`: given the character
  before the current position (needed by `\b`) and the text from the current
  position on, it returns the length of the leftmost-first match that starts
  at this position together with the capture groups, exactly as Go's
  `regexp` (Perl-like, leftmost-first, greedy unless `?`-marked) selects it.
  None of the expressions of the source can match the empty string.
* `ReplaceAllStringFunc`, `ReplaceAllString`, `FindAllStringSubmatch` scan
  the text from left to right and continue after each match.
* A Go `map` is an association list with distinct keys; the order in which a
  `range` statement visits it is not fixed by the language and is an explicit
  argument (`MapOrder`).
* Two library tables are not part of the repository and are arguments
  (`GoLib`): the MD5 digest and the Unicode letter/digit table.
* The definitions named `...Checked` follow the same source lines with every
  slice, index and pattern step checked; there `none` is a run-time panic.
-/

namespace Sveltigo

/-- Text of a Go string, as a list of code points. -/
abbrev Str := List Char

/-- Library functions called by the source whose tables live outside the
repository. `md5 m` is `crypto/md5.Sum([]byte(m))` read as a big-endian
number; `isLetterOrDigit r` is `unicode.IsLetter(r) || unicode.IsDigit(r)`,
consulted only for code points above ASCII. -/
structure GoLib where
  md5 : Str → Nat
  isLetterOrDigit : Char → Bool

/-! ## Character classes -/

/-- Class `\w` of Go regexp: `[0-9A-Za-z_]`. -/
def isWordChar (ch : Char) : Bool :=
  let n := ch.toNat
  (48 ≤ n && n ≤ 57) || (65 ≤ n && n ≤ 90) || n == 95 || (97 ≤ n && n ≤ 122)

/-- Class `[a-zA-Z_]`. -/
def isIdentStart (ch : Char) : Bool :=
  let n := ch.toNat
  (65 ≤ n && n ≤ 90) || n == 95 || (97 ≤ n && n ≤ 122)

/-- Class `\s` of Go regexp: `[\t\n\f\r ]`. -/
def isReSpace (ch : Char) : Bool :=
  let n := ch.toNat
  n == 9 || n == 10 || n == 12 || n == 13 || n == 32

/-- Go `unicode.IsSpace`: the Unicode White_Space property. -/
def isSpace (ch : Char) : Bool :=
  let n := ch.toNat
  (9 ≤ n && n ≤ 13) || n == 0x20 || n == 0x85 || n == 0xA0 || n == 0x1680 ||
  (0x2000 ≤ n && n ≤ 0x200A) || n == 0x2028 || n == 0x2029 || n == 0x202F ||
  n == 0x205F || n == 0x3000

/-- Whether the character before the current position is a word character
(`false` at the start of the text). -/
def prevIsWord (prev : Option Char) : Bool :=
  match prev with
  | some ch => isWordChar ch
  | none => false

/-- Whether the text starts with a character of the class `p` (`false` at the
end of the text). -/
def headIs (p : Char → Bool) (s : Str) : Bool :=
  match s with
  | ch :: _ => p ch
  | [] => false

/-! ## Package `strings` -/

/-- Go `strings.HasPrefix(s, p)`. -/
def hasPrefix (s p : Str) : Bool := p.isPrefixOf s

/-- Go `strings.Index(s, sub)`, `none` standing for `-1`. -/
def index (sub : Str) : Str → Option Nat
  | [] => if sub.isPrefixOf [] then some 0 else none
  | ch :: t =>
    if sub.isPrefixOf (ch :: t) then some 0
    else match index sub t with
      | some i => some (i + 1)
      | none => none

/-- Go `strings.LastIndex(s, sub)`, `none` standing for `-1`. -/
def lastIndex (sub : Str) : Str → Option Nat
  | [] => if sub.isPrefixOf [] then some 0 else none
  | ch :: t =>
    match lastIndex sub t with
    | some i => some (i + 1)
    | none => if sub.isPrefixOf (ch :: t) then some 0 else none

/-- Go `strings.Contains(s, sub)`. -/
def contains (s sub : Str) : Bool := (index sub s).isSome

/-- Go `strings.TrimSpace`. -/
def trimSpace (s : Str) : Str := (s.dropWhile isSpace).rdropWhile isSpace

/-- Go `strings.TrimSuffix(s, suffix)`. -/
def trimSuffix (s suffix : Str) : Str :=
  if suffix.isSuffixOf s then s.take (s.length - suffix.length) else s

/-- Go `strings.Split(s, sep)` for a one-character separator. -/
def split (s : Str) (sep : Char) : List Str := s.splitOn sep

/-- Go `strings.Join(parts, sep)`. -/
def join (parts : List Str) (sep : Str) : Str := sep.intercalate parts

/-- Worker of `fields`: `cur` is the current field, reversed. -/
def fieldsAux : Str → Str → List Str
  | cur, [] => if cur.isEmpty then [] else [cur.reverse]
  | cur, ch :: t =>
    if isSpace ch then
      if cur.isEmpty then fieldsAux [] t else cur.reverse :: fieldsAux [] t
    else fieldsAux (ch :: cur) t

/-- Go `strings.Fields`. -/
def fields (s : Str) : List Str := fieldsAux [] s

/-- Go `strings.Replace(s, old, new, 1)`: the first occurrence only; an empty
`old` matches at the beginning. -/
def replaceFirst (old new : Str) : Str → Str
  | [] => if old.isPrefixOf [] then new else []
  | ch :: t =>
    if old.isPrefixOf (ch :: t) then new ++ (ch :: t).drop old.length
    else ch :: replaceFirst old new t

/-- Go `filepath.Base` on a Unix path. -/
def filepathBase (path : Str) : Str :=
  if path.isEmpty then ['.']
  else
    let p := path.rdropWhile (· == '/')
    if p.isEmpty then ['/']
    else (p.reverse.takeWhile (· != '/')).reverse

/-! ## Package `regexp`: scanning -/

/-- A compiled expression, seen from one position: the character before the
position and the text from it on give the length of the match starting here
(never `0` for the expressions of this program) and the capture groups
`1, 2, ...`. -/
abbrev Matcher := Option Char → Str → Option (Nat × List Str)

/-- Worker of `replaceAllFunc`. `skip` counts the characters of the current
match still to be passed over; `prev` is the character before the position. -/
def replaceAllAux (m : Matcher) (f : Str → List Str → Str) : Option Char → Nat → Str → Str
  | _, _, [] => []
  | _, skip + 1, ch :: t => replaceAllAux m f (some ch) skip t
  | prev, 0, ch :: t =>
    match m prev (ch :: t) with
    | some (n + 1, groups) =>
      f ((ch :: t).take (n + 1)) groups ++ replaceAllAux m f (some ch) n t
    | _ => ch :: replaceAllAux m f (some ch) 0 t

/-- Go `re.ReplaceAllStringFunc(text, f)`; `f` also receives the capture
groups of the match (what `re.FindStringSubmatch(match)` yields for it). -/
def replaceAllFunc (m : Matcher) (f : Str → List Str → Str) (text : Str) : Str :=
  replaceAllAux m f none 0 text

/-- Worker of `findAllSubmatch`. -/
def findAllAux (m : Matcher) : Option Char → Nat → Str → List (List Str)
  | _, _, [] => []
  | _, skip + 1, ch :: t => findAllAux m (some ch) skip t
  | prev, 0, ch :: t =>
    match m prev (ch :: t) with
    | some (n + 1, groups) =>
      ((ch :: t).take (n + 1) :: groups) :: findAllAux m (some ch) n t
    | _ => findAllAux m (some ch) 0 t

/-- Go `re.FindAllStringSubmatch(text, -1)`: for each match the list
`[match, group 1, group 2, ...]`. -/
def findAllSubmatch (m : Matcher) (text : Str) : List (List Str) :=
  findAllAux m none 0 text

/-- A rune that may be part of a `$name` reference in a replacement template
(`unicode.IsLetter`, `unicode.IsDigit` or `_`). -/
def isNameRune (L : GoLib) (ch : Char) : Bool :=
  if ch.toNat < 128 then isWordChar ch else L.isLetterOrDigit ch

/-- Number denoted by a template name, `none` standing for `-1`: all digits,
no leading zero, below the cut-off `1e8` checked before each digit. -/
def parseNum (name : Str) : Option Nat :=
  if name.head? = some '0' ∧ 1 < name.length then none
  else name.foldl (fun acc ch =>
    match acc with
    | some n =>
      if 48 ≤ ch.toNat ∧ ch.toNat ≤ 57 ∧ n < 100000000 then some (n * 10 + (ch.toNat - 48))
      else none
    | none => none) (some 0)

/-- Go `regexp.extract`: the reference at the start of `str` (the text after a
`$`), as its number and the count of characters it takes up. -/
def extract (L : GoLib) (str : Str) : Option (Option Nat × Nat) :=
  let brace := str.head? = some '{'
  let s := if brace then str.tail else str
  let name := s.takeWhile (isNameRune L)
  if name.isEmpty then none
  else if brace ∧ (s.drop name.length).head? ≠ some '}' then none
  else some (parseNum name, name.length + (if brace then 2 else 0))

/-- Worker of `expand`; `skip` counts template characters already consumed
by a reference. -/
def expandAux (L : GoLib) (sub : List Str) : Nat → Str → Str
  | _, [] => []
  | skip + 1, _ :: t => expandAux L sub skip t
  | 0, ch :: t =>
    if ch = '$' then
      if t.head? = some '$' then '$' :: expandAux L sub 1 t
      else match extract L t with
        | none => '$' :: expandAux L sub 0 t
        | some (some k, n) => sub.getD k [] ++ expandAux L sub n t
        | some (none, n) => expandAux L sub n t
    else ch :: expandAux L sub 0 t

/-- Go `Regexp.expand` for an expression without named groups: `$k` and
`${k}` give submatch `k` (empty when there is none), `$name` gives the empty
text, `$$` gives `$`, a `$` followed by no name stays. `sub` is
`[match, group 1, ...]`. -/
def expand (L : GoLib) (sub : List Str) (template : Str) : Str :=
  expandAux L sub 0 template

/-- Go `re.ReplaceAllString(text, template)`. -/
def replaceAllString (L : GoLib) (m : Matcher) (template : Str) (text : Str) : Str :=
  replaceAllFunc m (fun mt groups => expand L (mt :: groups) template) text

/-- An expression that matches the literal text `lit` (a literal pattern, or
the `regexp.QuoteMeta` of one). -/
def litRe (lit : Str) : Matcher := fun _ s =>
  if lit.isPrefixOf s then some (lit.length, []) else none

/-- Go `strings.ReplaceAll(text, old, new)` for a non-empty `old`. -/
def replaceAll (old new : Str) (text : Str) : Str :=
  replaceAllFunc (litRe old) (fun _ _ => new) text

/-! ## Go maps -/

/-- Go `m[k] = v` on an association list with distinct keys. -/
def mapInsert (m : List (Str × Str)) (k v : Str) : List (Str × Str) :=
  if m.any (fun e => e.1 == k) then m.map (fun e => if e.1 == k then (k, v) else e)
  else m ++ [(k, v)]

/-- Go `m[k]`: the empty string for a missing key. -/
def mapGet (m : List (Str × Str)) (k : Str) : Str :=
  match m.find? (fun e => e.1 == k) with
  | some e => e.2
  | none => []

/-- Order in which the `range` statements over the maps visit the entries.
Each field receives the entries of the map and returns them in the order of
the visit: `vars` for the loop over `varMap` that renames the uses, `exprs`
for the loop over `exprMap`, `inner` for the loop over `varMap` nested in it
(given the placeholder being restored), `refs` for the caller's loop over
`varMap` that updates the markup. -/
structure MapOrder where
  vars : List (Str × Str) → List (Str × Str)
  exprs : List (Str × Str) → List (Str × Str)
  inner : Str → List (Str × Str) → List (Str × Str)
  refs : List (Str × Str) → List (Str × Str)

/-- A visiting order is admissible when every visit is a permutation of the
entries of the map. -/
def MapOrder.Valid (o : MapOrder) : Prop :=
  ∀ m : List (Str × Str),
    (o.vars m).Perm m ∧ (o.exprs m).Perm m ∧ (∀ k, (o.inner k m).Perm m) ∧ (o.refs m).Perm m

/-- The order that visits every map in insertion order. -/
def insertionOrder : MapOrder := ⟨id, id, fun _ => id, id⟩

/-! ## The regular expressions of `parse.go` -/

/-- Keywords of the declaration expression, in the order of its alternation. -/
def declKeywords : List Str :=
  ["let".toList, "const".toList, "function".toList, "var".toList]

/-- Expression `\b(let|const|function|var)\s+([a-zA-Z_][a-zA-Z0-9_]*)\b`.
The leading `\b` holds iff the previous character is no word character (the
keyword starts with a letter); `\s+` and the identifier are greedy and never
need to give back a character, as the identifier cannot start with a space
and the trailing `\b` holds at the end of the longest run of word
characters. Groups: keyword, identifier. -/
def declRe : Matcher := fun prev s =>
  if prevIsWord prev then none
  else declKeywords.findSome? fun kw =>
    if kw.isPrefixOf s then
      let r := s.drop kw.length
      let ws := r.takeWhile isReSpace
      let r2 := r.drop ws.length
      let name := r2.takeWhile isWordChar
      if !ws.isEmpty && headIs isIdentStart r2 then
        some (kw.length + ws.length + name.length, [kw, name])
      else none
    else none

/-- Expression `{[^}]+}`: an opening brace, the longest non-empty run of
characters other than `}`, and the `}` that must follow it. -/
def exprRe : Matcher := fun _ s =>
  if s.head? = some '{' then
    let body := s.tail.takeWhile (· != '}')
    if !body.isEmpty && (s.tail.drop body.length).head? = some '}' then
      some (body.length + 2, [])
    else none
  else none

/-- Expression `\b` + name + `\b` for a name made of word characters: the
name, neither preceded nor followed by a word character. -/
def wordRe (name : Str) : Matcher := fun prev s =>
  if prevIsWord prev then none
  else if name.isPrefixOf s && !headIs isWordChar (s.drop name.length) then
    some (name.length, [])
  else none

/-- Expression `(?s)<tag>(.*?)</tag>` with `opening = "<tag>"` and
`closing = "</tag>"`: the lazy group ends at the first closing tag. -/
def blockRe (opening closing : Str) : Matcher := fun _ s =>
  if opening.isPrefixOf s then
    match index closing (s.drop opening.length) with
    | some i => some (opening.length + i + closing.length, [(s.drop opening.length).take i])
    | none => none
  else none

/-- Expression `(?s)<script>(.*?)</script>`. -/
def scriptRe : Matcher := blockRe "<script>".toList "</script>".toList

/-- Expression `(?s)<style>(.*?)</style>`. -/
def styleRe : Matcher := blockRe "<style>".toList "</style>".toList

/-- Expression `([^}]*){`: the greedy group takes the run of characters other
than `}` and gives back up to the last `{` of that run. -/
def ruleRe : Matcher := fun _ s =>
  let run := s.takeWhile (· != '}')
  match lastIndex ['{'] run with
  | some i => some (i + 1, [run.take i])
  | none => none

/-- Tag names of the class injector, in the order of the alternation
`div|span|section|article|header|footer|main|nav|aside|p|h[1-6]|ul|ol|li|table|tr|td|th`
(`h[1-6]` written out). -/
def tagNames : List Str :=
  ["div", "span", "section", "article", "header", "footer", "main", "nav", "aside", "p",
   "h1", "h2", "h3", "h4", "h5", "h6", "ul", "ol", "li", "table", "tr", "td", "th"].map
    String.toList

/-- Expression `<(div|span|...|th)([^>]*?)>`: after `<` the first alternative
that is a prefix of the text, then lazily up to the first `>`. -/
def htmlRe : Matcher := fun _ s =>
  if s.head? = some '<' then
    tagNames.findSome? fun nm =>
      if nm.isPrefixOf s.tail then
        let r := s.tail.drop nm.length
        match index ['>'] r with
        | some i => some (1 + nm.length + i + 1, [nm, r.take i])
        | none => none
      else none
  else none

/-- Expression `class="([^"]*)"`. -/
def classRe : Matcher := fun _ s =>
  if "class=\"".toList.isPrefixOf s then
    let r := s.drop 7
    let v := r.takeWhile (· != '"')
    if (r.drop v.length).head? = some '"' then some (7 + v.length + 1, [v]) else none
  else none

/-- Expression `{{define\s+"[^"]+"}}`. -/
def defineRe : Matcher := fun _ s =>
  if "\x7b\x7bdefine".toList.isPrefixOf s then
    let r := s.drop 8
    let ws := r.takeWhile isReSpace
    let r2 := r.drop ws.length
    let nm := r2.tail.takeWhile (· != '"')
    if !ws.isEmpty && r2.head? = some '"' && !nm.isEmpty &&
        "\"\x7d\x7d".toList.isPrefixOf (r2.tail.drop nm.length) then
      some (8 + ws.length + 1 + nm.length + 3, [])
    else none
  else none

/-- Expression `{{end}}`. -/
def endRe : Matcher := litRe "\x7b\x7bend\x7d\x7d".toList

/-- Expression `<tag>\s*</tag>` with `opening = "<tag>"`, `closing = "</tag>"`. -/
def emptyBlockRe (opening closing : Str) : Matcher := fun _ s =>
  if opening.isPrefixOf s then
    let ws := (s.drop opening.length).takeWhile isReSpace
    if closing.isPrefixOf ((s.drop opening.length).drop ws.length) then
      some (opening.length + ws.length + closing.length, [])
    else none
  else none

/-- Expression `\n\s*\n`: a newline, then the run of white space given back up
to its last newline. -/
def blankLinesRe : Matcher := fun _ s =>
  if s.head? = some '\n' then
    match lastIndex ['\n'] (s.tail.takeWhile isReSpace) with
    | some i => some (1 + i + 1, [])
    | none => none
  else none

/-! ## `renameIdentifiers` -/

/-- Lower-case hexadecimal digit. -/
def hexDigit (n : Nat) : Char :=
  if n < 10 then Char.ofNat (48 + n) else Char.ofNat (87 + n)

/-- The 32 hexadecimal digits that `%x` prints for a 16-byte digest. -/
def hex32 (n : Nat) : Str :=
  (List.range 32).map fun i => hexDigit (n / 16 ^ (31 - i) % 16)

/-- Placeholder of a protected expression:
`fmt.Sprintf("__EXPR_%x__", md5.Sum([]byte(match)))`. -/
def exprKey (L : GoLib) (mt : Str) : Str :=
  "__EXPR_".toList ++ hex32 (L.md5 mt) ++ "__".toList

/-- New name of an identifier: `fmt.Sprintf("%s_%s", componentName, oldName)`. -/
def newNameOf (componentName oldName : Str) : Str :=
  componentName ++ '_' :: oldName

/-- Lines 19-25: the identifier map built from the declarations of the text. -/
def buildVarMap (content componentName : Str) : List (Str × Str) :=
  (findAllSubmatch declRe content).foldl
    (fun vm mt => mapInsert vm (mt.getD 2 []) (newNameOf componentName (mt.getD 2 []))) []

/-- Lines 28-33, the map side: every match of `{[^}]+}` recorded under its
placeholder. -/
def buildExprMap (L : GoLib) (content : Str) : List (Str × Str) :=
  (findAllSubmatch exprRe content).foldl
    (fun em mt => mapInsert em (exprKey L (mt.getD 0 [])) (mt.getD 0 [])) []

/-- Lines 28-33, the text side: every match replaced by its placeholder. -/
def protectExprs (L : GoLib) (content : Str) : Str :=
  replaceAllFunc exprRe (fun mt _ => exprKey L mt) content

/-- Callback of lines 36-43: the declaration rewritten with the new name
looked up in the map. -/
def renameDecl (varMap : List (Str × Str)) (mt : Str) : Str :=
  let parts := fields mt
  if 2 ≤ parts.length then
    parts.getD 0 [] ++ ' ' :: mapGet varMap (parts.getD (parts.length - 1) [])
  else mt

/-- One pass of line 47 (and 53): whole-word occurrences of `oldName` replaced
through the template `newName`. -/
def renameWord (L : GoLib) (text : Str) (e : Str × Str) : Str :=
  replaceAllString L (wordRe e.1) e.2 text

/-- Go `renameIdentifiers(content, componentName)`. -/
def renameIdentifiers (L : GoLib) (o : MapOrder) (content componentName : Str) :
    Str × List (Str × Str) :=
  let varMap := buildVarMap content componentName
  let exprMap := buildExprMap L content
  let c1 := protectExprs L content
  let c2 := replaceAllFunc declRe (fun mt _ => renameDecl varMap mt) c1
  let c3 := (o.vars varMap).foldl (renameWord L) c2
  let c4 := (o.exprs exprMap).foldl
    (fun acc e => replaceAll e.1 ((o.inner e.1 varMap).foldl (renameWord L) e.2) acc) c3
  (c4, varMap)

/-! ## CSS scoping -/

/-- Callback of `scopeCSS` on one match of `([^}]*){`. -/
def scopeSelector (componentName : Str) (selector : Str) : Str :=
  let sel := trimSpace selector.dropLast
  let cls := '.' :: componentName
  let sel2 :=
    if !sel.isEmpty && !hasPrefix sel ['@'] then
      join ((split sel ',').map fun s0 =>
        let s := trimSpace s0
        if !hasPrefix s cls then
          join ((split s ' ').map fun sub =>
            if !hasPrefix sub [':'] && !hasPrefix sub cls then cls ++ ' ' :: sub else sub) [' ']
        else s0) [',', ' ']
    else sel
  sel2 ++ [' ', '{']

/-- First submatch list of `re.FindStringSubmatch(text)`. -/
def findStringSubmatch (m : Matcher) (text : Str) : List Str :=
  (findAllSubmatch m text).headD []

/-- Go `fmt.Sprintf("<style>\n%s\n</style>", css)`. -/
def styleBlock (css : Str) : Str :=
  "<style>\n".toList ++ css ++ "\n</style>".toList

/-- Lines 66-86: the selectors of one style body rewritten by
`ReplaceAllStringFunc` over `([^}]*){`. -/
def scopeRules (componentName cssContent : Str) : Str :=
  replaceAllFunc ruleRe (fun sel _ => scopeSelector componentName sel) cssContent

/-- Go `scopeCSS(content, componentName)`. -/
def scopeCSS (content componentName : Str) : Str :=
  replaceAllFunc styleRe (fun mt _ =>
    let cssContent := (findStringSubmatch styleRe mt).getD 1 []
    styleBlock (scopeRules componentName cssContent))
    content

/-- Callback of the scoping written inline in `processComponent` (lines
187-198) and in `AutoParse` (lines 269-280). -/
def scopeSelectorInline (componentName : Str) (selector : Str) : Str :=
  let sel := trimSpace selector.dropLast
  let sel2 :=
    if !sel.isEmpty && !hasPrefix sel ['@'] then
      join ((split sel ',').map fun s0 => '.' :: componentName ++ ' ' :: trimSpace s0) [',', ' ']
    else sel
  sel2 ++ [' ', '{']

/-! ## Class injection -/

/-- Go `fmt.Sprintf(" class=\"%s\"", componentName)`. -/
def classAttr (componentName : Str) : Str :=
  " class=\"".toList ++ componentName ++ ['"']

/-- Go `fmt.Sprintf("class=\"$1 %s\"", componentName)`. -/
def classTemplate (componentName : Str) : Str :=
  "class=\"$1 ".toList ++ componentName ++ ['"']

/-- Callback of `addComponentClass` on one opening tag. -/
def injectClass (L : GoLib) (componentName : Str) (mt : Str) : Str :=
  if contains mt "class=".toList then
    replaceAllString L classRe (classTemplate componentName) mt
  else
    match lastIndex ['>'] mt with
    | none => mt
    | some tagEnd => mt.take tagEnd ++ classAttr componentName ++ mt.drop tagEnd

/-- Go `addComponentClass(content, componentName)`. -/
def addComponentClass (L : GoLib) (content componentName : Str) : Str :=
  replaceAllFunc htmlRe (fun mt _ => injectClass L componentName mt) content

/-- Callback of step 4 of `processComponent` (lines 204-211): the tag is cut
at its first `>`. A match of `htmlRe` always holds a `>`, so the `none`
branch, where Go would slice with `-1`, is never taken. -/
def injectClassInline (L : GoLib) (componentName : Str) (mt : Str) : Str :=
  if contains mt "class=".toList then
    replaceAllString L classRe (classTemplate componentName) mt
  else
    match index ['>'] mt with
    | none => mt
    | some tagEnd => mt.take tagEnd ++ classAttr componentName ++ mt.drop tagEnd

/-! ## `mergeScriptsAndStyles` -/

/-- Lines 114-115: the template markers removed from one content. -/
def stripMarkers (L : GoLib) (content : Str) : Str :=
  replaceAllString L endRe [] (replaceAllString L defineRe [] content)

/-- Lines 112-129 (and 133-150) for one content: the non-blank bodies of its
blocks, each after a comment line built by `comment`. -/
def mergedBodies (L : GoLib) (re : Matcher) (comment : Str → Str) (content0 : Str) : Str :=
  let content := stripMarkers L content0
  let componentName := trimSuffix (filepathBase content) ".svelte".toList
  ((findAllSubmatch re content).map fun mt =>
    let body := trimSpace (mt.getD 1 [])
    if !body.isEmpty then comment componentName ++ body ++ ['\n', '\n'] else []).flatten

/-- Go `mergeScriptsAndStyles(contents)`. -/
def mergeScriptsAndStyles (L : GoLib) (contents : List Str) : Str × Str :=
  ("<script>\n".toList ++
      (contents.map (mergedBodies L scriptRe fun nm => "// ".toList ++ nm ++ ['\n'])).flatten ++
      "</script>\n".toList,
   "<style>\n".toList ++
      (contents.map (mergedBodies L styleRe fun nm => "/* ".toList ++ nm ++ " */\n".toList)).flatten ++
      "</style>\n".toList)

/-! ## `processComponent` -/

/-- Lines 174-178 for one entry of the map: `{old}` and `on:click={old}`
rewritten through the templates `{new}` and `on:click={new}`. -/
def updateRefs (L : GoLib) (text : Str) (e : Str × Str) : Str :=
  replaceAllString L (litRe ("on:click=\x7b".toList ++ e.1 ++ ['}']))
    ("on:click=\x7b".toList ++ e.2 ++ ['}'])
    (replaceAllString L (litRe ('{' :: e.1 ++ ['}'])) ('{' :: e.2 ++ ['}']) text)

/-- Step 1 of `processComponent` (lines 163-168): every script body renamed
and put back in place of its first occurrence; the map of the last script is
kept (`none` is Go's `nil` map). `os j` is the visiting order used for script
number `j`. -/
def renameScripts (L : GoLib) (os : Nat → MapOrder) (componentName : Str) :
    List (List Str) → Nat → Str × Option (List (Str × Str)) → Str × Option (List (Str × Str))
  | [], _, st => st
  | script :: rest, j, st =>
    let originalScript := script.getD 1 []
    let r := renameIdentifiers L (os j) originalScript componentName
    renameScripts L os componentName rest (j + 1)
      (replaceFirst originalScript r.1 st.1, some r.2)

/-- Lines 187-198 (and 269-280): the selectors of one style body rewritten by
the inline callback. -/
def scopeRulesInline (componentName cssContent : Str) : Str :=
  replaceAllFunc ruleRe (fun sel _ => scopeSelectorInline componentName sel) cssContent

/-- Step 3 of `processComponent` (lines 183-200). -/
def scopeStylesInline (content componentName : Str) : Str :=
  replaceAllFunc styleRe (fun mt _ =>
    let cssContent := (findStringSubmatch styleRe mt).getD 1 []
    styleBlock (scopeRulesInline componentName cssContent))
    content

/-- Go `processComponent(content, componentName)`; the second component is
the returned `error` (`none` is `nil`). `ro` is the visiting order of the
loop of step 2. -/
def processComponent (L : GoLib) (os : Nat → MapOrder) (ro : MapOrder)
    (content componentName : Str) : Str × Option Str :=
  let scripts := findAllSubmatch scriptRe content
  let st := renameScripts L os componentName scripts 0 (content, none)
  let c2 :=
    match st.2 with
    | some varMap => (ro.refs varMap).foldl (updateRefs L) st.1
    | none => st.1
  let c3 := scopeStylesInline c2 componentName
  let c4 := replaceAllFunc htmlRe (fun mt _ => injectClassInline L componentName mt) c3
  (c4, none)

/-! ## `AutoParse` -/

/-- What `AutoParse` uses of its surroundings: the directory listing of
`./src` (name, is-directory), the file contents, the template engine
(`Parse` of one named template, `ExecuteTemplate` of the root `App` over the
registered templates) and the external compiler `ParseSvelte`. Errors are
texts. -/
structure World where
  readDir : Except Str (List (Str × Bool))
  readFile : Str → Except Str Str
  tmplParse : Str → Str → Except Str Unit
  tmplExecute : List (Str × Str) → Except Str Str
  parseSvelte : Str → Except Str Str

/-- State of the loop over the files: the component map and the collected
script and style bodies. -/
structure Collected where
  components : List (Str × Str)
  allScripts : List Str
  allStyles : List Str

/-- Lines 244-260: the loop over the scripts of one file. -/
def fileScripts (L : GoLib) (os : Nat → MapOrder) (componentName : Str) :
    List (List Str) → Nat → Str × List Str → Str × List Str
  | [], _, st => st
  | script :: rest, j, st =>
    let originalScript := script.getD 1 []
    let r := renameIdentifiers L (os j) originalScript componentName
    fileScripts L os componentName rest (j + 1)
      (((os j).refs r.2).foldl (updateRefs L) (replaceFirst originalScript [] st.1),
       st.2 ++ [r.1])

/-- Lines 265-286: the loop over the styles of one file. -/
def fileStyles (componentName : Str) : List (List Str) → Str × List Str → Str × List Str
  | [], st => st
  | style :: rest, st =>
    fileStyles componentName rest
      (replaceFirst (style.getD 0 []) [] st.1,
       st.2 ++ [scopeRulesInline componentName (style.getD 1 [])])

/-- Lines 236-291: one file of the directory processed into the state. -/
def autoParseFile (L : GoLib) (os : Nat → MapOrder) (fileName content : Str)
    (st : Collected) : Collected :=
  let componentName := trimSuffix fileName ".svelte".toList
  let s1 := fileScripts L os componentName (findAllSubmatch scriptRe content) 0
    (content, st.allScripts)
  let s2 := fileStyles componentName (findAllSubmatch styleRe s1.1) (s1.1, st.allStyles)
  ⟨mapInsert st.components componentName (addComponentClass L s2.1 componentName), s1.2, s2.2⟩

/-- Lines 228-293: the loop over the directory entries; the first read error
ends it. `os i` gives the visiting orders used for entry number `i`. -/
def autoParseFiles (L : GoLib) (W : World) (os : Nat → Nat → MapOrder) :
    List (Str × Bool) → Nat → Collected → Except Str Collected
  | [], _, st => .ok st
  | file :: rest, i, st =>
    if file.2 then autoParseFiles L W os rest (i + 1) st
    else
      match W.readFile ("./src/".toList ++ file.1) with
      | .error e => .error e
      | .ok content =>
        autoParseFiles L W os rest (i + 1) (autoParseFile L (os i) file.1 content st)

/-- Lines 298-303: the templates registered one by one; the first error ends
the loop. -/
def registerAll (W : World) : List (Str × Str) → Except Str Unit
  | [] => .ok ()
  | e :: rest =>
    match W.tmplParse e.1 e.2 with
    | .error err => .error err
    | .ok _ => registerAll W rest

/-- Lines 314-323: markers and empty containers removed from the rendered
markup, blank lines collapsed, the result trimmed. -/
def cleanMerged (L : GoLib) (rendered : Str) : Str :=
  let m1 := stripMarkers L rendered
  let m2 := replaceAllString L (emptyBlockRe "<script>".toList "</script>".toList) [] m1
  let m3 := replaceAllString L (emptyBlockRe "<style>".toList "</style>".toList) [] m2
  trimSpace (replaceAllString L blankLinesRe ['\n'] m3)

/-- Lines 327-328: the final text. -/
def finalContent (allScripts allStyles : List Str) (mergedContent : Str) : Str :=
  "<script>\n".toList ++ join allScripts ['\n', '\n'] ++ "\n</script>\n".toList ++
  "<style>\n".toList ++ join allStyles ['\n'] ++ "\n</style>\n".toList ++ mergedContent

/-- Go `AutoParse()`: the result text and the error (`.error e` stands for
the return `"", e`). `regOrder` is the visiting order of the component map
when the templates are registered. -/
def AutoParse (L : GoLib) (W : World) (os : Nat → Nat → MapOrder)
    (regOrder : List (Str × Str) → List (Str × Str)) : Except Str Str :=
  match W.readDir with
  | .error e => .error e
  | .ok files =>
    match autoParseFiles L W os files 0 ⟨[], [], []⟩ with
    | .error e => .error e
    | .ok st =>
      match registerAll W (regOrder st.components) with
      | .error e => .error e
      | .ok _ =>
        match W.tmplExecute (regOrder st.components) with
        | .error e => .error e
        | .ok rendered =>
          W.parseSvelte (finalContent st.allScripts st.allStyles (cleanMerged L rendered))

/-! ## Auxiliary notions used in the statements and proofs -/

/-- A selector list as written in a style sheet: for each selector the white
space in front of it and the selector itself, separated by commas. -/
def selectorList (parts : List (Str × Str)) : Str :=
  [','].intercalate (parts.map fun p => p.1 ++ p.2)

/-- A selector without white space, comma, brace or `<` inside. -/
def SolidSelector (s : Str) : Prop :=
  s ≠ [] ∧ ∀ ch ∈ s, isSpace ch = false ∧ ch ≠ ',' ∧ ch ≠ '{' ∧ ch ≠ '}' ∧ ch ≠ '<'

/-- What the per-part scoping of `scopeCSS` makes of a solid selector `p.2`
written after the white space `p.1`. -/
def scopedSelector (componentName : Str) (p : Str × Str) : Str :=
  if hasPrefix p.2 ('.' :: componentName) then p.1 ++ p.2
  else if hasPrefix p.2 [':'] then p.2
  else '.' :: componentName ++ ' ' :: p.2

/-- The identifiers that a script declares: the second group of every match of
the declaration expression. -/
def declaredNames (content : Str) : List Str :=
  (findAllSubmatch declRe content).map fun mt => mt.getD 2 []

/-- The end of a component whose markup is one element with one reference:
the closing script tag followed by `<div>{y}</div>`. -/
def markupTail (y : Str) : Str :=
  "</script><div>".toList ++ ('{' :: (y ++ '}' :: "</div>".toList))

/-- The name a markup reference `{y}` carries after the pass of the markup
update for one map entry. -/
def refName (y : Str) (e : Str × Str) : Str := if e.1 = y then e.2 else y

/-- A library instance for closed statements: a constant digest and no
letters above ASCII. -/
def demoLib : GoLib := ⟨fun _ => 0, fun _ => false⟩

/-- The character before the position reached after passing over `pre`. -/
def lastOr : Option Char → Str → Option Char
  | prev, [] => prev
  | _, ch :: t => lastOr (some ch) t

/-- The surroundings `W` with the external compiler replaced by `p`. -/
def withCompiler (W : World) (p : Str → Except Str Str) : World :=
  ⟨W.readDir, W.readFile, W.tmplParse, W.tmplExecute, p⟩

/-- Surroundings in which the source directory cannot be read. -/
def noDirWorld : World :=
  ⟨.error "no such directory".toList, fun _ => .ok [], fun _ _ => .ok (), fun _ => .ok [],
    fun s => .ok s⟩

/-- Surroundings with the single file `App.svelte`, readable, whose template
registers, renders and compiles unless the flags `parseFails`, `renderFails`
say otherwise; the file `Bad.svelte` listed after it is unreadable when
`readFails` is set (and absent otherwise). -/
def oneFileWorld (readFails parseFails renderFails compileFails : Bool) : World :=
  ⟨.ok (("App.svelte".toList, false) ::
      (if readFails then [("Bad.svelte".toList, false)] else [])),
    fun path => if path = "./src/App.svelte".toList then .ok "<div>hi</div>".toList
      else .error "unreadable".toList,
    fun _ _ => if parseFails then .error "bad template".toList else .ok (),
    fun ts => if renderFails then .error "no App".toList else .ok (mapGet ts "App".toList),
    fun s => if compileFails then .error "compiler failed".toList else .ok s⟩

/-! ## The steps of `processComponent` that can fail at run time

The definitions above give every slice, index and pattern step a result. The
definitions of this section follow the same source lines with these steps
checked: `none` stands for a run-time panic (slice or index out of range,
`regexp.MustCompile` on a pattern it rejects). -/

/-- Go `s[:n]` for a signed `n`; out of range is `none`. -/
def sliceTo (s : Str) (n : Int) : Option Str :=
  if 0 ≤ n ∧ n ≤ (s.length : Int) then some (s.take n.toNat) else none

/-- Go `s[n:]` for a signed `n`; out of range is `none`. -/
def sliceFrom (s : Str) (n : Int) : Option Str :=
  if 0 ≤ n ∧ n ≤ (s.length : Int) then some (s.drop n.toNat) else none

/-- Go `strings.Index(s, sub)` as the signed number it returns. -/
def indexInt (sub s : Str) : Int :=
  match index sub s with
  | some i => (i : Int)
  | none => -1

/-- Go `regexp.MustCompile("\\b" + name + "\\b")`: for a non-empty name of
word characters the pattern is valid and is `wordRe name`; any other name is
outside the patterns modelled here and counts as a failure. -/
def compileWord (name : Str) : Option Matcher :=
  if name ≠ [] ∧ name.all isWordChar then some (wordRe name) else none

/-- Go `regexp.MustCompile(lead + "{" + regexp.QuoteMeta(name) + "}")`: for an
identifier the braces cannot be read as a repetition count, the pattern is
valid and matches the literal text; any other name counts as a failure. -/
def compileRef (lead name : Str) : Option Matcher :=
  if headIs isIdentStart name ∧ name.all isWordChar then
    some (litRe (lead ++ '{' :: name ++ ['}']))
  else none

/-- Worker of `replaceAllFuncChecked`: `replaceAllAux` for a callback that can
fail. -/
def replaceAllAuxChecked (m : Matcher) (f : Str → List Str → Option Str) :
    Option Char → Nat → Str → Option Str
  | _, _, [] => some []
  | _, skip + 1, ch :: t => replaceAllAuxChecked m f (some ch) skip t
  | prev, 0, ch :: t =>
    match m prev (ch :: t) with
    | some (n + 1, groups) =>
      match f ((ch :: t).take (n + 1)) groups, replaceAllAuxChecked m f (some ch) n t with
      | some r, some rest => some (r ++ rest)
      | _, _ => none
    | _ =>
      match replaceAllAuxChecked m f (some ch) 0 t with
      | some rest => some (ch :: rest)
      | none => none

/-- Go `re.ReplaceAllStringFunc(text, f)` for a callback that can fail. -/
def replaceAllFuncChecked (m : Matcher) (f : Str → List Str → Option Str) (text : Str) :
    Option Str :=
  replaceAllAuxChecked m f none 0 text

/-- A loop whose body can fail: the first failure ends it. -/
def foldChecked {α β : Type} (f : β → α → Option β) : List α → β → Option β
  | [], b => some b
  | a :: l, b =>
    match f b a with
    | some b' => foldChecked f l b'
    | none => none

/-- Line 47 (and 53) with the pattern compiled first. -/
def renameWordChecked (L : GoLib) (text : Str) (e : Str × Str) : Option Str :=
  match compileWord e.1 with
  | some re => some (replaceAllString L re e.2 text)
  | none => none

/-- Lines 20-25 with `match[2]` checked. -/
def buildVarMapChecked (content componentName : Str) : Option (List (Str × Str)) :=
  foldChecked (fun vm mt =>
      match mt.get? 2 with
      | some oldName => some (mapInsert vm oldName (newNameOf componentName oldName))
      | none => none)
    (findAllSubmatch declRe content) []

/-- Go `renameIdentifiers` with its index and pattern steps checked. -/
def renameIdentifiersChecked (L : GoLib) (o : MapOrder) (content componentName : Str) :
    Option (Str × List (Str × Str)) :=
  match buildVarMapChecked content componentName with
  | none => none
  | some varMap =>
    let exprMap := buildExprMap L content
    let c1 := protectExprs L content
    let c2 := replaceAllFunc declRe (fun mt _ => renameDecl varMap mt) c1
    match foldChecked (renameWordChecked L) (o.vars varMap) c2 with
    | none => none
    | some c3 =>
      match foldChecked (fun acc e =>
          match foldChecked (renameWordChecked L) (o.inner e.1 varMap) e.2 with
          | some expr => some (replaceAll e.1 expr acc)
          | none => none) (o.exprs exprMap) c3 with
      | none => none
      | some c4 => some (c4, varMap)

/-- Lines 163-168 with `script[1]` checked. -/
def renameScriptsChecked (L : GoLib) (os : Nat → MapOrder) (componentName : Str) :
    List (List Str) → Nat → Str × Option (List (Str × Str)) →
      Option (Str × Option (List (Str × Str)))
  | [], _, st => some st
  | script :: rest, j, st =>
    match script.get? 1 with
    | none => none
    | some originalScript =>
      match renameIdentifiersChecked L (os j) originalScript componentName with
      | none => none
      | some r =>
        renameScriptsChecked L os componentName rest (j + 1)
          (replaceFirst originalScript r.1 st.1, some r.2)

/-- Lines 174-178 with both patterns compiled first. -/
def updateRefsChecked (L : GoLib) (text : Str) (e : Str × Str) : Option Str :=
  match compileRef [] e.1, compileRef "on:click=".toList e.1 with
  | some re1, some re2 =>
    some (replaceAllString L re2 ("on:click=\x7b".toList ++ e.2 ++ ['}'])
      (replaceAllString L re1 ('{' :: e.2 ++ ['}']) text))
  | _, _ => none

/-- Lines 187-198 with `selector[:len(selector)-1]` checked. -/
def scopeSelectorInlineChecked (componentName : Str) (selector : Str) : Option Str :=
  match sliceTo selector ((selector.length : Int) - 1) with
  | none => none
  | some cut =>
    let sel := trimSpace cut
    let sel2 :=
      if !sel.isEmpty && !hasPrefix sel ['@'] then
        join ((split sel ',').map fun s0 => '.' :: componentName ++ ' ' :: trimSpace s0)
          [',', ' ']
      else sel
    some (sel2 ++ [' ', '{'])

/-- Lines 184-200 with `FindStringSubmatch(match)[1]` checked. -/
def scopeStylesInlineChecked (content componentName : Str) : Option Str :=
  replaceAllFuncChecked styleRe (fun mt _ =>
    match (findStringSubmatch styleRe mt).get? 1 with
    | none => none
    | some cssContent =>
      match replaceAllFuncChecked ruleRe
          (fun sel _ => scopeSelectorInlineChecked componentName sel) cssContent with
      | none => none
      | some css => some (styleBlock css))
    content

/-- Lines 204-211 with `match[:tagEnd]` and `match[tagEnd:]` checked. -/
def injectClassInlineChecked (L : GoLib) (componentName : Str) (mt : Str) : Option Str :=
  if contains mt "class=".toList then
    some (replaceAllString L classRe (classTemplate componentName) mt)
  else
    match sliceTo mt (indexInt ['>'] mt), sliceFrom mt (indexInt ['>'] mt) with
    | some front, some back => some (front ++ classAttr componentName ++ back)
    | _, _ => none

/-- Go `processComponent` with every slice, index and pattern step checked:
`none` is a run-time panic, `some (text, err)` the returned pair. -/
def processComponentChecked (L : GoLib) (os : Nat → MapOrder) (ro : MapOrder)
    (content componentName : Str) : Option (Str × Option Str) :=
  match renameScriptsChecked L os componentName (findAllSubmatch scriptRe content) 0
      (content, none) with
  | none => none
  | some st =>
    match (match st.2 with
        | some varMap => foldChecked (updateRefsChecked L) (ro.refs varMap) st.1
        | none => some st.1) with
    | none => none
    | some c2 =>
      match scopeStylesInlineChecked c2 componentName with
      | none => none
      | some c3 =>
        match replaceAllFuncChecked htmlRe
            (fun mt _ => injectClassInlineChecked L componentName mt) c3 with
        | none => none
        | some c4 => some (c4, none)

/-! ## Words of a text -/

/-- Worker of `pieces`: `cur` is the current run of word characters,
reversed. -/
def piecesAux : Str → Str → List Str
  | cur, [] => if cur.isEmpty then [] else [cur.reverse]
  | cur, ch :: t =>
    if isWordChar ch then piecesAux (ch :: cur) t
    else if cur.isEmpty then [ch] :: piecesAux [] t
    else cur.reverse :: [ch] :: piecesAux [] t

/-- A text cut into its maximal runs of word characters and its single other
characters, in order. -/
def pieces (s : Str) : List Str := piecesAux [] s

/-- A list of pieces in which every piece is one character that is no word
character or a non-empty run of word characters, and no two runs are
adjacent; `afterWord` tells that a run stands before the list. -/
def Tok : Bool → List Str → Prop
  | _, [] => True
  | afterWord, p :: ps =>
    (∃ ch, p = [ch] ∧ isWordChar ch = false ∧ Tok false ps) ∨
    (afterWord = false ∧ p ≠ [] ∧ (∀ ch ∈ p, isWordChar ch = true) ∧ Tok true ps)

/-- What the renaming of the uses makes of one piece: a declared name gets
the component prefix, anything else stays. -/
def renameToken (names : List Str) (componentName : Str) (p : Str) : Str :=
  if p ∈ names then newNameOf componentName p else p

/-- One pass of the renaming seen on one piece. -/
def stepToken (p : Str) (e : Str × Str) : Str := if p = e.1 then e.2 else p

/-- The order that visits the placeholder map backwards and every other map
in insertion order. -/
def reverseOrder : MapOrder := ⟨id, List.reverse, fun _ => id, id⟩

/-- A library instance with the digests that `crypto/md5` gives for the texts
`{x}` and `{b}` (`0` for any other text) and no letters above ASCII. -/
def tableLib : GoLib :=
  ⟨fun m =>
      if m = "\x7bx\x7d".toList then 0x3c5ebbf97ec2ddee340ce732126a670c
      else if m = "\x7bb\x7d".toList then 0x09b94c63eb71025f4fd0a42b9413455f
      else 0,
    fun _ => false⟩

/-! ## Texts with placeholders -/

/-- The text does not hold the marker `EXPR_` of the placeholders. -/
def NoMarker (z : Str) : Prop := ¬ "EXPR_".toList <:+: z

/-- A placeholder: `__EXPR_`, the 32 hexadecimal digits of a digest, `__`. -/
def IsKey (k : Str) : Prop := ∃ n, k = "__EXPR_".toList ++ hex32 n ++ "__".toList

/-- What stands between two literal parts of a text with placeholders: a
placeholder, or the text restored for one. -/
inductive Slot where
  | key (k : Str)
  | val (v : Str)

/-- The text of a slot. -/
def Slot.text : Slot → Str
  | .key k => k
  | .val v => v

/-- A text given as literal parts, each followed by a slot, and a last
literal part. -/
def render : List (Str × Slot) → Str → Str
  | [], fin => fin
  | p :: rest, fin => p.1 ++ (p.2.text ++ render rest fin)

/-- A text starts like a slot: with the two underscores of a placeholder, or
with a character that is no word character, or it is empty. -/
def SlotStart (y : Str) : Prop := headIs isWordChar y = false ∨ ∃ y', y = '_' :: '_' :: y'

/-- A slot is well formed: a placeholder, or a restored text without marker
that starts and ends with a character that is no word character. -/
def GoodSlot : Slot → Prop
  | .key k => IsKey k
  | .val v => NoMarker v ∧ v ≠ [] ∧ headIs isWordChar v = false ∧
      headIs isWordChar v.reverse = false

/-- A text with placeholders is well formed: no literal part holds the
marker and every slot is well formed. -/
def Good (segs : List (Str × Slot)) (fin : Str) : Prop :=
  (∀ p ∈ segs, NoMarker p.1 ∧ GoodSlot p.2) ∧ NoMarker fin

/-- The slot after the placeholder `k` was restored with `v`. -/
def Slot.subst (k v : Str) : Slot → Slot
  | .key k' => if k' = k then .val v else .key k'
  | .val w => .val w

/-- One step of the restoring loop seen on one slot; `g e` is the text
restored for the entry `e`. -/
def substStep (g : Str × Str → Str) (X : Slot) (e : Str × Str) : Slot := X.subst e.1 (g e)

/-- A piece stands for a well-formed text with placeholders. -/
def GoodCell (p : Str) : Prop := ∃ segs fin, Good segs fin ∧ render segs fin = p

/-- The order that visits every map backwards. -/
def backwardOrder : MapOrder :=
  ⟨List.reverse, List.reverse, fun _ => List.reverse, List.reverse⟩

/-! ## Declarations as the specification words them -/

/-- The words of the specification for a declaration: in `s`, after the text
`pre`, the keyword `kw` stands at a word boundary, the white space `ws` (one
or more characters of the class `\s`) follows it, and the identifier `x` (a
letter or `_`, then letters, digits and `_`) runs from there up to a word
boundary, where the text `post` begins. -/
def DeclaredAt (s pre kw ws x post : Str) : Prop :=
  s = pre ++ (kw ++ (ws ++ (x ++ post))) ∧ kw ∈ declKeywords ∧ ws ≠ [] ∧
    (∀ ch ∈ ws, isReSpace ch = true) ∧ headIs isIdentStart x = true ∧
    (∀ ch ∈ x, isWordChar ch = true) ∧ prevIsWord (lastOr none pre) = false ∧
    headIs isWordChar post = false

/-- The identifier `x` follows a declaration keyword somewhere in `s`. -/
def FollowsKeyword (s x : Str) : Prop :=
  ∃ pre kw ws post, DeclaredAt s pre kw ws x post

/-! ## References of a text -/

/-- A text read for its references: a piece is a reference `{name}`, whose
name is a non-empty run of word characters, or a single character. -/
inductive RefPiece where
  | lit (ch : Char)
  | ref (name : Str)

/-- The name `w` when the text starts with a reference `{w}`. -/
def refAt (s : Str) : Option Str :=
  if s.head? = some '{' then
    let w := s.tail.takeWhile isWordChar
    if !w.isEmpty && (s.tail.dropWhile isWordChar).head? = some '}' then some w else none
  else none

/-- Worker of `refPieces`; `skip` counts the characters of the current
reference still to be passed over. -/
def refPiecesAux : Nat → Str → List RefPiece
  | _, [] => []
  | skip + 1, _ :: t => refPiecesAux skip t
  | 0, ch :: t =>
    match refAt (ch :: t) with
    | some w => RefPiece.ref w :: refPiecesAux (w.length + 1) t
    | none => RefPiece.lit ch :: refPiecesAux 0 t

/-- The pieces of a text, from left to right. -/
def refPieces (s : Str) : List RefPiece := refPiecesAux 0 s

/-- The text of a piece. -/
def RefPiece.text : RefPiece → Str
  | .lit ch => [ch]
  | .ref w => '{' :: (w ++ ['}'])

/-- The piece with the name of a reference sent through `g`. -/
def RefPiece.rename (g : Str → Str) : RefPiece → RefPiece
  | .lit ch => .lit ch
  | .ref w => .ref (g w)

/-- The text made of a list of pieces. -/
def piecesText (ps : List RefPiece) : Str := (ps.map RefPiece.text).flatten

/-- The text in which every reference `{w}` has become `{g w}` and every
other character is kept. -/
def substRefs (g : Str → Str) (s : Str) : Str :=
  piecesText ((refPieces s).map (RefPiece.rename g))

/-- The names of the references among the pieces, in order. -/
def pieceNames : List RefPiece → List Str
  | [] => []
  | .lit _ :: ps => pieceNames ps
  | .ref w :: ps => w :: pieceNames ps

/-- The names of the references of a text, from left to right. -/
def refNames (s : Str) : List Str := pieceNames (refPieces s)

/-- Pieces as the reading of a text gives them: the name of a reference is a
non-empty run of word characters, and no character piece is the opening
brace of a reference. -/
def RefTok : List RefPiece → Prop
  | [] => True
  | .lit ch :: ps => refAt (ch :: piecesText ps) = none ∧ RefTok ps
  | .ref w :: ps => (w ≠ [] ∧ ∀ ch ∈ w, isWordChar ch = true) ∧ RefTok ps

/-- Reading a text for its references one character at a time: the state is
`some w` after an opening brace followed by the word characters `w`, and
`none` elsewhere. The names of the references come out in order. -/
def refScan : Option Str → Str → List Str
  | _, [] => []
  | st, ch :: t =>
    if ch = '{' then refScan (some []) t
    else match st with
      | some w =>
        if isWordChar ch then refScan (some (w ++ [ch])) t
        else if ch = '}' ∧ w ≠ [] then w :: refScan none t
        else refScan none t
      | none => refScan none t

/-- The state of `refScan` after a text. -/
def refState : Option Str → Str → Option Str
  | st, [] => st
  | st, ch :: t =>
    if ch = '{' then refState (some []) t
    else match st with
      | some w => if isWordChar ch then refState (some (w ++ [ch])) t else refState none t
      | none => refState none t

/-- Two texts that read alike: from every state they give the same names and
end in the same state. -/
def SameRefs (x y : Str) : Prop :=
  ∀ st, refScan st x = refScan st y ∧ refState st x = refState st y

/-! ## Scanning lemmas -/

theorem lastOr_append (prev : Option Char) (a b : Str) :
    lastOr prev (a ++ b) = lastOr (lastOr prev a) b := by
  induction a generalizing prev with
  | nil => rfl
  | cons ch t ih => simpa [lastOr] using ih (some ch)

theorem replaceAllAux_skip (m : Matcher) (f : Str → List Str → Str) :
    ∀ (s : Str) (k : Nat) (prev : Option Char),
      replaceAllAux m f prev k s = replaceAllAux m f (lastOr prev (s.take k)) 0 (s.drop k)
  | [], k, prev => by cases k <;> simp [replaceAllAux, lastOr]
  | ch :: t, 0, prev => by simp [lastOr]
  | ch :: t, k + 1, prev => by
    rw [replaceAllAux, replaceAllAux_skip m f t k (some ch)]
    simp [lastOr]

theorem replaceAllAux_match {m : Matcher} {f : Str → List Str → Str} {prev : Option Char}
    {s : Str} {n : Nat} {g : List Str} (h : m prev s = some (n + 1, g)) (hs : s ≠ []) :
    replaceAllAux m f prev 0 s =
      f (s.take (n + 1)) g ++
        replaceAllAux m f (lastOr prev (s.take (n + 1))) 0 (s.drop (n + 1)) := by
  cases s with
  | nil => exact absurd rfl hs
  | cons ch t =>
    rw [replaceAllAux, h]
    simp only []
    rw [replaceAllAux_skip m f t n (some ch)]
    simp [lastOr]

theorem replaceAllAux_nomatch {m : Matcher} {f : Str → List Str → Str} {prev : Option Char}
    {ch : Char} {t : Str} (h : m prev (ch :: t) = none) :
    replaceAllAux m f prev 0 (ch :: t) = ch :: replaceAllAux m f (some ch) 0 t := by
  rw [replaceAllAux, h]

/-- A text none of whose positions starts a match is left as it is. -/
theorem replaceAllAux_id {m : Matcher} {f : Str → List Str → Str} :
    ∀ (s : Str) (prev : Option Char),
      (∀ (p : Option Char) (a b : Str), s = a ++ b → m p b = none) →
      replaceAllAux m f prev 0 s = s
  | [], _, _ => rfl
  | ch :: t, prev, h => by
    rw [replaceAllAux_nomatch (h prev [] (ch :: t) rfl)]
    rw [replaceAllAux_id t (some ch) (fun p a b hab => h p (ch :: a) b (by simp [hab]))]

theorem takeWhile_append_stop {p : Char → Bool} (v : Str) (ch : Char) (rest : Str)
    (hv : ∀ x ∈ v, p x = true) (hc : p ch = false) :
    (v ++ ch :: rest).takeWhile p = v := by
  induction v with
  | nil => simp [List.takeWhile, hc]
  | cons a v ih =>
    have ha : p a = true := hv a (by simp)
    simp [List.takeWhile, ha]
    exact ih (fun x hx => hv x (by simp [hx]))

theorem index_char_append (ch : Char) (v rest : Str) (hv : ch ∉ v) :
    index [ch] (v ++ ch :: rest) = some v.length := by
  induction v with
  | nil => simp [index]
  | cons a v ih =>
    have ha : a ≠ ch := fun h => hv (by simp [h])
    have hv2 : ch ∉ v := fun h => hv (by simp [h])
    simp [index, ih hv2]
    intro h; exact absurd h.symm ha

theorem index_char_none (ch : Char) (v : Str) (hv : ch ∉ v) : index [ch] v = none := by
  induction v with
  | nil => simp [index]
  | cons a v ih =>
    have ha : a ≠ ch := fun h => hv (by simp [h])
    have hv2 : ch ∉ v := fun h => hv (by simp [h])
    simp [index, ih hv2]
    intro h; exact absurd h.symm ha

/-- A template without `$` expands to itself. -/
theorem expandAux_plain (L : GoLib) (sub : List Str) (t : Str) (h : '$' ∉ t) :
    expandAux L sub 0 t = t := by
  induction t with
  | nil => rfl
  | cons a t ih =>
    have ha : a ≠ '$' := fun e => h (by simp [e])
    have ht : '$' ∉ t := fun e => h (by simp [e])
    simp [expandAux, ha, ih ht]

theorem expand_plain (L : GoLib) (sub : List Str) (t : Str) (h : '$' ∉ t) :
    expand L sub t = t := expandAux_plain L sub t h

theorem expand_classTemplate (L : GoLib) (mt v c : Str) (hc : '$' ∉ c) :
    expand L [mt, v] (classTemplate c) = "class=\"".toList ++ v ++ ' ' :: c ++ ['"'] := by
  have h1 : expandAux L [mt, v] 0 (c ++ ['"']) = c ++ ['"'] :=
    expandAux_plain L _ _ (by simp [hc])
  simp [expand, classTemplate, expandAux, extract, isNameRune, isWordChar, parseNum, h1,
    List.takeWhile]

theorem findSome?_of_forall {α β : Type} {f : α → Option β} {P : β → Prop} :
    ∀ (l : List α), (∀ a ∈ l, ∀ b, f a = some b → P b) → (∃ a ∈ l, (f a).isSome = true) →
      ∃ b, l.findSome? f = some b ∧ P b
  | [], _, h2 => by obtain ⟨a, ha, _⟩ := h2; simp at ha
  | x :: l, h1, h2 => by
    cases hx : f x with
    | some b => exact ⟨b, by simp [List.findSome?, hx], h1 x (by simp) b hx⟩
    | none =>
      obtain ⟨a, ha, hs⟩ := h2
      have hal : a ∈ l := by
        rcases List.mem_cons.mp ha with rfl | h
        · simp [hx] at hs
        · exact h
      obtain ⟨b, hb, hP⟩ := findSome?_of_forall l (fun a ha => h1 a (by simp [ha])) ⟨a, hal, hs⟩
      exact ⟨b, by simp [List.findSome?, hx, hb], hP⟩

theorem index_drop_prefixed (ch : Char) :
    ∀ (a r : Str) (i : Nat), a <+: r → ch ∉ a → index [ch] r = some i →
      index [ch] (r.drop a.length) = some (i - a.length) ∧ a.length ≤ i
  | [], r, i, _, _, h => by simpa using h
  | x :: a, [], i, hp, _, _ => by simp at hp
  | x :: a, y :: r, i, hp, hn, h => by
    rw [List.cons_prefix_cons] at hp
    obtain ⟨hxy, hp⟩ := hp
    have hx : ch ≠ x := fun e => hn (by simp [e])
    have ha : ch ∉ a := fun e => hn (by simp [e])
    subst hxy
    simp [index, hx] at h
    cases hr : index [ch] r with
    | none => simp [hr] at h
    | some j =>
      simp [hr] at h
      subst h
      have := index_drop_prefixed ch a r j hp ha hr
      simpa using this

theorem tagNames_no_gt : ∀ nm ∈ tagNames, '>' ∉ nm := by decide

/-- The match of the tag expression at a `<` followed by a listed name ends
at the first `>`. -/
theorem htmlRe_at_tag (prev : Option Char) (r nm : Str) (i : Nat) (hnm : nm ∈ tagNames)
    (hp : nm <+: r) (hi : index ['>'] r = some i) :
    ∃ g, htmlRe prev ('<' :: r) = some (i + 2, g) := by
  have key := findSome?_of_forall (P := fun b : Nat × List Str => b.1 = i + 2) tagNames
    (f := fun nm =>
      if nm.isPrefixOf r then
        match index ['>'] (r.drop nm.length) with
        | some j => some (1 + nm.length + j + 1, [nm, (r.drop nm.length).take j])
        | none => none
      else none)
    (by
      intro a ha b hb
      by_cases hpa : a <+: r
      · obtain ⟨h1, h2⟩ := index_drop_prefixed '>' a r i hpa (tagNames_no_gt a ha) hi
        simp [hpa, h1] at hb
        subst hb
        simp; omega
      · simp [hpa] at hb)
    ⟨nm, hnm, by
      obtain ⟨h1, _⟩ := index_drop_prefixed '>' nm r i hp (tagNames_no_gt nm hnm) hi
      simp [hp, h1]⟩
  obtain ⟨b, hb, hP⟩ := key
  refine ⟨b.2, ?_⟩
  simp only [htmlRe, List.head?_cons, List.tail_cons, if_true]
  rw [hb]
  cases b
  simp at hP
  simp [hP]

theorem classRe_scan_tag (f : Str → List Str → Str) :
    ∀ t ∈ tagNames, ∀ (X : Str) (prev : Option Char),
      replaceAllAux classRe f prev 0 ('<' :: t ++ ' ' :: X) =
        '<' :: t ++ ' ' :: replaceAllAux classRe f (some ' ') 0 X := by
  intro t ht
  simp only [tagNames, List.map, List.mem_cons, List.mem_singleton, List.not_mem_nil,
    or_false] at ht
  rcases ht with rfl | rfl | rfl | rfl | rfl | rfl | rfl | rfl | rfl | rfl | rfl | rfl | rfl |
    rfl | rfl | rfl | rfl | rfl | rfl | rfl | rfl | rfl | rfl <;>
  · intro X prev
    simp [replaceAllAux, classRe]

theorem classRe_at (prev : Option Char) (v rest : Str) (hv : '"' ∉ v) :
    classRe prev ("class=\"".toList ++ v ++ '"' :: rest) = some (7 + v.length + 1, [v]) := by
  have h : (v ++ '"' :: rest).takeWhile (· != '"') = v :=
    takeWhile_append_stop v '"' rest (fun x hx => by
      have : x ≠ '"' := fun e => hv (e ▸ hx)
      simpa using this) (by simp)
  simp [classRe, h]

theorem tag_no_class : ∀ t ∈ tagNames, contains ('<' :: t ++ ['>']) "class=".toList = false := by
  decide

theorem tag_lastIndex : ∀ t ∈ tagNames, lastIndex ['>'] ('<' :: t ++ ['>']) = some (t.length + 1) := by
  decide

theorem index_at_start (sub s : Str) (h : sub <+: s) : index sub s = some 0 := by
  cases s with
  | nil => simp [index, h]
  | cons x t => simp [index, h]

theorem index_inside (sub : Str) (b : Str) : ∀ a : Str, (index sub (a ++ (sub ++ b))).isSome = true
  | [] => by simp [index_at_start sub (sub ++ b) (List.prefix_append sub b)]
  | x :: a => by
    have h := index_inside sub b a
    simp only [List.cons_append, index]
    split
    · rfl
    · cases h2 : index sub (a ++ (sub ++ b)) with
      | none => simp [h2] at h
      | some i => rfl

theorem wordy_no_dollar (c : Str) (hc : ∀ ch ∈ c, isWordChar ch = true) : '$' ∉ c :=
  fun h => by simpa [isWordChar] using hc '$' h

/-! ## Word characters and placeholders -/

theorem not_isSpace_of_word {ch : Char} (h : isWordChar ch = true) : isSpace ch = false := by
  simp only [isWordChar, isSpace, Bool.or_eq_true, Bool.and_eq_true, decide_eq_true_eq,
    beq_iff_eq] at h ⊢
  simp only [Bool.or_eq_false_iff, Bool.and_eq_false_iff, decide_eq_false_iff_not, beq_eq_false_iff_ne]
  omega

theorem not_isReSpace_of_word {ch : Char} (h : isWordChar ch = true) : isReSpace ch = false := by
  simp only [isWordChar, isReSpace, Bool.or_eq_true, Bool.and_eq_true, decide_eq_true_eq,
    beq_iff_eq] at h ⊢
  simp only [Bool.or_eq_false_iff, beq_eq_false_iff_ne]
  omega

theorem hexDigit_word : ∀ d < 16, isWordChar (hexDigit d) = true := by decide

theorem hex32_word (n : Nat) : ∀ ch ∈ hex32 n, isWordChar ch = true := by
  intro ch h
  simp only [hex32, List.mem_map] at h
  obtain ⟨i, _, rfl⟩ := h
  exact hexDigit_word _ (Nat.mod_lt _ (by decide))

theorem hex32_length (n : Nat) : (hex32 n).length = 32 := by simp [hex32]

theorem exprKey_eq (L : GoLib) (m : Str) :
    exprKey L m = '_' :: '_' :: 'E' :: 'X' :: 'P' :: 'R' :: '_' :: (hex32 (L.md5 m) ++ ['_', '_']) := by
  simp [exprKey]

theorem exprKey_word (L : GoLib) (m : Str) : ∀ ch ∈ exprKey L m, isWordChar ch = true := by
  intro ch h
  rw [exprKey_eq] at h
  simp only [List.mem_cons, List.mem_append, List.mem_singleton, List.not_mem_nil, or_false] at h
  rcases h with rfl | rfl | rfl | rfl | rfl | rfl | rfl | h | rfl | rfl
  all_goals first | exact hex32_word _ _ h | decide

theorem exprKey_length (L : GoLib) (m : Str) : (exprKey L m).length = 41 := by
  simp [exprKey_eq, hex32_length]

theorem replaceAllAux_match' {m : Matcher} {f : Str → List Str → Str} {prev : Option Char}
    {s : Str} {n : Nat} {g : List Str} (h : m prev s = some (n, g)) (hn : 0 < n) (hs : s ≠ []) :
    replaceAllAux m f prev 0 s =
      f (s.take n) g ++ replaceAllAux m f (lastOr prev (s.take n)) 0 (s.drop n) := by
  obtain ⟨k, rfl⟩ : ∃ k, n = k + 1 := ⟨n - 1, by omega⟩
  exact replaceAllAux_match h hs

theorem takeWhile_append_headIs {p : Char → Bool} (v rest : Str)
    (hv : ∀ x ∈ v, p x = true) (hr : headIs p rest = false) :
    (v ++ rest).takeWhile p = v := by
  cases rest with
  | nil => simpa using hv
  | cons ch rest => exact takeWhile_append_stop v ch rest hv (by simpa [headIs] using hr)

theorem fieldsAux_run (rest : Str) : ∀ (w cur : Str), (∀ ch ∈ w, isSpace ch = false) →
    fieldsAux cur (w ++ rest) = fieldsAux (w.reverse ++ cur) rest
  | [], cur, _ => by simp
  | a :: w, cur, h => by
    have ha : isSpace a = false := h a (by simp)
    have ih := fieldsAux_run rest w (a :: cur) (fun ch hc => h ch (by simp [hc]))
    simp [fieldsAux, ha, ih]

/-- The declaration expression at `let`, one space and an identifier-like run
of word characters. -/
theorem declRe_let (prev : Option Char) (w rest : Str) (hprev : prevIsWord prev = false)
    (hw : ∀ ch ∈ w, isWordChar ch = true) (hw0 : headIs isIdentStart w = true)
    (hrest : headIs isWordChar rest = false) :
    declRe prev ("let ".toList ++ (w ++ rest)) = some (4 + w.length, ["let".toList, w]) := by
  cases w with
  | nil => simp [headIs] at hw0
  | cons a w =>
    have ha : isReSpace a = false := not_isReSpace_of_word (hw a (by simp))
    have ht : (a :: (w ++ rest)).takeWhile isWordChar = a :: w :=
      takeWhile_append_headIs (a :: w) rest hw hrest
    have hi : isIdentStart a = true := by simpa [headIs] using hw0
    have hsp : isReSpace ' ' = true := by decide
    have hws : (' ' :: a :: (w ++ rest)).takeWhile isReSpace = [' '] := by
      simp [List.takeWhile, hsp, ha]
    simp [declRe, hprev, declKeywords, List.findSome?, hws, ht, headIs, hi]

theorem perm_nil_eq {α : Type} {l : List α} (h : l.Perm []) : l = [] := List.Perm.eq_nil h

theorem perm_singleton_eq {α : Type} {l : List α} {a : α} (h : l.Perm [a]) : l = [a] :=
  List.perm_singleton.mp h

theorem insertionOrder_valid : insertionOrder.Valid := fun m =>
  ⟨List.Perm.refl m, List.Perm.refl m, fun _ => List.Perm.refl m, List.Perm.refl m⟩

theorem prevIsWord_lastOr : ∀ (w : Str) (prev : Option Char), prevIsWord prev = true →
    (∀ ch ∈ w, isWordChar ch = true) → prevIsWord (lastOr prev w) = true
  | [], _, hp, _ => hp
  | a :: w, _, _, hw =>
    prevIsWord_lastOr w (some a) (hw a (by simp)) (fun ch hc => hw ch (by simp [hc]))

/-- An expression that starts with `\b` and a word character finds no match
inside a run of word characters that follows a word character. -/
theorem replaceAllAux_word_run {m : Matcher} {f : Str → List Str → Str}
    (hm : ∀ p s, prevIsWord p = true → m p s = none) (rest : Str) :
    ∀ (w : Str) (prev : Option Char), prevIsWord prev = true →
      (∀ ch ∈ w, isWordChar ch = true) →
      replaceAllAux m f prev 0 (w ++ rest) = w ++ replaceAllAux m f (lastOr prev w) 0 rest
  | [], _, _, _ => rfl
  | a :: w, prev, hp, hw => by
    rw [List.cons_append, replaceAllAux_nomatch (hm prev _ hp),
      replaceAllAux_word_run hm rest w (some a) (hw a (by simp))
        (fun ch hc => hw ch (by simp [hc]))]
    rfl

theorem declRe_anchored : ∀ p s, prevIsWord p = true → declRe p s = none := by
  intro p s h; simp [declRe, h]

theorem wordRe_anchored (name : Str) : ∀ p s, prevIsWord p = true → wordRe name p s = none := by
  intro p s h; simp [wordRe, h]

/-- Renaming in the script of the end-to-end scenario. -/
theorem renameIdentifiers_counter (L : GoLib) (o : MapOrder) (ho : o.Valid) :
    renameIdentifiers L o "let count = 0".toList "Counter".toList =
      ("let Counter_count = 0".toList, [("count".toList, "Counter_count".toList)]) := by
  have hvm : buildVarMap "let count = 0".toList "Counter".toList =
      [("count".toList, "Counter_count".toList)] := by rfl
  have hem : buildExprMap L "let count = 0".toList = [] := by rfl
  have hc1 : protectExprs L "let count = 0".toList = "let count = 0".toList := by rfl
  have hc2 : replaceAllFunc declRe
      (fun mt _ => renameDecl [("count".toList, "Counter_count".toList)] mt)
      "let count = 0".toList = "let Counter_count = 0".toList := by rfl
  have hc3 : renameWord L "let Counter_count = 0".toList
      ("count".toList, "Counter_count".toList) = "let Counter_count = 0".toList := by rfl
  have hvars : ∀ e, o.vars [e] = [e] := fun e => perm_singleton_eq (ho [e]).1
  have hexprs : o.exprs [] = [] := perm_nil_eq (ho []).2.1
  simp only [renameIdentifiers, hvm, hem, hc1, hc2, hvars, hexprs, List.foldl, hc3]

/-- The end-to-end scenario of the specification: the component `Counter`
with the script `let count = 0` and the markup `<div>{count}</div>`. -/
theorem processComponent_counter (L : GoLib) (os : Nat → MapOrder) (ro : MapOrder)
    (hos : ∀ j, (os j).Valid) (hro : ro.Valid) :
    processComponent L os ro "<script>let count = 0</script><div>{count}</div>".toList
        "Counter".toList =
      ("<script>let Counter_count = 0</script><div class=\"Counter\">{Counter_count}</div>".toList,
        none) := by
  have hs : findAllSubmatch scriptRe "<script>let count = 0</script><div>{count}</div>".toList =
      [["<script>let count = 0</script>".toList, "let count = 0".toList]] := by rfl
  have hr := renameIdentifiers_counter L (os 0) (hos 0)
  have hrefs : ∀ e, ro.refs [e] = [e] := fun e => perm_singleton_eq (hro [e]).2.2.2
  have h1 : replaceFirst "let count = 0".toList "let Counter_count = 0".toList
      "<script>let count = 0</script><div>{count}</div>".toList =
      "<script>let Counter_count = 0</script><div>{count}</div>".toList := by rfl
  have h2 : updateRefs L "<script>let Counter_count = 0</script><div>{count}</div>".toList
      ("count".toList, "Counter_count".toList) =
      "<script>let Counter_count = 0</script><div>{Counter_count}</div>".toList := by rfl
  have h3 : scopeStylesInline
      "<script>let Counter_count = 0</script><div>{Counter_count}</div>".toList
      "Counter".toList =
      "<script>let Counter_count = 0</script><div>{Counter_count}</div>".toList := by rfl
  have h4 : replaceAllFunc htmlRe (fun mt _ => injectClassInline L "Counter".toList mt)
      "<script>let Counter_count = 0</script><div>{Counter_count}</div>".toList =
      "<script>let Counter_count = 0</script><div class=\"Counter\">{Counter_count}</div>".toList := by
    rfl
  unfold processComponent
  rw [hs]
  simp only [renameScripts]
  have hg : (["<script>let count = 0</script>".toList, "let count = 0".toList] : List Str).getD 1 []
      = "let count = 0".toList := rfl
  rw [hg, hr]
  dsimp only
  rw [h1, hrefs, List.foldl_cons, List.foldl_nil, h2, h3, h4]

/-! ## Style blocks and rules -/

theorem index_append_closing (h : Char) (t rest : Str) : ∀ a : Str, h ∉ a →
    index (h :: t) (a ++ ((h :: t) ++ rest)) = some a.length
  | [], _ => by simpa using index_at_start (h :: t) ((h :: t) ++ rest) (List.prefix_append _ _)
  | x :: a, ha => by
    have hx : h ≠ x := fun e => ha (by simp [e])
    have ih := index_append_closing h t rest a (fun e => ha (by simp [e]))
    simp only [List.cons_append] at ih
    simp [index, hx, ih]

theorem blockRe_whole (prev : Option Char) (opening : Str) (h : Char) (t css rest : Str)
    (hc : h ∉ css) :
    blockRe opening (h :: t) prev (opening ++ (css ++ ((h :: t) ++ rest))) =
      some (opening.length + css.length + (h :: t).length, [css]) := by
  have hi := index_append_closing h t rest css hc
  simp only [List.cons_append] at hi
  simp [blockRe, hi]

theorem findAllSubmatch_head {m : Matcher} {s : Str} {n : Nat} {g : List Str}
    (h : m none s = some (n, g)) (hn : 0 < n) (hs : s ≠ []) :
    (findAllSubmatch m s).headD [] = s.take n :: g := by
  obtain ⟨k, rfl⟩ : ∃ k, n = k + 1 := ⟨n - 1, by omega⟩
  cases s with
  | nil => exact absurd rfl hs
  | cons ch t => simp [findAllSubmatch, findAllAux, h]

/-- A matcher that ignores the previous character scans the same from any
previous character. -/
theorem replaceAllAux_prev {m : Matcher} {f : Str → List Str → Str}
    (hm : ∀ p q s, m p s = m q s) :
    ∀ (s : Str) (k : Nat) (p q : Option Char),
      replaceAllAux m f p k s = replaceAllAux m f q k s
  | [], _, _, _ => by simp [replaceAllAux]
  | ch :: t, k + 1, p, q => by simp [replaceAllAux]
  | ch :: t, 0, p, q => by
    rw [replaceAllAux, replaceAllAux, hm p q]

/-- `scopeCSS` on one style block whose body holds no `<`. -/
theorem scopeCSS_block (c css : Str) (hc : '<' ∉ css) :
    scopeCSS ("<style>".toList ++ (css ++ "</style>".toList)) c = styleBlock (scopeRules c css) := by
  have hm : ∀ p, styleRe p ("<style>".toList ++ (css ++ "</style>".toList)) =
      some (("<style>".toList ++ (css ++ "</style>".toList)).length, [css]) := by
    intro p
    have := blockRe_whole p "<style>".toList '<' "/style>".toList css [] hc
    simp at this
    simp [styleRe, this]
    omega
  have hne : "<style>".toList ++ (css ++ "</style>".toList) ≠ [] := by simp
  have hpos : 0 < ("<style>".toList ++ (css ++ "</style>".toList)).length := by simp
  rw [scopeCSS, replaceAllFunc, replaceAllAux_match' (hm none) hpos hne, List.take_length,
    List.drop_length]
  simp only [findStringSubmatch]
  rw [findAllSubmatch_head (hm none) hpos hne]
  simp [replaceAllAux]

theorem lastIndex_char_append (ch : Char) (r : Str) (hr : ch ∉ r) : ∀ x : Str,
    lastIndex [ch] (x ++ ch :: r) = some x.length
  | [] => by
    have : lastIndex [ch] r = none := by
      induction r with
      | nil => simp [lastIndex]
      | cons a r ih =>
        have ha : ch ≠ a := fun e => hr (by simp [e])
        simp [lastIndex, ih (fun e => hr (by simp [e])), ha]
    simp [lastIndex, this]
  | a :: x => by simp [lastIndex, lastIndex_char_append ch r hr x]

theorem lastIndex_char_none (ch : Char) : ∀ r : Str, ch ∉ r → lastIndex [ch] r = none
  | [], _ => by simp [lastIndex]
  | a :: r, hr => by
    have ha : ch ≠ a := fun e => hr (by simp [e])
    simp [lastIndex, lastIndex_char_none ch r (fun e => hr (by simp [e])), ha]

/-- The rule expression at a text `x{rest`: when `x` holds no `}` and `rest`
opens no further block before its first `}`, the match is `x{`. -/
theorem ruleRe_at (prev : Option Char) (x rest : Str) (hx : '}' ∉ x)
    (hrest : '{' ∉ rest.takeWhile (· != '}')) :
    ruleRe prev (x ++ '{' :: rest) = some (x.length + 1, [x]) := by
  have h1 : (x ++ '{' :: rest).takeWhile (· != '}') = x ++ '{' :: rest.takeWhile (· != '}') := by
    rw [List.takeWhile_append_of_pos]
    · simp [List.takeWhile]
    · intro a ha
      have : a ≠ '}' := fun e => hx (e ▸ ha)
      simpa using this
  simp [ruleRe, h1, lastIndex_char_append '{' _ hrest x]

theorem ruleRe_none (prev : Option Char) (s : Str) (h : '{' ∉ s.takeWhile (· != '}')) :
    ruleRe prev s = none := by
  simp [ruleRe, lastIndex_char_none '{' _ h]

theorem ruleRe_prev : ∀ p q s, ruleRe p s = ruleRe q s := fun _ _ _ => rfl

theorem not_mem_takeWhile {p : Char → Bool} {ch : Char} {s : Str} (h : ch ∉ s) :
    ch ∉ s.takeWhile p := fun e => h ((List.takeWhile_prefix p).subset e)

theorem mem_of_mem_takeWhile_stop {p : Char → Bool} {x ch : Char} {rest : Str}
    (hc : p ch = false) : ∀ v : Str, x ∈ (v ++ ch :: rest).takeWhile p → x ∈ v
  | [], h => by simp [List.takeWhile, hc] at h
  | a :: v, h => by
    by_cases ha : p a = true
    · simp only [List.cons_append, List.takeWhile, ha, List.mem_cons] at h
      rcases h with rfl | h
      · simp
      · simp [mem_of_mem_takeWhile_stop hc v h]
    · simp [List.takeWhile, ha] at h

/-- One step of the rule scan: the match `x{` is handed to the callback and
the scan goes on after it. -/
theorem scopeRules_step (c x rest : Str) (hx : '}' ∉ x)
    (hrest : '{' ∉ rest.takeWhile (· != '}')) :
    scopeRules c (x ++ '{' :: rest) = scopeSelector c (x ++ ['{']) ++ scopeRules c rest := by
  have hm := ruleRe_at none x rest hx hrest
  rw [scopeRules, replaceAllFunc, replaceAllAux_match' hm (by omega) (by simp)]
  have h1 : (x ++ '{' :: rest).take (x.length + 1) = x ++ ['{'] := by
    rw [show x ++ '{' :: rest = (x ++ ['{']) ++ rest by simp,
      show x.length + 1 = (x ++ ['{']).length by simp, List.take_left]
  have h2 : (x ++ '{' :: rest).drop (x.length + 1) = rest := by
    rw [show x ++ '{' :: rest = (x ++ ['{']) ++ rest by simp,
      show x.length + 1 = (x ++ ['{']).length by simp, List.drop_left]
  rw [h1, h2, replaceAllAux_prev ruleRe_prev rest 0 _ none]
  rfl

/-- A declaration block without `{` is passed over up to and including its
closing `}`. -/
theorem scopeRules_body (c body rest : Str) (hb : '{' ∉ body) :
    scopeRules c (body ++ '}' :: rest) = body ++ '}' :: scopeRules c rest := by
  rw [scopeRules, replaceAllFunc]
  induction body with
  | nil =>
    rw [List.nil_append, replaceAllAux_nomatch (ruleRe_none none _ (by simp [List.takeWhile]))]
    rw [replaceAllAux_prev ruleRe_prev rest 0 _ none]
    rfl
  | cons a body ih =>
    have hb2 : '{' ∉ body := fun e => hb (by simp [e])
    have hn : ruleRe none (a :: (body ++ '}' :: rest)) = none := by
      apply ruleRe_none
      intro e
      exact hb (mem_of_mem_takeWhile_stop (p := (· != '}')) (by simp) (a :: body) e)
    rw [List.cons_append, replaceAllAux_nomatch hn, replaceAllAux_prev ruleRe_prev _ 0 _ none,
      ih hb2]
    rfl

/-! ## The selector callback -/

theorem rdropWhile_append_all {p : Char → Bool} (l pad : Str) (h : ∀ ch ∈ pad, p ch = true) :
    (l ++ pad).rdropWhile p = l.rdropWhile p := by
  simp only [List.rdropWhile, List.reverse_append]
  rw [List.dropWhile_append_of_pos (fun a ha => h a (List.mem_reverse.mp ha))]

/-- Trimming removes the white space around a text that starts and ends with
other characters. -/
theorem trimSpace_pad (pad0 pad1 y : Str) (a z : Char)
    (h0 : ∀ ch ∈ pad0, isSpace ch = true) (h1 : ∀ ch ∈ pad1, isSpace ch = true)
    (ha : isSpace a = false) (hz : isSpace z = false) :
    trimSpace (pad0 ++ (a :: (y ++ [z])) ++ pad1) = a :: (y ++ [z]) := by
  rw [trimSpace, List.append_assoc, List.dropWhile_append_of_pos h0,
    List.cons_append, List.dropWhile_cons_of_neg (by simp [ha]), ← List.cons_append,
    rdropWhile_append_all _ _ h1]
  have : (a :: (y ++ [z])) = (a :: y) ++ [z] := by simp
  rw [this, List.rdropWhile_concat_neg _ _ _ (by simp [hz])]

theorem trimSpace_single (pad0 pad1 : Str) (a : Char)
    (h0 : ∀ ch ∈ pad0, isSpace ch = true) (h1 : ∀ ch ∈ pad1, isSpace ch = true)
    (ha : isSpace a = false) :
    trimSpace (pad0 ++ [a] ++ pad1) = [a] := by
  rw [trimSpace, List.append_assoc, List.dropWhile_append_of_pos h0,
    List.cons_append, List.dropWhile_cons_of_neg (by simp [ha]), List.nil_append,
    show a :: pad1 = [a] ++ pad1 from rfl, rdropWhile_append_all _ _ h1]
  have := List.rdropWhile_concat_neg isSpace [] a (by simp [ha])
  simpa using this

/-- Every non-empty text is a first character, a middle and a last character,
or a single character. -/
theorem ends_of_ne_nil : ∀ s : Str, s ≠ [] →
    (∃ a, s = [a]) ∨ ∃ a y z, s = a :: (y ++ [z])
  | [], h => absurd rfl h
  | [a], _ => Or.inl ⟨a, rfl⟩
  | a :: b :: t, _ => by
    right
    obtain ⟨y, z, hyz⟩ : ∃ y z, b :: t = y ++ [z] :=
      ⟨(b :: t).dropLast, (b :: t).getLast (by simp), (List.dropLast_append_getLast _).symm⟩
    exact ⟨a, y, z, by rw [hyz]⟩

/-- Trimming a text whose first and last characters are no white space, with
white space around it, gives the text back. -/
theorem trimSpace_around (pad0 pad1 s : Str) (hs : s ≠ [])
    (h0 : ∀ ch ∈ pad0, isSpace ch = true) (h1 : ∀ ch ∈ pad1, isSpace ch = true)
    (hfirst : ∀ a t, s = a :: t → isSpace a = false)
    (hlast : ∀ y z, s = y ++ [z] → isSpace z = false) :
    trimSpace (pad0 ++ s ++ pad1) = s := by
  rcases ends_of_ne_nil s hs with ⟨a, rfl⟩ | ⟨a, y, z, rfl⟩
  · exact trimSpace_single pad0 pad1 a h0 h1 (hfirst a [] rfl)
  · exact trimSpace_pad pad0 pad1 y a z h0 h1 (hfirst a _ rfl)
      (hlast (a :: y) z (by simp))

theorem scopeSelector_at (c x : Str) (h : hasPrefix (trimSpace x) ['@'] = true) :
    scopeSelector c (x ++ ['{']) = trimSpace x ++ [' ', '{'] := by
  simp [scopeSelector, List.dropLast_concat, h]

theorem selectorList_single (p : Str × Str) : selectorList [p] = p.1 ++ p.2 := by
  simp [selectorList, List.intercalate]

theorem selectorList_cons_cons (p q : Str × Str) (l : List (Str × Str)) :
    selectorList (p :: q :: l) = p.1 ++ p.2 ++ ',' :: selectorList (q :: l) := by
  simp [selectorList, List.intercalate, List.intersperse]

theorem getLast?_append_cons (x : Str) (a : Char) (y : Str) :
    (x ++ a :: y).getLast? = (a :: y).getLast? := by
  rw [List.getLast?_append]
  cases h : (a :: y).getLast? with
  | none => simp at h
  | some z => rfl

/-- The last character of a list of solid selectors is no white space. -/
theorem selectorList_last : ∀ parts : List (Str × Str), parts ≠ [] →
    (∀ p ∈ parts, SolidSelector p.2) →
    ∃ z, (selectorList parts).getLast? = some z ∧ isSpace z = false
  | [], h, _ => absurd rfl h
  | [p], _, hs => by
    obtain ⟨hne, hall⟩ := hs p (by simp)
    obtain ⟨y, z, hyz⟩ : ∃ y z, p.2 = y ++ [z] :=
      ⟨p.2.dropLast, p.2.getLast hne, (List.dropLast_append_getLast hne).symm⟩
    refine ⟨z, ?_, (hall z (by rw [hyz]; simp)).1⟩
    rw [selectorList_single, hyz, ← List.append_assoc]
    simp
  | p :: q :: l, _, hs => by
    obtain ⟨z, hz, hsp⟩ := selectorList_last (q :: l) (by simp)
      (fun r hr => hs r (by simp at hr ⊢; tauto))
    refine ⟨z, ?_, hsp⟩
    rw [selectorList_cons_cons]
    cases hq : selectorList (q :: l) with
    | nil => simp [hq] at hz
    | cons b t =>
      rw [hq] at hz
      rw [show p.1 ++ p.2 ++ ',' :: b :: t = (p.1 ++ p.2 ++ [',']) ++ b :: t by simp,
        getLast?_append_cons, hz]

theorem isSpace_ne {ch : Char} (h : isSpace ch = true) :
    ch ≠ ',' ∧ ch ≠ '{' ∧ ch ≠ '}' ∧ ch ≠ '<' ∧ ch ≠ '@' := by
  refine ⟨?_, ?_, ?_, ?_, ?_⟩ <;> (rintro rfl; revert h; decide)

theorem splitOn_self (s : Str) (ch : Char) (h : ch ∉ s) : s.splitOn ch = [s] := by
  have := List.splitOn_intercalate [s] ch (by simpa using h) (by simp)
  simpa [List.intercalate] using this

theorem scopedSelector_eq (c lead s : Str) (hl : ∀ ch ∈ lead, isSpace ch = true)
    (hs : SolidSelector s) :
    (if !hasPrefix (trimSpace (lead ++ s)) ('.' :: c) then
      join ((split (trimSpace (lead ++ s)) ' ').map fun sub =>
        if !hasPrefix sub [':'] && !hasPrefix sub ('.' :: c) then '.' :: c ++ ' ' :: sub
        else sub) [' ']
    else lead ++ s) = scopedSelector c (lead, s) := by
  have ht : trimSpace (lead ++ s) = s := by
    have := trimSpace_around lead [] s hs.1 hl (by simp)
      (fun a t e => (hs.2 a (by rw [e]; simp)).1) (fun y z e => (hs.2 z (by rw [e]; simp)).1)
    simpa using this
  have hsp : ' ' ∉ s := fun h => absurd (hs.2 ' ' h).1 (by decide)
  rw [ht]
  by_cases h1 : hasPrefix s ('.' :: c) = true
  · simp [scopedSelector, h1]
  · by_cases h2 : hasPrefix s [':'] = true
    · simp [scopedSelector, h1, h2, split, splitOn_self s ' ' hsp, join, List.intercalate]
    · simp [scopedSelector, h1, h2, split, splitOn_self s ' ' hsp, join, List.intercalate]

theorem selectorList_head (s1 : Str) (more : List (Str × Str)) :
    ∃ r, selectorList (([], s1) :: more) = s1 ++ r := by
  cases more with
  | nil => exact ⟨[], by simp [selectorList_single]⟩
  | cons q l => exact ⟨',' :: selectorList (q :: l), by simp [selectorList_cons_cons]⟩

/-- The callback of `scopeCSS` on a list of solid selectors, the first of
which is no at-rule: every selector is scoped on its own and the list is
joined with a comma and a space. -/
theorem scopeSelector_simple (c pad0 pad1 s1 : Str) (more : List (Str × Str))
    (h0 : ∀ ch ∈ pad0, isSpace ch = true) (h1 : ∀ ch ∈ pad1, isSpace ch = true)
    (hs1 : SolidSelector s1) (hat : hasPrefix s1 ['@'] = false)
    (hmore : ∀ p ∈ more, (∀ ch ∈ p.1, isSpace ch = true) ∧ SolidSelector p.2) :
    scopeSelector c (pad0 ++ selectorList (([], s1) :: more) ++ pad1 ++ ['{']) =
      [',', ' '].intercalate ((([], s1) :: more).map (scopedSelector c)) ++ [' ', '{'] := by
  have hsolid : ∀ p ∈ ([], s1) :: more, SolidSelector p.2 := by
    intro p hp
    rcases List.mem_cons.mp hp with rfl | hp
    · exact hs1
    · exact (hmore p hp).2
  have hlead : ∀ p ∈ ([], s1) :: more, ∀ ch ∈ p.1, isSpace ch = true := by
    intro p hp
    rcases List.mem_cons.mp hp with rfl | hp
    · simp
    · exact (hmore p hp).1
  obtain ⟨r, hr⟩ := selectorList_head s1 more
  obtain ⟨a1, t1, hs1e⟩ : ∃ a1 t1, s1 = a1 :: t1 := by
    cases s1 with
    | nil => exact absurd rfl hs1.1
    | cons a t => exact ⟨a, t, rfl⟩
  obtain ⟨z, hz, hzs⟩ := selectorList_last (([], s1) :: more) (by simp) hsolid
  generalize hY : selectorList (([], s1) :: more) = Y at hr hz
  have hYne : Y ≠ [] := by rw [hr, hs1e]; simp
  have htrim : trimSpace (pad0 ++ Y ++ pad1) = Y := by
    apply trimSpace_around pad0 pad1 Y hYne h0 h1
    · intro a t e
      rw [hr, hs1e] at e
      simp at e
      rw [← e.1]
      exact (hs1.2 a1 (by rw [hs1e]; simp)).1
    · intro y z' e
      rw [e] at hz
      simp at hz
      rw [hz]; exact hzs
  have hnat : hasPrefix Y ['@'] = false := by
    rw [hr, hs1e]
    rw [hs1e] at hat
    simp only [hasPrefix, List.cons_append, List.isPrefixOf] at hat ⊢
    simpa using hat
  have hsplit : split Y ',' = (([], s1) :: more).map fun p => p.1 ++ p.2 := by
    rw [← hY, split, selectorList]
    apply List.splitOn_intercalate
    · intro l hl
      obtain ⟨p, hp, rfl⟩ := List.mem_map.mp hl
      intro hc
      rcases List.mem_append.mp hc with hc | hc
      · exact (isSpace_ne (hlead p hp _ hc)).1 rfl
      · exact ((hsolid p hp).2 _ hc).2.1 rfl
    · simp
  have hempty : Y.isEmpty = false := by
    cases Y with
    | nil => exact absurd rfl hYne
    | cons _ _ => rfl
  rw [show pad0 ++ Y ++ pad1 ++ ['{'] = (pad0 ++ Y ++ pad1) ++ ['{'] by simp]
  simp only [scopeSelector, List.dropLast_concat, htrim, hempty, hnat, hsplit, Bool.not_false,
    Bool.and_self, if_true, List.map_map, join]
  congr 2
  apply List.map_congr_left
  intro p hp
  exact scopedSelector_eq c p.1 p.2 (hlead p hp) (hsolid p hp)

theorem mem_selectorList {ch : Char} : ∀ parts : List (Str × Str), ch ∈ selectorList parts →
    ch = ',' ∨ ∃ p ∈ parts, ch ∈ p.1 ∨ ch ∈ p.2
  | [], h => by simp [selectorList, List.intercalate] at h
  | [p], h => by
    rw [selectorList_single] at h
    exact Or.inr ⟨p, by simp, List.mem_append.mp h⟩
  | p :: q :: l, h => by
    rw [selectorList_cons_cons] at h
    simp only [List.mem_append, List.mem_cons] at h
    rcases h with (h | h) | h | h
    · exact Or.inr ⟨p, by simp, Or.inl h⟩
    · exact Or.inr ⟨p, by simp, Or.inr h⟩
    · exact Or.inl h
    · rcases mem_selectorList (q :: l) h with h | ⟨r, hr, h⟩
      · exact Or.inl h
      · exact Or.inr ⟨r, by simp at hr ⊢; tauto, h⟩

/-- A padded list of solid selectors holds neither a brace nor `<`. -/
theorem selectors_clean (pad0 pad1 s1 : Str) (more : List (Str × Str))
    (h0 : ∀ ch ∈ pad0, isSpace ch = true) (h1 : ∀ ch ∈ pad1, isSpace ch = true)
    (hs1 : SolidSelector s1)
    (hmore : ∀ p ∈ more, (∀ ch ∈ p.1, isSpace ch = true) ∧ SolidSelector p.2) :
    ∀ ch ∈ pad0 ++ selectorList (([], s1) :: more) ++ pad1, ch ≠ '{' ∧ ch ≠ '}' ∧ ch ≠ '<' := by
  intro ch hc
  have hsp : isSpace ch = true → ch ≠ '{' ∧ ch ≠ '}' ∧ ch ≠ '<' := fun h =>
    ⟨(isSpace_ne h).2.1, (isSpace_ne h).2.2.1, (isSpace_ne h).2.2.2.1⟩
  have hso : ∀ s, SolidSelector s → ch ∈ s → ch ≠ '{' ∧ ch ≠ '}' ∧ ch ≠ '<' := fun s hs h =>
    ⟨(hs.2 ch h).2.2.1, (hs.2 ch h).2.2.2.1, (hs.2 ch h).2.2.2.2⟩
  simp only [List.mem_append] at hc
  rcases hc with (hc | hc) | hc
  · exact hsp (h0 ch hc)
  · rcases mem_selectorList _ hc with rfl | ⟨p, hp, h⟩
    · decide
    · rcases List.mem_cons.mp hp with rfl | hp
      · rcases h with h | h
        · simp at h
        · exact hso _ hs1 h
      · rcases h with h | h
        · exact hsp ((hmore p hp).1 ch h)
        · exact hso _ (hmore p hp).2 h
  · exact hsp (h1 ch hc)

/-- One rule with solid selectors in the rule scan. -/
theorem scopeRules_simple (c pad0 pad1 s1 : Str) (more : List (Str × Str)) (rest : Str)
    (h0 : ∀ ch ∈ pad0, isSpace ch = true) (h1 : ∀ ch ∈ pad1, isSpace ch = true)
    (hs1 : SolidSelector s1) (hat : hasPrefix s1 ['@'] = false)
    (hmore : ∀ p ∈ more, (∀ ch ∈ p.1, isSpace ch = true) ∧ SolidSelector p.2)
    (hrest : '{' ∉ rest.takeWhile (· != '}')) :
    scopeRules c (pad0 ++ selectorList (([], s1) :: more) ++ pad1 ++ '{' :: rest) =
      [',', ' '].intercalate ((([], s1) :: more).map (scopedSelector c)) ++
        ' ' :: '{' :: scopeRules c rest := by
  have hcl := selectors_clean pad0 pad1 s1 more h0 h1 hs1 hmore
  rw [scopeRules_step c _ rest (fun h => (hcl _ h).2.1 rfl) hrest,
    scopeSelector_simple c pad0 pad1 s1 more h0 h1 hs1 hat hmore]
  simp

/-! ## Scanning a text that is followed by another text -/

/-- When no match that starts in `t` sees the text `s` after it, the scan of
`t ++ s` is the scan of `t` followed by the scan of `s`. -/
theorem replaceAllAux_append {m : Matcher} {f : Str → List Str → Str} (s : Str) :
    ∀ (t : Str),
      (∀ x p, x ≠ [] → x <:+ t →
        m p (x ++ s) = m p x ∧ ∀ n g, m p x = some (n, g) → n ≤ x.length) →
      ∀ (k : Nat) (prev : Option Char), k ≤ t.length →
        replaceAllAux m f prev k (t ++ s) =
          replaceAllAux m f prev k t ++ replaceAllAux m f (lastOr prev t) 0 s
  | [], _, k, prev, hk => by
    have : k = 0 := by simpa using hk
    subst this
    simp [replaceAllAux, lastOr]
  | a :: t, hloc, k + 1, prev, hk => by
    have ih := replaceAllAux_append (m := m) (f := f) s t
      (fun x p hx hs => hloc x p hx (hs.trans (List.suffix_cons a t))) k (some a)
      (by simpa using hk)
    simp only [List.cons_append, replaceAllAux, lastOr]
    exact ih
  | a :: t, hloc, 0, prev, _ => by
    have hl := hloc (a :: t) prev (by simp) (List.suffix_refl _)
    have ih := fun k hk => replaceAllAux_append (m := m) (f := f) s t
      (fun x p hx hs => hloc x p hx (hs.trans (List.suffix_cons a t))) k (some a) hk
    rw [List.cons_append] at hl
    rw [List.cons_append, replaceAllAux, replaceAllAux, hl.1]
    cases hm : m prev (a :: t) with
    | none => simp only [lastOr]; rw [ih 0 (Nat.zero_le _)]; rfl
    | some r =>
      obtain ⟨n, g⟩ := r
      cases n with
      | zero => simp only [lastOr]; rw [ih 0 (Nat.zero_le _)]; rfl
      | succ n =>
        have hn : n + 1 ≤ (a :: t).length := hl.2 (n + 1) g hm
        have hn' : n ≤ t.length := by simpa using hn
        simp only [lastOr]
        rw [ih n hn', ← List.cons_append, List.take_append_of_le_length hn, List.append_assoc]

/-- A text in front of a character that is not in the tail of `sub` does not
complete an occurrence of `sub` with what follows that character. -/
theorem prefix_append_sep (sep : Char) (rest : Str) :
    ∀ (sub x : Str), sep ∉ sub.tail → x ≠ [] → (sub <+: x ++ sep :: rest ↔ sub <+: x)
  | [], x, _, _ => by simp
  | b :: sub, [], _, hx => absurd rfl hx
  | b :: sub, [a], hs, _ => by
    simp only [List.tail_cons] at hs
    constructor
    · intro h
      rw [show [a] ++ sep :: rest = a :: sep :: rest from rfl, List.cons_prefix_cons] at h
      obtain ⟨rfl, h⟩ := h
      cases sub with
      | nil => simp
      | cons c sub =>
        rw [List.cons_prefix_cons] at h
        exact absurd (by simp [h.1]) hs
    · intro h
      exact h.trans (List.prefix_append _ _)
  | b :: sub, a :: a2 :: x, hs, _ => by
    simp only [List.tail_cons] at hs
    rw [List.cons_append, List.cons_prefix_cons, List.cons_prefix_cons]
    have ih := prefix_append_sep sep rest sub (a2 :: x)
      (fun h => hs (List.mem_of_mem_tail h)) (by simp)
    rw [ih]

theorem prefix_length_le {α : Type} {a b : List α} (h : a <+: b) : a.length ≤ b.length :=
  h.length_le

/-- A literal pattern that does not hold the character `sep` after its first
character scans a text in front of `sep` on its own. -/
theorem litRe_scan_append {f : Str → List Str → Str} (lit t : Str) (sep : Char) (rest : Str)
    (hsep : sep ∉ lit.tail) (prev : Option Char) :
    replaceAllAux (litRe lit) f prev 0 (t ++ sep :: rest) =
      replaceAllAux (litRe lit) f prev 0 t ++
        replaceAllAux (litRe lit) f (lastOr prev t) 0 (sep :: rest) := by
  apply replaceAllAux_append (sep :: rest) t _ 0 prev (Nat.zero_le _)
  intro x p hx _
  have h := prefix_append_sep sep rest lit x hsep hx
  constructor
  · simp only [litRe, List.isPrefixOf_iff_prefix, h]
  · intro n g hm
    simp only [litRe, List.isPrefixOf_iff_prefix] at hm
    split at hm
    · rename_i hp
      simp at hm
      rw [← hm.1]
      exact hp.length_le
    · simp at hm

/-- A literal pattern finds nothing in a text that lacks one of its
characters. -/
theorem litRe_scan_id {f : Str → List Str → Str} (lit s : Str) (ch : Char) (hl : ch ∈ lit)
    (hs : ch ∉ s) (prev : Option Char) : replaceAllAux (litRe lit) f prev 0 s = s := by
  apply replaceAllAux_id
  intro p a b hab
  simp only [litRe, List.isPrefixOf_iff_prefix]
  rw [if_neg]
  intro hp
  exact hs (by rw [hab]; exact List.mem_append_right _ (hp.subset hl))

/-! ## The identifier map -/

theorem findAllAux_mem {m : Matcher} {mt : List Str} :
    ∀ (s : Str) (k : Nat) (p : Option Char), mt ∈ findAllAux m p k s →
      ∃ p' s' n g, m p' s' = some (n + 1, g) ∧ mt = s'.take (n + 1) :: g
  | [], k, p, h => by cases k <;> simp [findAllAux] at h
  | a :: s, k + 1, p, h => by
    rw [findAllAux] at h
    exact findAllAux_mem s k (some a) h
  | a :: s, 0, p, h => by
    rw [findAllAux] at h
    split at h
    · rename_i n g hm
      rcases List.mem_cons.mp h with rfl | h
      · exact ⟨p, a :: s, n, g, hm, rfl⟩
      · exact findAllAux_mem s n (some a) h
    · exact findAllAux_mem s 0 (some a) h

theorem isWordChar_of_identStart {ch : Char} (h : isIdentStart ch = true) :
    isWordChar ch = true := by
  simp only [isWordChar, isIdentStart, Bool.or_eq_true, Bool.and_eq_true, decide_eq_true_eq,
    beq_iff_eq] at h ⊢
  omega

/-- The groups of a declaration match: the keyword and a non-empty name of
word characters. -/
theorem declRe_groups {p : Option Char} {s : Str} {n : Nat} {g : List Str}
    (h : declRe p s = some (n, g)) :
    ∃ kw name, g = [kw, name] ∧ name ≠ [] ∧ ∀ ch ∈ name, isWordChar ch = true := by
  simp only [declRe] at h
  split at h
  · simp at h
  · obtain ⟨kw, _, hkw⟩ := List.exists_of_findSome?_eq_some h
    split at hkw
    · split at hkw
      · rename_i hc
        simp only [Option.some.injEq, Prod.mk.injEq] at hkw
        refine ⟨kw, _, hkw.2.symm, ?_, fun ch hch => by simpa using List.mem_takeWhile_imp hch⟩
        simp only [Bool.and_eq_true] at hc
        have h2 := hc.2
        generalize List.drop (List.takeWhile isReSpace (List.drop kw.length s)).length
          (List.drop kw.length s) = r2 at h2 ⊢
        cases r2 with
        | nil => simp [headIs] at h2
        | cons a r =>
          simp only [headIs] at h2
          simp [List.takeWhile, isWordChar_of_identStart h2]
      · simp at hkw
    · simp at hkw

theorem declaredNames_word {s n : Str} (h : n ∈ declaredNames s) :
    n ≠ [] ∧ ∀ ch ∈ n, isWordChar ch = true := by
  simp only [declaredNames, List.mem_map] at h
  obtain ⟨mt, hmt, rfl⟩ := h
  obtain ⟨p', s', k, g, hm, rfl⟩ := findAllAux_mem s 0 none hmt
  obtain ⟨kw, name, rfl, hne, hw⟩ := declRe_groups hm
  exact ⟨by simpa using hne, by simpa using hw⟩

theorem buildVarMap_eq (s c : Str) :
    buildVarMap s c =
      (declaredNames s).foldl (fun vm n => mapInsert vm n (newNameOf c n)) [] := by
  simp [buildVarMap, declaredNames, List.foldl_map]

theorem mem_mapInsert {m : List (Str × Str)} {k v : Str} {e : Str × Str}
    (h : e ∈ mapInsert m k v) : e = (k, v) ∨ e ∈ m := by
  simp only [mapInsert] at h
  split at h
  · obtain ⟨e', he', rfl⟩ := List.mem_map.mp h
    split
    · exact Or.inl rfl
    · exact Or.inr he'
  · rcases List.mem_append.mp h with h | h
    · exact Or.inr h
    · exact Or.inl (by simpa using h)

theorem key_mem_mapInsert (m : List (Str × Str)) (k v : Str) :
    ∃ e ∈ mapInsert m k v, e.1 = k := by
  simp only [mapInsert]
  split
  · rename_i h
    obtain ⟨e, he, hk⟩ := List.any_eq_true.mp h
    exact ⟨(k, v), List.mem_map.mpr ⟨e, he, by simp [hk]⟩, rfl⟩
  · exact ⟨(k, v), by simp, rfl⟩

theorem key_mem_mapInsert_of_mem {m : List (Str × Str)} {k v x : Str}
    (h : ∃ e ∈ m, e.1 = x) : ∃ e ∈ mapInsert m k v, e.1 = x := by
  obtain ⟨e, he, hx⟩ := h
  simp only [mapInsert]
  split
  · by_cases hk : (e.1 == k) = true
    · exact ⟨(k, v), List.mem_map.mpr ⟨e, he, by simp [hk]⟩, by
        rw [← hx]; exact (beq_iff_eq.mp hk).symm⟩
    · exact ⟨e, List.mem_map.mpr ⟨e, he, by simp [hk]⟩, hx⟩
  · exact ⟨e, by simp [he], hx⟩

theorem foldl_insert_entries (c : Str) : ∀ (names : List Str) (vm : List (Str × Str)),
    ∀ e ∈ names.foldl (fun vm n => mapInsert vm n (newNameOf c n)) vm,
      (e.1 ∈ names ∧ e.2 = newNameOf c e.1) ∨ e ∈ vm
  | [], _, e, h => Or.inr h
  | n :: names, vm, e, h => by
    rcases foldl_insert_entries c names _ e h with ⟨h1, h2⟩ | h
    · exact Or.inl ⟨by simp [h1], h2⟩
    · rcases mem_mapInsert h with rfl | h
      · exact Or.inl ⟨by simp, rfl⟩
      · exact Or.inr h

theorem foldl_insert_keys (c : Str) (x : Str) : ∀ (names : List Str) (vm : List (Str × Str)),
    (x ∈ names ∨ ∃ e ∈ vm, e.1 = x) →
      ∃ e ∈ names.foldl (fun vm n => mapInsert vm n (newNameOf c n)) vm, e.1 = x
  | [], vm, h => by
    rcases h with h | h
    · simp at h
    · exact h
  | n :: names, vm, h => by
    apply foldl_insert_keys c x names
    rcases h with h | h
    · rcases List.mem_cons.mp h with rfl | h
      · exact Or.inr (key_mem_mapInsert vm _ _)
      · exact Or.inl h
    · exact Or.inr (key_mem_mapInsert_of_mem h)

/-- Every entry of the identifier map maps a declared name to its prefixed
form. -/
theorem buildVarMap_entries {s c : Str} {e : Str × Str} (h : e ∈ buildVarMap s c) :
    e.1 ∈ declaredNames s ∧ e.2 = newNameOf c e.1 := by
  rw [buildVarMap_eq] at h
  rcases foldl_insert_entries c _ _ e h with h | h
  · exact h
  · simp at h

/-- Every declared name is a key of the identifier map. -/
theorem buildVarMap_keys {s c x : Str} (h : x ∈ declaredNames s) :
    ∃ e ∈ buildVarMap s c, e.1 = x := by
  rw [buildVarMap_eq]
  exact foldl_insert_keys c x _ _ (Or.inl h)

/-! ## The markup update of `processComponent` -/

/-- A literal pattern finds nothing in front of the first occurrence of its
first character. -/
theorem litRe_scan_skip {f : Str → List Str → Str} (h : Char) (t : Str) (rest : Str) :
    ∀ (w : Str) (prev : Option Char), h ∉ w →
      replaceAllAux (litRe (h :: t)) f prev 0 (w ++ rest) =
        w ++ replaceAllAux (litRe (h :: t)) f (lastOr prev w) 0 rest
  | [], _, _ => rfl
  | a :: w, prev, hw => by
    have ha : h ≠ a := fun e => hw (by simp [e])
    have hn : litRe (h :: t) prev (a :: (w ++ rest)) = none := by
      simp [litRe, ha]
    rw [List.cons_append, replaceAllAux_nomatch hn,
      litRe_scan_skip h t rest w (some a) (fun e => hw (by simp [e]))]
    rfl

theorem close_prefix_eq (r : Str) : ∀ (k y : Str), '}' ∉ k → '}' ∉ y →
    k ++ ['}'] <+: y ++ '}' :: r → k = y
  | [], [], _, _, _ => rfl
  | [], b :: y, _, hy, h => by
    rw [List.nil_append, List.cons_append, List.cons_prefix_cons] at h
    exact absurd (by simp [← h.1]) hy
  | a :: k, [], hk, _, h => by
    rw [List.cons_append, List.nil_append, List.cons_prefix_cons] at h
    exact absurd (by simp [h.1]) hk
  | a :: k, b :: y, hk, hy, h => by
    rw [List.cons_append, List.cons_append, List.cons_prefix_cons] at h
    rw [h.1, close_prefix_eq r k y (fun e => hk (by simp [e])) (fun e => hy (by simp [e])) h.2]

theorem word_not_mem {w : Str} (hw : ∀ ch ∈ w, isWordChar ch = true) (ch : Char)
    (hc : isWordChar ch = false) : ch ∉ w := fun h => by
  rw [hw ch h] at hc; exact absurd hc (by simp)

/-- One pass of the markup update on a text that ends in the markup
`<div>{y}</div>`: the reference is rewritten exactly when the entry is the
one of `y`. -/
theorem updateRefs_markupTail (L : GoLib) (t y : Str) (e : Str × Str)
    (hk : ∀ ch ∈ e.1, isWordChar ch = true) (hv : ∀ ch ∈ e.2, isWordChar ch = true)
    (hy : ∀ ch ∈ y, isWordChar ch = true) :
    ∃ t', updateRefs L (t ++ markupTail y) e = t' ++ markupTail (refName y e) := by
  -- the two templates expand to themselves
  have hd1 : '$' ∉ '{' :: e.2 ++ ['}'] := by
    have := word_not_mem hv '$' (by decide)
    simp [this]
  have hd2 : '$' ∉ "on:click=\x7b".toList ++ e.2 ++ ['}'] := by
    have := word_not_mem hv '$' (by decide)
    simp [this]
  have hF1 : (fun (mt : Str) (g : List Str) => expand L (mt :: g) ('{' :: e.2 ++ ['}'])) =
      fun _ _ => '{' :: e.2 ++ ['}'] := by
    funext mt g; exact expand_plain L _ _ hd1
  have hF2 : (fun (mt : Str) (g : List Str) =>
      expand L (mt :: g) ("on:click=\x7b".toList ++ e.2 ++ ['}'])) =
      fun _ _ => "on:click=\x7b".toList ++ e.2 ++ ['}'] := by
    funext mt g; exact expand_plain L _ _ hd2
  have htail : ∀ z, markupTail z =
      '<' :: ("/script><div>".toList ++ ('{' :: (z ++ '}' :: "</div>".toList))) :=
    fun z => rfl
  -- first pass, on the tail
  have hp1 : ∀ prev, replaceAllAux (litRe ('{' :: e.1 ++ ['}'])) (fun _ _ => '{' :: e.2 ++ ['}'])
      prev 0 (markupTail y) = markupTail (refName y e) := by
    intro prev
    have hb1 : '}' ∉ e.1 := word_not_mem hk '}' (by decide)
    have hb2 : '}' ∉ y := word_not_mem hy '}' (by decide)
    have hb3 : '{' ∉ y := word_not_mem hy '{' (by decide)
    rw [markupTail, List.cons_append,
      litRe_scan_skip '{' (e.1 ++ ['}']) _ "</script><div>".toList prev (by decide)]
    show "</script><div>".toList ++ replaceAllAux (litRe ('{' :: (e.1 ++ ['}'])))
      (fun _ _ => '{' :: (e.2 ++ ['}'])) (lastOr prev "</script><div>".toList) 0
      ('{' :: (y ++ '}' :: "</div>".toList)) = markupTail (refName y e)
    by_cases hky : e.1 = y
    · have hm : litRe ('{' :: (e.1 ++ ['}'])) (lastOr prev "</script><div>".toList)
          ('{' :: (y ++ '}' :: "</div>".toList)) = some (('{' :: (e.1 ++ ['}'])).length, []) := by
        simp [litRe, hky]
      rw [replaceAllAux_match' hm (by simp) (by simp)]
      have h2 : ('{' :: (y ++ '}' :: "</div>".toList)).drop ('{' :: (e.1 ++ ['}'])).length =
          "</div>".toList := by
        rw [show '{' :: (y ++ '}' :: "</div>".toList) =
          ('{' :: (e.1 ++ ['}'])) ++ "</div>".toList by simp [hky], List.drop_left]
      rw [h2, litRe_scan_id _ "</div>".toList '{' (by simp) (by decide)]
      simp [markupTail, refName, hky]
    · have hm : litRe ('{' :: (e.1 ++ ['}'])) (lastOr prev "</script><div>".toList)
          ('{' :: (y ++ '}' :: "</div>".toList)) = none := by
        simp only [litRe, List.isPrefixOf_iff_prefix, List.cons_prefix_cons, true_and]
        rw [if_neg]
        exact fun h => hky (close_prefix_eq _ _ _ hb1 hb2 h)
      rw [replaceAllAux_nomatch hm,
        litRe_scan_id _ (y ++ '}' :: "</div>".toList) '{' (by simp)
          (by simp [hb3])]
      simp [markupTail, refName, hky]
  -- second pass, on the tail
  have hp2 : ∀ prev z, (∀ ch ∈ z, isWordChar ch = true) →
      replaceAllAux (litRe ("on:click=\x7b".toList ++ e.1 ++ ['}']))
        (fun _ _ => "on:click=\x7b".toList ++ e.2 ++ ['}']) prev 0 (markupTail z) =
        markupTail z := by
    intro prev z hz
    apply litRe_scan_id _ _ ':' (by simp)
    have := word_not_mem hz ':' (by decide)
    simp [markupTail, this]
  have hz : ∀ ch ∈ refName y e, isWordChar ch = true := by
    unfold refName; split
    · exact hv
    · exact hy
  have hs1 : '<' ∉ ('{' :: e.1 ++ ['}']).tail := by
    have := word_not_mem hk '<' (by decide)
    simp [this]
  have hs2 : '<' ∉ ("on:click=\x7b".toList ++ e.1 ++ ['}']).tail := by
    have := word_not_mem hk '<' (by decide)
    simp [this]
  refine ⟨replaceAllAux (litRe ("on:click=\x7b".toList ++ e.1 ++ ['}']))
      (fun _ _ => "on:click=\x7b".toList ++ e.2 ++ ['}']) none 0
      (replaceAllAux (litRe ('{' :: e.1 ++ ['}'])) (fun _ _ => '{' :: e.2 ++ ['}']) none 0 t), ?_⟩
  simp only [updateRefs, replaceAllString, replaceAllFunc, hF1, hF2]
  rw [htail y, litRe_scan_append _ t '<' _ hs1, ← htail y, hp1, htail (refName y e),
    litRe_scan_append _ _ '<' _ hs2, ← htail (refName y e), hp2 _ _ hz]

theorem refName_word {y : Str} {e : Str × Str} (hy : ∀ ch ∈ y, isWordChar ch = true)
    (hv : ∀ ch ∈ e.2, isWordChar ch = true) : ∀ ch ∈ refName y e, isWordChar ch = true := by
  unfold refName; split
  · exact hv
  · exact hy

/-- The markup update over all entries, in any order, on a text that ends in
the markup `<div>{y}</div>`. -/
theorem foldl_updateRefs_markupTail (L : GoLib) : ∀ (ord : List (Str × Str)) (t y : Str),
    (∀ e ∈ ord, (∀ ch ∈ e.1, isWordChar ch = true) ∧ ∀ ch ∈ e.2, isWordChar ch = true) →
    (∀ ch ∈ y, isWordChar ch = true) →
    ∃ t', ord.foldl (updateRefs L) (t ++ markupTail y) = t' ++ markupTail (ord.foldl refName y)
  | [], t, y, _, _ => ⟨t, rfl⟩
  | e :: ord, t, y, he, hy => by
    obtain ⟨t1, h1⟩ := updateRefs_markupTail L t y e (he e (by simp)).1 (he e (by simp)).2 hy
    obtain ⟨t2, h2⟩ := foldl_updateRefs_markupTail L ord t1 (refName y e)
      (fun e' h' => he e' (by simp [h'])) (refName_word hy (he e (by simp)).2)
    exact ⟨t2, by rw [List.foldl_cons, h1, h2, List.foldl_cons]⟩

theorem foldl_refName_stable : ∀ (ord : List (Str × Str)) (z : Str),
    (∀ e ∈ ord, e.1 ≠ z) → ord.foldl refName z = z
  | [], _, _ => rfl
  | e :: ord, z, h => by
    have h1 : refName z e = z := by simp [refName, h e (by simp)]
    rw [List.foldl_cons, h1, foldl_refName_stable ord z (fun e' h' => h e' (by simp [h']))]

/-- The reference to a declared name ends as the prefixed name, whatever the
order of the entries, when no key of the map is that prefixed name. -/
theorem foldl_refName_declared (c x : Str) : ∀ (ord : List (Str × Str)),
    (∀ e ∈ ord, e.2 = newNameOf c e.1) → (∃ e ∈ ord, e.1 = x) →
    (∀ e ∈ ord, e.1 ≠ newNameOf c x) → ord.foldl refName x = newNameOf c x
  | [], _, h, _ => by obtain ⟨e, he, _⟩ := h; simp at he
  | e :: ord, hv, hx, hn => by
    rw [List.foldl_cons]
    by_cases hex : e.1 = x
    · have h1 : refName x e = newNameOf c x := by
        simp [refName, hex, hv e (by simp)]
      rw [h1, foldl_refName_stable ord _ (fun e' h' => hn e' (by simp [h']))]
    · have h1 : refName x e = x := by simp [refName, hex]
      rw [h1]
      apply foldl_refName_declared c x ord (fun e' h' => hv e' (by simp [h']))
      · obtain ⟨e', he', hx'⟩ := hx
        rcases List.mem_cons.mp he' with rfl | he'
        · exact absurd hx' hex
        · exact ⟨e', he', hx'⟩
      · exact fun e' h' => hn e' (by simp [h'])

/-! ## Style blocks in front of the markup -/

theorem index_bound (sub : Str) : ∀ (x : Str) (i : Nat), index sub x = some i →
    i + sub.length ≤ x.length
  | [], i, h => by
    simp only [index] at h
    split at h
    · rename_i hp
      simp at h; subst h
      simp at hp; simp [hp]
    · simp at h
  | a :: x, i, h => by
    simp only [index] at h
    split at h
    · rename_i hp
      simp at h; subst h
      simpa using (List.isPrefixOf_iff_prefix.mp hp).length_le
    · cases hx : index sub x with
      | none => simp [hx] at h
      | some j =>
        simp [hx] at h; subst h
        have := index_bound sub x j hx
        simp; omega

/-- An occurrence of `sub` is not completed by what follows a character that
is not in the tail of `sub`. -/
theorem index_append_sep (sub : Str) (sep : Char) (rest : Str) (hsub : sub ≠ [])
    (hsep : sep ∉ sub.tail) (hs : index sub (sep :: rest) = none) :
    ∀ x : Str, index sub (x ++ sep :: rest) = index sub x
  | [] => by
    rw [List.nil_append, hs]
    cases sub with
    | nil => exact absurd rfl hsub
    | cons b sub => simp [index]
  | a :: x => by
    have hp := prefix_append_sep sep rest sub (a :: x) hsep (by simp)
    have hb : sub.isPrefixOf (a :: (x ++ sep :: rest)) = sub.isPrefixOf (a :: x) := by
      rw [Bool.eq_iff_iff]
      simpa using hp
    rw [List.cons_append, index, index, hb, index_append_sep sub sep rest hsub hsep hs x]

theorem index_skip_run (h : Char) (t rest : Str) : ∀ w : Str, h ∉ w →
    index (h :: t) (w ++ rest) = (index (h :: t) rest).map (· + w.length)
  | [], _ => by simp
  | a :: w, hw => by
    have ha : h ≠ a := fun e => hw (by simp [e])
    rw [List.cons_append, index]
    simp only [List.isPrefixOf_iff_prefix, List.cons_prefix_cons, ha, false_and, if_false]
    rw [index_skip_run h t rest w (fun e => hw (by simp [e]))]
    cases index (h :: t) rest <;> simp; omega

theorem index_closing_markupTail (z : Str) (hz : ∀ ch ∈ z, isWordChar ch = true) :
    index "</style>".toList (markupTail z) = none := by
  have h1 : index "</style>".toList (z ++ '}' :: "</div>".toList) = none := by
    have := index_skip_run '<' "/style>".toList ('}' :: "</div>".toList) z
      (word_not_mem hz '<' (by decide))
    rw [show "</style>".toList = '<' :: "/style>".toList from rfl, this]
    rfl
  simp at h1
  simp [markupTail, index, h1]

/-- A run of characters none of which can start a match is copied. -/
theorem replaceAllAux_run {m : Matcher} {f : Str → List Str → Str} (rest : Str) :
    ∀ (w : Str) (prev : Option Char), (∀ ch ∈ w, ∀ p s, m p (ch :: s) = none) →
      replaceAllAux m f prev 0 (w ++ rest) = w ++ replaceAllAux m f (lastOr prev w) 0 rest
  | [], _, _ => rfl
  | a :: w, prev, h => by
    rw [List.cons_append, replaceAllAux_nomatch (h a (by simp) prev _),
      replaceAllAux_run rest w (some a) (fun ch hc => h ch (by simp [hc]))]
    rfl

theorem blockRe_head (opening closing : Str) (h : Char) (t : Str) (ho : opening = h :: t)
    (ch : Char) (hc : ch ≠ h) (p : Option Char) (s : Str) :
    blockRe opening closing p (ch :: s) = none := by
  subst ho
  simp [blockRe, hc.symm]

/-- A block expression whose tags do not hold `sep` after their first
character does not see a text that starts with `sep` and holds no closing
tag. -/
theorem blockRe_append_sep (opening closing : Str) (sep : Char) (rest : Str)
    (ho : sep ∉ opening.tail) (hc : closing ≠ []) (hc2 : sep ∉ closing.tail)
    (hs : index closing (sep :: rest) = none) (x : Str) (hx : x ≠ []) (p : Option Char) :
    blockRe opening closing p (x ++ sep :: rest) = blockRe opening closing p x ∧
      ∀ n g, blockRe opening closing p x = some (n, g) → n ≤ x.length := by
  have hp := prefix_append_sep sep rest opening x ho hx
  have hb : opening.isPrefixOf (x ++ sep :: rest) = opening.isPrefixOf x := by
    rw [Bool.eq_iff_iff]
    simpa using hp
  by_cases hpre : opening <+: x
  · obtain ⟨x1, rfl⟩ := hpre
    have hd1 : (opening ++ x1 ++ sep :: rest).drop opening.length = x1 ++ sep :: rest := by
      rw [List.append_assoc, List.drop_left]
    have hd2 : (opening ++ x1).drop opening.length = x1 := List.drop_left _ _
    have hi := index_append_sep closing sep rest hc hc2 hs x1
    simp only [blockRe, hb, hd1, hd2, hi]
    have hpt : opening.isPrefixOf (opening ++ x1) = true := by simp
    simp only [hpt, if_true]
    cases hx1 : index closing x1 with
    | none => simp
    | some i =>
      have hbd := index_bound closing x1 i hx1
      have htk : (x1 ++ sep :: rest).take i = x1.take i :=
        List.take_append_of_le_length (by omega)
      simp only [htk, true_and]
      intro n g hng
      simp only [Option.some.injEq, Prod.mk.injEq] at hng
      rw [← hng.1]
      simp; omega
  · have hpf : opening.isPrefixOf x = false :=
      Bool.eq_false_iff.mpr (fun h => hpre (List.isPrefixOf_iff_prefix.mp h))
    simp [blockRe, hb, hpf]

/-- The inline style scoping leaves the markup tail of a component alone. -/
theorem scopeStylesInline_markupTail (c t z : Str) (hz : ∀ ch ∈ z, isWordChar ch = true) :
    ∃ t', scopeStylesInline (t ++ markupTail z) c = t' ++ markupTail z := by
  have hlt : '<' ∉ z := word_not_mem hz '<' (by decide)
  have htail : markupTail z =
      '<' :: ("/script><div>".toList ++ ('{' :: (z ++ '}' :: "</div>".toList))) := rfl
  have hF : ∀ (F : Str → List Str → Str) prev,
      replaceAllAux styleRe F prev 0 (markupTail z) = markupTail z := by
    intro F prev
    have hrun := replaceAllAux_run (m := styleRe) (f := F) ('}' :: "</div>".toList) z (some '{')
      (fun ch hc p s => blockRe_head _ _ '<' "style>".toList rfl ch
        (fun e => hlt (e ▸ hc)) p s)
    simp [styleRe] at hrun
    simp [markupTail, replaceAllAux, styleRe, hrun]
    simp [blockRe]
  refine ⟨replaceAllAux styleRe (fun mt _ =>
      styleBlock (scopeRulesInline c ((findStringSubmatch styleRe mt).getD 1 []))) none 0 t, ?_⟩
  rw [scopeStylesInline, replaceAllFunc, htail]
  rw [replaceAllAux_append _ t _ 0 none (Nat.zero_le _), ← htail, hF]
  intro x p hx _
  exact blockRe_append_sep "<style>".toList "</style>".toList '<' _ (by decide) (by decide)
    (by decide) (by rw [← htail]; exact index_closing_markupTail z hz) x hx p

/-! ## Class injection in front of the markup -/

theorem findSome?_congr_mem {α β : Type} {f g : α → Option β} :
    ∀ l : List α, (∀ a ∈ l, f a = g a) → l.findSome? f = l.findSome? g
  | [], _ => rfl
  | a :: l, h => by
    simp only [List.findSome?, h a (by simp),
      findSome?_congr_mem l (fun b hb => h b (by simp [hb]))]

theorem prefix_append_of_last (sep : Char) (s : Str) : ∀ (sub x : Str), sep ∉ sub →
    (sub <+: (x ++ [sep]) ++ s ↔ sub <+: x ++ [sep])
  | [], _, _ => by simp
  | b :: sub, [], h => by
    have hb : b ≠ sep := fun e => h (by simp [e])
    simp [List.cons_prefix_cons, hb]
  | b :: sub, a :: x, h => by
    simp only [List.cons_append, List.cons_prefix_cons]
    rw [prefix_append_of_last sep s sub x (fun e => h (by simp [e]))]

theorem prefix_of_prefix_concat (sep : Char) : ∀ (sub x : Str), sep ∉ sub →
    sub <+: x ++ [sep] → sub <+: x
  | [], _, _, _ => by simp
  | b :: sub, [], h, hp => by
    have hb : b ≠ sep := fun e => h (by simp [e])
    simp [List.cons_prefix_cons, hb] at hp
  | b :: sub, a :: x, h, hp => by
    simp only [List.cons_append, List.cons_prefix_cons] at hp ⊢
    exact ⟨hp.1, prefix_of_prefix_concat sep sub x (fun e => h (by simp [e])) hp.2⟩

theorem index_char_stop (c : Char) (s : Str) : ∀ u : Str,
    index [c] ((u ++ [c]) ++ s) = index [c] (u ++ [c])
  | [] => by simp [index]
  | a :: u => by
    have ih := index_char_stop c s u
    simp only [List.append_assoc, List.singleton_append] at ih
    simp [index, ih]

theorem htmlRe_head (ch : Char) (hc : ch ≠ '<') (p : Option Char) (s : Str) :
    htmlRe p (ch :: s) = none := by
  simp [htmlRe, hc]

/-- The tag expression on a text that ends with `>` does not see what
follows. -/
theorem htmlRe_append (x s : Str) (p : Option Char) :
    htmlRe p ((x ++ ['>']) ++ s) = htmlRe p (x ++ ['>']) ∧
      ∀ n g, htmlRe p (x ++ ['>']) = some (n, g) → n ≤ (x ++ ['>']).length := by
  cases x with
  | nil => simp [htmlRe]
  | cons a x =>
    by_cases ha : a = '<'
    · subst ha
      have hfun : ∀ nm ∈ tagNames,
          (if nm.isPrefixOf ((x ++ ['>']) ++ s) then
            match index ['>'] (((x ++ ['>']) ++ s).drop nm.length) with
            | some i => some (1 + nm.length + i + 1, [nm, (((x ++ ['>']) ++ s).drop nm.length).take i])
            | none => none
          else none) =
          (if nm.isPrefixOf (x ++ ['>']) then
            match index ['>'] ((x ++ ['>']).drop nm.length) with
            | some i => some (1 + nm.length + i + 1, [nm, ((x ++ ['>']).drop nm.length).take i])
            | none => none
          else none) := by
        intro nm hnm
        have hgt := tagNames_no_gt nm hnm
        have hb : nm.isPrefixOf ((x ++ ['>']) ++ s) = nm.isPrefixOf (x ++ ['>']) := by
          rw [Bool.eq_iff_iff]
          simpa using prefix_append_of_last '>' s nm x hgt
        rw [hb]
        by_cases hp : nm <+: x ++ ['>']
        · have hpx := prefix_of_prefix_concat '>' nm x hgt hp
          have hle : nm.length ≤ x.length := hpx.length_le
          have hd1 : ((x ++ ['>']) ++ s).drop nm.length = (x.drop nm.length ++ ['>']) ++ s := by
            rw [List.drop_append_of_le_length (by simp; omega),
              List.drop_append_of_le_length hle]
          have hd2 : (x ++ ['>']).drop nm.length = x.drop nm.length ++ ['>'] :=
            List.drop_append_of_le_length hle
          rw [hd1, hd2, index_char_stop]
          have hpt : nm.isPrefixOf (x ++ ['>']) = true := by simpa using hp
          simp only [hpt, if_true]
          cases hi : index ['>'] (x.drop nm.length ++ ['>']) with
          | none => rfl
          | some i =>
            have := index_bound ['>'] _ i hi
            simp only [List.length_append, List.length_singleton] at this
            have htk : ((x.drop nm.length ++ ['>']) ++ s).take i =
                (x.drop nm.length ++ ['>']).take i :=
              List.take_append_of_le_length (by
                rw [List.length_append, List.length_singleton]; omega)
            simp only [htk]
        · have hpf : nm.isPrefixOf (x ++ ['>']) = false :=
            Bool.eq_false_iff.mpr (fun h => hp (List.isPrefixOf_iff_prefix.mp h))
          simp [hpf]
      constructor
      · simp only [htmlRe, List.cons_append, List.head?_cons, List.tail_cons, if_true]
        exact findSome?_congr_mem tagNames hfun
      · intro n g h
        simp only [htmlRe, List.cons_append, List.head?_cons, List.tail_cons, if_true] at h
        obtain ⟨nm, hnm, hf⟩ := List.exists_of_findSome?_eq_some h
        split at hf
        · rename_i hp
          have hle : nm.length ≤ (x ++ ['>']).length :=
            (List.isPrefixOf_iff_prefix.mp hp).length_le
          cases hi : index ['>'] ((x ++ ['>']).drop nm.length) with
          | none => simp [hi] at hf
          | some i =>
            have hb := index_bound ['>'] _ i hi
            simp only [hi, Option.some.injEq, Prod.mk.injEq] at hf
            rw [← hf.1]
            rw [List.length_drop] at hb
            simp only [List.length_cons, List.length_append, List.length_singleton,
              List.length_nil] at hb hle ⊢
            omega
        · simp at hf
    · constructor
      · simp [htmlRe, ha]
      · intro n g h
        simp [htmlRe, ha] at h

theorem suffix_concat_cases {x y : Str} {c : Char} (h : x <:+ y ++ [c]) (hx : x ≠ []) :
    ∃ x', x = x' ++ [c] := by
  have h1 : x.reverse <+: c :: y.reverse := by
    have := List.reverse_prefix.mpr h
    simpa using this
  cases hr : x.reverse with
  | nil => exact absurd (List.reverse_eq_nil_iff.mp hr) hx
  | cons b r =>
    rw [hr, List.cons_prefix_cons] at h1
    refine ⟨r.reverse, ?_⟩
    have : x = (b :: r).reverse := by rw [← hr, List.reverse_reverse]
    rw [this, h1.1]
    simp

/-- The inline class injection on a text that ends in the markup
`<div>{z}</div>`: the element receives the class attribute and the reference
is left as it is. -/
theorem injectInline_markupTail (L : GoLib) (c t z : Str)
    (hz : ∀ ch ∈ z, isWordChar ch = true) :
    ∃ t', replaceAllFunc htmlRe (fun mt _ => injectClassInline L c mt) (t ++ markupTail z) =
      t' ++ ("<div".toList ++ (classAttr c ++ '>' :: '{' :: (z ++ '}' :: "</div>".toList))) := by
  have hlt : '<' ∉ z := word_not_mem hz '<' (by decide)
  have hsplit : t ++ markupTail z = ((t ++ "</script".toList) ++ ['>']) ++
      ("<div>".toList ++ ('{' :: (z ++ '}' :: "</div>".toList))) := by
    simp [markupTail]
  -- the element
  have hdiv : ∀ prev, replaceAllAux htmlRe (fun mt _ => injectClassInline L c mt) prev 0
      ("<div>".toList ++ ('{' :: (z ++ '}' :: "</div>".toList))) =
      "<div".toList ++ (classAttr c ++ '>' :: '{' :: (z ++ '}' :: "</div>".toList)) := by
    intro prev
    obtain ⟨g, hg⟩ := htmlRe_at_tag prev ("div".toList ++ '>' :: '{' :: (z ++ '}' :: "</div>".toList))
      "div".toList 3 (by decide) (List.prefix_append _ _)
      (index_char_append '>' "div".toList _ (by decide))
    have hF : injectClassInline L c "<div>".toList = "<div".toList ++ (classAttr c ++ ['>']) := by
      rfl
    have hrun := replaceAllAux_run (m := htmlRe) (f := fun mt _ => injectClassInline L c mt)
      ('}' :: "</div>".toList) ('{' :: z) (some '>')
      (fun ch hc p s => htmlRe_head ch (by
        rcases List.mem_cons.mp hc with rfl | hc
        · decide
        · exact fun e => hlt (e ▸ hc)) p s)
    have hend : ∀ p, replaceAllAux htmlRe (fun mt _ => injectClassInline L c mt) p 0
        ('}' :: "</div>".toList) = '}' :: "</div>".toList := by
      intro p
      simp [replaceAllAux, htmlRe, tagNames]
    rw [hend] at hrun
    have h5 : ("<div>".toList ++ ('{' :: (z ++ '}' :: "</div>".toList))).take (3 + 2) =
        "<div>".toList := rfl
    have h6 : ("<div>".toList ++ ('{' :: (z ++ '}' :: "</div>".toList))).drop (3 + 2) =
        '{' :: (z ++ '}' :: "</div>".toList) := rfl
    have hS2 : "<div>".toList ++ ('{' :: (z ++ '}' :: "</div>".toList)) =
        '<' :: ("div".toList ++ '>' :: '{' :: (z ++ '}' :: "</div>".toList)) := rfl
    rw [hS2] at h5 h6 ⊢
    rw [replaceAllAux_match' (m := htmlRe) (n := 3 + 2) (g := g) hg (by omega) (by simp), h5, h6]
    simp only [hF]
    have hrun' : replaceAllAux htmlRe (fun mt _ => injectClassInline L c mt)
        (lastOr prev "<div>".toList) 0 ('{' :: (z ++ '}' :: "</div>".toList)) =
        '{' :: (z ++ '}' :: "</div>".toList) := hrun
    rw [hrun']
    simp
  refine ⟨replaceAllAux htmlRe (fun mt _ => injectClassInline L c mt) none 0
      ((t ++ "</script".toList) ++ ['>']), ?_⟩
  rw [replaceAllFunc, hsplit, replaceAllAux_append _ _ _ 0 none (Nat.zero_le _), hdiv]
  intro x p hx hsuf
  obtain ⟨x', rfl⟩ := suffix_concat_cases hsuf hx
  exact htmlRe_append x' _ p

/-! ## The script block in front of the markup -/

theorem findAllAux_skip (m : Matcher) :
    ∀ (s : Str) (k : Nat) (prev : Option Char),
      findAllAux m prev k s = findAllAux m (lastOr prev (s.take k)) 0 (s.drop k)
  | [], k, prev => by cases k <;> simp [findAllAux, lastOr]
  | ch :: t, 0, prev => by simp [lastOr]
  | ch :: t, k + 1, prev => by
    rw [findAllAux, findAllAux_skip m t k (some ch)]
    simp [lastOr]

theorem findAllAux_match {m : Matcher} {prev : Option Char} {s : Str} {n : Nat} {g : List Str}
    (h : m prev s = some (n, g)) (hn : 0 < n) (hs : s ≠ []) :
    findAllAux m prev 0 s =
      (s.take n :: g) :: findAllAux m (lastOr prev (s.take n)) 0 (s.drop n) := by
  obtain ⟨k, rfl⟩ : ∃ k, n = k + 1 := ⟨n - 1, by omega⟩
  cases s with
  | nil => exact absurd rfl hs
  | cons ch t =>
    rw [findAllAux, h]
    simp only []
    rw [findAllAux_skip m t k (some ch)]
    simp [lastOr]

theorem findAllAux_run {m : Matcher} (rest : Str) :
    ∀ (w : Str) (prev : Option Char), (∀ ch ∈ w, ∀ p s, m p (ch :: s) = none) →
      findAllAux m prev 0 (w ++ rest) = findAllAux m (lastOr prev w) 0 rest
  | [], _, _ => rfl
  | a :: w, prev, h => by
    rw [List.cons_append, findAllAux, h a (by simp) prev _]
    simp only []
    rw [findAllAux_run rest w (some a) (fun ch hc => h ch (by simp [hc]))]
    rfl

/-- The first occurrence of `sub` in `s ++ sub ++ rest` is the one after `s`
when `s` holds none and the first character of `sub` does not come back in
`sub`. -/
theorem index_append_first (h : Char) (t rest : Str) (ht : h ∉ t) : ∀ s : Str,
    index (h :: t) s = none → index (h :: t) (s ++ ((h :: t) ++ rest)) = some s.length
  | [], _ => by simpa using index_at_start (h :: t) ((h :: t) ++ rest) (List.prefix_append _ _)
  | a :: s, hs => by
    simp only [index] at hs
    split at hs
    · simp at hs
    · rename_i hp
      have hs' : index (h :: t) s = none := by
        cases hi : index (h :: t) s with
        | none => rfl
        | some i => simp [hi] at hs
      have hsep := prefix_append_sep h (t ++ rest) (h :: t) (a :: s) (by simpa using ht) (by simp)
      have hb : (h :: t).isPrefixOf (a :: (s ++ ((h :: t) ++ rest))) = false := by
        apply Bool.eq_false_iff.mpr
        intro hq
        apply hp
        rw [List.isPrefixOf_iff_prefix] at hq ⊢
        exact hsep.mp (by simpa using hq)
      rw [List.cons_append, index, hb, index_append_first h t rest ht s hs']
      simp

/-- Replacing the first occurrence of `old` leaves the text after an
occurrence of `old` in place. -/
theorem replaceFirst_tail (old new b : Str) : ∀ a : Str,
    ∃ t, replaceFirst old new (a ++ (old ++ b)) = t ++ b
  | [] => by
    cases hob : old ++ b with
    | nil =>
      have h1 : old = [] := by
        cases old with
        | nil => rfl
        | cons x o => simp at hob
      have h2 : b = [] := by simpa [h1] using hob
      exact ⟨new, by simp [replaceFirst, h1, h2]⟩
    | cons x r =>
      have hp : old <+: x :: r := hob ▸ List.prefix_append old b
      refine ⟨new, ?_⟩
      rw [List.nil_append, replaceFirst, if_pos (List.isPrefixOf_iff_prefix.mpr hp), ← hob,
        List.drop_left]
  | x :: a => by
    by_cases hp : old <+: x :: (a ++ (old ++ b))
    · refine ⟨new ++ ((x :: a) ++ old).drop old.length, ?_⟩
      rw [List.cons_append, replaceFirst, if_pos (List.isPrefixOf_iff_prefix.mpr hp)]
      have : x :: (a ++ (old ++ b)) = ((x :: a) ++ old) ++ b := by simp
      rw [this, List.drop_append_of_le_length (by simp; omega), List.append_assoc]
    · obtain ⟨t, ht⟩ := replaceFirst_tail old new b a
      refine ⟨x :: t, ?_⟩
      rw [List.cons_append, replaceFirst, if_neg (fun h => hp (List.isPrefixOf_iff_prefix.mp h)),
        ht]
      rfl

theorem newNameOf_word {c x : Str} (hc : ∀ ch ∈ c, isWordChar ch = true)
    (hx : ∀ ch ∈ x, isWordChar ch = true) : ∀ ch ∈ newNameOf c x, isWordChar ch = true := by
  intro ch h
  simp only [newNameOf, List.mem_append, List.mem_cons] at h
  rcases h with h | rfl | h
  · exact hc ch h
  · decide
  · exact hx ch h

/-- The scripts of a component that is one script block followed by the
markup `<div>{x}</div>`. -/
theorem findAllSubmatch_single_script (s x : Str)
    (hs : index "</script>".toList s = none) (hx : ∀ ch ∈ x, isWordChar ch = true) :
    ∃ m0, findAllSubmatch scriptRe ("<script>".toList ++ (s ++ markupTail x)) = [[m0, s]] := by
  have hlt : '<' ∉ x := word_not_mem hx '<' (by decide)
  have hi := index_append_first '<' "/script>".toList
    ("<div>".toList ++ ('{' :: (x ++ '}' :: "</div>".toList))) (by decide) s hs
  have htail : markupTail x = "</script>".toList ++
      ("<div>".toList ++ ('{' :: (x ++ '}' :: "</div>".toList))) := by simp [markupTail]
  have hm : scriptRe none ("<script>".toList ++ (s ++ markupTail x)) =
      some (8 + s.length + 9, [s]) := by
    rw [htail]
    simp only [scriptRe, blockRe]
    rw [if_pos (by simp), List.drop_left]
    have : ("</script>".toList : Str) = '<' :: "/script>".toList := rfl
    rw [this, hi]
    simp
  have hrest : ∀ p, findAllAux scriptRe p 0 ("<div>".toList ++ ('{' :: (x ++ '}' :: "</div>".toList)))
      = [] := by
    intro p
    have hrun := findAllAux_run (m := scriptRe) ('}' :: "</div>".toList) x (some '{')
      (fun ch hc p s => blockRe_head _ _ '<' "script>".toList rfl ch
        (fun e => hlt (e ▸ hc)) p s)
    simp [scriptRe] at hrun
    simp [findAllAux, scriptRe, hrun]
    simp [blockRe]
  refine ⟨("<script>".toList ++ (s ++ markupTail x)).take (8 + s.length + 9), ?_⟩
  rw [findAllSubmatch, findAllAux_match hm (by omega) (by simp)]
  have hd : ("<script>".toList ++ (s ++ markupTail x)).drop (8 + s.length + 9) =
      "<div>".toList ++ ('{' :: (x ++ '}' :: "</div>".toList)) := by
    rw [htail, show "<script>".toList ++ (s ++ ("</script>".toList ++
        ("<div>".toList ++ ('{' :: (x ++ '}' :: "</div>".toList))))) =
        ("<script>".toList ++ s ++ "</script>".toList) ++
        ("<div>".toList ++ ('{' :: (x ++ '}' :: "</div>".toList))) by simp,
      show 8 + s.length + 9 = ("<script>".toList ++ s ++ "</script>".toList).length by
        simp; omega,
      List.drop_left]
  rw [hd, hrest]

/-- The markup of a one-script component with the markup `<div>{x}</div>`:
the element receives the class and the reference the prefixed name. -/
theorem processComponent_reference (L : GoLib) (os : Nat → MapOrder) (ro : MapOrder)
    (hro : ro.Valid) (s c x : Str) (hc : ∀ ch ∈ c, isWordChar ch = true)
    (hs : index "</script>".toList s = none) (hx : x ∈ declaredNames s)
    (hclash : newNameOf c x ∉ declaredNames s) :
    ∃ pre, processComponent L os ro ("<script>".toList ++ (s ++ markupTail x)) c =
      (pre ++ ("<div".toList ++ (classAttr c ++
        '>' :: '{' :: (newNameOf c x ++ '}' :: "</div>".toList))), none) := by
  have hxw := (declaredNames_word hx).2
  obtain ⟨m0, hscripts⟩ := findAllSubmatch_single_script s x hs hxw
  obtain ⟨t1, ht1⟩ := replaceFirst_tail s (renameIdentifiers L (os 0) s c).1 (markupTail x)
    "<script>".toList
  have hmap : (renameIdentifiers L (os 0) s c).2 = buildVarMap s c := rfl
  have hperm := (hro (buildVarMap s c)).2.2.2
  have hgood : ∀ e ∈ ro.refs (buildVarMap s c),
      (∀ ch ∈ e.1, isWordChar ch = true) ∧ ∀ ch ∈ e.2, isWordChar ch = true := by
    intro e he
    have hmem := buildVarMap_entries (hperm.subset he)
    have h1 := (declaredNames_word hmem.1).2
    exact ⟨h1, by rw [hmem.2]; exact newNameOf_word hc h1⟩
  obtain ⟨t2, ht2⟩ := foldl_updateRefs_markupTail L (ro.refs (buildVarMap s c)) t1 x hgood hxw
  have hname : (ro.refs (buildVarMap s c)).foldl refName x = newNameOf c x := by
    apply foldl_refName_declared c x
    · exact fun e he => (buildVarMap_entries (hperm.subset he)).2
    · obtain ⟨e, he, hex⟩ := buildVarMap_keys (c := c) hx
      exact ⟨e, hperm.symm.subset he, hex⟩
    · intro e he heq
      exact hclash (heq ▸ (buildVarMap_entries (hperm.subset he)).1)
  rw [hname] at ht2
  have hnw := newNameOf_word hc hxw
  obtain ⟨t3, ht3⟩ := scopeStylesInline_markupTail c t2 (newNameOf c x) hnw
  obtain ⟨t4, ht4⟩ := injectInline_markupTail L c t3 (newNameOf c x) hnw
  refine ⟨t4, ?_⟩
  unfold processComponent
  rw [hscripts]
  simp only [renameScripts]
  have hg : ([m0, s] : List Str).getD 1 [] = s := rfl
  rw [hg, hmap, ht1]
  rw [ht2, ht3, ht4]

/-! ## What the callbacks of a scan receive -/

/-- Two callbacks that agree on every match the expression can report give
the same rewriting. -/
theorem replaceAllAux_congr {m : Matcher} {f f' : Str → List Str → Str}
    (h : ∀ p s n g, m p s = some (n, g) → f (s.take n) g = f' (s.take n) g) :
    ∀ (s : Str) (k : Nat) (prev : Option Char),
      replaceAllAux m f prev k s = replaceAllAux m f' prev k s
  | [], _, _ => by simp [replaceAllAux]
  | ch :: t, k + 1, prev => by
    rw [replaceAllAux, replaceAllAux, replaceAllAux_congr h t k (some ch)]
  | ch :: t, 0, prev => by
    rw [replaceAllAux, replaceAllAux]
    cases hm : m prev (ch :: t) with
    | none => simp only []; rw [replaceAllAux_congr h t 0 (some ch)]
    | some r =>
      obtain ⟨n, g⟩ := r
      cases n with
      | zero => simp only []; rw [replaceAllAux_congr h t 0 (some ch)]
      | succ n =>
        simp only []
        rw [h prev (ch :: t) (n + 1) g hm, replaceAllAux_congr h t n (some ch)]

/-- The position reported by `index` for a single character splits the text
there. -/
theorem index_char_split (ch : Char) : ∀ (r : Str) (i : Nat), index [ch] r = some i →
    ∃ a b, r = a ++ ch :: b ∧ a.length = i ∧ ch ∉ a
  | [], i, h => by simp [index] at h
  | x :: r, i, h => by
    by_cases hx : ch = x
    · subst hx
      simp [index] at h
      exact ⟨[], r, rfl, by simpa using h, by simp⟩
    · simp only [index, List.isPrefixOf_iff_prefix] at h
      have hp : ¬ [ch] <+: x :: r := by
        simp [List.cons_prefix_cons, hx]
      rw [if_neg hp] at h
      cases hr : index [ch] r with
      | none => simp [hr] at h
      | some j =>
        simp [hr] at h
        obtain ⟨a, b, hab, hl, hn⟩ := index_char_split ch r j hr
        refine ⟨x :: a, b, by simp [hab], by simp [hl, h], ?_⟩
        simp only [List.mem_cons, not_or]
        exact ⟨hx, hn⟩

/-- The shape of a match of the tag expression: `<`, a listed name, a run
without `>`, and the closing `>`. -/
theorem htmlRe_shape {p : Option Char} {s : Str} {n : Nat} {g : List Str}
    (h : htmlRe p s = some (n, g)) :
    ∃ nm a, nm ∈ tagNames ∧ '>' ∉ a ∧ s.take n = '<' :: (nm ++ a) ++ ['>'] ∧
      n = (nm ++ a).length + 2 := by
  unfold htmlRe at h
  split at h
  · rename_i hh
    obtain ⟨nm, hnm, hf⟩ := List.exists_of_findSome?_eq_some h
    split at hf
    · rename_i hp
      cases hi : index ['>'] (s.tail.drop nm.length) with
      | none => dsimp only at hf; rw [hi] at hf; simp at hf
      | some i =>
        dsimp only at hf
        rw [hi] at hf
        simp only [Option.some.injEq, Prod.mk.injEq] at hf
        obtain ⟨a, b, hab, hl, hn⟩ := index_char_split '>' _ i hi
        obtain ⟨t, ht⟩ := List.isPrefixOf_iff_prefix.mp hp
        have hs : s = '<' :: (nm ++ (a ++ '>' :: b)) := by
          cases s with
          | nil => simp at hh
          | cons x s =>
            simp at hh; subst hh
            simp only [List.tail_cons] at ht hab
            rw [← ht, List.drop_left] at hab
            rw [← ht, hab]
        refine ⟨nm, a, hnm, hn, ?_, ?_⟩
        · rw [hs, ← hf.1]
          have : 1 + nm.length + i + 1 = ('<' :: (nm ++ a) ++ ['>']).length := by
            simp [hl]; omega
          rw [this]
          have e : '<' :: (nm ++ (a ++ '>' :: b)) = ('<' :: (nm ++ a) ++ ['>']) ++ b := by simp
          rw [e, List.take_left]
        · rw [← hf.1]; simp [hl]; omega
    · simp at hf
  · simp at h

/-- On a match of the tag expression the first and the last `>` are the
same: the closing one. -/
theorem htmlRe_first_last {p : Option Char} {s : Str} {n : Nat} {g : List Str}
    (h : htmlRe p s = some (n, g)) :
    index ['>'] (s.take n) = some (n - 1) ∧ lastIndex ['>'] (s.take n) = some (n - 1) := by
  obtain ⟨nm, a, hnm, ha, hs, hn⟩ := htmlRe_shape h
  have hno : '>' ∉ '<' :: (nm ++ a) := by
    simp only [List.mem_cons, List.mem_append, not_or]
    exact ⟨by decide, tagNames_no_gt nm hnm, ha⟩
  rw [hs]
  constructor
  · rw [index_char_append '>' _ [] hno]; simp [hn]
  · rw [lastIndex_char_append '>' [] (by simp)]; simp [hn]

/-! ## The loops of `AutoParse` -/

/-- The loop over the files consults the surroundings for file contents only. -/
theorem autoParseFiles_congr (L : GoLib) (W W' : World) (os : Nat → Nat → MapOrder)
    (h : W'.readFile = W.readFile) :
    ∀ (files : List (Str × Bool)) (i : Nat) (st : Collected),
      autoParseFiles L W' os files i st = autoParseFiles L W os files i st
  | [], _, _ => rfl
  | file :: rest, i, st => by
    simp only [autoParseFiles, h]
    split
    · exact autoParseFiles_congr L W W' os h rest _ _
    · cases hr : W.readFile ("./src/".toList ++ file.1) with
      | error err => rfl
      | ok content => exact autoParseFiles_congr L W W' os h rest _ _

/-- The loop over the files ends with the error of the first file that cannot
be read. -/
theorem autoParseFiles_read_error (L : GoLib) (W : World) (os : Nat → Nat → MapOrder)
    (e name : Str) (post : List (Str × Bool))
    (hname : W.readFile ("./src/".toList ++ name) = .error e) :
    ∀ (pre : List (Str × Bool)) (i : Nat) (st : Collected),
      (∀ f ∈ pre, f.2 = false → ∃ content, W.readFile ("./src/".toList ++ f.1) = .ok content) →
      autoParseFiles L W os (pre ++ (name, false) :: post) i st = .error e
  | [], i, st, _ => by
    rw [List.nil_append, autoParseFiles]
    simp only [Bool.false_eq_true, if_false]
    rw [hname]
  | f :: pre, i, st, h => by
    have ih := fun st' => autoParseFiles_read_error L W os e name post hname pre (i + 1) st'
      (fun g hg => h g (by simp [hg]))
    rw [List.cons_append, autoParseFiles]
    by_cases hd : f.2 = true
    · simp only [hd, if_true]; exact ih st
    · have hd' : f.2 = false := by simpa using hd
      obtain ⟨content, hc⟩ := h f (by simp) hd'
      simp only [hd', Bool.false_eq_true, if_false, hc]
      exact ih _

/-- The registration loop ends with the error of the first template that
does not parse. -/
theorem registerAll_error (W : World) (e nm body : Str) (post : List (Str × Str))
    (hbad : W.tmplParse nm body = .error e) :
    ∀ pre : List (Str × Str), (∀ q ∈ pre, W.tmplParse q.1 q.2 = .ok ()) →
      registerAll W (pre ++ (nm, body) :: post) = .error e
  | [], _ => by simp [registerAll, hbad]
  | q :: pre, h => by
    rw [List.cons_append, registerAll, h q (by simp)]
    exact registerAll_error W e nm body post hbad pre (fun r hr => h r (by simp [hr]))

/-- The registration loop does not consult the compiler. -/
theorem registerAll_withCompiler (W : World) (p : Str → Except Str Str) :
    ∀ l : List (Str × Str), registerAll (withCompiler W p) l = registerAll W l
  | [] => rfl
  | q :: l => by
    simp only [registerAll, withCompiler]
    cases W.tmplParse q.1 q.2 with
    | error err => rfl
    | ok u => exact registerAll_withCompiler W p l

/-- The steps of `AutoParse` before the compiler call do not depend on the
compiler. -/
theorem AutoParse_withCompiler (L : GoLib) (W : World) (os : Nat → Nat → MapOrder)
    (regOrder : List (Str × Str) → List (Str × Str)) (p : Str → Except Str Str) :
    AutoParse L (withCompiler W p) os regOrder =
      match W.readDir with
      | .error e => .error e
      | .ok files =>
        match autoParseFiles L W os files 0 ⟨[], [], []⟩ with
        | .error e => .error e
        | .ok st =>
          match registerAll W (regOrder st.components) with
          | .error e => .error e
          | .ok _ =>
            match W.tmplExecute (regOrder st.components) with
            | .error e => .error e
            | .ok rendered => p (finalContent st.allScripts st.allStyles (cleanMerged L rendered)) := by
  unfold AutoParse
  have h1 : (withCompiler W p).readDir = W.readDir := rfl
  have h2 : (withCompiler W p).tmplExecute = W.tmplExecute := rfl
  have h3 : (withCompiler W p).parseSvelte = p := rfl
  rw [h1, h2, h3]
  cases W.readDir with
  | error e => rfl
  | ok files =>
    simp only []
    rw [autoParseFiles_congr L W (withCompiler W p) os rfl]
    cases autoParseFiles L W os files 0 ⟨[], [], []⟩ with
    | error e => rfl
    | ok st =>
      simp only []
      rw [registerAll_withCompiler]

/-! ## Where the declarations of a script stand -/

/-- Every match collected by the scan stands at a position of the text, after
the part `pre` already passed. -/
theorem findAllAux_mem_pos {m : Matcher} {mt : List Str} :
    ∀ (s : Str) (k : Nat) (p : Option Char), mt ∈ findAllAux m p k s →
      ∃ pre suf n g, s = pre ++ suf ∧ m (lastOr p pre) suf = some (n + 1, g) ∧
        mt = suf.take (n + 1) :: g
  | [], k, p, h => by cases k <;> simp [findAllAux] at h
  | a :: s, k + 1, p, h => by
    rw [findAllAux] at h
    obtain ⟨pre, suf, n, g, hs, hm, hmt⟩ := findAllAux_mem_pos s k (some a) h
    exact ⟨a :: pre, suf, n, g, by simp [hs], hm, hmt⟩
  | a :: s, 0, p, h => by
    rw [findAllAux] at h
    split at h
    · rename_i n g hm
      rcases List.mem_cons.mp h with rfl | h
      · exact ⟨[], a :: s, n, g, rfl, hm, rfl⟩
      · obtain ⟨pre, suf, n', g', hs, hm', hmt⟩ := findAllAux_mem_pos s n (some a) h
        exact ⟨a :: pre, suf, n', g', by simp [hs], hm', hmt⟩
    · obtain ⟨pre, suf, n', g', hs, hm', hmt⟩ := findAllAux_mem_pos s 0 (some a) h
      exact ⟨a :: pre, suf, n', g', by simp [hs], hm', hmt⟩

theorem headIs_dropWhile (p : Char → Bool) : ∀ s : Str, headIs p (s.dropWhile p) = false
  | [] => rfl
  | a :: s => by
    by_cases h : p a = true
    · simp only [List.dropWhile, h]; exact headIs_dropWhile p s
    · simp only [List.dropWhile, h, headIs]

theorem drop_length_takeWhile (p : Char → Bool) : ∀ s : Str,
    s.drop (s.takeWhile p).length = s.dropWhile p
  | [] => rfl
  | a :: s => by
    by_cases h : p a = true
    · simp [List.takeWhile, List.dropWhile, h, drop_length_takeWhile p s]
    · simp [List.takeWhile, List.dropWhile, h]

theorem headIs_takeWhile {p q : Char → Bool} (hpq : ∀ ch, p ch = true → q ch = true) :
    ∀ s : Str, headIs p s = true → headIs p (s.takeWhile q) = true
  | [], h => by simp [headIs] at h
  | a :: s, h => by
    simp only [headIs] at h
    simp [List.takeWhile, hpq a h, headIs, h]

/-- The shape of a declaration match: not after a word character, a keyword,
a non-empty run of white space, and an identifier that ends at a word
boundary. -/
theorem declRe_shape {p : Option Char} {s : Str} {n : Nat} {g : List Str}
    (h : declRe p s = some (n, g)) :
    prevIsWord p = false ∧
    ∃ kw ws name rest, s = kw ++ (ws ++ (name ++ rest)) ∧ kw ∈ declKeywords ∧
      ws ≠ [] ∧ (∀ ch ∈ ws, isReSpace ch = true) ∧
      headIs isIdentStart name = true ∧ (∀ ch ∈ name, isWordChar ch = true) ∧
      headIs isWordChar rest = false ∧ g = [kw, name] ∧
      n = kw.length + ws.length + name.length := by
  simp only [declRe] at h
  split at h
  · simp at h
  · rename_i hp
    refine ⟨by simpa using hp, ?_⟩
    obtain ⟨kw, hmem, hkw⟩ := List.exists_of_findSome?_eq_some h
    split at hkw
    · rename_i hpre
      split at hkw
      · rename_i hc
        simp only [Option.some.injEq, Prod.mk.injEq] at hkw
        simp only [Bool.and_eq_true] at hc
        obtain ⟨r, hr⟩ := List.isPrefixOf_iff_prefix.mp hpre
        subst hr
        rw [List.drop_left] at hkw hc
        rw [drop_length_takeWhile] at hkw hc
        refine ⟨kw, r.takeWhile isReSpace, (r.dropWhile isReSpace).takeWhile isWordChar,
          (r.dropWhile isReSpace).dropWhile isWordChar, ?_, hmem, ?_, ?_, ?_, ?_, ?_,
          hkw.2.symm, hkw.1.symm⟩
        · rw [List.takeWhile_append_dropWhile, List.takeWhile_append_dropWhile]
        · intro he
          rw [he] at hc
          simp at hc
        · intro ch hch
          exact List.mem_takeWhile_imp hch
        · exact headIs_takeWhile (fun ch => isWordChar_of_identStart) _ hc.2
        · intro ch hch
          exact List.mem_takeWhile_imp hch
        · exact headIs_dropWhile _ _
      · simp at hkw
    · simp at hkw

theorem mapInsert_keys_nodup {m : List (Str × Str)} (k v : Str)
    (h : (m.map Prod.fst).Nodup) : ((mapInsert m k v).map Prod.fst).Nodup := by
  simp only [mapInsert]
  split
  · have : (m.map fun e => if (e.1 == k) = true then (k, v) else e).map Prod.fst =
        m.map Prod.fst := by
      rw [List.map_map]
      apply List.map_congr_left
      intro e _
      by_cases he : (e.1 == k) = true
      · simp [(beq_iff_eq.mp he)]
      · have he' : e.1 ≠ k := fun e' => he (beq_iff_eq.mpr e')
        simp [he']
    rw [this]; exact h
  · rename_i hk
    rw [List.map_append, List.nodup_append]
    refine ⟨h, by simp, ?_⟩
    simp only [List.any_eq_true, not_exists, not_and] at hk
    intro a ha hb
    simp at hb
    subst hb
    obtain ⟨e, he, rfl⟩ := List.mem_map.mp ha
    exact hk e he (by simp)

theorem buildVarMap_nodup (s c : Str) : ((buildVarMap s c).map Prod.fst).Nodup := by
  rw [buildVarMap_eq]
  generalize declaredNames s = names
  suffices h : ∀ (names : List Str) (vm : List (Str × Str)), (vm.map Prod.fst).Nodup →
      ((names.foldl (fun vm n => mapInsert vm n (newNameOf c n)) vm).map Prod.fst).Nodup from
    h names [] (by simp)
  intro names
  induction names with
  | nil => intro vm h; exact h
  | cons n names ih => intro vm h; exact ih _ (mapInsert_keys_nodup _ _ h)

/-- Every declared name stands in the script after a keyword and white
space, between two word boundaries. -/
theorem declaredNames_position {s k : Str} (h : k ∈ declaredNames s) :
    ∃ pre kw ws post, s = pre ++ (kw ++ (ws ++ (k ++ post))) ∧ kw ∈ declKeywords ∧
      ws ≠ [] ∧ (∀ ch ∈ ws, isReSpace ch = true) ∧
      headIs isIdentStart k = true ∧ (∀ ch ∈ k, isWordChar ch = true) ∧
      prevIsWord (lastOr none pre) = false ∧ headIs isWordChar post = false := by
  simp only [declaredNames, List.mem_map] at h
  obtain ⟨mt, hmt, rfl⟩ := h
  obtain ⟨pre, suf, n, g, hs, hm, rfl⟩ := findAllAux_mem_pos s 0 none hmt
  obtain ⟨hp, kw, ws, name, rest, hsuf, hkw, hws, hwsp, hid, hw, hrest, rfl, _⟩ := declRe_shape hm
  exact ⟨pre, kw, ws, rest, by rw [hs, hsuf]; rfl, hkw, hws, hwsp, hid, hw, hp, hrest⟩

/-! ## The checked steps never fail -/

/-- A checked callback that succeeds on every match the expression can report
makes the checked scan succeed, with the result of the plain scan. -/
theorem replaceAllAuxChecked_total {m : Matcher} {f : Str → List Str → Str}
    {f' : Str → List Str → Option Str}
    (h : ∀ p s n g, m p s = some (n + 1, g) → s ≠ [] →
      f' (s.take (n + 1)) g = some (f (s.take (n + 1)) g)) :
    ∀ (s : Str) (k : Nat) (prev : Option Char),
      replaceAllAuxChecked m f' prev k s = some (replaceAllAux m f prev k s)
  | [], _, _ => by simp [replaceAllAux, replaceAllAuxChecked]
  | ch :: t, k + 1, prev => by
    rw [replaceAllAux, replaceAllAuxChecked, replaceAllAuxChecked_total h t k (some ch)]
  | ch :: t, 0, prev => by
    rw [replaceAllAux, replaceAllAuxChecked]
    cases hm : m prev (ch :: t) with
    | none => simp only []; rw [replaceAllAuxChecked_total h t 0 (some ch)]
    | some r =>
      obtain ⟨n, g⟩ := r
      cases n with
      | zero => simp only []; rw [replaceAllAuxChecked_total h t 0 (some ch)]
      | succ n =>
        simp only []
        rw [h prev (ch :: t) n g hm (by simp), replaceAllAuxChecked_total h t n (some ch)]

/-- A checked loop whose body succeeds on every element of the list is the
plain loop. -/
theorem foldChecked_total {α β : Type} {f : β → α → β} {f' : β → α → Option β} :
    ∀ (l : List α) (b : β), (∀ a ∈ l, ∀ b, f' b a = some (f b a)) →
      foldChecked f' l b = some (l.foldl f b)
  | [], _, _ => rfl
  | a :: l, b, h => by
    rw [foldChecked, h a (by simp) b]
    exact foldChecked_total l (f b a) (fun x hx => h x (by simp [hx]))

/-- Every declaration match has its two groups: `match[2]` is in range. -/
theorem buildVarMapChecked_total (s c : Str) :
    buildVarMapChecked s c = some (buildVarMap s c) := by
  unfold buildVarMapChecked buildVarMap
  apply foldChecked_total
  intro mt hmt vm
  obtain ⟨p', s', k, g, hm, rfl⟩ := findAllAux_mem s 0 none hmt
  obtain ⟨kw, name, rfl, _, _⟩ := declRe_groups hm
  rfl

theorem compileWord_word {name : Str} (hne : name ≠ [])
    (hw : ∀ ch ∈ name, isWordChar ch = true) : compileWord name = some (wordRe name) := by
  unfold compileWord
  rw [if_pos ⟨hne, List.all_eq_true.mpr hw⟩]

/-- The pattern built from a key of the identifier map is valid. -/
theorem renameWordChecked_total (L : GoLib) {s c : Str} {e : Str × Str}
    (he : e ∈ buildVarMap s c) (text : Str) :
    renameWordChecked L text e = some (renameWord L text e) := by
  obtain ⟨hne, hw⟩ := declaredNames_word (buildVarMap_entries he).1
  unfold renameWordChecked
  rw [compileWord_word hne hw]
  rfl

theorem renameIdentifiersChecked_total (L : GoLib) (o : MapOrder) (ho : o.Valid) (s c : Str) :
    renameIdentifiersChecked L o s c = some (renameIdentifiers L o s c) := by
  unfold renameIdentifiersChecked renameIdentifiers
  rw [buildVarMapChecked_total]
  simp only []
  obtain ⟨hv, _, hi, _⟩ := ho (buildVarMap s c)
  rw [foldChecked_total (f := renameWord L) _ _
    (fun a ha b => renameWordChecked_total L (hv.subset ha) b)]
  simp only []
  rw [foldChecked_total
    (f := fun acc e => replaceAll e.1 ((o.inner e.1 (buildVarMap s c)).foldl (renameWord L) e.2) acc)]
  intro e _ acc
  rw [foldChecked_total (f := renameWord L) _ _
    (fun a ha b => renameWordChecked_total L ((hi e.1).subset ha) b)]

theorem index_prefix_at (sub : Str) : ∀ (r : Str) (i : Nat), index sub r = some i →
    sub <+: r.drop i
  | [], i, h => by
    simp only [index] at h
    split at h
    · rename_i hp
      simp at h; subst h
      simpa using hp
    · simp at h
  | a :: r, i, h => by
    simp only [index] at h
    split at h
    · rename_i hp
      simp at h; subst h
      simpa using hp
    · cases hr : index sub r with
      | none => simp [hr] at h
      | some j =>
        simp [hr] at h; subst h
        simpa using index_prefix_at sub r j hr

/-- A block match has one group, and the matched text is the opening tag, the
body and the closing tag. -/
theorem blockRe_shape {opening closing : Str} {p : Option Char} {s : Str} {n : Nat}
    {g : List Str} (h : blockRe opening closing p s = some (n, g)) :
    ∃ body rest, g = [body] ∧ s = opening ++ (body ++ (closing ++ rest)) ∧
      n = opening.length + body.length + closing.length ∧
      index closing (body ++ (closing ++ rest)) = some body.length := by
  unfold blockRe at h
  split at h
  · rename_i hp
    obtain ⟨r, hr⟩ := List.isPrefixOf_iff_prefix.mp hp
    subst hr
    rw [List.drop_left] at h
    cases hi : index closing r with
    | none => simp [hi] at h
    | some i =>
      simp only [hi, Option.some.injEq, Prod.mk.injEq] at h
      have hb := index_bound closing r i hi
      have hpre : closing <+: r.drop i := index_prefix_at closing r i hi
      obtain ⟨rest, hrest⟩ := hpre
      have hr : r = r.take i ++ (closing ++ rest) := by
        rw [hrest, List.take_append_drop]
      have hl : (r.take i).length = i := by
        rw [List.length_take]; omega
      refine ⟨r.take i, rest, h.2.symm, by rw [← hr], by rw [hl]; exact h.1.symm, ?_⟩
      rw [← hr, hl, hi]
  · simp at h

/-- Every script match has its group: `script[1]` is in range. -/
theorem findAll_blockRe_groups (opening closing : Str) {s : Str} {mt : List Str}
    (h : mt ∈ findAllSubmatch (blockRe opening closing) s) :
    mt.get? 1 = some (mt.getD 1 []) := by
  obtain ⟨p', s', k, g, hm, rfl⟩ := findAllAux_mem s 0 none h
  obtain ⟨body, rest, rfl, _⟩ := blockRe_shape hm
  rfl

theorem renameScriptsChecked_total (L : GoLib) (os : Nat → MapOrder) (hos : ∀ j, (os j).Valid)
    (c : Str) : ∀ (scripts : List (List Str)) (j : Nat) (st : Str × Option (List (Str × Str))),
      (∀ mt ∈ scripts, mt.get? 1 = some (mt.getD 1 [])) →
      renameScriptsChecked L os c scripts j st = some (renameScripts L os c scripts j st)
  | [], _, _, _ => rfl
  | script :: rest, j, st, h => by
    rw [renameScriptsChecked, h script (by simp)]
    simp only []
    rw [renameIdentifiersChecked_total L (os j) (hos j)]
    simp only []
    rw [renameScriptsChecked_total L os hos c rest (j + 1) _ (fun mt hmt => h mt (by simp [hmt]))]
    rfl

/-- The two patterns built from a key of the identifier map are valid. -/
theorem updateRefsChecked_total (L : GoLib) {s c : Str} {e : Str × Str}
    (he : e ∈ buildVarMap s c) (text : Str) :
    updateRefsChecked L text e = some (updateRefs L text e) := by
  obtain ⟨_, _, _, _, _, _, _, _, hid, hw, _, _⟩ :=
    declaredNames_position (buildVarMap_entries he).1
  have hc : headIs isIdentStart e.1 = true ∧ e.1.all isWordChar = true :=
    ⟨hid, List.all_eq_true.mpr hw⟩
  have e1 : "on:click=".toList ++ '{' :: e.1 ++ ['}'] = "on:click=\x7b".toList ++ e.1 ++ ['}'] := by
    simp
  unfold updateRefsChecked compileRef
  rw [if_pos hc, if_pos hc, e1]
  rfl

/-- The selector cut `selector[:len(selector)-1]` is in range on a non-empty
match. -/
theorem scopeSelectorInlineChecked_total (c sel : Str) (h : sel ≠ []) :
    scopeSelectorInlineChecked c sel = some (scopeSelectorInline c sel) := by
  have hl : 0 < sel.length := List.length_pos.mpr h
  have hs : sliceTo sel ((sel.length : Int) - 1) = some sel.dropLast := by
    unfold sliceTo
    rw [if_pos (by omega)]
    have : ((sel.length : Int) - 1).toNat = sel.length - 1 := by omega
    rw [this, List.dropLast_eq_take]
  unfold scopeSelectorInlineChecked scopeSelectorInline
  rw [hs]

theorem take_ne_nil {s : Str} (hs : s ≠ []) (n : Nat) : s.take (n + 1) ≠ [] := by
  cases s with
  | nil => exact absurd rfl hs
  | cons a t => simp

/-- On a style match the expression matches again, from its first
character: `FindStringSubmatch(match)[1]` is in range. -/
theorem styleRe_rematch {p : Option Char} {s : Str} {n : Nat} {g : List Str}
    (h : styleRe p s = some (n, g)) :
    (findStringSubmatch styleRe (s.take n)).get? 1 =
      some ((findStringSubmatch styleRe (s.take n)).getD 1 []) := by
  obtain ⟨body, rest, rfl, hs, hn, hi⟩ := blockRe_shape h
  have ht : s.take n = "<style>".toList ++ (body ++ "</style>".toList) := by
    rw [hs, hn]
    have e : "<style>".toList ++ (body ++ ("</style>".toList ++ rest)) =
        ("<style>".toList ++ (body ++ "</style>".toList)) ++ rest := by simp
    rw [e]
    apply List.take_left'
    simp; omega
  rw [ht]
  have hsome : (index "</style>".toList (body ++ "</style>".toList)).isSome = true := by
    have := index_inside "</style>".toList [] body
    simpa using this
  cases hj : index "</style>".toList (body ++ "</style>".toList) with
  | none => rw [hj] at hsome; simp at hsome
  | some j =>
    have hm : styleRe none ("<style>".toList ++ (body ++ "</style>".toList)) =
        some (7 + j + 8, [(body ++ "</style>".toList).take j]) := by
      unfold styleRe blockRe
      rw [if_pos (by simp)]
      rw [List.drop_left' (by rfl), hj]
      rfl
    unfold findStringSubmatch
    rw [findAllSubmatch_head hm (by omega) (by simp)]
    rfl

theorem scopeStylesInlineChecked_total (content c : Str) :
    scopeStylesInlineChecked content c = some (scopeStylesInline content c) := by
  unfold scopeStylesInlineChecked scopeStylesInline replaceAllFuncChecked replaceAllFunc
  apply replaceAllAuxChecked_total
  intro p s n g hm _
  rw [styleRe_rematch hm]
  simp only []
  have : replaceAllFuncChecked ruleRe (fun sel _ => scopeSelectorInlineChecked c sel)
      ((findStringSubmatch styleRe (s.take (n + 1))).getD 1 []) =
      some (scopeRulesInline c ((findStringSubmatch styleRe (s.take (n + 1))).getD 1 [])) := by
    unfold replaceAllFuncChecked scopeRulesInline replaceAllFunc
    apply replaceAllAuxChecked_total
    intro p' s' n' g' _ hs'
    exact scopeSelectorInlineChecked_total c _ (take_ne_nil hs' n')
  unfold replaceAllFuncChecked at this
  rw [this]

/-- The cuts `match[:tagEnd]` and `match[tagEnd:]` are in range on a tag
match. -/
theorem injectClassInlineChecked_total (L : GoLib) (c : Str) {p : Option Char} {s : Str}
    {n : Nat} {g : List Str} (h : htmlRe p s = some (n + 1, g)) :
    injectClassInlineChecked L c (s.take (n + 1)) = some (injectClassInline L c (s.take (n + 1))) := by
  obtain ⟨h1, _⟩ := htmlRe_first_last h
  have hlen : (s.take (n + 1)).length = n + 1 := by
    obtain ⟨nm, a, _, _, hsh, hn⟩ := htmlRe_shape h
    rw [hsh]; simp; simp at hn; omega
  unfold injectClassInlineChecked injectClassInline
  split
  · rfl
  · have hi : indexInt ['>'] (s.take (n + 1)) = (n : Int) := by
      unfold indexInt; rw [h1]; simp
    rw [hi, h1]
    unfold sliceTo sliceFrom
    rw [if_pos (by rw [hlen]; omega), if_pos (by rw [hlen]; omega)]
    simp

/-- The map kept by the loop over the scripts is the initial one or the
identifier map of a script. -/
theorem renameScripts_map (L : GoLib) (os : Nat → MapOrder) (c : Str) :
    ∀ (scripts : List (List Str)) (j : Nat) (st : Str × Option (List (Str × Str))),
      (renameScripts L os c scripts j st).2 = st.2 ∨
        ∃ s, (renameScripts L os c scripts j st).2 = some (buildVarMap s c)
  | [], _, _ => Or.inl rfl
  | script :: rest, j, st => by
    rw [renameScripts]
    rcases renameScripts_map L os c rest (j + 1)
      (replaceFirst (script.getD 1 []) (renameIdentifiers L (os j) (script.getD 1 []) c).1 st.1,
        some (renameIdentifiers L (os j) (script.getD 1 []) c).2) with h | h
    · exact Or.inr ⟨script.getD 1 [], h⟩
    · exact Or.inr h

/-! ## The renaming of the uses, word by word -/

theorem piecesAux_spec : ∀ (z cur : Str), (∀ ch ∈ cur, isWordChar ch = true) →
    (piecesAux cur z).flatten = cur.reverse ++ z ∧ Tok false (piecesAux cur z)
  | [], cur, hcur => by
    unfold piecesAux
    split
    · rename_i h
      have : cur = [] := by simpa using h
      subst this
      exact ⟨rfl, trivial⟩
    · rename_i h
      refine ⟨by simp, Or.inr ⟨rfl, by simpa using h, ?_, trivial⟩⟩
      intro ch hch
      exact hcur ch (by simpa using hch)
  | ch :: t, cur, hcur => by
    unfold piecesAux
    by_cases hw : isWordChar ch = true
    · rw [if_pos hw]
      obtain ⟨h1, h2⟩ := piecesAux_spec t (ch :: cur) (by
        intro x hx
        rcases List.mem_cons.mp hx with rfl | hx
        · exact hw
        · exact hcur x hx)
      exact ⟨by rw [h1]; simp, h2⟩
    · rw [if_neg hw]
      obtain ⟨h1, h2⟩ := piecesAux_spec t [] (by simp)
      have hw' : isWordChar ch = false := by simpa using hw
      split
      · rename_i h
        have : cur = [] := by simpa using h
        subst this
        exact ⟨by simp [h1], Or.inl ⟨ch, rfl, hw', h2⟩⟩
      · rename_i h
        refine ⟨by simp [h1], Or.inr ⟨rfl, by simpa using h, ?_, Or.inl ⟨ch, rfl, hw', h2⟩⟩⟩
        intro x hx
        exact hcur x (by simpa using hx)

/-- The pieces of a text give the text back and are well formed. -/
theorem pieces_spec (z : Str) : (pieces z).flatten = z ∧ Tok false (pieces z) := by
  have := piecesAux_spec z [] (by simp)
  simpa [pieces] using this

theorem Tok_true_head : ∀ ps : List Str, Tok true ps → headIs isWordChar ps.flatten = false
  | [], _ => rfl
  | p :: ps, h => by
    rcases h with ⟨ch, rfl, hch, _⟩ | ⟨hb, _⟩
    · simpa [headIs] using hch
    · simp at hb

/-- The word expression at the start of a run of word characters that ends
at a word boundary matches only when the run is the name. -/
theorem wordRe_run_ne (x p rest : Str) (prev : Option Char)
    (hxw : ∀ ch ∈ x, isWordChar ch = true) (hpw : ∀ ch ∈ p, isWordChar ch = true)
    (hrest : headIs isWordChar rest = false) (hne : p ≠ x) :
    wordRe x prev (p ++ rest) = none := by
  unfold wordRe
  split
  · rfl
  · split
    · rename_i h
      exfalso
      simp only [Bool.and_eq_true, Bool.not_eq_true', List.isPrefixOf_iff_prefix] at h
      obtain ⟨hpre, hend⟩ := h
      rcases List.prefix_or_prefix_of_prefix hpre (List.prefix_append p rest) with hxp | hpx
      · obtain ⟨q, hq⟩ := hxp
        cases q with
        | nil => exact hne (by simpa using hq.symm)
        | cons a q =>
          rw [← hq, List.append_assoc, List.drop_left] at hend
          have ha : isWordChar a = true := hpw a (by rw [← hq]; simp)
          simp [headIs, ha] at hend
      · obtain ⟨q, hq⟩ := hpx
        cases q with
        | nil => exact hne (by simpa using hq)
        | cons a q =>
          rw [← hq] at hpre
          have hqr : a :: q <+: rest := (List.prefix_append_right_inj p).mp hpre
          have ha : isWordChar a = true := hxw a (by rw [← hq]; simp)
          cases rest with
          | nil => simp at hqr
          | cons b rest =>
            rw [List.cons_prefix_cons] at hqr
            rw [← hqr.1] at hrest
            simp [headIs, ha] at hrest
    · rfl

theorem wordRe_run_eq (x rest : Str) (prev : Option Char) (hp : prevIsWord prev = false)
    (hrest : headIs isWordChar rest = false) :
    wordRe x prev (x ++ rest) = some (x.length, []) := by
  unfold wordRe
  rw [if_neg (by simp [hp])]
  rw [if_pos (by simp [hrest])]

theorem wordRe_nonword (x : Str) (hxw : ∀ ch ∈ x, isWordChar ch = true) (hx : x ≠ [])
    (prev : Option Char) (ch : Char) (hch : isWordChar ch = false) (t : Str) :
    wordRe x prev (ch :: t) = none := by
  unfold wordRe
  split
  · rfl
  · split
    · rename_i h
      exfalso
      simp only [Bool.and_eq_true, List.isPrefixOf_iff_prefix] at h
      cases x with
      | nil => exact hx rfl
      | cons a x =>
        have := h.1
        rw [List.cons_prefix_cons] at this
        have ha := hxw a (by simp)
        rw [this.1, hch] at ha
        simp at ha
    · rfl

/-- One pass of the renaming of the uses rewrites the pieces that equal the
old name and keeps everything else. -/
theorem wordScan_pieces (L : GoLib) (x v : Str) (hx : x ≠ [])
    (hxw : ∀ ch ∈ x, isWordChar ch = true) (hv : '$' ∉ v) :
    ∀ (ps : List Str) (b : Bool) (prev : Option Char), Tok b ps → prevIsWord prev = b →
      replaceAllAux (wordRe x) (fun mt g => expand L (mt :: g) v) prev 0 ps.flatten =
        (ps.map fun p => stepToken p (x, v)).flatten
  | [], _, _, _, _ => rfl
  | p :: ps, b, prev, h, hprev => by
    rcases h with ⟨ch, rfl, hch, htok⟩ | ⟨hb, hpne, hpw, htok⟩
    · have hne : ([ch] : Str) ≠ x := by
        intro e
        have := hxw ch (by rw [← e]; simp)
        rw [hch] at this
        simp at this
      simp only [List.flatten_cons, List.map_cons, List.singleton_append, stepToken, if_neg hne]
      rw [replaceAllAux_nomatch (wordRe_nonword x hxw hx prev ch hch _)]
      rw [wordScan_pieces L x v hx hxw hv ps false (some ch) htok (by simpa [prevIsWord] using hch)]
      rfl
    · subst hb
      have hrest := Tok_true_head ps htok
      simp only [List.flatten_cons, List.map_cons]
      by_cases hpx : p = x
      · subst hpx
        have hm := wordRe_run_eq p ps.flatten prev hprev hrest
        rw [replaceAllAux_match' hm (List.length_pos.mpr hpne) (by simp [hpne])]
        rw [List.take_left, List.drop_left, expand_plain L _ v hv]
        have hlast : prevIsWord (lastOr prev p) = true := by
          cases p with
          | nil => exact absurd rfl hpne
          | cons a w =>
            exact prevIsWord_lastOr w (some a) (hpw a (by simp))
              (fun ch hc => hpw ch (by simp [hc]))
        rw [wordScan_pieces L p v hx hxw hv ps true _ htok hlast]
        simp [stepToken]
      · cases p with
        | nil => exact absurd rfl hpne
        | cons a w =>
          have hn := wordRe_run_ne x (a :: w) ps.flatten prev hxw hpw hrest hpx
          rw [List.cons_append] at hn ⊢
          rw [replaceAllAux_nomatch hn]
          have ha : prevIsWord (some a) = true := hpw a (by simp)
          rw [replaceAllAux_word_run (wordRe_anchored x) ps.flatten w (some a) ha
            (fun ch hc => hpw ch (by simp [hc]))]
          have hlast : prevIsWord (lastOr (some a) w) = true :=
            prevIsWord_lastOr w (some a) ha (fun ch hc => hpw ch (by simp [hc]))
          rw [wordScan_pieces L x v hx hxw hv ps true _ htok hlast]
          simp [stepToken, hpx]

theorem Tok_map_stepToken (e : Str × Str) (hk : ∀ ch ∈ e.1, isWordChar ch = true)
    (hv : e.2 ≠ []) (hvw : ∀ ch ∈ e.2, isWordChar ch = true) :
    ∀ (ps : List Str) (b : Bool), Tok b ps → Tok b (ps.map fun p => stepToken p e)
  | [], _, _ => trivial
  | p :: ps, b, h => by
    rcases h with ⟨ch, rfl, hch, htok⟩ | ⟨hb, hpne, hpw, htok⟩
    · have hne : ([ch] : Str) ≠ e.1 := by
        intro h'
        have := hk ch (by rw [← h']; simp)
        rw [hch] at this
        simp at this
      refine Or.inl ⟨ch, ?_, hch, Tok_map_stepToken e hk hv hvw ps false htok⟩
      simp [stepToken, hne]
    · refine Or.inr ⟨hb, ?_, ?_, Tok_map_stepToken e hk hv hvw ps true htok⟩
      · show stepToken p e ≠ []
        unfold stepToken; split
        · exact hv
        · exact hpne
      · show ∀ ch ∈ stepToken p e, isWordChar ch = true
        unfold stepToken; split
        · exact hvw
        · exact hpw

/-- One pass of line 47 on a text given by its pieces. -/
theorem renameWord_pieces (L : GoLib) (e : Str × Str) (hk : e.1 ≠ [])
    (hkw : ∀ ch ∈ e.1, isWordChar ch = true) (hvw : ∀ ch ∈ e.2, isWordChar ch = true)
    (ps : List Str) (h : Tok false ps) :
    renameWord L ps.flatten e = (ps.map fun p => stepToken p e).flatten :=
  wordScan_pieces L e.1 e.2 hk hkw (wordy_no_dollar e.2 hvw) ps false none h rfl

/-- The loop of lines 46-48 on a text given by its pieces: every piece goes
through the passes on its own. -/
theorem foldl_renameWord_pieces (L : GoLib) : ∀ (es : List (Str × Str)) (ps : List Str),
    Tok false ps →
    (∀ e ∈ es, e.1 ≠ [] ∧ (∀ ch ∈ e.1, isWordChar ch = true) ∧ e.2 ≠ [] ∧
      ∀ ch ∈ e.2, isWordChar ch = true) →
    es.foldl (renameWord L) ps.flatten = (ps.map fun p => es.foldl stepToken p).flatten
  | [], ps, _, _ => by simp
  | e :: es, ps, h, hes => by
    obtain ⟨h1, h2, h3, h4⟩ := hes e (by simp)
    rw [List.foldl_cons, renameWord_pieces L e h1 h2 h4 ps h,
      foldl_renameWord_pieces L es _ (Tok_map_stepToken e h2 h3 h4 ps false h)
        (fun e' he' => hes e' (by simp [he']))]
    simp [List.map_map, Function.comp_def]

theorem foldl_stepToken_stable : ∀ (es : List (Str × Str)) (q : Str),
    (∀ e ∈ es, e.1 ≠ q) → es.foldl stepToken q = q
  | [], _, _ => rfl
  | e :: es, q, h => by
    have h1 : stepToken q e = q := by
      unfold stepToken
      rw [if_neg (fun h' => h e (by simp) h'.symm)]
    rw [List.foldl_cons, h1]
    exact foldl_stepToken_stable es q (fun e' he' => h e' (by simp [he']))

/-- The passes of the loop on one piece: a key of the map becomes its new
name, once, whatever the order of the passes, when no new name is itself a
key. -/
theorem foldl_stepToken (c : Str) : ∀ (es : List (Str × Str)) (p : Str),
    (∀ e ∈ es, e.2 = newNameOf c e.1) →
    (∀ e ∈ es, ∀ e' ∈ es, e'.1 ≠ newNameOf c e.1) →
    es.foldl stepToken p = if p ∈ es.map Prod.fst then newNameOf c p else p
  | [], p, _, _ => by simp
  | e :: es, p, hv, hn => by
    rw [List.foldl_cons]
    by_cases hp : p = e.1
    · have h1 : stepToken p e = newNameOf c p := by
        unfold stepToken
        rw [if_pos hp, hv e (by simp), hp]
      rw [h1, foldl_stepToken_stable es _ (fun e' he' => by
        rw [hp]; exact hn e (by simp) e' (by simp [he']))]
      simp [hp]
    · have h1 : stepToken p e = p := by
        unfold stepToken
        rw [if_neg hp]
      rw [h1, foldl_stepToken c es p (fun e' he' => hv e' (by simp [he']))
        (fun e1 h1 e2 h2 => hn e1 (by simp [h1]) e2 (by simp [h2]))]
      have : (p ∈ (e :: es).map Prod.fst) ↔ p ∈ es.map Prod.fst := by
        simp only [List.map_cons, List.mem_cons]
        constructor
        · rintro (h | h)
          · exact absurd h hp
          · exact h
        · exact Or.inr
      simp only [this]

/-- The loop of lines 46-48, for any visiting order of the identifier map of
a script `s`, on any text `z`: every piece of `z` that is a declared name
gets the component prefix once and everything else is kept, when the
component name is made of word characters and no new name is declared. -/
theorem foldl_renameWord_any_order (L : GoLib) (s c : Str) (es : List (Str × Str))
    (hperm : es.Perm (buildVarMap s c)) (hc : ∀ ch ∈ c, isWordChar ch = true)
    (hfresh : ∀ x ∈ declaredNames s, newNameOf c x ∉ declaredNames s) (z : Str) :
    es.foldl (renameWord L) z = ((pieces z).map (renameToken (declaredNames s) c)).flatten := by
  obtain ⟨hz, htok⟩ := pieces_spec z
  have hent : ∀ e ∈ es, e.1 ∈ declaredNames s ∧ e.2 = newNameOf c e.1 :=
    fun e he => buildVarMap_entries (hperm.subset he)
  have hvalid : ∀ e ∈ es, e.1 ≠ [] ∧ (∀ ch ∈ e.1, isWordChar ch = true) ∧ e.2 ≠ [] ∧
      ∀ ch ∈ e.2, isWordChar ch = true := by
    intro e he
    obtain ⟨hd, hv⟩ := hent e he
    obtain ⟨hne, hw⟩ := declaredNames_word hd
    refine ⟨hne, hw, ?_, ?_⟩
    · rw [hv]; simp [newNameOf]
    · rw [hv]; exact newNameOf_word hc hw
  have hkeys : ∀ p, p ∈ es.map Prod.fst ↔ p ∈ declaredNames s := by
    intro p
    constructor
    · intro h
      obtain ⟨e, he, rfl⟩ := List.mem_map.mp h
      exact (hent e he).1
    · intro h
      obtain ⟨e, he, rfl⟩ := buildVarMap_keys (c := c) h
      exact List.mem_map.mpr ⟨e, hperm.symm.subset he, rfl⟩
  conv_lhs => rw [← hz]
  rw [foldl_renameWord_pieces L es _ htok hvalid]
  congr 1
  apply List.map_congr_left
  intro p _
  rw [foldl_stepToken c es p (fun e he => (hent e he).2)
    (fun e he e' he' h => hfresh e.1 (hent e he).1 (h ▸ (hent e' he').1))]
  unfold renameToken
  by_cases hp : p ∈ declaredNames s
  · rw [if_pos hp, if_pos ((hkeys p).mpr hp)]
  · rw [if_neg hp, if_neg (fun h => hp ((hkeys p).mp h))]

theorem reverseOrder_valid : reverseOrder.Valid := fun m =>
  ⟨List.Perm.refl m, List.reverse_perm m, fun _ => List.Perm.refl m, List.Perm.refl m⟩

theorem exprRe_head (ch : Char) (hc : ch ≠ '{') (p : Option Char) (s : Str) :
    exprRe p (ch :: s) = none := by
  simp [exprRe, hc]

/-- A script without an opening brace has no protected expression. -/
theorem protect_no_brace (L : GoLib) (s : Str) (h : '{' ∉ s) :
    protectExprs L s = s ∧ buildExprMap L s = [] := by
  have hw : ∀ ch ∈ s, ∀ p t, exprRe p (ch :: t) = none :=
    fun ch hch p t => exprRe_head ch (fun e => h (e ▸ hch)) p t
  constructor
  · have := replaceAllAux_run (m := exprRe) (f := fun mt _ => exprKey L mt) [] s none hw
    simpa [protectExprs, replaceAllFunc, replaceAllAux] using this
  · have := findAllAux_run (m := exprRe) [] s none hw
    simp only [List.append_nil] at this
    simp [buildExprMap, findAllSubmatch, this, findAllAux]

/-! ## The shape of a placeholder -/

theorem hexDigit_ne_underscore : ∀ d < 16, hexDigit d ≠ '_' := by decide

/-- A placeholder written out: the seven leading characters, a first digit,
the other digits, two underscores. No digit is an underscore. -/
theorem IsKey.shape {k : Str} (h : IsKey k) :
    ∃ h0 ht, k = '_' :: '_' :: 'E' :: 'X' :: 'P' :: 'R' :: '_' :: h0 :: (ht ++ ['_', '_']) ∧
      h0 ≠ '_' ∧ (∀ ch ∈ ht, ch ≠ '_') ∧ ht.length = 31 := by
  obtain ⟨n, rfl⟩ := h
  have hlen := hex32_length n
  have hne : ∀ ch ∈ hex32 n, ch ≠ '_' := by
    intro ch hch
    simp only [hex32, List.mem_map, List.mem_range] at hch
    obtain ⟨i, _, rfl⟩ := hch
    exact hexDigit_ne_underscore _ (Nat.mod_lt _ (by decide))
  cases hh : hex32 n with
  | nil => rw [hh] at hlen; simp at hlen
  | cons h0 ht =>
    rw [hh] at hlen hne
    refine ⟨h0, ht, by simp, hne h0 (by simp), fun ch hch => hne ch (by simp [hch]), ?_⟩
    simpa using hlen

theorem IsKey.length {k : Str} (h : IsKey k) : k.length = 41 := by
  obtain ⟨h0, ht, rfl, _, _, hl⟩ := h.shape
  simp [hl]

theorem IsKey.word {k : Str} (h : IsKey k) : ∀ ch ∈ k, isWordChar ch = true := by
  obtain ⟨n, rfl⟩ := h
  exact exprKey_word ⟨fun _ => n, fun _ => false⟩ []

theorem IsKey.marker {k : Str} (h : IsKey k) : "EXPR_".toList <:+: k := by
  obtain ⟨h0, ht, rfl, _⟩ := h.shape
  exact ⟨['_', '_'], h0 :: (ht ++ ['_', '_']), by simp⟩

theorem exprKey_isKey (L : GoLib) (m : Str) : IsKey (exprKey L m) := ⟨L.md5 m, rfl⟩

theorem NoMarker.of_part {a z : Str} (h : NoMarker z) (ha : a <:+: z) : NoMarker a :=
  fun hm => h (hm.trans ha)

theorem IsKey.ne_nil {k : Str} (h : IsKey k) : k ≠ [] := by
  intro e
  have := h.length
  rw [e] at this
  simp at this

/-! ## Where a placeholder cannot start -/

/-- No placeholder starts inside a literal part without marker that is
followed by a slot or by the end of the text. -/
theorem key_not_in_lit {k x Y : Str} (hk : IsKey k) (hx : x ≠ []) (hm : NoMarker x)
    (hY : SlotStart Y) : ¬ k <+: x ++ Y := by
  obtain ⟨h0, ht, rfl, hh0, _, _⟩ := hk.shape
  intro h
  rcases x with _ | ⟨a1, _ | ⟨a2, _ | ⟨a3, _ | ⟨a4, _ | ⟨a5, _ | ⟨a6, _ | ⟨a7, x⟩⟩⟩⟩⟩⟩⟩
  · exact hx rfl
  all_goals simp only [List.cons_append, List.nil_append, List.cons_prefix_cons] at h
  · rcases hY with hY | ⟨Y', rfl⟩
    · cases Y with
      | nil => simp at h
      | cons c Y =>
        rw [List.cons_prefix_cons] at h
        rw [← h.2.1] at hY
        simp [headIs, isWordChar] at hY
    · simp [List.cons_prefix_cons] at h
  · rcases hY with hY | ⟨Y', rfl⟩
    · cases Y with
      | nil => simp at h
      | cons c Y =>
        rw [List.cons_prefix_cons] at h
        rw [← h.2.2.1] at hY
        simp [headIs, isWordChar] at hY
    · simp [List.cons_prefix_cons] at h
  · rcases hY with hY | ⟨Y', rfl⟩
    · cases Y with
      | nil => simp at h
      | cons c Y =>
        rw [List.cons_prefix_cons] at h
        rw [← h.2.2.2.1] at hY
        simp [headIs, isWordChar] at hY
    · simp [List.cons_prefix_cons] at h
  · rcases hY with hY | ⟨Y', rfl⟩
    · cases Y with
      | nil => simp at h
      | cons c Y =>
        rw [List.cons_prefix_cons] at h
        rw [← h.2.2.2.2.1] at hY
        simp [headIs, isWordChar] at hY
    · simp [List.cons_prefix_cons] at h
  · rcases hY with hY | ⟨Y', rfl⟩
    · cases Y with
      | nil => simp at h
      | cons c Y =>
        rw [List.cons_prefix_cons] at h
        rw [← h.2.2.2.2.2.1] at hY
        simp [headIs, isWordChar] at hY
    · simp [List.cons_prefix_cons] at h
  · rcases hY with hY | ⟨Y', rfl⟩
    · cases Y with
      | nil => simp at h
      | cons c Y =>
        rw [List.cons_prefix_cons] at h
        rw [← h.2.2.2.2.2.2.1] at hY
        simp [headIs, isWordChar] at hY
    · simp only [List.cons_prefix_cons] at h
      exact hh0 h.2.2.2.2.2.2.2.1
  · obtain ⟨_, _, e3, e4, e5, e6, e7, _⟩ := h
    apply hm
    subst e3 e4 e5 e6 e7
    exact ⟨[a1, a2], x, by simp⟩

theorem word_head_no_match {c : Char} {T Y : Str} (hc : isWordChar c = true)
    (hY : headIs isWordChar Y = false) : ¬ (c :: T) <+: Y := by
  intro h
  cases Y with
  | nil => simp at h
  | cons d Y =>
    rw [List.cons_prefix_cons] at h
    rw [← h.1, headIs, hc] at hY
    simp at hY

theorem tail39_no_match {h0 : Char} {T u Y : Str} (hh0 : h0 ≠ '_') (hm : NoMarker u)
    (hY : SlotStart Y) : ¬ ('E' :: 'X' :: 'P' :: 'R' :: '_' :: h0 :: T) <+: u ++ Y := by
  intro h
  rcases u with _ | ⟨a1, _ | ⟨a2, _ | ⟨a3, _ | ⟨a4, _ | ⟨a5, u⟩⟩⟩⟩⟩
  all_goals simp only [List.cons_append, List.nil_append, List.cons_prefix_cons] at h
  case cons.cons.cons.cons.cons =>
    obtain ⟨e1, e2, e3, e4, e5, _⟩ := h
    subst e1 e2 e3 e4 e5
    exact hm ⟨[], u, by simp⟩
  all_goals
    rcases hY with hY | ⟨Y', rfl⟩
    · first
        | exact word_head_no_match (by decide) hY h
        | exact word_head_no_match (by decide) hY h.2
        | exact word_head_no_match (by decide) hY h.2.2
        | exact word_head_no_match (by decide) hY h.2.2.2
        | exact word_head_no_match (by decide) hY h.2.2.2.2
    · simp only [List.cons_prefix_cons] at h
      simp_all

theorem tail40_no_match {h0 : Char} {T u Y : Str} (hh0 : h0 ≠ '_') (hm : NoMarker u)
    (hY : SlotStart Y) : ¬ ('_' :: 'E' :: 'X' :: 'P' :: 'R' :: '_' :: h0 :: T) <+: u ++ Y := by
  intro h
  rcases u with _ | ⟨a1, _ | ⟨a2, _ | ⟨a3, _ | ⟨a4, _ | ⟨a5, _ | ⟨a6, u⟩⟩⟩⟩⟩⟩
  all_goals simp only [List.cons_append, List.nil_append, List.cons_prefix_cons] at h
  case cons.cons.cons.cons.cons.cons =>
    obtain ⟨_, e2, e3, e4, e5, e6, _⟩ := h
    subst e2 e3 e4 e5 e6
    exact hm ⟨[a1], u, by simp⟩
  all_goals
    rcases hY with hY | ⟨Y', rfl⟩
    · first
        | exact word_head_no_match (by decide) hY h
        | exact word_head_no_match (by decide) hY h.2
        | exact word_head_no_match (by decide) hY h.2.2
        | exact word_head_no_match (by decide) hY h.2.2.2
        | exact word_head_no_match (by decide) hY h.2.2.2.2
        | exact word_head_no_match (by decide) hY h.2.2.2.2.2
    · simp only [List.cons_prefix_cons] at h
      simp_all

/-- No placeholder starts inside another placeholder that is followed by a
literal part without marker and then a slot or the end of the text. -/
theorem key_not_in_key {k k' y x u Y : Str} (hk : IsKey k) (hk' : IsKey k')
    (hyx : k' = y ++ x) (hy : y ≠ []) (hx : x ≠ []) (hm : NoMarker u) (hY : SlotStart Y) :
    ¬ k <+: x ++ (u ++ Y) := by
  obtain ⟨h0, ht, rfl, hh0, _, _⟩ := hk.shape
  obtain ⟨g0, gt, rfl, hg0, hgt, _⟩ := hk'.shape
  intro h
  rcases y with _ | ⟨b1, _ | ⟨b2, _ | ⟨b3, _ | ⟨b4, _ | ⟨b5, _ | ⟨b6, _ | ⟨b7, _ | ⟨b8, y⟩⟩⟩⟩⟩⟩⟩⟩
  · exact hy rfl
  all_goals simp only [List.cons_append, List.nil_append, List.cons.injEq] at hyx
  case cons.cons.cons.cons.cons.cons.cons.cons =>
    obtain ⟨_, _, _, _, _, _, _, _, hyx⟩ := hyx
    rcases List.append_eq_append_iff.mp hyx with ⟨a', _, hxa⟩ | ⟨c', hc, hxc⟩
    · -- `x` is what is left of the two closing underscores
      rcases a' with _ | ⟨c1, _ | ⟨c2, a'⟩⟩
      · simp only [List.nil_append] at hxa
        subst hxa
        simp only [List.cons_append, List.nil_append, List.cons_prefix_cons, true_and] at h
        exact tail39_no_match hh0 hm hY h
      · simp only [List.cons_append, List.nil_append, List.cons.injEq] at hxa
        obtain ⟨_, hxa⟩ := hxa
        subst hxa
        simp only [List.cons_append, List.nil_append, List.cons_prefix_cons, true_and] at h
        exact tail40_no_match hh0 hm hY h
      · simp only [List.cons_append, List.cons.injEq] at hxa
        obtain ⟨_, _, hxa⟩ := hxa
        exact hx (List.append_eq_nil.mp hxa.symm).2
    · -- `x` starts inside the digits or is the two closing underscores
      cases c' with
      | nil =>
        simp only [List.nil_append] at hxc
        subst hxc
        simp only [List.cons_append, List.nil_append, List.cons_prefix_cons, true_and] at h
        exact tail39_no_match hh0 hm hY h
      | cons c c' =>
        subst hxc
        simp only [List.cons_append, List.cons_prefix_cons] at h
        have hcm : c ∈ gt := by rw [hc]; simp
        exact hgt c hcm h.1.symm
  all_goals
    obtain ⟨_, hyx⟩ := hyx
    first
      | (obtain ⟨_, hyx⟩ := hyx
         first
          | (obtain ⟨_, hyx⟩ := hyx
             first
              | (obtain ⟨_, hyx⟩ := hyx
                 first
                  | (obtain ⟨_, hyx⟩ := hyx
                     first
                      | (obtain ⟨_, hyx⟩ := hyx
                         first
                          | (obtain ⟨_, hyx⟩ := hyx
                             subst hyx
                             simp only [List.cons_append, List.cons_prefix_cons] at h
                             exact hg0 h.1.symm)
                          | (subst hyx
                             simp only [List.cons_append, List.cons_prefix_cons] at h
                             exact hg0 h.2.1.symm))
                      | (subst hyx
                         simp [List.cons_prefix_cons] at h))
                  | (subst hyx
                     simp [List.cons_prefix_cons] at h))
              | (subst hyx
                 simp [List.cons_prefix_cons] at h))
          | (subst hyx
             simp [List.cons_prefix_cons] at h))
      | (subst hyx
         simp [List.cons_prefix_cons] at h)

/-! ## Restoring one placeholder in a text with placeholders -/

/-- A scan passes over a stretch in which the expression matches nowhere. -/
theorem replaceAllAux_pass {m : Matcher} {f : Str → List Str → Str} (rest : Str) :
    ∀ (x : Str) (prev : Option Char),
      (∀ a b, x = a ++ b → b ≠ [] → ∀ p, m p (b ++ rest) = none) →
      replaceAllAux m f prev 0 (x ++ rest) = x ++ replaceAllAux m f (lastOr prev x) 0 rest
  | [], _, _ => rfl
  | ch :: x, prev, h => by
    have hn : m prev (ch :: (x ++ rest)) = none := h [] (ch :: x) rfl (by simp) prev
    rw [List.cons_append, replaceAllAux_nomatch hn,
      replaceAllAux_pass rest x (some ch)
        (fun a b hab hb p => h (ch :: a) b (by simp [hab]) hb p)]
    rfl

theorem litRe_none {k s : Str} (h : ¬ k <+: s) (p : Option Char) : litRe k p s = none := by
  unfold litRe
  rw [if_neg (by simpa using h)]

theorem litRe_at {k : Str} (R : Str) (p : Option Char) : litRe k p (k ++ R) = some (k.length, []) := by
  unfold litRe
  rw [if_pos (by simp)]

theorem slotStart_key {k : Str} (hk : IsKey k) (R : Str) : SlotStart (k ++ R) := by
  obtain ⟨h0, ht, rfl, _⟩ := hk.shape
  exact Or.inr ⟨_, rfl⟩

theorem slotStart_text {X : Slot} (hX : GoodSlot X) (R : Str) : SlotStart (X.text ++ R) := by
  cases X with
  | key k => exact slotStart_key hX R
  | val v =>
    obtain ⟨_, hne, hh, _⟩ := hX
    cases v with
    | nil => exact absurd rfl hne
    | cons a v => exact Or.inl (by simpa [headIs] using hh)

/-- A well-formed text starts with a literal part without marker followed by
a slot or by the end. -/
theorem render_start {segs : List (Str × Slot)} {fin : Str} (h : Good segs fin) :
    ∃ u Y, render segs fin = u ++ Y ∧ NoMarker u ∧ SlotStart Y := by
  cases segs with
  | nil => exact ⟨fin, [], by simp [render], h.2, Or.inl rfl⟩
  | cons p rest =>
    exact ⟨p.1, p.2.text ++ render rest fin, rfl, (h.1 p (by simp)).1,
      slotStart_text (h.1 p (by simp)).2 _⟩

theorem Good.tail {p : Str × Slot} {rest : List (Str × Slot)} {fin : Str}
    (h : Good (p :: rest) fin) : Good rest fin :=
  ⟨fun q hq => h.1 q (by simp [hq]), h.2⟩

/-- No placeholder starts inside a restored text. -/
theorem key_not_in_val {k b R : Str} (hk : IsKey k) (hb : b ≠ []) (hm : NoMarker b)
    (hlast : headIs isWordChar b.reverse = false) : ¬ k <+: b ++ R := by
  intro h
  rcases List.prefix_or_prefix_of_prefix h (List.prefix_append b R) with h1 | h1
  · exact hm (hk.marker.trans h1.isInfix)
  · obtain ⟨t, ht⟩ := h1
    have hw := hk.word
    rw [← ht] at hw
    obtain ⟨y, z, hyz⟩ : ∃ y z, b = y ++ [z] := by
      rcases List.eq_nil_or_concat b with h0 | ⟨y, z, h0⟩
      · exact absurd h0 hb
      · exact ⟨y, z, by simpa using h0⟩
    subst hyz
    have hz : isWordChar z = true := hw z (by simp)
    simp [headIs, hz] at hlast

theorem suffix_reverse_head {w a b : Str} (h : w = a ++ b) (hb : b ≠ [])
    (hl : headIs isWordChar w.reverse = false) : headIs isWordChar b.reverse = false := by
  subst h
  rw [List.reverse_append] at hl
  cases hr : b.reverse with
  | nil => simp at hr; exact absurd hr hb
  | cons c r => rw [hr] at hl; simpa [headIs] using hl

theorem Slot.text_key (k : Str) : (Slot.key k).text = k := rfl

theorem Slot.text_val (v : Str) : (Slot.val v).text = v := rfl

theorem Slot.subst_key_self (k v : Str) : (Slot.key k).subst k v = .val v := by
  simp [Slot.subst]

theorem Slot.subst_key_ne {k k' : Str} (h : k' ≠ k) (v : Str) :
    (Slot.key k').subst k v = .key k' := by
  simp [Slot.subst, h]

theorem Slot.subst_val (k v w : Str) : (Slot.val w).subst k v = .val w := rfl

/-- Restoring the placeholder `k` in a well-formed text: exactly the slots
that hold `k` are replaced. -/
theorem replaceAll_render (k v : Str) (hk : IsKey k) :
    ∀ (segs : List (Str × Slot)) (fin : Str), Good segs fin → ∀ prev : Option Char,
      replaceAllAux (litRe k) (fun _ _ => v) prev 0 (render segs fin) =
        render (segs.map fun p => (p.1, p.2.subst k v)) fin
  | [], fin, h, prev => by
    have := replaceAllAux_pass (m := litRe k) (f := fun _ _ => v) [] fin prev
      (fun a b hab hb p => litRe_none (by
        have hm : NoMarker b := h.2.of_part ⟨a, [], by simp [hab]⟩
        exact key_not_in_lit hk hb hm (Or.inl rfl)) p)
    simpa [render, replaceAllAux] using this
  | p :: rest, fin, h, prev => by
    obtain ⟨hu, hX⟩ := h.1 p (by simp)
    have ih := replaceAll_render k v hk rest fin h.tail
    obtain ⟨u', Y', hR, hu', hY'⟩ := render_start h.tail
    simp only [render, List.map_cons]
    rw [replaceAllAux_pass _ p.1 prev (fun a b hab hb q => litRe_none (by
      have hm : NoMarker b := hu.of_part ⟨a, [], by simp [hab]⟩
      exact key_not_in_lit hk hb hm (slotStart_text hX _)) q)]
    congr 1
    cases hp : p.2 with
    | key k' =>
      rw [hp] at hX
      have hk' : IsKey k' := hX
      by_cases hkk : k' = k
      · subst hkk
        rw [Slot.subst_key_self, Slot.text_key, Slot.text_val]
        rw [replaceAllAux_match' (litRe_at _ _) (by rw [hk'.length]; decide)
          (by simp [hk'.ne_nil])]
        rw [List.take_left, List.drop_left, ih]
      · rw [Slot.subst_key_ne hkk, Slot.text_key]
        rw [replaceAllAux_pass _ k' _ (fun a b hab hb q => litRe_none (by
          by_cases ha : a = []
          · subst ha
            simp only [List.nil_append] at hab
            subst hab
            intro hpre
            apply hkk
            have hl : k.length = k'.length := by rw [hk.length, hk'.length]
            obtain ⟨t, ht⟩ := hpre
            exact ((List.append_inj ht hl).1).symm
          · rw [hR]
            exact key_not_in_key hk hk' hab ha hb hu' hY') q), ih]
    | val w =>
      rw [hp] at hX
      obtain ⟨hwm, hwne, _, hwl⟩ := hX
      rw [Slot.subst_val, Slot.text_val]
      rw [replaceAllAux_pass _ w _ (fun a b hab hb q => litRe_none (by
        have hm : NoMarker b := hwm.of_part ⟨a, [], by simp [hab]⟩
        exact key_not_in_val hk hb hm (suffix_reverse_head hab hb hwl)) q), ih]

theorem goodSlot_subst {k v : Str} (hv : GoodSlot (.val v)) {X : Slot} (hX : GoodSlot X) :
    GoodSlot (X.subst k v) := by
  cases X with
  | key k' =>
    simp only [Slot.subst]
    split
    · exact hv
    · exact hX
  | val w => exact hX

theorem good_subst {k v : Str} (hv : GoodSlot (.val v)) {segs : List (Str × Slot)} {fin : Str}
    (h : Good segs fin) : Good (segs.map fun p => (p.1, p.2.subst k v)) fin := by
  refine ⟨?_, h.2⟩
  intro q hq
  obtain ⟨p, hp, rfl⟩ := List.mem_map.mp hq
  exact ⟨(h.1 p hp).1, goodSlot_subst hv (h.1 p hp).2⟩

/-! ## The restoring loop on a text with placeholders -/

/-- The restoring loop on a well-formed text: every slot goes through the
restoring steps on its own. -/
theorem foldl_replaceAll_render (g : Str × Str → Str) :
    ∀ (es : List (Str × Str)) (segs : List (Str × Slot)) (fin : Str), Good segs fin →
      (∀ e ∈ es, IsKey e.1 ∧ GoodSlot (.val (g e))) →
      es.foldl (fun acc e => replaceAll e.1 (g e) acc) (render segs fin) =
        render (segs.map fun p => (p.1, es.foldl (substStep g) p.2)) fin
  | [], segs, fin, _, _ => by simp
  | e :: es, segs, fin, h, hes => by
    obtain ⟨hk, hv⟩ := hes e (by simp)
    have h1 : replaceAll e.1 (g e) (render segs fin) =
        render (segs.map fun p => (p.1, p.2.subst e.1 (g e))) fin :=
      replaceAll_render e.1 (g e) hk segs fin h none
    rw [List.foldl_cons, h1,
      foldl_replaceAll_render g es _ fin (good_subst hv h) (fun e' he' => hes e' (by simp [he']))]
    simp [List.map_map, Function.comp_def, substStep]

theorem foldl_subst_val (g : Str × Str → Str) (w : Str) : ∀ es : List (Str × Str),
    es.foldl (substStep g) (Slot.val w) = Slot.val w
  | [] => rfl
  | e :: es => by
    rw [List.foldl_cons, substStep, Slot.subst_val, foldl_subst_val g w es]

/-- The restoring steps on one placeholder: it is replaced by the text of the
entry that has it as key, if there is one. -/
theorem foldl_subst_key (g : Str × Str → Str) (k : Str) : ∀ es : List (Str × Str),
    (∃ e ∈ es, e.1 = k ∧ es.foldl (substStep g) (Slot.key k) = Slot.val (g e)) ∨
    ((∀ e ∈ es, e.1 ≠ k) ∧ es.foldl (substStep g) (Slot.key k) = Slot.key k)
  | [] => Or.inr ⟨by simp, rfl⟩
  | e :: es => by
    by_cases hek : e.1 = k
    · left
      refine ⟨e, by simp, hek, ?_⟩
      rw [List.foldl_cons, substStep, ← hek, Slot.subst_key_self, foldl_subst_val]
    · have hke : k ≠ e.1 := fun h => hek h.symm
      rw [List.foldl_cons, substStep, Slot.subst_key_ne hke]
      rcases foldl_subst_key g k es with ⟨e', he', hk', hr⟩ | ⟨hn, hr⟩
      · exact Or.inl ⟨e', by simp [he'], hk', hr⟩
      · refine Or.inr ⟨?_, hr⟩
        intro e' he'
        rcases List.mem_cons.mp he' with rfl | he'
        · exact hek
        · exact hn e' he'

/-- The restoring steps on one slot do not depend on the order of the
entries when no two entries share a key. -/
theorem foldl_subst_perm (g : Str × Str → Str) {es1 es2 : List (Str × Str)}
    (hp : es1.Perm es2) (hf : ∀ e ∈ es1, ∀ e' ∈ es1, e.1 = e'.1 → e = e') (X : Slot) :
    es1.foldl (substStep g) X = es2.foldl (substStep g) X := by
  cases X with
  | val w => rw [foldl_subst_val, foldl_subst_val]
  | key k =>
    rcases foldl_subst_key g k es1 with ⟨e, he, hk, hr⟩ | ⟨hn, hr⟩
    · rcases foldl_subst_key g k es2 with ⟨e', he', hk', hr'⟩ | ⟨hn', _⟩
      · have : e = e' := hf e he e' (hp.symm.subset he') (hk.trans hk'.symm)
        rw [hr, hr', this]
      · exact absurd hk (hn' e (hp.subset he))
    · rcases foldl_subst_key g k es2 with ⟨e', he', hk', _⟩ | ⟨_, hr'⟩
      · exact absurd hk' (hn e' (hp.symm.subset he'))
      · rw [hr, hr']

/-- The restoring loop on a well-formed text does not depend on the order in
which the placeholder map is visited. -/
theorem foldl_replaceAll_perm (g : Str × Str → Str) {es1 es2 : List (Str × Str)}
    (hp : es1.Perm es2) (hf : ∀ e ∈ es1, ∀ e' ∈ es1, e.1 = e'.1 → e = e')
    (hes : ∀ e ∈ es1, IsKey e.1 ∧ GoodSlot (.val (g e)))
    {segs : List (Str × Slot)} {fin : Str} (h : Good segs fin) :
    es1.foldl (fun acc e => replaceAll e.1 (g e) acc) (render segs fin) =
      es2.foldl (fun acc e => replaceAll e.1 (g e) acc) (render segs fin) := by
  rw [foldl_replaceAll_render g es1 segs fin h hes,
    foldl_replaceAll_render g es2 segs fin h (fun e he => hes e (hp.symm.subset he))]
  congr 1
  apply List.map_congr_left
  intro p _
  rw [foldl_subst_perm g hp hf]

/-! ## The marker in joined texts -/

/-- A text inside a concatenation lies in the first part, in the second, or
across the joint. -/
theorem infix_append_split {w b : Str} : ∀ a : Str, w <:+: a ++ b →
    w <:+: a ∨ w <:+: b ∨
      ∃ w1 w2, w = w1 ++ w2 ∧ w1 ≠ [] ∧ w2 ≠ [] ∧ w1 <:+ a ∧ w2 <+: b
  | [], h => Or.inr (Or.inl (by simpa using h))
  | x :: a, h => by
    rw [List.cons_append, List.infix_cons_iff] at h
    rcases h with h | h
    · rcases List.prefix_or_prefix_of_prefix h
        (show x :: a <+: x :: (a ++ b) from ⟨b, rfl⟩) with h1 | h1
      · exact Or.inl h1.isInfix
      · obtain ⟨w2, hw2⟩ := h1
        by_cases hw : w2 = []
        · subst hw
          left
          rw [← hw2]; simp
        · right; right
          refine ⟨x :: a, w2, hw2.symm, by simp, hw, List.suffix_refl _, ?_⟩
          rw [← hw2] at h
          exact (List.prefix_append_right_inj (x :: a)).mp h
    · rcases infix_append_split a h with h1 | h1 | ⟨w1, w2, hw, h1, h2, h3, h4⟩
      · exact Or.inl (h1.trans (List.suffix_cons x a).isInfix)
      · exact Or.inr (Or.inl h1)
      · exact Or.inr (Or.inr ⟨w1, w2, hw, h1, h2, h3.trans (List.suffix_cons x a), h4⟩)

theorem marker_word : ∀ ch ∈ "EXPR_".toList, isWordChar ch = true := by decide

/-- Two texts without marker joined at a character that is no word character
(or one of them empty) give a text without marker. -/
theorem NoMarker.append {a b : Str} (ha : NoMarker a) (hb : NoMarker b)
    (hj : headIs isWordChar a.reverse = false ∨ headIs isWordChar b = false) :
    NoMarker (a ++ b) := by
  intro h
  rcases infix_append_split a h with h1 | h1 | ⟨w1, w2, hw, h1, h2, h3, h4⟩
  · exact ha h1
  · exact hb h1
  · have hw1 : ∀ ch ∈ w1, isWordChar ch = true :=
      fun ch hch => marker_word ch (by rw [hw]; simp [hch])
    have hw2 : ∀ ch ∈ w2, isWordChar ch = true :=
      fun ch hch => marker_word ch (by rw [hw]; simp [hch])
    rcases hj with hj | hj
    · obtain ⟨t, ht⟩ := h3
      obtain ⟨y, z, hyz⟩ : ∃ y z, w1 = y ++ [z] := by
        rcases List.eq_nil_or_concat w1 with h0 | ⟨y, z, h0⟩
        · exact absurd h0 h1
        · exact ⟨y, z, by simpa using h0⟩
      have hz := hw1 z (by rw [hyz]; simp)
      rw [← ht, hyz] at hj
      simp [headIs, hz] at hj
    · cases w2 with
      | nil => exact h2 rfl
      | cons c w2 =>
        cases b with
        | nil => simp at h4
        | cons d b =>
          rw [List.cons_prefix_cons] at h4
          have hc := hw2 c (by simp)
          rw [← h4.1, headIs, hc] at hj
          simp at hj

theorem NoMarker.short {a : Str} (h : a.length < 5) : NoMarker a := by
  intro hm
  have := hm.length_le
  simp at this
  omega

/-- A new name holds no marker when the component name followed by an
underscore and the old name hold none. -/
theorem NoMarker.newName {c x : Str} (hc : NoMarker (c ++ ['_'])) (hx : NoMarker x) :
    NoMarker (newNameOf c x) := by
  intro h
  have e : newNameOf c x = (c ++ ['_']) ++ x := by simp [newNameOf]
  rw [e] at h
  rcases infix_append_split _ h with h1 | h1 | ⟨w1, w2, hw, h1, h2, h3, h4⟩
  · exact hc h1
  · exact hx h1
  · -- the part before the joint ends with the underscore, which the marker
    -- holds only as its last character
    obtain ⟨t, ht⟩ := h3
    obtain ⟨y, z, hyz⟩ : ∃ y z, w1 = y ++ [z] := by
      rcases List.eq_nil_or_concat w1 with h0 | ⟨y, z, h0⟩
      · exact absurd h0 h1
      · exact ⟨y, z, by simpa using h0⟩
    have hz : z = '_' := by
      rw [hyz, ← List.append_assoc] at ht
      have := congrArg List.getLast? ht
      simpa using this
    subst hz
    rw [hyz] at hw
    rcases y with _ | ⟨y1, _ | ⟨y2, _ | ⟨y3, _ | ⟨y4, _ | ⟨y5, y⟩⟩⟩⟩⟩ <;>
      rcases w2 with _ | ⟨c1, w2⟩ <;> simp at hw h2

/-- A run of word characters inside the concatenation of well-formed pieces
lies inside one piece. -/
theorem word_infix_piece {w : Str} (hw : ∀ ch ∈ w, isWordChar ch = true) (hne : w ≠ []) :
    ∀ (ps : List Str) (b : Bool), Tok b ps → w <:+: ps.flatten → ∃ p ∈ ps, w <:+: p
  | [], _, _, h => by
    simp at h
    exact absurd h hne
  | p :: ps, b, htok, h => by
    rw [List.flatten_cons] at h
    have hhead : ∀ {F : Str}, headIs isWordChar F = false → ∀ w2, w2 ≠ [] → w2 <+: F →
        (∀ ch ∈ w2, isWordChar ch = true) → False := by
      intro F hF w2 h2 h4 hw2
      cases w2 with
      | nil => exact h2 rfl
      | cons c w2 =>
        cases F with
        | nil => simp at h4
        | cons d F =>
          rw [List.cons_prefix_cons] at h4
          have hc := hw2 c (by simp)
          rw [← h4.1, headIs, hc] at hF
          simp at hF
    rcases infix_append_split p h with h1 | h1 | ⟨w1, w2, hww, h1, h2, h3, h4⟩
    · exact ⟨p, by simp, h1⟩
    · have htail : ∃ b', Tok b' ps := by
        rcases htok with ⟨_, _, _, ht⟩ | ⟨_, _, _, ht⟩
        · exact ⟨false, ht⟩
        · exact ⟨true, ht⟩
      obtain ⟨b', ht⟩ := htail
      obtain ⟨q, hq, hwq⟩ := word_infix_piece hw hne ps b' ht h1
      exact ⟨q, by simp [hq], hwq⟩
    · exfalso
      have hw1 : ∀ ch ∈ w1, isWordChar ch = true := fun ch hch => hw ch (by rw [hww]; simp [hch])
      have hw2 : ∀ ch ∈ w2, isWordChar ch = true := fun ch hch => hw ch (by rw [hww]; simp [hch])
      rcases htok with ⟨ch, rfl, hch, _⟩ | ⟨_, _, _, ht⟩
      · -- the piece is one character that is no word character
        obtain ⟨t, ht⟩ := h3
        obtain ⟨y, z, hyz⟩ : ∃ y z, w1 = y ++ [z] := by
          rcases List.eq_nil_or_concat w1 with h0 | ⟨y, z, h0⟩
          · exact absurd h0 h1
          · exact ⟨y, z, by simpa using h0⟩
        have hz := hw1 z (by rw [hyz]; simp)
        rw [hyz, ← List.append_assoc] at ht
        have : z = ch := by
          have := congrArg List.getLast? ht
          simpa using this
        rw [this, hch] at hz
        simp at hz
      · exact hhead (Tok_true_head ps ht) w2 h2 h4 hw2

/-! ## Joining well-formed texts -/

theorem render_fin (segs : List (Str × Slot)) (fin : Str) :
    render segs fin = render segs [] ++ fin := by
  induction segs with
  | nil => simp [render]
  | cons p rest ih => simp only [render]; rw [ih]; simp

theorem render_append (s1 s2 : List (Str × Slot)) (fin : Str) :
    render (s1 ++ s2) fin = render s1 [] ++ render s2 fin := by
  induction s1 with
  | nil => simp [render]
  | cons p rest ih =>
    show p.1 ++ (p.2.text ++ render (rest ++ s2) fin) =
      p.1 ++ (p.2.text ++ render rest []) ++ render s2 fin
    rw [ih]; simp

theorem goodCell_of_noMarker {p : Str} (h : NoMarker p) : GoodCell p :=
  ⟨[], p, ⟨by simp, h⟩, rfl⟩

/-- Two well-formed texts joined at a character that is no word character
give a well-formed text. -/
theorem goodCell_append {a b : Str} (ha : GoodCell a) (hb : GoodCell b)
    (hj : headIs isWordChar a.reverse = false ∨ headIs isWordChar b = false) :
    GoodCell (a ++ b) := by
  obtain ⟨s1, f1, h1, rfl⟩ := ha
  obtain ⟨s2, f2, h2, rfl⟩ := hb
  have hj1 : ∀ u Y, render s2 f2 = u ++ Y → NoMarker u →
      (u = [] → SlotStart Y) → NoMarker (f1 ++ u) := by
    intro u Y hR hu _
    by_cases hu0 : u = []
    · subst hu0; simpa using h1.2
    · apply NoMarker.append h1.2 hu
      rcases hj with hj | hj
      · left
        rw [render_fin, List.reverse_append] at hj
        cases hf : f1.reverse with
        | nil => rfl
        | cons c r => rw [hf] at hj; simpa [headIs] using hj
      · right
        rw [hR] at hj
        cases u with
        | nil => exact absurd rfl hu0
        | cons c u => simpa [headIs] using hj
  cases s2 with
  | nil =>
    refine ⟨s1, f1 ++ f2, ⟨h1.1, ?_⟩, ?_⟩
    · exact hj1 f2 [] (by simp [render]) h2.2 (fun _ => Or.inl rfl)
    · rw [render_fin s1 (f1 ++ f2), render_fin s1 f1]; simp [render]
  | cons p r =>
    obtain ⟨hpu, hpX⟩ := h2.1 p (by simp)
    refine ⟨s1 ++ (f1 ++ p.1, p.2) :: r, f2, ⟨?_, h2.2⟩, ?_⟩
    · intro q hq
      rcases List.mem_append.mp hq with hq | hq
      · exact h1.1 q hq
      · rcases List.mem_cons.mp hq with rfl | hq
        · exact ⟨hj1 p.1 (p.2.text ++ render r f2) rfl hpu (fun _ => slotStart_text hpX _), hpX⟩
        · exact h2.1 q (by simp [hq])
    · rw [render_append, render_fin s1 f1]
      simp [render]

/-- The concatenation of well-formed pieces is a well-formed text. -/
theorem goodCell_flatten : ∀ (ps : List Str) (b : Bool), Tok b ps → (∀ p ∈ ps, GoodCell p) →
    GoodCell ps.flatten
  | [], _, _, _ => goodCell_of_noMarker (NoMarker.short (by simp))
  | p :: ps, b, htok, h => by
    rw [List.flatten_cons]
    rcases htok with ⟨ch, rfl, hch, ht⟩ | ⟨_, _, _, ht⟩
    · exact goodCell_append (h _ (by simp))
        (goodCell_flatten ps false ht (fun q hq => h q (by simp [hq])))
        (Or.inl (by simpa [headIs] using hch))
    · exact goodCell_append (h _ (by simp))
        (goodCell_flatten ps true ht (fun q hq => h q (by simp [hq])))
        (Or.inr (Tok_true_head ps ht))

/-! ## The protected script as pieces -/

/-- The shape of a match of the expression for `{...}`. -/
theorem exprRe_shape {p : Option Char} {s : Str} {n : Nat} {g : List Str}
    (h : exprRe p s = some (n, g)) :
    ∃ body rest, s = '{' :: (body ++ '}' :: rest) ∧ n = body.length + 2 ∧ '}' ∉ body := by
  unfold exprRe at h
  split at h
  · rename_i hh
    cases s with
    | nil => simp at hh
    | cons c t =>
      simp only [List.head?_cons, Option.some.injEq] at hh
      subst hh
      simp only [List.tail_cons] at h
      split at h
      · rename_i hc
        simp only [Bool.and_eq_true, decide_eq_true_eq] at hc
        rw [drop_length_takeWhile] at hc
        simp only [Option.some.injEq, Prod.mk.injEq] at h
        cases hd : t.dropWhile (· != '}') with
        | nil => rw [hd] at hc; simp at hc
        | cons d rest =>
          rw [hd] at hc
          simp only [List.head?_cons, Option.some.injEq] at hc
          obtain ⟨_, hd2⟩ := hc
          subst hd2
          refine ⟨t.takeWhile (· != '}'), rest, ?_, h.1.symm, ?_⟩
          · rw [← hd, List.takeWhile_append_dropWhile]
          · intro hm
            have := List.mem_takeWhile_imp hm
            simp at this
      · simp at h
  · simp at h

theorem Tok_weaken : ∀ (ps : List Str), Tok true ps → Tok false ps
  | [], _ => trivial
  | p :: ps, h => by
    rcases h with h | ⟨hb, _⟩
    · exact Or.inl h
    · simp at hb

theorem render_snoc (segs : List (Str × Slot)) (u : Str) (X : Slot) :
    render (segs ++ [(u, X)]) [] = render segs u ++ X.text := by
  rw [render_append, render_fin segs u]
  simp [render]

/-- The protected script, continued after a partial piece: pieces whose words
are well-formed texts with placeholders. -/
theorem protect_cells (L : GoLib) : ∀ (n : Nat) (suf : Str), suf.length ≤ n →
    ∀ (segs : List (Str × Slot)) (fin : Str) (prev : Option Char),
      (∀ ch ∈ render segs fin, isWordChar ch = true) →
      (∀ p ∈ segs, NoMarker p.1 ∧ GoodSlot p.2) → NoMarker (fin ++ suf) →
      ∃ ps, Tok false ps ∧
        ps.flatten = render segs fin ++
          replaceAllAux exprRe (fun mt _ => exprKey L mt) prev 0 suf ∧
        ∀ p ∈ ps, GoodCell p
  | n, [], _, segs, fin, prev, hw, hs, hm => by
    have hg : GoodCell (render segs fin) :=
      ⟨segs, fin, ⟨hs, by simpa using hm⟩, rfl⟩
    by_cases h0 : render segs fin = []
    · exact ⟨[], trivial, by simp [h0, replaceAllAux], by simp⟩
    · refine ⟨[render segs fin], Or.inr ⟨rfl, h0, hw, trivial⟩, by simp [replaceAllAux], ?_⟩
      intro p hp
      rw [List.mem_singleton] at hp
      rw [hp]; exact hg
  | 0, ch :: t, hl, _, _, _, _, _, _ => by simp at hl
  | n + 1, ch :: t, hl, segs, fin, prev, hw, hs, hm => by
    have hfin : NoMarker fin := hm.of_part ⟨[], ch :: t, by simp⟩
    have hmatchless : (exprRe prev (ch :: t) = none ∨ ∃ g, exprRe prev (ch :: t) = some (0, g)) →
        ∃ ps, Tok false ps ∧
          ps.flatten = render segs fin ++
            replaceAllAux exprRe (fun mt _ => exprKey L mt) prev 0 (ch :: t) ∧
          ∀ p ∈ ps, GoodCell p := by
      intro hno
      have hstep : replaceAllAux exprRe (fun mt _ => exprKey L mt) prev 0 (ch :: t) =
          ch :: replaceAllAux exprRe (fun mt _ => exprKey L mt) (some ch) 0 t := by
        rcases hno with hno | ⟨g, hno⟩
        · exact replaceAllAux_nomatch hno
        · rw [replaceAllAux, hno]
      rw [hstep]
      by_cases hch : isWordChar ch = true
      · obtain ⟨ps, h1, h2, h3⟩ := protect_cells L n t (by simpa using hl) segs (fin ++ [ch])
          (some ch) (by
            intro x hx
            rw [render_fin, ← List.append_assoc, ← render_fin] at hx
            rcases List.mem_append.mp hx with hx | hx
            · exact hw x hx
            · simp at hx; rw [hx]; exact hch)
          hs (by simpa using hm)
        refine ⟨ps, h1, ?_, h3⟩
        rw [h2, render_fin segs (fin ++ [ch]), render_fin segs fin]
        simp
      · have hch' : isWordChar ch = false := by simpa using hch
        obtain ⟨ps, h1, h2, h3⟩ := protect_cells L n t (by simpa using hl) [] [] (some ch)
          (by simp [render]) (by simp)
          (hm.of_part ⟨fin ++ [ch], [], by simp⟩)
        have hg : GoodCell (render segs fin) := ⟨segs, fin, ⟨hs, hfin⟩, rfl⟩
        have hgc : GoodCell [ch] := goodCell_of_noMarker (NoMarker.short (by simp))
        simp only [render, List.nil_append] at h2
        by_cases h0 : render segs fin = []
        · refine ⟨[ch] :: ps, Or.inl ⟨ch, rfl, hch', h1⟩, by simp [h0, h2], ?_⟩
          intro p hp
          rcases List.mem_cons.mp hp with rfl | hp
          · exact hgc
          · exact h3 p hp
        · refine ⟨render segs fin :: [ch] :: ps,
            Or.inr ⟨rfl, h0, hw, Or.inl ⟨ch, rfl, hch', h1⟩⟩, by simp [h2], ?_⟩
          intro p hp
          rcases List.mem_cons.mp hp with rfl | hp
          · exact hg
          · rcases List.mem_cons.mp hp with rfl | hp
            · exact hgc
            · exact h3 p hp
    cases hm0 : exprRe prev (ch :: t) with
    | none => exact hmatchless (Or.inl hm0)
    | some r =>
      obtain ⟨k, g⟩ := r
      cases k with
      | zero => exact hmatchless (Or.inr ⟨g, hm0⟩)
      | succ k =>
        obtain ⟨body, rest, hshape, hk, _⟩ := exprRe_shape hm0
        have hdrop : (ch :: t).drop (k + 1) = rest := by
          rw [hshape, hk]
          have : '{' :: (body ++ '}' :: rest) = ('{' :: (body ++ ['}'])) ++ rest := by simp
          rw [this, List.drop_left' (by simp)]
        have hlen : rest.length ≤ n := by
          have := congrArg List.length hshape
          simp at this hl
          omega
        rw [replaceAllAux_match hm0 (by simp), hdrop]
        obtain ⟨ps, h1, h2, h3⟩ := protect_cells L n rest hlen
          (segs ++ [(fin, Slot.key (exprKey L ((ch :: t).take (k + 1))))]) []
          (lastOr prev ((ch :: t).take (k + 1)))
          (by
            intro x hx
            rw [render_snoc] at hx
            rcases List.mem_append.mp hx with hx | hx
            · exact hw x hx
            · exact exprKey_word L _ x hx)
          (by
            intro p hp
            rcases List.mem_append.mp hp with hp | hp
            · exact hs p hp
            · rw [List.mem_singleton] at hp
              rw [hp]
              exact ⟨hfin, exprKey_isKey L _⟩)
          (hm.of_part ⟨fin ++ (ch :: t).take (k + 1), [], by
            rw [← hdrop]; simp⟩)
        refine ⟨ps, h1, ?_, h3⟩
        rw [h2, render_snoc]
        simp [Slot.text]

/-! ## The declaration rewrite on pieces -/

/-- A run of word characters that ends at a word boundary is determined by
the text it starts. -/
theorem word_run_unique {a b A B : Str} (h : a ++ A = b ++ B)
    (ha : ∀ ch ∈ a, isWordChar ch = true) (hb : ∀ ch ∈ b, isWordChar ch = true)
    (hA : headIs isWordChar A = false) (hB : headIs isWordChar B = false) : a = b ∧ A = B := by
  have h1 := takeWhile_append_headIs a A ha hA
  have h2 := takeWhile_append_headIs b B hb hB
  rw [h, h2] at h1
  subst h1
  exact ⟨rfl, List.append_cancel_left h⟩

theorem Tok_nonword_head : ∀ (ps : List Str) (b : Bool) (c : Char) (t : Str), Tok b ps →
    ps.flatten = c :: t → isWordChar c = false →
    ∃ ps', ps = [c] :: ps' ∧ ps'.flatten = t ∧ Tok false ps'
  | [], _, _, _, _, h, _ => by simp at h
  | p :: ps, b, c, t, htok, h, hc => by
    rcases htok with ⟨ch, rfl, _, ht⟩ | ⟨_, hne, hw, _⟩
    · simp only [List.flatten_cons, List.singleton_append, List.cons.injEq] at h
      obtain ⟨rfl, h⟩ := h
      exact ⟨ps, rfl, h, ht⟩
    · exfalso
      cases p with
      | nil => exact hne rfl
      | cons a p =>
        simp only [List.flatten_cons, List.cons_append, List.cons.injEq] at h
        have := hw a (by simp)
        rw [h.1, hc] at this
        simp at this

theorem Tok_word_head : ∀ (ps : List Str) (b : Bool) (w r : Str), Tok b ps →
    ps.flatten = w ++ r → w ≠ [] → (∀ ch ∈ w, isWordChar ch = true) →
    headIs isWordChar r = false →
    ∃ ps', ps = w :: ps' ∧ ps'.flatten = r ∧ Tok true ps'
  | [], _, w, r, _, h, hne, _, _ => by
    simp at h
    exact absurd h.1 hne
  | p :: ps, b, w, r, htok, h, hne, hw, hr => by
    rcases htok with ⟨ch, rfl, hch, _⟩ | ⟨_, _, hpw, ht⟩
    · exfalso
      cases w with
      | nil => exact hne rfl
      | cons a w =>
        simp only [List.flatten_cons, List.singleton_append, List.cons_append,
          List.cons.injEq] at h
        have := hw a (by simp)
        rw [← h.1, hch] at this
        simp at this
    · rw [List.flatten_cons] at h
      obtain ⟨h1, h2⟩ := word_run_unique h hpw hw (Tok_true_head ps ht) hr
      exact ⟨ps, by rw [h1], h2, ht⟩

theorem Tok_space_run : ∀ (ws : Str) (ps : List Str) (b : Bool) (rest : Str), Tok b ps →
    ps.flatten = ws ++ rest → ws ≠ [] → (∀ ch ∈ ws, isWordChar ch = false) →
    ∃ ps', ps = ws.map (fun c => [c]) ++ ps' ∧ ps'.flatten = rest ∧ Tok false ps'
  | [], _, _, _, _, _, hne, _ => absurd rfl hne
  | c :: ws, ps, b, rest, htok, h, _, hw => by
    obtain ⟨ps1, rfl, h1, ht1⟩ := Tok_nonword_head ps b c (ws ++ rest) htok h (hw c (by simp))
    by_cases h0 : ws = []
    · subst h0
      exact ⟨ps1, rfl, by simpa using h1, ht1⟩
    · obtain ⟨ps2, rfl, h2, ht2⟩ := Tok_space_run ws ps1 false rest ht1 h1 h0
        (fun ch hch => hw ch (by simp [hch]))
      exact ⟨ps2, rfl, h2, ht2⟩

theorem isSpace_of_isReSpace {ch : Char} (h : isReSpace ch = true) : isSpace ch = true := by
  simp only [isReSpace, isSpace, Bool.or_eq_true, beq_iff_eq, Bool.and_eq_true,
    decide_eq_true_eq] at h ⊢
  omega

theorem not_word_of_isReSpace {ch : Char} (h : isReSpace ch = true) : isWordChar ch = false := by
  cases hw : isWordChar ch with
  | false => rfl
  | true => rw [not_isReSpace_of_word hw] at h; simp at h

theorem fieldsAux_spaces (r : Str) : ∀ sp : Str, (∀ ch ∈ sp, isSpace ch = true) →
    fieldsAux [] (sp ++ r) = fieldsAux [] r
  | [], _ => rfl
  | c :: sp, h => by
    rw [List.cons_append, fieldsAux, if_pos (h c (by simp))]
    simp only [List.isEmpty_nil, if_true]
    exact fieldsAux_spaces r sp (fun ch hch => h ch (by simp [hch]))

/-- The fields of a declaration match: the keyword and the name. -/
theorem fields_decl (kw ws name : Str) (hkw : kw ≠ []) (hkww : ∀ ch ∈ kw, isWordChar ch = true)
    (hws : ws ≠ []) (hwss : ∀ ch ∈ ws, isReSpace ch = true) (hn : name ≠ [])
    (hnw : ∀ ch ∈ name, isWordChar ch = true) :
    fields (kw ++ (ws ++ name)) = [kw, name] := by
  unfold fields
  rw [fieldsAux_run _ kw [] (fun ch hch => not_isSpace_of_word (hkww ch hch))]
  cases ws with
  | nil => exact absurd rfl hws
  | cons c ws =>
    have hc : isSpace c = true := isSpace_of_isReSpace (hwss c (by simp))
    rw [List.cons_append, fieldsAux, if_pos hc]
    have hre : (kw.reverse ++ []).isEmpty = false := by
      cases kw with
      | nil => exact absurd rfl hkw
      | cons a kw => simp
    rw [hre]
    simp only [Bool.false_eq_true, if_false, List.append_nil, List.reverse_reverse]
    rw [fieldsAux_spaces name ws (fun ch hch => isSpace_of_isReSpace (hwss ch (by simp [hch])))]
    have := fieldsAux_run [] name [] (fun ch hch => not_isSpace_of_word (hnw ch hch))
    rw [List.append_nil] at this
    rw [this]
    have hre2 : (name.reverse ++ []).isEmpty = false := by
      cases name with
      | nil => exact absurd rfl hn
      | cons a name => simp
    simp [fieldsAux, hre2, hn]

theorem renameDecl_decl (M : List (Str × Str)) (kw ws name : Str) (hkw : kw ≠ [])
    (hkww : ∀ ch ∈ kw, isWordChar ch = true)
    (hws : ws ≠ []) (hwss : ∀ ch ∈ ws, isReSpace ch = true) (hn : name ≠ [])
    (hnw : ∀ ch ∈ name, isWordChar ch = true) :
    renameDecl M (kw ++ (ws ++ name)) = kw ++ ' ' :: mapGet M name := by
  unfold renameDecl
  rw [fields_decl kw ws name hkw hkww hws hwss hn hnw]
  rfl

theorem mapGet_mem (M : List (Str × Str)) (k : Str) :
    mapGet M k = [] ∨ ∃ e ∈ M, e.1 = k ∧ mapGet M k = e.2 := by
  unfold mapGet
  cases h : M.find? (fun e => e.1 == k) with
  | none => exact Or.inl rfl
  | some e =>
    right
    exact ⟨e, List.mem_of_find?_eq_some h, by simpa using List.find?_some h, rfl⟩

theorem declKeywords_word : ∀ kw ∈ declKeywords, kw ≠ [] ∧ ∀ ch ∈ kw, isWordChar ch = true := by
  decide

theorem declKeywords_noMarker : ∀ kw ∈ declKeywords, NoMarker kw := by
  intro kw hkw
  simp only [declKeywords, List.mem_cons, List.mem_singleton, List.not_mem_nil, or_false] at hkw
  rcases hkw with rfl | rfl | rfl | rfl <;>
    · intro h
      have hE : 'E' ∈ "EXPR_".toList := by decide
      have := h.subset hE
      revert this
      decide

theorem declRe_nonword (p : Option Char) (ch : Char) (t : Str) (hch : isWordChar ch = false) :
    declRe p (ch :: t) = none := by
  cases h : declRe p (ch :: t) with
  | none => rfl
  | some r =>
    exfalso
    obtain ⟨_, kw, ws, name, rest, hs, hkw, _⟩ := declRe_shape (n := r.1) (g := r.2) h
    obtain ⟨hne, hw⟩ := declKeywords_word kw hkw
    cases kw with
    | nil => exact hne rfl
    | cons a kw =>
      simp only [List.cons_append, List.cons.injEq] at hs
      have := hw a (by simp)
      rw [← hs.1, hch] at this
      simp at this

theorem prevIsWord_lastOr_word (q : Option Char) (x name : Str) (hn : name ≠ [])
    (hnw : ∀ ch ∈ name, isWordChar ch = true) : prevIsWord (lastOr q (x ++ name)) = true := by
  rw [lastOr_append]
  cases name with
  | nil => exact absurd rfl hn
  | cons a w =>
    exact prevIsWord_lastOr w (some a) (hnw a (by simp)) (fun ch hc => hnw ch (by simp [hc]))

/-- The declaration rewrite on a text given by well-formed pieces gives
well-formed pieces again: pieces of the text, keywords, single spaces and new
names. -/
theorem declRewrite_cells (M : List (Str × Str))
    (hM : ∀ e ∈ M, e.2 ≠ [] ∧ (∀ ch ∈ e.2, isWordChar ch = true) ∧ GoodCell e.2) :
    ∀ (n : Nat) (ps : List Str), ps.length ≤ n → ∀ (b : Bool) (prev : Option Char),
      Tok b ps → prevIsWord prev = b → (∀ p ∈ ps, GoodCell p) →
      ∃ qs, Tok b qs ∧
        qs.flatten = replaceAllAux declRe (fun mt _ => renameDecl M mt) prev 0 ps.flatten ∧
        ∀ q ∈ qs, GoodCell q
  | _, [], _, b, prev, _, _, _ => ⟨[], trivial, by simp [replaceAllAux], by simp⟩
  | 0, p :: ps, hl, _, _, _, _, _ => by simp at hl
  | n + 1, p :: ps, hl, b, prev, htok, hprev, hg => by
    have hlen : ps.length ≤ n := by simpa using hl
    have hgt : ∀ q ∈ ps, GoodCell q := fun q hq => hg q (by simp [hq])
    rcases htok with ⟨ch, rfl, hch, ht⟩ | ⟨hb, hpne, hpw, ht⟩
    · -- a character that is no word character
      obtain ⟨qs, h1, h2, h3⟩ := declRewrite_cells M hM n ps hlen false (some ch) ht
        (by simpa [prevIsWord] using hch) hgt
      refine ⟨[ch] :: qs, Or.inl ⟨ch, rfl, hch, h1⟩, ?_, ?_⟩
      · simp only [List.flatten_cons, List.singleton_append]
        rw [replaceAllAux_nomatch (declRe_nonword prev ch _ hch), h2]
      · intro q hq
        rcases List.mem_cons.mp hq with rfl | hq
        · exact hg _ (by simp)
        · exact h3 q hq
    · -- a run of word characters
      subst hb
      have hF := Tok_true_head ps ht
      have hplain : (declRe prev (p ++ ps.flatten) = none) →
          ∃ qs, Tok false qs ∧
            qs.flatten = replaceAllAux declRe (fun mt _ => renameDecl M mt) prev 0
              (p :: ps).flatten ∧ ∀ q ∈ qs, GoodCell q := by
        intro hno
        cases p with
        | nil => exact absurd rfl hpne
        | cons a w =>
          have ha : prevIsWord (some a) = true := hpw a (by simp)
          have hww : ∀ ch ∈ w, isWordChar ch = true := fun ch hc => hpw ch (by simp [hc])
          obtain ⟨qs, h1, h2, h3⟩ := declRewrite_cells M hM n ps hlen true (lastOr (some a) w) ht
            (prevIsWord_lastOr w (some a) ha hww) hgt
          refine ⟨(a :: w) :: qs, Or.inr ⟨rfl, by simp, hpw, h1⟩, ?_, ?_⟩
          · simp only [List.flatten_cons, List.cons_append] at hno ⊢
            rw [replaceAllAux_nomatch hno,
              replaceAllAux_word_run declRe_anchored ps.flatten w (some a) ha hww, h2]
          · intro q hq
            rcases List.mem_cons.mp hq with rfl | hq
            · exact hg _ (by simp)
            · exact h3 q hq
      cases hm : declRe prev (p ++ ps.flatten) with
      | none => exact hplain hm
      | some r =>
        obtain ⟨k, g⟩ := r
        obtain ⟨_, kw, ws, name, rest, hs, hkw, hws, hwss, hid, hnw, hrest, hgr, hk⟩ :=
          declRe_shape hm
        obtain ⟨hkwne, hkww⟩ := declKeywords_word kw hkw
        have hwsn : ∀ ch ∈ ws, isWordChar ch = false :=
          fun ch hc => not_word_of_isReSpace (hwss ch hc)
        have hnne : name ≠ [] := by
          intro e; rw [e] at hid; simp [headIs] at hid
        have hwshead : headIs isWordChar (ws ++ (name ++ rest)) = false := by
          cases ws with
          | nil => exact absurd rfl hws
          | cons c ws => simpa [headIs] using hwsn c (by simp)
        obtain ⟨hpk, hFe⟩ := word_run_unique hs hpw hkww hF hwshead
        subst hpk
        obtain ⟨ps2, hps, hfl2, ht2⟩ := Tok_space_run ws ps true (name ++ rest) ht hFe hws hwsn
        obtain ⟨ps3, hps2, hfl3, ht3⟩ := Tok_word_head ps2 false name rest ht2 hfl2 hnne hnw hrest
        have hlen3 : ps3.length ≤ n := by
          rw [hps, hps2] at hlen
          simp at hlen
          omega
        have hg3 : ∀ q ∈ ps3, GoodCell q := fun q hq => hgt q (by rw [hps, hps2]; simp [hq])
        obtain ⟨qs, h1, h2, h3⟩ := declRewrite_cells M hM n ps3 hlen3 true
          (lastOr prev (p ++ ws ++ name)) ht3
          (prevIsWord_lastOr_word prev (p ++ ws) name hnne hnw) hg3
        have hkpos : 0 < k := by
          rw [hk]
          have := List.length_pos.mpr hws
          omega
        have htext : (p :: ps).flatten = (p ++ ws ++ name) ++ rest := by
          rw [List.flatten_cons, hFe]; simp
        have hklen : k = (p ++ ws ++ name).length := by
          rw [hk, List.length_append, List.length_append]
        have hm' : declRe prev ((p ++ ws ++ name) ++ rest) = some (k, g) := by
          rw [← htext, List.flatten_cons]; exact hm
        have hscan : replaceAllAux declRe (fun mt _ => renameDecl M mt) prev 0
            (p :: ps).flatten =
            (p ++ ' ' :: mapGet M name) ++ qs.flatten := by
          rw [htext, replaceAllAux_match' hm' hkpos (by simp [hpne]), hklen,
            List.take_left, List.drop_left, h2, hfl3]
          congr 1
          have := renameDecl_decl M p ws name hpne hpw hws hwss hnne hnw
          rw [← this]; simp
        have hgkw : GoodCell p := goodCell_of_noMarker (declKeywords_noMarker p hkw)
        have hgsp : GoodCell [' '] := goodCell_of_noMarker (NoMarker.short (by simp))
        rcases mapGet_mem M name with h0 | ⟨e, he, _, h0⟩
        · refine ⟨p :: [' '] :: qs,
            Or.inr ⟨rfl, hpne, hpw, Or.inl ⟨' ', rfl, by decide, Tok_weaken qs h1⟩⟩, ?_, ?_⟩
          · rw [hscan, h0]; simp
          · intro q hq
            rcases List.mem_cons.mp hq with rfl | hq
            · exact hgkw
            · rcases List.mem_cons.mp hq with rfl | hq
              · exact hgsp
              · exact h3 q hq
        · obtain ⟨he1, he2, he3⟩ := hM e he
          refine ⟨p :: [' '] :: e.2 :: qs,
            Or.inr ⟨rfl, hpne, hpw, Or.inl ⟨' ', rfl, by decide,
              Or.inr ⟨rfl, he1, he2, h1⟩⟩⟩, ?_, ?_⟩
          · rw [hscan, h0]; simp
          · intro q hq
            rcases List.mem_cons.mp hq with rfl | hq
            · exact hgkw
            · rcases List.mem_cons.mp hq with rfl | hq
              · exact hgsp
              · rcases List.mem_cons.mp hq with rfl | hq
                · exact he3
                · exact h3 q hq

/-! ## The restored texts and the placeholder map -/

theorem noMarker_of_contains {z : Str} (h : contains z "EXPR_".toList = false) : NoMarker z := by
  intro hm
  obtain ⟨a, b, hab⟩ := hm
  have := index_inside "EXPR_".toList b a
  rw [← List.append_assoc, hab] at this
  unfold contains at h
  rw [this] at h
  simp at h

/-- A map of pieces that keeps the single characters and turns runs of word
characters into runs of word characters keeps the pieces well formed. -/
theorem Tok_map_gen (F : Str → Str)
    (h1 : ∀ ch, isWordChar ch = false → F [ch] = [ch])
    (h2 : ∀ p, p ≠ [] → (∀ ch ∈ p, isWordChar ch = true) →
      F p ≠ [] ∧ ∀ ch ∈ F p, isWordChar ch = true) :
    ∀ (ps : List Str) (b : Bool), Tok b ps → Tok b (ps.map F)
  | [], _, _ => trivial
  | p :: ps, b, h => by
    rcases h with ⟨ch, rfl, hch, htok⟩ | ⟨hb, hpne, hpw, htok⟩
    · exact Or.inl ⟨ch, h1 ch hch, hch, Tok_map_gen F h1 h2 ps false htok⟩
    · exact Or.inr ⟨hb, (h2 p hpne hpw).1, (h2 p hpne hpw).2, Tok_map_gen F h1 h2 ps true htok⟩

theorem renameToken_nonword (names : List Str) (c : Str)
    (hn : ∀ x ∈ names, ∀ ch ∈ x, isWordChar ch = true) (ch : Char) (hch : isWordChar ch = false) :
    renameToken names c [ch] = [ch] := by
  unfold renameToken
  rw [if_neg]
  intro h
  have := hn _ h ch (by simp)
  rw [hch] at this
  simp at this

theorem renameToken_word (names : List Str) (c : Str) (hc : ∀ ch ∈ c, isWordChar ch = true)
    (p : Str) (hp : p ≠ []) (hpw : ∀ ch ∈ p, isWordChar ch = true) :
    renameToken names c p ≠ [] ∧ ∀ ch ∈ renameToken names c p, isWordChar ch = true := by
  unfold renameToken
  split
  · exact ⟨by simp [newNameOf], newNameOf_word hc hpw⟩
  · exact ⟨hp, hpw⟩

theorem piecesAux_concat (c : Char) (hc : isWordChar c = false) : ∀ (x cur : Str),
    piecesAux cur (x ++ [c]) = piecesAux cur x ++ [[c]]
  | [], cur => by
    simp only [List.nil_append, piecesAux, hc, Bool.false_eq_true, if_false]
    by_cases h : cur.isEmpty = true
    · simp [h]
    · simp [h]
  | a :: x, cur => by
    simp only [List.cons_append, piecesAux]
    by_cases ha : isWordChar a = true
    · simp only [ha, if_true]
      exact piecesAux_concat c hc x (a :: cur)
    · simp only [ha, if_false]
      by_cases h : cur.isEmpty = true
      · simp [h, piecesAux_concat c hc x []]
      · simp [h, piecesAux_concat c hc x []]

theorem declaredNames_noMarker {s x : Str} (hs : NoMarker s) (hx : x ∈ declaredNames s) :
    NoMarker x := by
  obtain ⟨pre, kw, ws, post, hsx, _⟩ := declaredNames_position hx
  exact hs.of_part ⟨pre ++ kw ++ ws, post, by rw [hsx]; simp⟩

/-- The text restored for a protected expression `{...}` of the script is
well formed: it starts with `{`, ends with `}` and holds no marker. -/
theorem restored_good (s c : Str) (hs : NoMarker s) (hc : ∀ ch ∈ c, isWordChar ch = true)
    (hcm : NoMarker (c ++ ['_'])) (body : Str) (hm : NoMarker ('{' :: (body ++ ['}']))) :
    GoodSlot (.val (((pieces ('{' :: (body ++ ['}']))).map
      (renameToken (declaredNames s) c)).flatten)) := by
  have hnames : ∀ x ∈ declaredNames s, ∀ ch ∈ x, isWordChar ch = true :=
    fun x hx => (declaredNames_word hx).2
  have hopen : renameToken (declaredNames s) c ['{'] = ['{'] :=
    renameToken_nonword _ c hnames '{' (by decide)
  have hclose : renameToken (declaredNames s) c ['}'] = ['}'] :=
    renameToken_nonword _ c hnames '}' (by decide)
  have hp1 : pieces ('{' :: (body ++ ['}'])) = ['{'] :: pieces (body ++ ['}']) := by
    simp [pieces, piecesAux, isWordChar]
  have hp2 : pieces (body ++ ['}']) = pieces body ++ [['}']] :=
    piecesAux_concat '}' (by decide) body []
  obtain ⟨hfl, htok⟩ := pieces_spec ('{' :: (body ++ ['}']))
  have htok' := Tok_map_gen (renameToken (declaredNames s) c)
    (renameToken_nonword _ c hnames) (renameToken_word _ c hc) _ false htok
  refine ⟨?_, ?_, ?_, ?_⟩
  · intro hmk
    obtain ⟨q, hq, hqm⟩ := word_infix_piece marker_word (by decide) _ false htok' hmk
    obtain ⟨p, hp, rfl⟩ := List.mem_map.mp hq
    have hpin : p <:+: '{' :: (body ++ ['}']) := by
      have := List.infix_of_mem_flatten hp
      rwa [hfl] at this
    unfold renameToken at hqm
    split at hqm
    · rename_i hd
      exact NoMarker.newName hcm (declaredNames_noMarker hs hd) hqm
    · exact hm (hqm.trans hpin)
  · rw [hp1]; simp [hopen]
  · rw [hp1]; simp [hopen, headIs, isWordChar]
  · rw [hp1, hp2]
    simp [hclose, headIs, isWordChar]

theorem foldl_insert_mem {α : Type} (key val : α → Str) : ∀ (ms : List α) (m : List (Str × Str)),
    ∀ e ∈ ms.foldl (fun em mt => mapInsert em (key mt) (val mt)) m,
      (∃ mt ∈ ms, e = (key mt, val mt)) ∨ e ∈ m
  | [], _, e, h => Or.inr h
  | mt :: ms, m, e, h => by
    rcases foldl_insert_mem key val ms _ e h with ⟨mt', h1, h2⟩ | h
    · exact Or.inl ⟨mt', by simp [h1], h2⟩
    · rcases mem_mapInsert h with rfl | h
      · exact Or.inl ⟨mt, by simp, rfl⟩
      · exact Or.inr h

theorem foldl_insert_nodup {α : Type} (key val : α → Str) : ∀ (ms : List α)
    (m : List (Str × Str)), (m.map Prod.fst).Nodup →
    ((ms.foldl (fun em mt => mapInsert em (key mt) (val mt)) m).map Prod.fst).Nodup
  | [], _, h => h
  | _ :: ms, _, h => foldl_insert_nodup key val ms _ (mapInsert_keys_nodup _ _ h)

/-- Every entry of the placeholder map: the key is the placeholder of the
value, and the value is a protected expression of the script. -/
theorem buildExprMap_entries (L : GoLib) {s : Str} {e : Str × Str}
    (h : e ∈ buildExprMap L s) :
    e.1 = exprKey L e.2 ∧ ∃ body, e.2 = '{' :: (body ++ ['}']) ∧ e.2 <:+: s := by
  have h' : e ∈ (findAllSubmatch exprRe s).foldl
      (fun em mt => mapInsert em ((fun mt : List Str => exprKey L (mt.getD 0 [])) mt)
        ((fun mt : List Str => mt.getD 0 []) mt)) [] := h
  rcases foldl_insert_mem (fun mt : List Str => exprKey L (mt.getD 0 []))
    (fun mt : List Str => mt.getD 0 []) (findAllSubmatch exprRe s) [] e h'
    with ⟨mt, hmt, rfl⟩ | h
  · refine ⟨rfl, ?_⟩
    obtain ⟨pre, suf, n, g, hs, hm, rfl⟩ := findAllAux_mem_pos s 0 none hmt
    obtain ⟨body, rest, hshape, hn, _⟩ := exprRe_shape hm
    have htake : suf.take (n + 1) = '{' :: (body ++ ['}']) := by
      rw [hshape, hn]
      have : '{' :: (body ++ '}' :: rest) = ('{' :: (body ++ ['}'])) ++ rest := by simp
      rw [this, List.take_left' (by simp)]
    refine ⟨body, htake, ?_⟩
    show suf.take (n + 1) <:+: s
    rw [hs]
    exact ⟨pre, suf.drop (n + 1), by simp⟩
  · simp at h

theorem buildExprMap_nodup (L : GoLib) (s : Str) : ((buildExprMap L s).map Prod.fst).Nodup :=
  foldl_insert_nodup (fun mt : List Str => exprKey L (mt.getD 0 []))
    (fun mt : List Str => mt.getD 0 []) (findAllSubmatch exprRe s) [] (by simp)

/-! ## The text after the renaming of the uses is well formed -/

theorem buildVarMap_good (s c : Str) (hs : NoMarker s) (hc : ∀ ch ∈ c, isWordChar ch = true)
    (hcm : NoMarker (c ++ ['_'])) :
    ∀ e ∈ buildVarMap s c, e.1 ≠ [] ∧ (∀ ch ∈ e.1, isWordChar ch = true) ∧
      e.2 = newNameOf c e.1 ∧ e.2 ≠ [] ∧ (∀ ch ∈ e.2, isWordChar ch = true) ∧ GoodCell e.2 := by
  intro e he
  obtain ⟨hd, hv⟩ := buildVarMap_entries he
  obtain ⟨hne, hw⟩ := declaredNames_word hd
  refine ⟨hne, hw, hv, ?_, ?_, ?_⟩
  · rw [hv]; simp [newNameOf]
  · rw [hv]; exact newNameOf_word hc hw
  · rw [hv]
    exact goodCell_of_noMarker (NoMarker.newName hcm (declaredNames_noMarker hs hd))

/-- The text reached after the declaration rewrite and the renaming of the
uses is a well-formed text with placeholders, when neither the script nor a
new name holds the marker. -/
theorem renamed_goodCell (L : GoLib) (s c : Str) (es : List (Str × Str))
    (hperm : es.Perm (buildVarMap s c)) (hs : NoMarker s)
    (hc : ∀ ch ∈ c, isWordChar ch = true) (hcm : NoMarker (c ++ ['_']))
    (hfresh : ∀ x ∈ declaredNames s, newNameOf c x ∉ declaredNames s) :
    GoodCell (es.foldl (renameWord L)
      (replaceAllFunc declRe (fun mt _ => renameDecl (buildVarMap s c) mt)
        (protectExprs L s))) := by
  have hM := buildVarMap_good s c hs hc hcm
  obtain ⟨ps1, htok1, hfl1, hg1⟩ := protect_cells L s.length s (Nat.le_refl _) [] [] none
    (by simp [render]) (by simp) (by simpa using hs)
  have hfl1' : ps1.flatten = protectExprs L s := by
    rw [hfl1]; simp [render, protectExprs, replaceAllFunc]
  obtain ⟨qs, htok2, hfl2, hg2⟩ := declRewrite_cells (buildVarMap s c)
    (fun e he => ⟨(hM e he).2.2.2.1, (hM e he).2.2.2.2.1, (hM e he).2.2.2.2.2⟩)
    ps1.length ps1 (Nat.le_refl _) false none htok1 rfl hg1
  have hc2 : replaceAllFunc declRe (fun mt _ => renameDecl (buildVarMap s c) mt)
      (protectExprs L s) = qs.flatten := by
    rw [hfl2, hfl1']; rfl
  rw [hc2]
  have hes : ∀ e ∈ es, e.1 ≠ [] ∧ (∀ ch ∈ e.1, isWordChar ch = true) ∧ e.2 ≠ [] ∧
      ∀ ch ∈ e.2, isWordChar ch = true := fun e he =>
    ⟨(hM e (hperm.subset he)).1, (hM e (hperm.subset he)).2.1,
      (hM e (hperm.subset he)).2.2.2.1, (hM e (hperm.subset he)).2.2.2.2.1⟩
  have hent : ∀ e ∈ es, e.1 ∈ declaredNames s ∧ e.2 = newNameOf c e.1 :=
    fun e he => buildVarMap_entries (hperm.subset he)
  rw [foldl_renameWord_pieces L es qs htok2 hes]
  have hF : ∀ p, es.foldl stepToken p = if p ∈ es.map Prod.fst then newNameOf c p else p :=
    fun p => foldl_stepToken c es p (fun e he => (hent e he).2)
      (fun e he e' he' h => hfresh e.1 (hent e he).1 (h ▸ (hent e' he').1))
  have hkeyword : ∀ p, p ∈ es.map Prod.fst → p ∈ declaredNames s := by
    intro p hp
    obtain ⟨e, he, rfl⟩ := List.mem_map.mp hp
    exact (hent e he).1
  apply goodCell_flatten _ false
  · apply Tok_map_gen _ _ _ qs false htok2
    · intro ch hch
      rw [hF, if_neg]
      intro h
      have := (declaredNames_word (hkeyword _ h)).2 ch (by simp)
      rw [hch] at this
      simp at this
    · intro p hp hpw
      rw [hF]
      split
      · exact ⟨by simp [newNameOf], newNameOf_word hc hpw⟩
      · exact ⟨hp, hpw⟩
  · intro q hq
    obtain ⟨p, hp, rfl⟩ := List.mem_map.mp hq
    rw [hF]
    split
    · rename_i h
      exact goodCell_of_noMarker (NoMarker.newName hcm (declaredNames_noMarker hs (hkeyword p h)))
    · exact hg2 p hp

/-- The text and the map returned by `renameIdentifiers`, written without
any visiting order: the placeholder map is visited in insertion order and
every renaming is done piece by piece. This holds for every admissible order
when the component name is made of word characters, no new name is declared,
and neither the script nor the component name followed by an underscore holds
the marker `EXPR_`. -/
theorem renameIdentifiers_canonical (L : GoLib) (o : MapOrder) (ho : o.Valid) (s c : Str)
    (hc : ∀ ch ∈ c, isWordChar ch = true)
    (hfresh : ∀ x ∈ declaredNames s, newNameOf c x ∉ declaredNames s)
    (hs : NoMarker s) (hcm : NoMarker (c ++ ['_'])) :
    renameIdentifiers L o s c =
      ((buildExprMap L s).foldl
        (fun acc e => replaceAll e.1
          (((pieces e.2).map (renameToken (declaredNames s) c)).flatten) acc)
        (((pieces (replaceAllFunc declRe (fun mt _ => renameDecl (buildVarMap s c) mt)
          (protectExprs L s))).map (renameToken (declaredNames s) c)).flatten),
       buildVarMap s c) := by
  obtain ⟨hv, he, hi, _⟩ := ho (buildVarMap s c)
  have hE := (ho (buildExprMap L s)).2.1
  have hg3 := renamed_goodCell L s c _ hv hs hc hcm hfresh
  rw [foldl_renameWord_any_order L s c _ hv hc hfresh] at hg3
  obtain ⟨segs, fin, hgood, hrender⟩ := hg3
  unfold renameIdentifiers
  simp only []
  rw [foldl_renameWord_any_order L s c _ hv hc hfresh]
  have hlam : (fun acc (e : Str × Str) => replaceAll e.1
        ((o.inner e.1 (buildVarMap s c)).foldl (renameWord L) e.2) acc) =
      (fun acc (e : Str × Str) => replaceAll e.1
        (((pieces e.2).map (renameToken (declaredNames s) c)).flatten) acc) := by
    funext acc e
    rw [foldl_renameWord_any_order L s c _ ((ho (buildVarMap s c)).2.2.1 e.1) hc hfresh]
  rw [hlam, ← hrender]
  congr 1
  apply foldl_replaceAll_perm
    (fun e => ((pieces e.2).map (renameToken (declaredNames s) c)).flatten) hE
  · intro e he e' he' hk
    exact List.inj_on_of_nodup_map (buildExprMap_nodup L s) (hE.subset he) (hE.subset he') hk
  · intro e he
    obtain ⟨hk, body, hb, hin⟩ := buildExprMap_entries L (hE.subset he)
    refine ⟨by rw [hk]; exact exprKey_isKey L _, ?_⟩
    rw [hb]
    exact restored_good s c hs hc hcm body (by rw [← hb]; exact hs.of_part hin)
  · exact hgood

theorem backwardOrder_valid : backwardOrder.Valid := fun m =>
  ⟨List.reverse_perm m, List.reverse_perm m, fun _ => List.reverse_perm m, List.reverse_perm m⟩

/-- The text and the map returned by `renameIdentifiers` do not depend on
the order in which the identifier map is visited, the placeholder map being
visited alike, for any script. -/
theorem renameIdentifiers_vars_order (L : GoLib) (o1 o2 : MapOrder)
    (h1 : o1.Valid) (h2 : o2.Valid) (s c : Str)
    (hc : ∀ ch ∈ c, isWordChar ch = true)
    (hfresh : ∀ x ∈ declaredNames s, newNameOf c x ∉ declaredNames s)
    (hex : o1.exprs (buildExprMap L s) = o2.exprs (buildExprMap L s)) :
    renameIdentifiers L o1 s c = renameIdentifiers L o2 s c := by
  have hv : ∀ z, (o1.vars (buildVarMap s c)).foldl (renameWord L) z =
      (o2.vars (buildVarMap s c)).foldl (renameWord L) z := fun z => by
    rw [foldl_renameWord_any_order L s c _ (h1 (buildVarMap s c)).1 hc hfresh z,
      foldl_renameWord_any_order L s c _ (h2 (buildVarMap s c)).1 hc hfresh z]
  have hi : ∀ k z, (o1.inner k (buildVarMap s c)).foldl (renameWord L) z =
      (o2.inner k (buildVarMap s c)).foldl (renameWord L) z := fun k z => by
    rw [foldl_renameWord_any_order L s c _ ((h1 (buildVarMap s c)).2.2.1 k) hc hfresh z,
      foldl_renameWord_any_order L s c _ ((h2 (buildVarMap s c)).2.2.1 k) hc hfresh z]
  unfold renameIdentifiers
  simp only [hv, hex, hi]

/-! ## Every declaration is found or overlapped by the scan -/

theorem headIs_append_of_ne {p : Char → Bool} {a : Str} (b : Str) (ha : a ≠ []) :
    headIs p (a ++ b) = headIs p a := by
  cases a with
  | nil => exact absurd rfl ha
  | cons x a => rfl

theorem headIs_space_not_word {ws : Str} (rest : Str) (hne : ws ≠ [])
    (hws : ∀ ch ∈ ws, isReSpace ch = true) : headIs isWordChar (ws ++ rest) = false := by
  cases ws with
  | nil => exact absurd rfl hne
  | cons a ws => exact not_word_of_isReSpace (hws a (by simp))

theorem headIs_ident_not_space {x : Str} (rest : Str) (hx : headIs isIdentStart x = true) :
    headIs isReSpace (x ++ rest) = false := by
  cases x with
  | nil => simp [headIs] at hx
  | cons a x =>
    simp only [headIs] at hx
    show isReSpace a = false
    cases h : isReSpace a with
    | false => rfl
    | true =>
      have := not_word_of_isReSpace h
      rw [isWordChar_of_identStart hx] at this
      exact absurd this (by simp)

/-- The declaration expression at a declaration: it matches the keyword, the
white space and the whole identifier. -/
theorem declRe_at (p : Option Char) (kw ws x post : Str) (hp : prevIsWord p = false)
    (hkw : kw ∈ declKeywords) (hne : ws ≠ []) (hws : ∀ ch ∈ ws, isReSpace ch = true)
    (hx : headIs isIdentStart x = true) (hxw : ∀ ch ∈ x, isWordChar ch = true)
    (hpost : headIs isWordChar post = false) :
    declRe p (kw ++ (ws ++ (x ++ post))) =
      some (kw.length + ws.length + x.length, [kw, x]) := by
  have h1 : (ws ++ (x ++ post)).takeWhile isReSpace = ws :=
    takeWhile_append_headIs ws _ hws (headIs_ident_not_space post hx)
  have h2 : (x ++ post).takeWhile isWordChar = x := takeWhile_append_headIs x _ hxw hpost
  have h3 : headIs isIdentStart (x ++ post) = true := by
    rw [headIs_append_of_ne post (by intro h; rw [h] at hx; simp [headIs] at hx)]; exact hx
  have hwe : ws.isEmpty = false := by
    cases ws with
    | nil => exact absurd rfl hne
    | cons a ws => rfl
  have h4 : headIs isIdentStart (List.drop ws.length (ws ++ (x ++ post))) = true := by
    rw [List.drop_left]; exact h3
  have h5 : List.takeWhile isWordChar (List.drop ws.length (ws ++ (x ++ post))) = x := by
    rw [List.drop_left]; exact h2
  simp only [declKeywords, List.mem_cons, List.mem_singleton, List.not_mem_nil,
    or_false] at hkw
  rcases hkw with rfl | rfl | rfl | rfl <;>
    simp [declRe, hp, declKeywords, List.findSome?, h1, h2, h3, h4, h5, hwe]

/-- A position where the expression matches is either reported by the scan
or lies inside a reported match that started before it. -/
theorem findAllAux_found_or_covered {m : Matcher} (t : Str) (n : Nat) (g : List Str)
    (ht : t ≠ []) :
    ∀ (pre : Str) (prev : Option Char) (skip : Nat), skip ≤ pre.length →
      m (lastOr prev pre) t = some (n + 1, g) →
      (t.take (n + 1) :: g) ∈ findAllAux m prev skip (pre ++ t) ∨
      ∃ a b k gA, pre = a ++ b ∧ b ≠ [] ∧ m (lastOr prev a) (b ++ t) = some (k + 1, gA) ∧
        b.length < k + 1 ∧ ((b ++ t).take (k + 1) :: gA) ∈ findAllAux m prev skip (pre ++ t)
  | [], prev, skip, hs, hm => by
    have h0 : skip = 0 := by simpa using hs
    subst h0
    left
    cases t with
    | nil => exact absurd rfl ht
    | cons ch t =>
      simp only [lastOr] at hm
      rw [List.nil_append, findAllAux, hm]
      exact List.mem_cons_self _ _
  | ch :: pre, prev, skip + 1, hs, hm => by
    have hs' : skip ≤ pre.length := by simpa using hs
    rw [List.cons_append, findAllAux]
    rcases findAllAux_found_or_covered t n g ht pre (some ch) skip hs' hm with h | h
    · exact Or.inl h
    · obtain ⟨a, b, k, gA, hab, hb, hmA, hlt, hmem⟩ := h
      exact Or.inr ⟨ch :: a, b, k, gA, by simp [hab], hb, hmA, hlt, hmem⟩
  | ch :: pre, prev, 0, _, hm => by
    have lift : ∀ skip, skip ≤ pre.length →
        ((t.take (n + 1) :: g) ∈ findAllAux m (some ch) skip (pre ++ t) ∨
        ∃ a b k gA, ch :: pre = a ++ b ∧ b ≠ [] ∧ m (lastOr prev a) (b ++ t) = some (k + 1, gA) ∧
          b.length < k + 1 ∧
          ((b ++ t).take (k + 1) :: gA) ∈ findAllAux m (some ch) skip (pre ++ t)) := by
      intro skip hs'
      rcases findAllAux_found_or_covered t n g ht pre (some ch) skip hs' hm with h | h
      · exact Or.inl h
      · obtain ⟨a, b, k, gA, hab, hb, hmA, hlt, hmem⟩ := h
        exact Or.inr ⟨ch :: a, b, k, gA, by simp [hab], hb, hmA, hlt, hmem⟩
    rw [List.cons_append, findAllAux]
    cases hmm : m prev (ch :: (pre ++ t)) with
    | none =>
      simp only []
      exact lift 0 (Nat.zero_le _)
    | some r =>
      obtain ⟨k, gA⟩ := r
      cases k with
      | zero =>
        simp only []
        exact lift 0 (Nat.zero_le _)
      | succ k =>
        simp only []
        by_cases hk : k ≤ pre.length
        · rcases lift k hk with h | h
          · exact Or.inl (List.mem_cons_of_mem _ h)
          · obtain ⟨a, b, k', gA', hab, hb, hmA, hlt, hmem⟩ := h
            exact Or.inr ⟨a, b, k', gA', hab, hb, hmA, hlt, List.mem_cons_of_mem _ hmem⟩
        · right
          refine ⟨[], ch :: pre, k, gA, rfl, by simp, ?_, ?_, ?_⟩
          · simpa [lastOr] using hmm
          · simp; omega
          · rw [List.cons_append]
            exact List.mem_cons_self _ _

theorem headIs_word_of_ne {w : Str} (rest : Str) (hne : w ≠ [])
    (hw : ∀ ch ∈ w, isWordChar ch = true) : headIs isWordChar (w ++ rest) = true := by
  cases w with
  | nil => exact absurd rfl hne
  | cons a w => exact hw a (by simp)

/-- A declaration match that runs over the start of a declaration ends its
white space there: the keyword of the second declaration is the identifier
of the first. -/
theorem declRe_overlap {pa : Option Char} {b t : Str} {k : Nat} {gA : List Str}
    (hm : declRe pa (b ++ t) = some (k, gA)) (hb : b ≠ []) (hlt : b.length < k)
    (hprev : prevIsWord (lastOr pa b) = false) {kw ws rest : Str}
    (ht : t = kw ++ (ws ++ rest)) (hkw : kw ∈ declKeywords) (hne : ws ≠ [])
    (hws : ∀ ch ∈ ws, isReSpace ch = true) :
    ∃ kwA wsA, gA = [kwA, kw] ∧ b = kwA ++ wsA ∧ kwA ∈ declKeywords ∧ wsA ≠ [] ∧
      (∀ ch ∈ wsA, isReSpace ch = true) ∧ prevIsWord pa = false := by
  obtain ⟨hpa, kwA, wsA, nameA, restA, hs, hkwA, hneA, hwsA, _, hnameA, hrestA, rfl, rfl⟩ :=
    declRe_shape hm
  obtain ⟨hkwne, hkww⟩ := declKeywords_word kw hkw
  obtain ⟨hkwAne, hkwAw⟩ := declKeywords_word kwA hkwA
  have hthead : headIs isWordChar t = true := by
    rw [ht]; exact headIs_word_of_ne _ hkwne hkww
  -- the match is `b` followed by a non-empty rest `u`
  have hs' : b ++ t = (kwA ++ (wsA ++ nameA)) ++ restA := by rw [hs]; simp
  obtain ⟨u, hM, htu⟩ : ∃ u, kwA ++ (wsA ++ nameA) = b ++ u ∧ t = u ++ restA := by
    rcases List.append_eq_append_iff.mp hs' with ⟨a', h1, h2⟩ | ⟨c', h1, h2⟩
    · exact ⟨a', h1, h2⟩
    · exfalso
      have := congrArg List.length h1
      simp only [List.length_append] at this
      omega
  have good : b = kwA ++ wsA → u = nameA →
      ∃ k0 w0, [kwA, nameA] = [k0, kw] ∧ b = k0 ++ w0 ∧ k0 ∈ declKeywords ∧ w0 ≠ [] ∧
        (∀ ch ∈ w0, isReSpace ch = true) ∧ prevIsWord pa = false := by
    intro h1 h2
    have h3 : nameA ++ restA = kw ++ (ws ++ rest) := by rw [← h2, ← htu, ht]
    have h4 := (word_run_unique h3 hnameA hkww hrestA (headIs_space_not_word rest hne hws)).1
    exact ⟨kwA, wsA, by rw [h4], h1, hkwA, hneA, hwsA, hpa⟩
  have bad : ∀ (y w : Str), b = y ++ w → w ≠ [] → (∀ ch ∈ w, isWordChar ch = true) → False := by
    intro y w h1 h2 h3
    rw [h1, prevIsWord_lastOr_word pa y w h2 h3] at hprev
    exact absurd hprev (by simp)
  rcases List.append_eq_append_iff.mp hM with ⟨a', h1, h2⟩ | ⟨c', h1, _⟩
  · rcases List.append_eq_append_iff.mp h2 with ⟨a'', h3, h4⟩ | ⟨c'', h3, h4⟩
    · -- `b` ends inside the identifier or right before it
      cases a'' with
      | nil =>
        simp only [List.append_nil] at h3
        simp only [List.nil_append] at h4
        exact good (by rw [h1, h3]) h4.symm
      | cons d a'' =>
        exfalso
        refine bad (kwA ++ wsA) (d :: a'') (by rw [h1, h3]; simp) (by simp) ?_
        intro ch hc
        exact hnameA ch (by rw [h4]; exact List.mem_append_left _ hc)
    · -- `b` ends inside the white space or right after it
      cases c'' with
      | nil =>
        simp only [List.append_nil] at h3
        simp only [List.nil_append] at h4
        exact good (by rw [h1, h3]) h4
      | cons d c'' =>
        exfalso
        have hd : isReSpace d = true := hwsA d (by rw [h3]; simp)
        rw [htu, h4] at hthead
        simp only [List.cons_append, headIs] at hthead
        rw [not_word_of_isReSpace hd] at hthead
        exact absurd hthead (by simp)
  · -- `b` ends inside the keyword
    exact (bad [] b rfl hb (fun ch hc => hkwAw ch (by rw [h1]; simp [hc]))).elim

/-- An identifier that follows a keyword is collected by the scan, unless the
keyword is itself the identifier collected for the declaration before it. -/
theorem declaredAt_found {s pre kw ws x post : Str} (h : DeclaredAt s pre kw ws x post) :
    x ∈ declaredNames s ∨
    (kw ∈ declaredNames s ∧ ∃ pre0 kw0 ws0, pre = pre0 ++ (kw0 ++ ws0) ∧
      DeclaredAt s pre0 kw0 ws0 kw (ws ++ (x ++ post))) := by
  obtain ⟨hs, hkw, hne, hws, hx, hxw, hpre, hpost⟩ := h
  have hm := declRe_at (lastOr none pre) kw ws x post hpre hkw hne hws hx hxw hpost
  obtain ⟨hkwne, hkww⟩ := declKeywords_word kw hkw
  obtain ⟨n, hn⟩ : ∃ n, kw.length + ws.length + x.length = n + 1 := by
    cases kw with
    | nil => exact absurd rfl hkwne
    | cons a kw => exact ⟨kw.length + ws.length + x.length, by simp; omega⟩
  rw [hn] at hm
  have htne : kw ++ (ws ++ (x ++ post)) ≠ [] := by
    cases kw with
    | nil => exact absurd rfl hkwne
    | cons a kw => simp
  rcases findAllAux_found_or_covered _ n [kw, x] htne pre none 0 (Nat.zero_le _) hm with hf | hf
  · left
    rw [← hs] at hf
    exact List.mem_map.mpr ⟨_, hf, rfl⟩
  · right
    obtain ⟨a, b, k, gA, hab, hb, hmA, hlt, hmem⟩ := hf
    have hprev : prevIsWord (lastOr (lastOr none a) b) = false := by
      rw [← lastOr_append, ← hab]; exact hpre
    obtain ⟨kwA, wsA, rfl, hbA, hkwA, hneA, hwsA, hpa⟩ :=
      declRe_overlap hmA hb hlt hprev rfl hkw hne hws
    rw [← hs] at hmem
    refine ⟨List.mem_map.mpr ⟨_, hmem, rfl⟩, a, kwA, wsA, by rw [hab, hbA], ?_⟩
    refine ⟨by rw [hs, hab, hbA]; simp, hkwA, hneA, hwsA, ?_, hkww, hpa,
      headIs_space_not_word _ hne hws⟩
    revert hkw
    simp only [declKeywords, List.mem_cons, List.mem_singleton, List.not_mem_nil, or_false]
    rintro (rfl | rfl | rfl | rfl) <;> decide

/-! ## Reading a text for its references -/

theorem refAt_cons_ne {ch : Char} (t : Str) (h : ch ≠ '{') : refAt (ch :: t) = none := by
  simp [refAt, h]

theorem refAt_brace (t : Str) :
    refAt ('{' :: t) =
      if !(t.takeWhile isWordChar).isEmpty && (t.dropWhile isWordChar).head? = some '}' then
        some (t.takeWhile isWordChar) else none := by
  simp [refAt]

/-- The shape of a text that starts with a reference. -/
theorem refAt_shape {s w : Str} (h : refAt s = some w) :
    (w ≠ [] ∧ ∀ ch ∈ w, isWordChar ch = true) ∧ ∃ rest, s = '{' :: (w ++ '}' :: rest) := by
  cases s with
  | nil => simp [refAt] at h
  | cons ch t =>
    by_cases hc : ch = '{'
    · subst hc
      rw [refAt_brace] at h
      split at h
      · rename_i hcond
        simp only [Bool.and_eq_true, Bool.not_eq_true', decide_eq_true_eq] at hcond
        simp only [Option.some.injEq] at h
        subst h
        refine ⟨⟨?_, fun ch hch => List.mem_takeWhile_imp hch⟩, ?_⟩
        · intro he
          rw [he] at hcond
          simp at hcond
        · cases hd : t.dropWhile isWordChar with
          | nil => rw [hd] at hcond; simp at hcond
          | cons a r =>
            rw [hd] at hcond
            simp only [List.head?_cons, Option.some.injEq] at hcond
            refine ⟨r, ?_⟩
            rw [← hcond.2, ← hd, List.takeWhile_append_dropWhile]
      · simp at h
    · rw [refAt_cons_ne t hc] at h
      simp at h

/-- A reference at the start of a text is read as such. -/
theorem refAt_ref {w : Str} (rest : Str) (hne : w ≠ []) (hw : ∀ ch ∈ w, isWordChar ch = true) :
    refAt ('{' :: (w ++ '}' :: rest)) = some w := by
  have h1 : (w ++ '}' :: rest).takeWhile isWordChar = w :=
    takeWhile_append_stop w '}' rest hw (by decide)
  have h2 : (w ++ '}' :: rest).dropWhile isWordChar = '}' :: rest := by
    have := List.takeWhile_append_dropWhile isWordChar (w ++ '}' :: rest)
    rw [h1] at this
    exact List.append_cancel_left this
  have h3 : w.isEmpty = false := by
    cases w with
    | nil => exact absurd rfl hne
    | cons a w => rfl
  rw [refAt_brace, h1, h2, h3]
  rfl

theorem refPiecesAux_skip : ∀ (a b : Str), refPiecesAux a.length (a ++ b) = refPiecesAux 0 b
  | [], b => rfl
  | x :: a, b => by
    rw [List.length_cons, List.cons_append, refPiecesAux]
    · exact refPiecesAux_skip a b

theorem refPiecesAux_ref {w : Str} (rest : Str) (hne : w ≠ [])
    (hw : ∀ ch ∈ w, isWordChar ch = true) :
    refPiecesAux 0 ('{' :: (w ++ '}' :: rest)) = RefPiece.ref w :: refPiecesAux 0 rest := by
  rw [refPiecesAux, refAt_ref rest hne hw]
  simp only []
  have := refPiecesAux_skip (w ++ ['}']) rest
  simp only [List.length_append, List.length_singleton, List.append_assoc,
    List.singleton_append] at this
  rw [this]

theorem piecesText_cons (p : RefPiece) (ps : List RefPiece) :
    piecesText (p :: ps) = p.text ++ piecesText ps := by
  simp [piecesText]

theorem piecesText_lit (ch : Char) (ps : List RefPiece) :
    piecesText (RefPiece.lit ch :: ps) = ch :: piecesText ps := by
  simp [piecesText, RefPiece.text]

theorem piecesText_ref (w : Str) (ps : List RefPiece) :
    piecesText (RefPiece.ref w :: ps) = '{' :: (w ++ '}' :: piecesText ps) := by
  simp [piecesText, RefPiece.text]

/-- The pieces of a text give the text back and are well formed. -/
theorem refPieces_spec : ∀ (n : Nat) (s : Str), s.length ≤ n →
    piecesText (refPiecesAux 0 s) = s ∧ RefTok (refPiecesAux 0 s)
  | _, [], _ => ⟨rfl, trivial⟩
  | 0, ch :: t, h => by simp at h
  | n + 1, ch :: t, h => by
    cases hr : refAt (ch :: t) with
    | none =>
      have ih := refPieces_spec n t (by simpa using h)
      rw [refPiecesAux, hr]
      simp only []
      rw [piecesText_lit, ih.1]
      exact ⟨rfl, by rw [RefTok, ih.1]; exact ⟨hr, ih.2⟩⟩
    | some w =>
      obtain ⟨hw, rest, hs⟩ := refAt_shape hr
      have hlen : rest.length ≤ n := by
        have := congrArg List.length hs
        simp at this h
        omega
      have ih := refPieces_spec n rest hlen
      rw [hs, refPiecesAux_ref rest hw.1 hw.2, piecesText_ref, ih.1]
      exact ⟨rfl, hw, ih.2⟩

theorem piecesText_refPieces (s : Str) : piecesText (refPieces s) = s :=
  (refPieces_spec s.length s (Nat.le_refl _)).1

theorem refTok_refPieces (s : Str) : RefTok (refPieces s) :=
  (refPieces_spec s.length s (Nat.le_refl _)).2

/-- Well-formed pieces are the pieces of their text. -/
theorem refPieces_piecesText : ∀ ps : List RefPiece, RefTok ps →
    refPiecesAux 0 (piecesText ps) = ps
  | [], _ => rfl
  | .lit ch :: ps, h => by
    rw [piecesText_lit, refPiecesAux, h.1]
    simp only []
    rw [refPieces_piecesText ps h.2]
  | .ref w :: ps, h => by
    rw [piecesText_ref, refPiecesAux_ref _ h.1.1 h.1.2, refPieces_piecesText ps h.2]

/-! ## Renaming the references of well-formed pieces -/

/-- Renaming references changes neither the run of word characters at the
start of the text nor the character after that run. -/
theorem wordRun_rename (g : Str → Str) : ∀ ps : List RefPiece,
    (piecesText (ps.map (RefPiece.rename g))).takeWhile isWordChar =
      (piecesText ps).takeWhile isWordChar ∧
    ((piecesText (ps.map (RefPiece.rename g))).dropWhile isWordChar).head? =
      ((piecesText ps).dropWhile isWordChar).head?
  | [] => ⟨rfl, rfl⟩
  | .ref w :: ps => by
    rw [List.map_cons, RefPiece.rename, piecesText_ref, piecesText_ref]
    have hb : isWordChar '{' = false := by decide
    simp [List.takeWhile, List.dropWhile, hb]
  | .lit ch :: ps => by
    rw [List.map_cons, RefPiece.rename, piecesText_lit, piecesText_lit]
    have ih := wordRun_rename g ps
    by_cases hc : isWordChar ch = true
    · simp only [List.takeWhile, List.dropWhile, hc]
      exact ⟨by rw [ih.1], ih.2⟩
    · simp [List.takeWhile, List.dropWhile, hc]

theorem refAt_rename (g : Str → Str) (ch : Char) (ps : List RefPiece)
    (h : refAt (ch :: piecesText ps) = none) :
    refAt (ch :: piecesText (ps.map (RefPiece.rename g))) = none := by
  by_cases hc : ch = '{'
  · subst hc
    rw [refAt_brace] at h ⊢
    rw [(wordRun_rename g ps).1, (wordRun_rename g ps).2]
    exact h
  · exact refAt_cons_ne _ hc

/-- Renaming references to non-empty runs of word characters keeps pieces
well formed. -/
theorem refTok_rename (g : Str → Str)
    (hg : ∀ w, (w ≠ [] ∧ ∀ ch ∈ w, isWordChar ch = true) →
      (g w ≠ [] ∧ ∀ ch ∈ g w, isWordChar ch = true)) :
    ∀ ps : List RefPiece, RefTok ps → RefTok (ps.map (RefPiece.rename g))
  | [], _ => trivial
  | .lit ch :: ps, h => ⟨refAt_rename g ch ps h.1, refTok_rename g hg ps h.2⟩
  | .ref w :: ps, h => ⟨hg w h.1, refTok_rename g hg ps h.2⟩

theorem pieceNames_rename (g : Str → Str) : ∀ ps : List RefPiece,
    pieceNames (ps.map (RefPiece.rename g)) = (pieceNames ps).map g
  | [] => rfl
  | .lit ch :: ps => by
    rw [List.map_cons, RefPiece.rename, pieceNames, pieceNames, pieceNames_rename g ps]
  | .ref w :: ps => by
    rw [List.map_cons, RefPiece.rename, pieceNames, pieceNames, pieceNames_rename g ps,
      List.map_cons]

/-- The references of a text after substitution are the substituted
references of the text. -/
theorem refNames_substRefs (g : Str → Str)
    (hg : ∀ w, (w ≠ [] ∧ ∀ ch ∈ w, isWordChar ch = true) →
      (g w ≠ [] ∧ ∀ ch ∈ g w, isWordChar ch = true)) (s : Str) :
    refNames (substRefs g s) = (refNames s).map g := by
  have h := refPieces_piecesText _ (refTok_rename g hg _ (refTok_refPieces s))
  unfold refNames substRefs
  rw [show refPieces (piecesText ((refPieces s).map (RefPiece.rename g))) =
    refPiecesAux 0 (piecesText ((refPieces s).map (RefPiece.rename g))) from rfl, h,
    pieceNames_rename]

theorem rename_rename (g h : Str → Str) : ∀ ps : List RefPiece,
    (ps.map (RefPiece.rename g)).map (RefPiece.rename h) =
      ps.map (RefPiece.rename fun w => h (g w))
  | [] => rfl
  | .lit ch :: ps => by
    simp only [List.map_cons, RefPiece.rename, rename_rename g h ps]
  | .ref w :: ps => by
    simp only [List.map_cons, RefPiece.rename, rename_rename g h ps]

/-! ## One pass of the markup update on well-formed pieces -/

/-- A text that continues with a reference is read as one. -/
theorem refAt_of_prefix_ref {k T : Str} (hne : k ≠ []) (hk : ∀ ch ∈ k, isWordChar ch = true)
    (h : k ++ ['}'] <+: T) : refAt ('{' :: T) = some k := by
  obtain ⟨r, rfl⟩ := h
  have := refAt_ref r hne hk
  simpa using this

/-- What lies before a character that a text `x` lacks, in a text that
starts with `x`, starts with `x` too. -/
theorem append_split_of_not_mem {x r a t : Str} {h : Char} (hx : h ∉ x)
    (he : x ++ r = a ++ h :: t) : ∃ a', a = x ++ a' ∧ r = a' ++ h :: t := by
  rcases List.append_eq_append_iff.mp he with ⟨a', h1, h2⟩ | ⟨c', h1, h2⟩
  · exact ⟨a', h1, h2⟩
  · cases c' with
    | nil =>
      simp only [List.append_nil] at h1
      simp only [List.nil_append] at h2
      exact ⟨[], by simp [h1], by simpa using h2.symm⟩
    | cons d c' =>
      exfalso
      simp only [List.cons_append, List.cons.injEq] at h2
      exact hx (by rw [h1, h2.1]; simp)

/-- In the text of well-formed pieces, every occurrence of `{k}` is a piece. -/
theorem ref_mem_of_occurs {k : Str} (hne : k ≠ []) (hk : ∀ ch ∈ k, isWordChar ch = true)
    (B : Str) : ∀ (ps : List RefPiece) (A : Str), RefTok ps →
      piecesText ps = A ++ '{' :: (k ++ '}' :: B) → RefPiece.ref k ∈ ps
  | [], A, _, h => by
    have := congrArg List.length h
    simp [piecesText] at this
    omega
  | .lit ch :: ps, A, ht, h => by
    rw [piecesText_lit] at h
    cases A with
    | nil =>
      exfalso
      simp only [List.nil_append, List.cons.injEq] at h
      have := ht.1
      rw [h.1, h.2, refAt_ref B hne hk] at this
      simp at this
    | cons a A =>
      simp only [List.cons_append, List.cons.injEq] at h
      exact List.mem_cons_of_mem _ (ref_mem_of_occurs hne hk B ps A ht.2 h.2)
  | .ref w :: ps, A, ht, h => by
    rw [piecesText_ref] at h
    have hwb : '}' ∉ w := word_not_mem ht.1.2 '}' (by decide)
    have hkb : '}' ∉ k := word_not_mem hk '}' (by decide)
    cases A with
    | nil =>
      simp only [List.nil_append, List.cons.injEq, true_and] at h
      have hp : w ++ ['}'] <+: k ++ '}' :: B := ⟨piecesText ps, by rw [← h]; simp⟩
      rw [close_prefix_eq B w k hwb hkb hp]
      exact List.mem_cons_self _ _
    | cons a A =>
      simp only [List.cons_append, List.cons.injEq] at h
      have hx : '{' ∉ w ++ ['}'] := by
        have := word_not_mem ht.1.2 '{' (by decide)
        simp [this]
      have h' : (w ++ ['}']) ++ piecesText ps = A ++ '{' :: (k ++ '}' :: B) := by
        rw [← h.2]; simp
      obtain ⟨A', _, h2⟩ := append_split_of_not_mem hx h'
      exact List.mem_cons_of_mem _ (ref_mem_of_occurs hne hk B ps A' ht.2 h2)

/-- The first replacement of the markup update, on well-formed pieces: the
references named `k` receive the name `v`. -/
theorem replaceRef_pieces {k v : Str} (hne : k ≠ []) (hk : ∀ ch ∈ k, isWordChar ch = true) :
    ∀ (ps : List RefPiece) (prev : Option Char), RefTok ps →
      replaceAllAux (litRe ('{' :: k ++ ['}'])) (fun _ _ => '{' :: v ++ ['}']) prev 0
          (piecesText ps) =
        piecesText (ps.map (RefPiece.rename fun w => refName w (k, v)))
  | [], _, _ => rfl
  | .lit ch :: ps, prev, ht => by
    rw [List.map_cons, RefPiece.rename, piecesText_lit, piecesText_lit]
    have hn : litRe ('{' :: k ++ ['}']) prev (ch :: piecesText ps) = none := by
      apply litRe_none
      intro hp
      rw [List.cons_append, List.cons_prefix_cons] at hp
      have := ht.1
      rw [← hp.1, refAt_of_prefix_ref hne hk hp.2] at this
      simp at this
    rw [replaceAllAux_nomatch hn, replaceRef_pieces hne hk ps (some ch) ht.2]
  | .ref w :: ps, prev, ht => by
    rw [List.map_cons, RefPiece.rename, piecesText_ref, piecesText_ref]
    have ih := fun p => replaceRef_pieces (v := v) hne hk ps p ht.2
    by_cases hwk : k = w
    · subst hwk
      have hm : litRe ('{' :: k ++ ['}']) prev (('{' :: k ++ ['}']) ++ piecesText ps) =
          some (('{' :: k ++ ['}']).length, []) := litRe_at _ prev
      have he : '{' :: (k ++ '}' :: piecesText ps) = ('{' :: k ++ ['}']) ++ piecesText ps := by
        simp
      rw [he, replaceAllAux_match' hm (by simp) (by simp), List.take_left, List.drop_left, ih]
      simp [refName]
    · have hwb : '}' ∉ w := word_not_mem ht.1.2 '}' (by decide)
      have hkb : '}' ∉ k := word_not_mem hk '}' (by decide)
      have hn : litRe ('{' :: k ++ ['}']) prev ('{' :: (w ++ '}' :: piecesText ps)) = none := by
        apply litRe_none
        intro hp
        rw [List.cons_append, List.cons_prefix_cons] at hp
        exact hwk (close_prefix_eq _ k w hkb hwb hp.2)
      have hx : '{' ∉ w ++ ['}'] := by
        have := word_not_mem ht.1.2 '{' (by decide)
        simp [this]
      have hskip := litRe_scan_skip (f := fun _ _ => '{' :: v ++ ['}']) '{' (k ++ ['}'])
        (piecesText ps) (w ++ ['}']) (some '{') hx
      rw [replaceAllAux_nomatch hn]
      have he : w ++ '}' :: piecesText ps = (w ++ ['}']) ++ piecesText ps := by simp
      rw [he]
      rw [show ('{' :: k ++ ['}']) = '{' :: (k ++ ['}']) from rfl, hskip,
        show ('{' :: (k ++ ['}'])) = ('{' :: k ++ ['}']) from rfl, ih]
      simp [refName, hwk]

/-- The second replacement of the markup update finds nothing in the text of
well-formed pieces that hold no reference named `k`. -/
theorem replaceClick_pieces {k : Str} (f : Str → List Str → Str) (hne : k ≠ [])
    (hk : ∀ ch ∈ k, isWordChar ch = true) (ps : List RefPiece) (ht : RefTok ps)
    (hno : RefPiece.ref k ∉ ps) (prev : Option Char) :
    replaceAllAux (litRe ("on:click=\x7b".toList ++ k ++ ['}'])) f prev 0 (piecesText ps) =
      piecesText ps := by
  apply replaceAllAux_id
  intro p a b hab
  apply litRe_none
  rintro ⟨r, hr⟩
  apply hno
  apply ref_mem_of_occurs hne hk r ps (a ++ "on:click=".toList) ht
  rw [hab, ← hr]
  simp

theorem refName_good {k v w : Str} (hv : v ≠ [] ∧ ∀ ch ∈ v, isWordChar ch = true)
    (hw : w ≠ [] ∧ ∀ ch ∈ w, isWordChar ch = true) :
    refName w (k, v) ≠ [] ∧ ∀ ch ∈ refName w (k, v), isWordChar ch = true := by
  unfold refName
  split
  · exact hv
  · exact hw

theorem ref_not_mem_rename {k v : Str} (hkv : v ≠ k) : ∀ ps : List RefPiece,
    RefPiece.ref k ∉ ps.map (RefPiece.rename fun w => refName w (k, v))
  | [] => by simp
  | .lit ch :: ps => by
    rw [List.map_cons, RefPiece.rename, List.mem_cons]
    rintro (h | h)
    · cases h
    · exact ref_not_mem_rename hkv ps h
  | .ref w :: ps => by
    rw [List.map_cons, RefPiece.rename, List.mem_cons]
    rintro (h | h)
    · simp only [RefPiece.ref.injEq, refName] at h
      split at h
      · exact hkv h.symm
      · rename_i hn
        exact hn h
    · exact ref_not_mem_rename hkv ps h

/-- One pass of the markup update (lines 174-178) on well-formed pieces: the
references named `e.1` receive the name `e.2`, nothing else changes. -/
theorem updateRefs_pieces (L : GoLib) (e : Str × Str) (ps : List RefPiece) (ht : RefTok ps)
    (hk : e.1 ≠ [] ∧ ∀ ch ∈ e.1, isWordChar ch = true)
    (hv : e.2 ≠ [] ∧ ∀ ch ∈ e.2, isWordChar ch = true) (hkv : e.2 ≠ e.1) :
    updateRefs L (piecesText ps) e =
      piecesText (ps.map (RefPiece.rename fun w => refName w e)) := by
  obtain ⟨k, v⟩ := e
  simp only at hk hv hkv
  have hd1 : '$' ∉ '{' :: v ++ ['}'] := by
    have := word_not_mem hv.2 '$' (by decide)
    simp [this]
  have hd2 : '$' ∉ "on:click=\x7b".toList ++ v ++ ['}'] := by
    have := word_not_mem hv.2 '$' (by decide)
    simp [this]
  have hF1 : (fun (mt : Str) (g : List Str) => expand L (mt :: g) ('{' :: v ++ ['}'])) =
      fun _ _ => '{' :: v ++ ['}'] := by
    funext mt g; exact expand_plain L _ _ hd1
  simp only [updateRefs, replaceAllString, replaceAllFunc, hF1]
  rw [replaceRef_pieces hk.1 hk.2 ps none ht]
  exact replaceClick_pieces _ hk.1 hk.2 _
    (refTok_rename _ (fun w hw => refName_good hv hw) ps ht) (ref_not_mem_rename hkv ps) none

/-- The markup update over the entries of a map, in any order, on
well-formed pieces: every reference `{w}` becomes `{g w}`, where `g` sends a
name through the entries in the order of the visit. -/
theorem foldl_updateRefs_pieces (L : GoLib) : ∀ (ord : List (Str × Str)) (ps : List RefPiece),
    RefTok ps →
    (∀ e ∈ ord, (e.1 ≠ [] ∧ ∀ ch ∈ e.1, isWordChar ch = true) ∧
      (e.2 ≠ [] ∧ ∀ ch ∈ e.2, isWordChar ch = true) ∧ e.2 ≠ e.1) →
    ord.foldl (updateRefs L) (piecesText ps) =
      piecesText (ps.map (RefPiece.rename fun w => ord.foldl refName w))
  | [], ps, _, _ => by
    have : ∀ qs : List RefPiece,
        qs.map (RefPiece.rename fun w => ([] : List (Str × Str)).foldl refName w) = qs := by
      intro qs
      induction qs with
      | nil => rfl
      | cons p qs ih =>
        rw [List.map_cons, ih]
        cases p <;> rfl
    rw [this]; rfl
  | e :: ord, ps, ht, he => by
    obtain ⟨hk, hv, hkv⟩ := he e (by simp)
    rw [List.foldl_cons, updateRefs_pieces L e ps ht hk hv hkv,
      foldl_updateRefs_pieces L ord _
        (refTok_rename _ (fun w hw => refName_good (k := e.1) hv hw) ps ht)
        (fun e' h' => he e' (by simp [h'])),
      rename_rename]
    rfl

/-- The markup update over the entries of a map, on any text, is the
substitution of its references. -/
theorem foldl_updateRefs_substRefs (L : GoLib) (ord : List (Str × Str)) (z : Str)
    (he : ∀ e ∈ ord, (e.1 ≠ [] ∧ ∀ ch ∈ e.1, isWordChar ch = true) ∧
      (e.2 ≠ [] ∧ ∀ ch ∈ e.2, isWordChar ch = true) ∧ e.2 ≠ e.1) :
    ord.foldl (updateRefs L) z = substRefs (fun w => ord.foldl refName w) z := by
  have h := foldl_updateRefs_pieces L ord (refPieces z) (refTok_refPieces z) he
  rw [piecesText_refPieces] at h
  exact h

/-! ## Reading references one character at a time -/

theorem refScan_cons (st : Option Str) (ch : Char) (t : Str) :
    refScan st (ch :: t) =
      if ch = '{' then refScan (some []) t
      else match st with
        | some w =>
          if isWordChar ch then refScan (some (w ++ [ch])) t
          else if ch = '}' ∧ w ≠ [] then w :: refScan none t
          else refScan none t
        | none => refScan none t := by
  cases st <;> rfl

theorem refState_cons (st : Option Str) (ch : Char) (t : Str) :
    refState st (ch :: t) =
      if ch = '{' then refState (some []) t
      else match st with
        | some w => if isWordChar ch then refState (some (w ++ [ch])) t else refState none t
        | none => refState none t := by
  cases st <;> rfl

theorem refScan_append : ∀ (a b : Str) (st : Option Str),
    refScan st (a ++ b) = refScan st a ++ refScan (refState st a) b
  | [], _, _ => rfl
  | ch :: a, b, st => by
    have ih := fun st => refScan_append a b st
    rw [List.cons_append, refScan_cons, refScan_cons, refState_cons]
    by_cases hc : ch = '{'
    · rw [if_pos hc, if_pos hc, if_pos hc]
      exact ih _
    · rw [if_neg hc, if_neg hc, if_neg hc]
      cases st with
      | none => exact ih _
      | some w =>
        simp only []
        by_cases hw : isWordChar ch = true
        · rw [if_pos hw, if_pos hw, if_pos hw]
          exact ih _
        · rw [if_neg hw, if_neg hw, if_neg hw]
          by_cases hcl : ch = '}' ∧ w ≠ []
          · rw [if_pos hcl, if_pos hcl, List.cons_append, ih]
          · rw [if_neg hcl, if_neg hcl, ih]

theorem refState_append : ∀ (a b : Str) (st : Option Str),
    refState st (a ++ b) = refState (refState st a) b
  | [], _, _ => rfl
  | ch :: a, b, st => by
    have ih := fun st => refState_append a b st
    rw [List.cons_append, refState_cons, refState_cons]
    by_cases hc : ch = '{'
    · rw [if_pos hc, if_pos hc]
      exact ih _
    · rw [if_neg hc, if_neg hc]
      cases st with
      | none => exact ih _
      | some w =>
        simp only []
        by_cases hw : isWordChar ch = true
        · rw [if_pos hw, if_pos hw]
          exact ih _
        · rw [if_neg hw, if_neg hw]
          exact ih _

theorem sameRefs_refl (x : Str) : SameRefs x x := fun _ => ⟨rfl, rfl⟩

theorem sameRefs_append {x y x' y' : Str} (h : SameRefs x y) (h' : SameRefs x' y') :
    SameRefs (x ++ x') (y ++ y') := by
  intro st
  rw [refScan_append, refScan_append, refState_append, refState_append, (h st).1, (h st).2,
    (h' _).1, (h' _).2]
  exact ⟨rfl, rfl⟩

theorem sameRefs_trans {x y z : Str} (h : SameRefs x y) (h' : SameRefs y z) : SameRefs x z :=
  fun st => ⟨(h st).1.trans (h' st).1, (h st).2.trans (h' st).2⟩

/-- A text without a closing brace holds no reference. -/
theorem refScan_no_close : ∀ (x : Str) (st : Option Str), '}' ∉ x → refScan st x = []
  | [], _, _ => rfl
  | ch :: x, st, h => by
    have hch : ch ≠ '}' := fun e => h (by simp [e])
    have hx : '}' ∉ x := fun e => h (by simp [e])
    have ih := fun st => refScan_no_close x st hx
    rw [refScan_cons]
    by_cases hc : ch = '{'
    · rw [if_pos hc]
      exact ih _
    · rw [if_neg hc]
      cases st with
      | none => exact ih _
      | some w =>
        simp only []
        by_cases hw : isWordChar ch = true
        · rw [if_pos hw]
          exact ih _
        · rw [if_neg hw, if_neg (fun e => hch e.1)]
          exact ih _

/-- After a character that is no word character the state is decided by
that character. -/
theorem refState_last (x : Str) (a : Char) (ha : isWordChar a = false) (st : Option Str) :
    refState st (x ++ [a]) = if a = '{' then some [] else none := by
  rw [refState_append, refState_cons]
  by_cases hc : a = '{'
  · rw [if_pos hc, if_pos hc]
    rfl
  · rw [if_neg hc, if_neg hc]
    cases refState st x with
    | none => rfl
    | some w =>
      simp only []
      rw [if_neg (by rw [ha]; simp)]
      rfl

/-- Two texts without a closing brace that end in the same kind of
character read alike. -/
theorem sameRefs_plain {x y : Str} {a b : Char} (hx : '}' ∉ x ++ [a]) (hy : '}' ∉ y ++ [b])
    (ha : isWordChar a = false) (hb : isWordChar b = false) (hab : a = '{' ↔ b = '{') :
    SameRefs (x ++ [a]) (y ++ [b]) := by
  intro st
  rw [refScan_no_close _ _ hx, refScan_no_close _ _ hy, refState_last x a ha,
    refState_last y b hb]
  refine ⟨rfl, ?_⟩
  by_cases h : a = '{'
  · rw [if_pos h, if_pos (hab.mp h)]
  · rw [if_neg h, if_neg (fun e => h (hab.mpr e))]

/-- A replacement whose callback returns a text that reads like the match
gives a text that reads like the original. -/
theorem sameRefs_replaceAll {m : Matcher} {f : Str → List Str → Str}
    (hf : ∀ p s n g, m p s = some (n + 1, g) → SameRefs (s.take (n + 1)) (f (s.take (n + 1)) g)) :
    ∀ (z : Str) (prev : Option Char) (skip : Nat),
      SameRefs (z.drop skip) (replaceAllAux m f prev skip z)
  | [], _, skip => by
    cases skip <;> exact sameRefs_refl _
  | ch :: t, prev, skip + 1 => by
    rw [List.drop_succ_cons, replaceAllAux]
    exact sameRefs_replaceAll hf t (some ch) skip
  | ch :: t, prev, 0 => by
    rw [List.drop_zero, replaceAllAux]
    cases hm : m prev (ch :: t) with
    | none =>
      simp only []
      have ih := sameRefs_replaceAll hf t (some ch) 0
      rw [List.drop_zero] at ih
      exact sameRefs_append (sameRefs_refl [ch]) ih
    | some r =>
      obtain ⟨n, g⟩ := r
      cases n with
      | zero =>
        simp only []
        have ih := sameRefs_replaceAll hf t (some ch) 0
        rw [List.drop_zero] at ih
        exact sameRefs_append (sameRefs_refl [ch]) ih
      | succ n =>
        simp only []
        have ih := sameRefs_replaceAll hf t (some ch) n
        have h1 := hf prev (ch :: t) n g hm
        have h2 := sameRefs_append h1 ih
        rw [show (ch :: t).take (n + 1) ++ t.drop n = ch :: t by
          rw [← List.drop_succ_cons (a := ch), List.take_append_drop]] at h2
        exact h2

/-! ## Class injection and style scoping keep the references -/

/-- The shape of a match of the class expression. -/
theorem classRe_shape {p : Option Char} {s : Str} {n : Nat} {g : List Str}
    (h : classRe p s = some (n, g)) :
    ∃ v, g = [v] ∧ '"' ∉ v ∧ s.take n = "class=\"".toList ++ v ++ ['"'] := by
  simp only [classRe] at h
  split at h
  · rename_i hp
    obtain ⟨r, rfl⟩ := List.isPrefixOf_iff_prefix.mp hp
    rw [show List.drop 7 ("class=\"".toList ++ r) = r from List.drop_left' (by rfl)] at h
    rw [drop_length_takeWhile] at h
    split at h
    · rename_i hq
      simp only [Option.some.injEq, Prod.mk.injEq] at h
      obtain ⟨rfl, rfl⟩ := h
      refine ⟨r.takeWhile (· != '"'), rfl, ?_, ?_⟩
      · intro hm
        have := List.mem_takeWhile_imp hm
        simp at this
      · cases hd : r.dropWhile (· != '"') with
        | nil => rw [hd] at hq; simp at hq
        | cons a r' =>
          rw [hd] at hq
          simp only [List.head?_cons, Option.some.injEq] at hq
          subst hq
          have hr : r = r.takeWhile (· != '"') ++ '"' :: r' := by
            rw [← hd, List.takeWhile_append_dropWhile]
          have e : "class=\"".toList ++ r =
              ("class=\"".toList ++ r.takeWhile (· != '"') ++ ['"']) ++ r' := by
            conv_lhs => rw [hr]
            simp
          rw [e]
          apply List.take_left'
          simp
          omega
    · simp at h
  · simp at h

theorem classAttr_plain {c : Str} (hc : ∀ ch ∈ c, isWordChar ch = true) :
    '}' ∉ classAttr c ∧ '}' ∉ ' ' :: c := by
  have := word_not_mem hc '}' (by decide)
  simp [classAttr, this]

/-- The callback of the class injection returns a text that reads like the
tag it was given. -/
theorem sameRefs_injectClassInline (L : GoLib) {c : Str}
    (hc : ∀ ch ∈ c, isWordChar ch = true) (mt : Str) :
    SameRefs mt (injectClassInline L c mt) := by
  have hd : '$' ∉ c := word_not_mem hc '$' (by decide)
  have hpl := classAttr_plain hc
  unfold injectClassInline
  split
  · have := sameRefs_replaceAll (m := classRe)
      (f := fun mt groups => expand L (mt :: groups) (classTemplate c)) (by
        intro p s n g hm
        obtain ⟨v, rfl, _, ht⟩ := classRe_shape hm
        rw [ht]
        show SameRefs _ (expand L [_, v] (classTemplate c))
        rw [expand_classTemplate L _ v c hd]
        have e1 : "class=\"".toList ++ v ++ ['"'] = ("class=\"".toList ++ v) ++ ([] ++ ['"']) := by
          simp
        have e2 : "class=\"".toList ++ v ++ ' ' :: c ++ ['"'] =
            ("class=\"".toList ++ v) ++ ((' ' :: c) ++ ['"']) := by simp
        rw [e1, e2]
        refine sameRefs_append (sameRefs_refl _) (sameRefs_plain (by decide) ?_ (by decide)
          (by decide) (by simp))
        intro hm
        rcases List.mem_append.mp hm with h | h
        · exact hpl.2 h
        · simp at h) mt none 0
    simpa [replaceAllString, replaceAllFunc] using this
  · cases hi : index ['>'] mt with
    | none => exact sameRefs_refl _
    | some i =>
      obtain ⟨a, b, rfl, hlen, _⟩ := index_char_split '>' mt i hi
      simp only []
      rw [← hlen, List.take_left, List.drop_left]
      have e1 : a ++ '>' :: b = a ++ (([] ++ ['>']) ++ b) := by simp
      have e2 : a ++ classAttr c ++ '>' :: b = a ++ ((classAttr c ++ ['>']) ++ b) := by simp
      rw [e2]
      conv_lhs => rw [e1]
      refine sameRefs_append (sameRefs_refl _) (sameRefs_append
        (sameRefs_plain (by decide) ?_ (by decide) (by decide) (by simp)) (sameRefs_refl _))
      intro hm
      rcases List.mem_append.mp hm with h | h
      · exact hpl.1 h
      · simp at h

/-- The position reported by `lastIndex` for a single character splits the
text there. -/
theorem lastIndex_char_split (ch : Char) : ∀ (r : Str) (i : Nat), lastIndex [ch] r = some i →
    ∃ a b, r = a ++ ch :: b ∧ a.length = i
  | [], i, h => by simp [lastIndex] at h
  | x :: r, i, h => by
    simp only [lastIndex] at h
    cases hr : lastIndex [ch] r with
    | some j =>
      rw [hr] at h
      simp only [Option.some.injEq] at h
      obtain ⟨a, b, hab, hlen⟩ := lastIndex_char_split ch r j hr
      exact ⟨x :: a, b, by rw [hab]; rfl, by simp [hlen, h]⟩
    | none =>
      rw [hr] at h
      simp only at h
      split at h
      · rename_i hp
        simp only [Option.some.injEq] at h
        have hx : ch = x := by
          have := List.isPrefixOf_iff_prefix.mp hp
          simpa using this
        exact ⟨[], r, by simp [hx], by simpa using h⟩
      · simp at h

/-- The shape of a match of the rule expression. -/
theorem ruleRe_shape {p : Option Char} {s : Str} {n : Nat} {g : List Str}
    (h : ruleRe p s = some (n, g)) : ∃ x, '}' ∉ x ∧ s.take n = x ++ ['{'] := by
  simp only [ruleRe] at h
  cases hl : lastIndex ['{'] (s.takeWhile (· != '}')) with
  | none => rw [hl] at h; simp at h
  | some i =>
    rw [hl] at h
    simp only [Option.some.injEq, Prod.mk.injEq] at h
    obtain ⟨a, b, hab, hlen⟩ := lastIndex_char_split '{' _ i hl
    refine ⟨a, ?_, ?_⟩
    · intro hm
      have : '}' ∈ s.takeWhile (· != '}') := by rw [hab]; simp [hm]
      have := List.mem_takeWhile_imp this
      simp at this
    · have hs : s = (a ++ ['{']) ++ (b ++ s.dropWhile (· != '}')) := by
        conv_lhs => rw [← List.takeWhile_append_dropWhile (· != '}') s, hab]
        simp
      rw [hs, ← h.1]
      apply List.take_left'
      simp [hlen]

theorem mem_trimSpace {ch : Char} {s : Str} (h : ch ∈ trimSpace s) : ch ∈ s := by
  unfold trimSpace at h
  exact (List.dropWhile_sublist _).subset ((List.rdropWhile_prefix _ _).subset h)

theorem mem_of_mem_intercalate {ch : Char} (sep : Str) : ∀ parts : List Str,
    ch ∈ sep.intercalate parts → ch ∈ sep ∨ ∃ p ∈ parts, ch ∈ p
  | [], h => by simp [List.intercalate] at h
  | [p], h => by
    simp [List.intercalate] at h
    exact Or.inr ⟨p, by simp, h⟩
  | p :: q :: l, h => by
    have e : sep.intercalate (p :: q :: l) = p ++ sep ++ sep.intercalate (q :: l) := by
      simp [List.intercalate]
    rw [e] at h
    rcases List.mem_append.mp h with h | h
    · rcases List.mem_append.mp h with h | h
      · exact Or.inr ⟨p, by simp, h⟩
      · exact Or.inl h
    · rcases mem_of_mem_intercalate sep (q :: l) h with h | ⟨r, hr, hc⟩
      · exact Or.inl h
      · exact Or.inr ⟨r, by simp [hr], hc⟩

theorem mem_of_mem_splitOn {ch sep : Char} {s part : Str} (hp : part ∈ s.splitOn sep)
    (hc : ch ∈ part) : ch ∈ s := by
  have h := List.intercalate_splitOn s sep
  rw [← h]
  clear h
  generalize s.splitOn sep = parts at hp
  induction parts with
  | nil => simp at hp
  | cons p l ih =>
    cases l with
    | nil =>
      simp at hp
      subst hp
      simpa [List.intercalate] using hc
    | cons q l =>
      have e : [sep].intercalate (p :: q :: l) = p ++ [sep] ++ [sep].intercalate (q :: l) := by
        simp [List.intercalate]
      rw [e]
      rcases List.mem_cons.mp hp with rfl | hp
      · simp [hc]
      · exact List.mem_append_right _ (ih hp)

/-- The callback of the inline scoping returns a text that reads like the
match it was given. -/
theorem sameRefs_scopeSelectorInline {c : Str} (hc : ∀ ch ∈ c, isWordChar ch = true)
    {x : Str} (hx : '}' ∉ x) : SameRefs (x ++ ['{']) (scopeSelectorInline c (x ++ ['{'])) := by
  have hcb : '}' ∉ c := word_not_mem hc '}' (by decide)
  unfold scopeSelectorInline
  simp only [List.dropLast_concat]
  have e : ∀ sel2 : Str, sel2 ++ [' ', '{'] = (sel2 ++ [' ']) ++ ['{'] := by intro; simp
  rw [e]
  refine sameRefs_plain (by simp [hx]) ?_ (by decide) (by decide) (by simp)
  have ht : '}' ∉ trimSpace x := fun h => hx (mem_trimSpace h)
  intro hm
  simp only [List.mem_append, List.mem_singleton] at hm
  rcases hm with (hm | hm) | hm
  · split at hm
    · simp only [join] at hm
      rcases mem_of_mem_intercalate _ _ hm with h | ⟨p, hp, hcp⟩
      · simp at h
      · obtain ⟨s0, hs0, rfl⟩ := List.mem_map.mp hp
        simp only [List.cons_append, List.mem_cons, List.mem_append] at hcp
        rcases hcp with h | h | h | h
        · exact absurd h (by decide)
        · exact hcb h
        · exact absurd h (by decide)
        · exact ht (mem_of_mem_splitOn hs0 (mem_trimSpace h))
    · exact ht hm
  · exact absurd hm (by decide)
  · exact absurd hm (by decide)

/-- The first occurrence of `sub` in a text is its first occurrence in
every part of the text that holds it. -/
theorem index_cut (sub r : Str) : ∀ (s : Str) (i : Nat), index sub (s ++ r) = some i →
    i + sub.length ≤ s.length → index sub s = some i
  | [], i, _, hl => by
    have hi : i = 0 := by simp at hl; omega
    have hs : sub = [] := by
      cases sub with
      | nil => rfl
      | cons a sub => simp at hl
    subst hi hs
    simp [index]
  | a :: s, i, h, hl => by
    rw [List.cons_append] at h
    simp only [index] at h ⊢
    by_cases hp : sub.isPrefixOf (a :: (s ++ r)) = true
    · rw [if_pos hp] at h
      simp only [Option.some.injEq] at h
      subst h
      have hp' : sub <+: a :: s := by
        have h1 : sub <+: (a :: s) ++ r := List.isPrefixOf_iff_prefix.mp hp
        exact List.prefix_of_prefix_length_le h1 (List.prefix_append _ _) (by simpa using hl)
      rw [if_pos (List.isPrefixOf_iff_prefix.mpr hp')]
    · rw [if_neg hp] at h
      have hp' : ¬ sub.isPrefixOf (a :: s) = true := by
        intro hq
        apply hp
        rw [List.isPrefixOf_iff_prefix] at hq ⊢
        exact hq.trans (by simp)
      rw [if_neg hp']
      cases hj : index sub (s ++ r) with
      | none => rw [hj] at h; simp at h
      | some j =>
        rw [hj] at h
        simp only [Option.some.injEq] at h
        subst h
        rw [index_cut sub r s j hj (by simp at hl; omega)]

/-- What the callback of the style scoping sees of a match: the matched text
is the block, and the group found in it again is its body. -/
theorem styleRe_group {p : Option Char} {s : Str} {n : Nat} {g : List Str}
    (h : styleRe p s = some (n, g)) :
    ∃ body, s.take n = "<style>".toList ++ (body ++ "</style>".toList) ∧
      (findStringSubmatch styleRe (s.take n)).getD 1 [] = body := by
  obtain ⟨body, rest, rfl, hs, hn, hi⟩ := blockRe_shape h
  have ht : s.take n = "<style>".toList ++ (body ++ "</style>".toList) := by
    rw [hs, hn]
    have e : "<style>".toList ++ (body ++ ("</style>".toList ++ rest)) =
        ("<style>".toList ++ (body ++ "</style>".toList)) ++ rest := by simp
    rw [e]
    apply List.take_left'
    simp; omega
  refine ⟨body, ht, ?_⟩
  rw [ht]
  have hj : index "</style>".toList (body ++ "</style>".toList) = some body.length := by
    apply index_cut _ rest
    · rw [List.append_assoc]; exact hi
    · simp
  have hm : styleRe none ("<style>".toList ++ (body ++ "</style>".toList)) =
      some (7 + body.length + 8, [(body ++ "</style>".toList).take body.length]) := by
    unfold styleRe blockRe
    rw [if_pos (by simp)]
    rw [List.drop_left' (by rfl), hj]
    rfl
  unfold findStringSubmatch
  rw [findAllSubmatch_head hm (by omega) (by simp), List.take_left]
  rfl

/-- The inline scoping of a style body keeps its references. -/
theorem sameRefs_scopeRulesInline {c : Str} (hc : ∀ ch ∈ c, isWordChar ch = true) (css : Str) :
    SameRefs css (scopeRulesInline c css) := by
  have := sameRefs_replaceAll (m := ruleRe) (f := fun sel _ => scopeSelectorInline c sel) (by
    intro p s n g hm
    obtain ⟨x, hx, ht⟩ := ruleRe_shape hm
    rw [ht]
    exact sameRefs_scopeSelectorInline hc hx) css none 0
  simpa [scopeRulesInline, replaceAllFunc] using this

/-- Step 3 of `processComponent` keeps the references of the text. -/
theorem sameRefs_scopeStylesInline {c : Str} (hc : ∀ ch ∈ c, isWordChar ch = true) (z : Str) :
    SameRefs z (scopeStylesInline z c) := by
  have := sameRefs_replaceAll (m := styleRe)
    (f := fun mt _ => styleBlock (scopeRulesInline c ((findStringSubmatch styleRe mt).getD 1 [])))
    (by
      intro p s n g hm
      obtain ⟨body, ht, hg⟩ := styleRe_group hm
      show SameRefs _ (styleBlock (scopeRulesInline c
        ((findStringSubmatch styleRe (s.take (n + 1))).getD 1 [])))
      rw [hg, ht]
      have e1 : "<style>".toList ++ (body ++ "</style>".toList) =
          ("<style".toList ++ ['>']) ++ (body ++ ("</style".toList ++ ['>'])) := by simp
      have e2 : styleBlock (scopeRulesInline c body) =
          ("<style>".toList ++ ['\n']) ++ (scopeRulesInline c body ++
            ("\n</style".toList ++ ['>'])) := by simp [styleBlock]
      rw [e1, e2]
      exact sameRefs_append
        (sameRefs_plain (by decide) (by decide) (by decide) (by decide) (by decide))
        (sameRefs_append (sameRefs_scopeRulesInline hc body)
          (sameRefs_plain (by decide) (by decide) (by decide) (by decide) (by decide))))
    z none 0
  simpa [scopeStylesInline, replaceAllFunc] using this

/-- Step 4 of `processComponent` keeps the references of the text. -/
theorem sameRefs_injectAll (L : GoLib) {c : Str} (hc : ∀ ch ∈ c, isWordChar ch = true)
    (z : Str) :
    SameRefs z (replaceAllFunc htmlRe (fun mt _ => injectClassInline L c mt) z) := by
  have := sameRefs_replaceAll (m := htmlRe) (f := fun mt _ => injectClassInline L c mt)
    (fun p s n g _ => sameRefs_injectClassInline L hc _) z none 0
  simpa [replaceAllFunc] using this

/-! ## The two readings agree -/

theorem refScan_word_run (t : Str) : ∀ (w v : Str), (∀ ch ∈ w, isWordChar ch = true) →
    refScan (some v) (w ++ t) = refScan (some (v ++ w)) t
  | [], v, _ => by simp
  | a :: w, v, hw => by
    have ha : isWordChar a = true := hw a (by simp)
    have hb : a ≠ '{' := fun e => by rw [e] at ha; exact absurd ha (by decide)
    rw [List.cons_append, refScan_cons, if_neg hb]
    simp only []
    rw [if_pos ha, refScan_word_run t w (v ++ [a]) (fun ch h => hw ch (by simp [h]))]
    simp

theorem refScan_none_word_run (t : Str) : ∀ (w : Str), (∀ ch ∈ w, isWordChar ch = true) →
    refScan none (w ++ t) = refScan none t
  | [], _ => rfl
  | a :: w, hw => by
    have ha : isWordChar a = true := hw a (by simp)
    have hb : a ≠ '{' := fun e => by rw [e] at ha; exact absurd ha (by decide)
    rw [List.cons_append, refScan_cons, if_neg hb]
    exact refScan_none_word_run t w (fun ch h => hw ch (by simp [h]))

/-- After an opening brace that starts no reference the reading goes on as
if the brace were not there. -/
theorem refScan_open_none {t : Str} (h : refAt ('{' :: t) = none) :
    refScan (some []) t = refScan none t := by
  rw [refAt_brace] at h
  have hw : ∀ ch ∈ t.takeWhile isWordChar, isWordChar ch = true :=
    fun ch hch => List.mem_takeWhile_imp hch
  have e : t = t.takeWhile isWordChar ++ t.dropWhile isWordChar :=
    (List.takeWhile_append_dropWhile _ _).symm
  rw [e, refScan_word_run _ _ _ hw, refScan_none_word_run _ _ hw, List.nil_append]
  cases hd : t.dropWhile isWordChar with
  | nil => rfl
  | cons a r =>
    have ha : ¬ isWordChar a = true := by
      have := headIs_dropWhile isWordChar t
      rw [hd] at this
      simpa [headIs] using this
    rw [refScan_cons, refScan_cons]
    by_cases hb : a = '{'
    · rw [if_pos hb, if_pos hb]
    · rw [if_neg hb, if_neg hb]
      simp only []
      rw [if_neg ha, if_neg]
      rintro ⟨h1, h2⟩
      rw [hd, h1] at h
      have h3 : (t.takeWhile isWordChar).isEmpty = false := by
        cases hh : t.takeWhile isWordChar with
        | nil => exact absurd hh h2
        | cons b l => rfl
      rw [h3] at h
      simp at h

/-- Reading character by character gives the names of the reference pieces. -/
theorem refScan_eq_pieceNames : ∀ (n : Nat) (s : Str), s.length ≤ n →
    refScan none s = pieceNames (refPiecesAux 0 s)
  | _, [], _ => rfl
  | 0, ch :: t, h => by simp at h
  | n + 1, ch :: t, h => by
    cases hr : refAt (ch :: t) with
    | none =>
      have ih := refScan_eq_pieceNames n t (by simpa using h)
      rw [refPiecesAux, hr]
      simp only []
      rw [pieceNames, ← ih, refScan_cons]
      by_cases hc : ch = '{'
      · rw [if_pos hc]
        rw [hc] at hr
        exact refScan_open_none hr
      · rw [if_neg hc]
    | some w =>
      obtain ⟨hw, rest, hs⟩ := refAt_shape hr
      have hlen : rest.length ≤ n := by
        have := congrArg List.length hs
        simp at this h
        omega
      have ih := refScan_eq_pieceNames n rest hlen
      rw [hs, refPiecesAux_ref rest hw.1 hw.2, pieceNames, ← ih, refScan_cons,
        if_pos rfl, refScan_word_run _ _ _ hw.2, List.nil_append, refScan_cons,
        if_neg (by decide)]
      simp only []
      rw [if_neg (by decide), if_pos ⟨trivial, hw.1⟩]

theorem refScan_eq_refNames (s : Str) : refScan none s = refNames s :=
  refScan_eq_pieceNames s.length s (Nat.le_refl _)

/-- Texts that read alike have the same references. -/
theorem sameRefs_refNames {x y : Str} (h : SameRefs x y) : refNames x = refNames y := by
  rw [← refScan_eq_refNames, ← refScan_eq_refNames]
  exact (h none).1

/-! ## The markup update of a single-script component -/

theorem foldl_refName_good : ∀ (ord : List (Str × Str)) (w : Str),
    (∀ e ∈ ord, e.2 ≠ [] ∧ ∀ ch ∈ e.2, isWordChar ch = true) →
    (w ≠ [] ∧ ∀ ch ∈ w, isWordChar ch = true) →
    (ord.foldl refName w ≠ [] ∧ ∀ ch ∈ ord.foldl refName w, isWordChar ch = true)
  | [], _, _, hw => hw
  | e :: ord, w, he, hw => by
    rw [List.foldl_cons]
    exact foldl_refName_good ord _ (fun e' h' => he e' (by simp [h']))
      (refName_good (k := e.1) (he e (by simp)) hw)

theorem newNameOf_ne (c x : Str) : newNameOf c x ≠ x := by
  intro h
  have := congrArg List.length h
  simp [newNameOf] at this
  omega

/-- The entries that the markup update visits: a declared name and its
prefixed form, both non-empty runs of word characters and different. -/
theorem refs_entries {ro : MapOrder} (hro : ro.Valid) {s c : Str}
    (hc : ∀ ch ∈ c, isWordChar ch = true) :
    ∀ e ∈ ro.refs (buildVarMap s c), (e.1 ≠ [] ∧ ∀ ch ∈ e.1, isWordChar ch = true) ∧
      (e.2 ≠ [] ∧ ∀ ch ∈ e.2, isWordChar ch = true) ∧ e.2 ≠ e.1 := by
  intro e he
  have hmem := buildVarMap_entries ((hro (buildVarMap s c)).2.2.2.subset he)
  have h1 := declaredNames_word hmem.1
  refine ⟨h1, ⟨?_, ?_⟩, ?_⟩
  · rw [hmem.2]; simp [newNameOf]
  · rw [hmem.2]; exact newNameOf_word hc h1.2
  · rw [hmem.2]; exact newNameOf_ne c e.1

/-- `processComponent` on a component with one script block: the script body
is renamed in place, every reference goes through the entries of the
identifier map, then the styles are scoped and the classes injected. -/
theorem processComponent_single (L : GoLib) (os : Nat → MapOrder) (ro : MapOrder)
    (hro : ro.Valid) (content blk s c : Str) (hc : ∀ ch ∈ c, isWordChar ch = true)
    (hone : findAllSubmatch scriptRe content = [[blk, s]]) :
    processComponent L os ro content c =
      (replaceAllFunc htmlRe (fun mt _ => injectClassInline L c mt)
        (scopeStylesInline
          (substRefs (fun w => (ro.refs (buildVarMap s c)).foldl refName w)
            (replaceFirst s (renameIdentifiers L (os 0) s c).1 content)) c), none) := by
  have hmap : (renameIdentifiers L (os 0) s c).2 = buildVarMap s c := rfl
  unfold processComponent
  rw [hone]
  simp only [renameScripts]
  have hg : ([blk, s] : List Str).getD 1 [] = s := rfl
  rw [hg, hmap, foldl_updateRefs_substRefs L _ _ (refs_entries hro hc)]

/-- Steps 3 and 4 of `processComponent` keep the references of the text. -/
theorem refNames_scope_inject (L : GoLib) {c : Str} (hc : ∀ ch ∈ c, isWordChar ch = true)
    (z : Str) :
    refNames (replaceAllFunc htmlRe (fun mt _ => injectClassInline L c mt)
      (scopeStylesInline z c)) = refNames z :=
  (sameRefs_refNames (sameRefs_trans (sameRefs_scopeStylesInline hc z) (sameRefs_injectAll L hc _))).symm

/-! ## A component that starts with its script block -/

/-- A character that is neither a word character nor a closing brace ends
every reference that could be open before it. -/
theorem refAt_append_sep (c0 : Char) (T : Str) (ch : Char) (B : Str)
    (h : refAt (c0 :: T) = none) (hw : isWordChar ch = false) (hb : ch ≠ '}') :
    refAt (c0 :: (T ++ ch :: B)) = none := by
  by_cases hc : c0 = '{'
  · subst hc
    rw [refAt_brace] at h ⊢
    cases hd : T.dropWhile isWordChar with
    | nil =>
      have hall : ∀ x ∈ T, isWordChar x = true := by
        intro x hx
        have e := List.takeWhile_append_dropWhile isWordChar T
        rw [hd, List.append_nil] at e
        rw [← e] at hx
        exact List.mem_takeWhile_imp hx
      have h1 : (T ++ ch :: B).takeWhile isWordChar = T := takeWhile_append_stop T ch B hall hw
      have h2 : (T ++ ch :: B).dropWhile isWordChar = ch :: B := by
        have e := List.takeWhile_append_dropWhile isWordChar (T ++ ch :: B)
        rw [h1] at e
        exact List.append_cancel_left e
      rw [h1, h2]
      simp [hb]
    | cons a r =>
      have ha : isWordChar a = false := by
        have := headIs_dropWhile isWordChar T
        rw [hd] at this
        simpa [headIs] using this
      have e : T = T.takeWhile isWordChar ++ a :: r := by
        rw [← hd, List.takeWhile_append_dropWhile]
      have hall : ∀ x ∈ T.takeWhile isWordChar, isWordChar x = true :=
        fun x hx => List.mem_takeWhile_imp hx
      have h1 : (T ++ ch :: B).takeWhile isWordChar = T.takeWhile isWordChar := by
        conv_lhs => rw [e, List.append_assoc, List.cons_append]
        exact takeWhile_append_stop _ a _ hall ha
      have h2 : ((T ++ ch :: B).dropWhile isWordChar).head? = some a := by
        have e2 := List.takeWhile_append_dropWhile isWordChar (T ++ ch :: B)
        rw [h1] at e2
        conv_rhs at e2 => rw [e, List.append_assoc, List.cons_append]
        rw [List.append_cancel_left e2]
        rfl
      rw [h1, h2]
      rw [hd] at h
      exact h
  · exact refAt_cons_ne _ hc

theorem piecesText_append (ps qs : List RefPiece) :
    piecesText (ps ++ qs) = piecesText ps ++ piecesText qs := by
  simp [piecesText]

theorem refTok_append {ch : Char} {B : Str} (hw : isWordChar ch = false) (hb : ch ≠ '}')
    {qs : List RefPiece} (hq : RefTok qs) (hqs : piecesText qs = ch :: B) :
    ∀ ps : List RefPiece, RefTok ps → RefTok (ps ++ qs)
  | [], _ => hq
  | .lit c0 :: ps, h => by
    refine ⟨?_, refTok_append hw hb hq hqs ps h.2⟩
    show refAt (c0 :: piecesText (ps ++ qs)) = none
    rw [piecesText_append, hqs]
    exact refAt_append_sep c0 _ ch B h.1 hw hb
  | .ref w :: ps, h => ⟨h.1, refTok_append hw hb hq hqs ps h.2⟩

/-- The pieces of a text are read on each side of a character that is
neither a word character nor a closing brace. -/
theorem refPieces_append_sep (A : Str) (ch : Char) (B : Str) (hw : isWordChar ch = false)
    (hb : ch ≠ '}') : refPieces (A ++ ch :: B) = refPieces A ++ refPieces (ch :: B) := by
  have h := refPieces_piecesText _ (refTok_append hw hb (refTok_refPieces (ch :: B))
    (piecesText_refPieces _) (refPieces A) (refTok_refPieces A))
  rw [piecesText_append, piecesText_refPieces, piecesText_refPieces] at h
  exact h

/-- A text without an opening brace in front of another text is read as
single characters. -/
theorem refPieces_plain (B : Str) : ∀ A : Str, '{' ∉ A →
    refPiecesAux 0 (A ++ B) = A.map RefPiece.lit ++ refPiecesAux 0 B
  | [], _ => rfl
  | a :: A, h => by
    have ha : a ≠ '{' := fun e => h (by simp [e])
    rw [List.cons_append, refPiecesAux, refAt_cons_ne _ ha]
    simp only []
    rw [refPieces_plain B A (fun e => h (by simp [e]))]
    rfl

theorem piecesText_map_lit (g : Str → Str) : ∀ A : Str,
    piecesText ((A.map RefPiece.lit).map (RefPiece.rename g)) = A
  | [] => rfl
  | a :: A => by
    rw [List.map_cons, List.map_cons, RefPiece.rename, piecesText_lit, piecesText_map_lit g A]

theorem substRefs_plain (g : Str → Str) (A B : Str) (h : '{' ∉ A) :
    substRefs g (A ++ B) = A ++ substRefs g B := by
  unfold substRefs refPieces
  rw [refPieces_plain B A h, List.map_append, piecesText_append, piecesText_map_lit]

theorem substRefs_append_sep (g : Str → Str) (A : Str) (ch : Char) (B : Str)
    (hw : isWordChar ch = false) (hb : ch ≠ '}') :
    substRefs g (A ++ ch :: B) = substRefs g A ++ substRefs g (ch :: B) := by
  unfold substRefs
  rw [refPieces_append_sep A ch B hw hb, List.map_append, piecesText_append]

/-- A text that is a prefix of itself moved by `u` is made of the characters
of `u`. -/
theorem mem_of_prefix_shift {u : Str} (hu : u ≠ []) : ∀ (n : Nat) (s : Str), s.length ≤ n →
    s <+: u ++ s → ∀ ch ∈ s, ch ∈ u
  | 0, s, hn, _, ch, hch => by
    have : s = [] := List.eq_nil_of_length_eq_zero (by omega)
    rw [this] at hch
    simp at hch
  | n + 1, s, hn, hp, ch, hch => by
    by_cases hl : s.length ≤ u.length
    · exact (List.prefix_of_prefix_length_le hp (List.prefix_append u s) hl).subset hch
    · have hus : u <+: s :=
        List.prefix_of_prefix_length_le (List.prefix_append u s) hp (by omega)
      obtain ⟨s1, rfl⟩ := hus
      rw [List.prefix_append_right_inj] at hp
      have hlen : s1.length ≤ n := by
        have : 0 < u.length := List.length_pos.mpr hu
        simp at hn
        omega
      rcases List.mem_append.mp hch with h | h
      · exact h
      · exact mem_of_prefix_shift hu n s1 hlen hp ch h

/-- Replacing the first occurrence of `s` in a text where `s` does not start
before the end of `u`. -/
theorem replaceFirst_after (s new rest : Str) : ∀ u : Str,
    (∀ a b, u = a ++ b → b ≠ [] → ¬ s <+: b ++ (s ++ rest)) →
    replaceFirst s new (u ++ (s ++ rest)) = u ++ (new ++ rest)
  | [], _ => by
    cases hsr : s ++ rest with
    | nil =>
      have h1 : s = [] := by
        cases s with
        | nil => rfl
        | cons x o => simp at hsr
      have h2 : rest = [] := by simpa [h1] using hsr
      simp [replaceFirst, h1, h2]
    | cons x r =>
      have hp : s <+: x :: r := hsr ▸ List.prefix_append s rest
      rw [List.nil_append, replaceFirst, if_pos (List.isPrefixOf_iff_prefix.mpr hp), ← hsr,
        List.drop_left]
      rfl
  | x :: u, h => by
    have hn : ¬ s <+: (x :: u) ++ (s ++ rest) := h [] (x :: u) rfl (by simp)
    rw [List.cons_append, replaceFirst,
      if_neg (fun e => hn (by simpa using List.isPrefixOf_iff_prefix.mp e)),
      replaceFirst_after s new rest u (fun a b hab hb => h (x :: a) b (by simp [hab]) hb)]
    rfl

/-- In a component that starts with its script block, the renamed script body
takes the place of the body, when the body holds white space (as every body
with a declaration does). -/
theorem replaceFirst_script (s new rest : Str) (hsp : ∃ ch ∈ s, isReSpace ch = true) :
    replaceFirst s new ("<script>".toList ++ (s ++ rest)) = "<script>".toList ++ (new ++ rest) := by
  apply replaceFirst_after
  intro a b hab hb hp
  obtain ⟨ch, hch, hsp⟩ := hsp
  have hp' : s <+: b ++ s :=
    List.prefix_of_prefix_length_le hp (by rw [← List.append_assoc]; exact List.prefix_append _ _)
      (by simp)
  have hmem := mem_of_prefix_shift hb s.length s (Nat.le_refl _) hp' ch hch
  have hin : ch ∈ "<script>".toList := by rw [hab]; exact List.mem_append_right _ hmem
  have hall : ∀ x ∈ "<script>".toList, isReSpace x = false := by decide
  rw [hall ch hin] at hsp
  exact absurd hsp (by simp)

theorem declared_has_space {s : Str} (h : declaredNames s ≠ []) :
    ∃ ch ∈ s, isReSpace ch = true := by
  obtain ⟨k, hk⟩ := List.exists_mem_of_ne_nil _ h
  obtain ⟨pre, kw, ws, post, hs, _, hne, hws, _⟩ := declaredNames_position hk
  obtain ⟨a, ha⟩ := List.exists_mem_of_ne_nil _ hne
  exact ⟨a, by rw [hs]; simp [ha], hws a ha⟩

/-- The text after step 2 of a component that starts with its script block:
the substitution of references acts on the script body and on the markup
after the block separately. -/
theorem substRefs_script (g : Str → Str) (s1 m : Str) :
    substRefs g ("<script>".toList ++ (s1 ++ ("</script>".toList ++ m))) =
      "<script>".toList ++ (substRefs g s1 ++ ("</script>".toList ++ substRefs g m)) := by
  rw [substRefs_plain g _ _ (by decide)]
  have e : ("</script>".toList ++ m) = '<' :: ("/script>".toList ++ m) := rfl
  rw [e, substRefs_append_sep g s1 '<' _ (by decide) (by decide), ← e,
    substRefs_plain g _ _ (by decide)]

/-! ## Where the script body is put back -/

/-- Replacing the first occurrence of `old`, in terms of its position. -/
theorem replaceFirst_index (old new : Str) : ∀ (t : Str) (i : Nat), index old t = some i →
    replaceFirst old new t = t.take i ++ (new ++ t.drop (i + old.length))
  | [], i, h => by
    simp only [index] at h
    split at h
    · rename_i hp
      simp only [Option.some.injEq] at h
      subst h
      have ho : old = [] := by simpa using hp
      simp [replaceFirst, ho]
    · simp at h
  | ch :: t, i, h => by
    simp only [index] at h
    split at h
    · rename_i hp
      simp only [Option.some.injEq] at h
      subst h
      rw [replaceFirst, if_pos hp]
      simp
    · rename_i hp
      cases hj : index old t with
      | none => rw [hj] at h; simp at h
      | some j =>
        rw [hj] at h
        simp only [Option.some.injEq] at h
        subst h
        rw [replaceFirst, if_neg hp, replaceFirst_index old new t j hj]
        have e : j + 1 + old.length = (j + old.length) + 1 := by omega
        rw [e]
        rfl

/-- The first occurrence of `s` in a text where `s` does not start before
the end of `u`. -/
theorem index_after (s rest : Str) : ∀ u : Str,
    (∀ a b, u = a ++ b → b ≠ [] → ¬ s <+: b ++ (s ++ rest)) →
    index s (u ++ (s ++ rest)) = some u.length
  | [], _ => by simpa using index_at_start s (s ++ rest) (List.prefix_append _ _)
  | x :: u, h => by
    have hn : ¬ s <+: (x :: u) ++ (s ++ rest) := h [] (x :: u) rfl (by simp)
    rw [List.cons_append, index,
      if_neg (fun e => hn (by simpa using List.isPrefixOf_iff_prefix.mp e)),
      index_after s rest u (fun a b hab hb => h (x :: a) b (by simp [hab]) hb)]
    rfl

/-- In a component that starts with its script block, the first occurrence
of a script body that holds a declaration is the body of the block. -/
theorem index_script_body (s rest : Str) (hdecl : declaredNames s ≠ []) :
    index s ("<script>".toList ++ (s ++ rest)) = some 8 := by
  apply index_after
  intro a b hab hb hp
  obtain ⟨ch, hch, hsp⟩ := declared_has_space hdecl
  have hp' : s <+: b ++ s :=
    List.prefix_of_prefix_length_le hp (by rw [← List.append_assoc]; exact List.prefix_append _ _)
      (by simp)
  have hmem := mem_of_prefix_shift hb s.length s (Nat.le_refl _) hp' ch hch
  have hin : ch ∈ "<script>".toList := by rw [hab]; exact List.mem_append_right _ hmem
  have hall : ∀ x ∈ "<script>".toList, isReSpace x = false := by decide
  rw [hall ch hin] at hsp
  exact absurd hsp (by simp)

/-- The text after step 2 of a component whose script body first occurs in
its script block: the substitution of references acts on the markup before
the block, on the renamed script body and on the markup after the block
separately. -/
theorem substRefs_component (g : Str → Str) (pre s new m : Str)
    (hi : index s (pre ++ ("<script>".toList ++ (s ++ ("</script>".toList ++ m)))) =
      some (pre.length + 8)) :
    substRefs g (replaceFirst s new
        (pre ++ ("<script>".toList ++ (s ++ ("</script>".toList ++ m))))) =
      substRefs g pre ++ ("<script>".toList ++ (substRefs g new ++
        ("</script>".toList ++ substRefs g m))) := by
  rw [replaceFirst_index s new _ _ hi]
  have e1 : pre ++ ("<script>".toList ++ (s ++ ("</script>".toList ++ m))) =
      (pre ++ "<script>".toList) ++ (s ++ ("</script>".toList ++ m)) := by simp
  have h1 : (pre ++ ("<script>".toList ++ (s ++ ("</script>".toList ++ m)))).take
      (pre.length + 8) = pre ++ "<script>".toList := by
    rw [e1]
    exact List.take_left' (by simp)
  have e2 : pre ++ ("<script>".toList ++ (s ++ ("</script>".toList ++ m))) =
      (pre ++ "<script>".toList ++ s) ++ ("</script>".toList ++ m) := by simp
  have h2 : (pre ++ ("<script>".toList ++ (s ++ ("</script>".toList ++ m)))).drop
      (pre.length + 8 + s.length) = "</script>".toList ++ m := by
    rw [e2]
    exact List.drop_left' (by simp; omega)
  rw [h1, h2]
  have e3 : pre ++ "<script>".toList ++ (new ++ ("</script>".toList ++ m)) =
      pre ++ '<' :: ("script>".toList ++ (new ++ ("</script>".toList ++ m))) := by simp
  rw [e3, substRefs_append_sep g pre '<' _ (by decide) (by decide)]
  have e4 : '<' :: ("script>".toList ++ (new ++ ("</script>".toList ++ m))) =
      "<script>".toList ++ (new ++ ("</script>".toList ++ m)) := rfl
  rw [e4, substRefs_script]

/-! # The claims -/

/-! ## C1: class injection on listed tags -/

/-- C1: for every tag name `t` of the allow-list and every component name `c`
without `$` (so every name made of letters, digits and underscores),
`addComponentClass` turns `<t>` into `<t class="c">` and, for every class
value `v` without `"` and `>`, `<t class="v">` into `<t class="v c">`. -/
theorem addComponentClass_allowlisted (L : GoLib) (t c : Str) (ht : t ∈ tagNames)
    (hd : '$' ∉ c) :
    addComponentClass L ('<' :: t ++ ['>']) c =
        '<' :: t ++ " class=\"".toList ++ c ++ "\">".toList ∧
    ∀ v : Str, '"' ∉ v → '>' ∉ v →
      addComponentClass L ('<' :: t ++ " class=\"".toList ++ v ++ "\">".toList) c =
        '<' :: t ++ " class=\"".toList ++ v ++ ' ' :: c ++ "\">".toList := by
  have hgt := tagNames_no_gt t ht
  constructor
  · obtain ⟨g, hg⟩ := htmlRe_at_tag none (t ++ ['>']) t t.length ht
      (List.prefix_append t _) (index_char_append '>' t [] hgt)
    have hlen : ('<' :: (t ++ ['>'])).length = t.length + 1 + 1 := by simp
    rw [addComponentClass, replaceAllFunc, List.cons_append,
      replaceAllAux_match hg (by simp), ← hlen, List.take_length, List.drop_length]
    simp only [replaceAllAux, List.append_nil, injectClass]
    have h1 := tag_no_class t ht
    have h2 := tag_lastIndex t ht
    simp at h1 h2
    simp [h1, h2, classAttr, List.take_append_eq_append_take, List.drop_append_eq_append_drop]
  · intro v hq hv
    have hpre : '>' ∉ t ++ " class=\"".toList ++ v ++ ['"'] := by simp [hgt, hv]
    obtain ⟨g, hg⟩ := htmlRe_at_tag none ((t ++ " class=\"".toList ++ v ++ ['"']) ++ ['>']) t _ ht
      (by simp [List.append_assoc]) (index_char_append '>' _ [] hpre)
    have htext : '<' :: t ++ " class=\"".toList ++ v ++ "\">".toList =
        '<' :: ((t ++ " class=\"".toList ++ v ++ ['"']) ++ ['>']) := by simp
    have hlen : ('<' :: ((t ++ " class=\"".toList ++ v ++ ['"']) ++ ['>'])).length =
        (t ++ " class=\"".toList ++ v ++ ['"']).length + 1 + 1 := by simp; omega
    rw [addComponentClass, replaceAllFunc, htext, replaceAllAux_match hg (by simp), ← hlen,
      List.take_length, List.drop_length]
    have hcont : contains ('<' :: ((t ++ " class=\"".toList ++ v ++ ['"']) ++ ['>']))
        "class=".toList = true := by
      have := index_inside "class=".toList ('"' :: v ++ "\">".toList) ('<' :: t ++ [' '])
      simpa [contains] using this
    have hX : '<' :: ((t ++ " class=\"".toList ++ v ++ ['"']) ++ ['>']) =
        '<' :: t ++ ' ' :: ("class=\"".toList ++ v ++ '"' :: ['>']) := by simp
    have hat := classRe_at (some ' ') v ['>'] hq
    have htake : ("class=\"".toList ++ v ++ '"' :: ['>']).take (7 + v.length + 1) =
        "class=\"".toList ++ v ++ ['"'] := by
      have : ("class=\"".toList ++ v ++ ['"']).length = 7 + v.length + 1 := by simp; omega
      rw [← this, show "class=\"".toList ++ v ++ '"' :: ['>'] =
        ("class=\"".toList ++ v ++ ['"']) ++ ['>'] by simp, List.take_left]
    have hdrop : ("class=\"".toList ++ v ++ '"' :: ['>']).drop (7 + v.length + 1) = ['>'] := by
      have : ("class=\"".toList ++ v ++ ['"']).length = 7 + v.length + 1 := by simp; omega
      rw [← this, show "class=\"".toList ++ v ++ '"' :: ['>'] =
        ("class=\"".toList ++ v ++ ['"']) ++ ['>'] by simp, List.drop_left]
    simp only [replaceAllAux, List.append_nil, injectClass, hcont, if_true]
    rw [replaceAllString, replaceAllFunc, hX, classRe_scan_tag _ t ht,
      replaceAllAux_match hat (by simp), htake, hdrop, expand_classTemplate L _ v c hd]
    simp [replaceAllAux, classRe]

/-- C1, at the inputs of the specification: with `c = Foo`, `<div>` gives
`<div class="Foo">` and `<div class="x">` gives `<div class="x Foo">`. -/
theorem addComponentClass_allowlisted_witness :
    ("div".toList ∈ tagNames ∧ '$' ∉ "Foo".toList) ∧
    addComponentClass demoLib "<div>".toList "Foo".toList = "<div class=\"Foo\">".toList ∧
    addComponentClass demoLib "<div class=\"x\">".toList "Foo".toList =
      "<div class=\"x Foo\">".toList :=
  have h := addComponentClass_allowlisted demoLib "div".toList "Foo".toList (by decide) (by decide)
  ⟨⟨by decide, by decide⟩, h.1, h.2 "x".toList (by decide) (by decide)⟩

/-! ## C2: tags outside the allow-list -/

/-- C2 (code at the failing input): tags whose names only start with a listed
name (`pre`, `link`, `thead`, `path`, the custom element `p-card`) are matched
by the tag expression and receive the class attribute. -/
theorem addComponentClass_modifies_unlisted (L : GoLib) :
    addComponentClass L "<pre><link><thead><path><p-card>".toList "Foo".toList =
      ("<pre class=\"Foo\"><link class=\"Foo\"><thead class=\"Foo\">" ++
        "<path class=\"Foo\"><p-card class=\"Foo\">").toList := by
  rfl

/-! ## C3: every use of a declared identifier renamed -/

/-- C3 (code at the failing input): the use of `f` right after the closing
brace is glued to the placeholder of the protected block, is therefore no
whole word while the uses are renamed, and comes back unrenamed. -/
theorem renameIdentifiers_misses_use_after_brace (L : GoLib) (o : MapOrder) (ho : o.Valid) :
    renameIdentifiers L o "function f(){return 1}f()".toList "Foo".toList =
      ("function Foo_f(){return 1}f()".toList, [("f".toList, "Foo_f".toList)]) := by
  have hvm : buildVarMap "function f(){return 1}f()".toList "Foo".toList =
      [("f".toList, "Foo_f".toList)] := by rfl
  have hem : buildExprMap L "function f(){return 1}f()".toList =
      [(exprKey L "{return 1}".toList, "{return 1}".toList)] := by rfl
  have hc1 : protectExprs L "function f(){return 1}f()".toList =
      "function f()".toList ++ (exprKey L "{return 1}".toList ++ "f()".toList) := by rfl
  have hvars : ∀ e, o.vars [e] = [e] := fun e => perm_singleton_eq (ho [e]).1
  have hinner : ∀ k e, o.inner k [e] = [e] := fun k e => perm_singleton_eq ((ho [e]).2.2.1 k)
  have hexprs : ∀ e, o.exprs [e] = [e] := fun e => perm_singleton_eq (ho [e]).2.1
  have hK := exprKey_eq L "{return 1}".toList
  have hKw := exprKey_word L "{return 1}".toList
  generalize exprKey L "{return 1}".toList = K at *
  obtain ⟨K1, hK1⟩ : ∃ K1, K = '_' :: K1 := ⟨_, hK⟩
  obtain ⟨K2, hK2⟩ : ∃ K2, K1 = '_' :: K2 := ⟨_, by rw [hK1] at hK; exact (List.cons.inj hK).2⟩
  have hK1w : ∀ ch ∈ K1 ++ ['f'], isWordChar ch = true := by
    intro ch hc
    simp only [List.mem_append, List.mem_singleton] at hc
    rcases hc with hc | rfl
    · exact hKw ch (by rw [hK1]; simp [hc])
    · decide
  have hlast : lastOr (some '_') (K1 ++ ['f']) = some 'f' := by
    rw [lastOr_append]; rfl
  -- the declaration rewrite
  have hrd : renameDecl [("f".toList, "Foo_f".toList)] "function f".toList =
      "function Foo_f".toList := by rfl
  have hc2 : replaceAllFunc declRe (fun mt _ => renameDecl [("f".toList, "Foo_f".toList)] mt)
      ("function f()".toList ++ (K ++ "f()".toList)) =
      "function Foo_f()".toList ++ (K ++ "f()".toList) := by
    have hrun := replaceAllAux_word_run
      (f := fun mt _ => renameDecl [("f".toList, "Foo_f".toList)] mt) declRe_anchored
      "()".toList (K1 ++ ['f']) (some '_') rfl hK1w
    rw [hlast] at hrun
    simp at hrun hrd
    rw [hK1]
    simp [replaceAllFunc, replaceAllAux, declRe, declKeywords, List.findSome?, List.takeWhile,
      isReSpace, isWordChar, headIs, isIdentStart, prevIsWord, hrd, hrun]
  -- the uses
  have hc3 : renameWord L ("function Foo_f()".toList ++ (K ++ "f()".toList))
      ("f".toList, "Foo_f".toList) = "function Foo_f()".toList ++ (K ++ "f()".toList) := by
    have hrun := replaceAllAux_word_run
      (f := fun mt groups => expand L (mt :: groups) "Foo_f".toList) (wordRe_anchored "f".toList)
      "()".toList (K1 ++ ['f']) (some '_') rfl hK1w
    rw [hlast] at hrun
    simp at hrun
    rw [hK1]
    simp [renameWord, replaceAllString, replaceAllFunc, replaceAllAux, wordRe, isWordChar, headIs,
      prevIsWord, hrun]
  -- the restoring loop
  have hin : renameWord L "{return 1}".toList ("f".toList, "Foo_f".toList) =
      "{return 1}".toList := by rfl
  have hc4 : replaceAll K "{return 1}".toList ("function Foo_f()".toList ++ (K ++ "f()".toList)) =
      "function Foo_f(){return 1}f()".toList := by
    have hm : litRe K (some ')') (K ++ "f()".toList) = some (K.length, []) := by
      simp [litRe]
    have hpos : 0 < K.length := by rw [hK1]; simp
    have hne : K ++ "f()".toList ≠ [] := by rw [hK1]; simp
    have h2 := replaceAllAux_match' (f := fun _ _ => "{return 1}".toList) hm hpos hne
    rw [List.take_left, List.drop_left] at h2
    have h3 : replaceAllAux (litRe K) (fun _ _ => "{return 1}".toList) (lastOr (some ')') K) 0
        "f()".toList = "f()".toList := by
      rw [hK1, hK2]
      simp [replaceAllAux, litRe]
    rw [h3] at h2
    rw [replaceAll, replaceAllFunc]
    have h4 : replaceAllAux (litRe K) (fun _ _ => "{return 1}".toList) none 0
        ("function Foo_f()".toList ++ (K ++ "f()".toList)) =
        "function Foo_f()".toList ++ replaceAllAux (litRe K) (fun _ _ => "{return 1}".toList)
          (some ')') 0 (K ++ "f()".toList) := by
      generalize K ++ "f()".toList = X
      rw [hK1, hK2]
      simp [replaceAllAux, litRe]
    rw [h4, h2]
    simp
  simp only [renameIdentifiers, hvm, hem, hc1, hc2, hvars, hinner, hexprs, List.foldl, hc3, hin,
    hc4]

/-- C3, instance of the evaluation for the insertion order of the maps. -/
theorem renameIdentifiers_misses_use_after_brace_witness :
    insertionOrder.Valid ∧
    renameIdentifiers demoLib insertionOrder "function f(){return 1}f()".toList "Foo".toList =
      ("function Foo_f(){return 1}f()".toList, [("f".toList, "Foo_f".toList)]) :=
  ⟨insertionOrder_valid,
    renameIdentifiers_misses_use_after_brace demoLib insertionOrder insertionOrder_valid⟩

/-! ## C4: protected expressions restored -/

/-- C4 (code at the failing input): the braced pattern after `let` is replaced
by its placeholder, the declaration rewrite takes the placeholder for the
declared name and replaces it by the empty map entry, and the restoring loop
no longer finds it: the pattern is dropped. -/
theorem renameIdentifiers_drops_braced_pattern (L : GoLib) (o : MapOrder) (ho : o.Valid) :
    renameIdentifiers L o "let {a, b} = obj".toList "Foo".toList = ("let  = obj".toList, []) := by
  have hvm : buildVarMap "let {a, b} = obj".toList "Foo".toList = [] := by rfl
  have hem : buildExprMap L "let {a, b} = obj".toList =
      [(exprKey L "{a, b}".toList, "{a, b}".toList)] := by rfl
  have hc1 : protectExprs L "let {a, b} = obj".toList =
      "let ".toList ++ (exprKey L "{a, b}".toList ++ " = obj".toList) := by rfl
  have hvars : o.vars [] = [] := perm_nil_eq (ho []).1
  have hinner : ∀ k, o.inner k [] = [] := fun k => perm_nil_eq ((ho []).2.2.1 k)
  have hexprs : ∀ e, o.exprs [e] = [e] := fun e => perm_singleton_eq (ho [e]).2.1
  have hK := exprKey_eq L "{a, b}".toList
  have hKw := exprKey_word L "{a, b}".toList
  have hKl := exprKey_length L "{a, b}".toList
  generalize exprKey L "{a, b}".toList = K at *
  have hm := declRe_let none K " = obj".toList rfl hKw (by rw [hK]; rfl) rfl
  have htake : ("let ".toList ++ (K ++ " = obj".toList)).take (4 + K.length) = "let ".toList ++ K := by
    rw [← List.append_assoc, show 4 + K.length = ("let ".toList ++ K).length by simp; omega,
      List.take_left]
  have hdrop : ("let ".toList ++ (K ++ " = obj".toList)).drop (4 + K.length) = " = obj".toList := by
    rw [← List.append_assoc, show 4 + K.length = ("let ".toList ++ K).length by simp; omega,
      List.drop_left]
  have hfields : fields ("let ".toList ++ K) = ["let".toList, K] := by
    have h := fieldsAux_run [] K [] (fun ch hc => not_isSpace_of_word (hKw ch hc))
    have hne : K ≠ [] := by rw [hK]; simp
    simp [fields, fieldsAux, isSpace] 
    simp at h
    simp [h, fieldsAux, hne]
  have hc2 : replaceAllFunc declRe (fun mt _ => renameDecl [] mt)
      ("let ".toList ++ (K ++ " = obj".toList)) = "let  = obj".toList := by
    rw [replaceAllFunc, replaceAllAux_match' hm (by omega) (by simp), htake, hdrop]
    simp at hfields
    simp [renameDecl, hfields, mapGet, replaceAllAux, declRe, declKeywords, List.findSome?]
  have hc4 : replaceAll K "{a, b}".toList "let  = obj".toList = "let  = obj".toList := by
    rw [hK]
    simp [replaceAll, replaceAllFunc, replaceAllAux, litRe]
  simp only [renameIdentifiers, hvm, hem, hc1, hc2, hvars, hinner, hexprs, List.foldl, hc4]

/-- C4, instance of the evaluation for the insertion order of the maps. -/
theorem renameIdentifiers_drops_braced_pattern_witness :
    insertionOrder.Valid ∧
    renameIdentifiers demoLib insertionOrder "let {a, b} = obj".toList "Foo".toList =
      ("let  = obj".toList, []) :=
  ⟨insertionOrder_valid,
    renameIdentifiers_drops_braced_pattern demoLib insertionOrder insertionOrder_valid⟩

/-! ## C5: idempotence of `scopeCSS` -/

/-- C5 (code at the failing input): a selector whose first part starts with
`:` is scoped to `:hover .Foo a` by the first pass of `scopeCSS` and receives
a second `.Foo` in the second pass. -/
theorem scopeCSS_second_pass_prefixes_again :
    scopeCSS "<style>:hover a{}</style>".toList "Foo".toList =
      "<style>\n:hover .Foo a {}\n</style>".toList ∧
    scopeCSS (scopeCSS "<style>:hover a{}</style>".toList "Foo".toList) "Foo".toList =
      "<style>\n:hover .Foo .Foo a {}\n\n</style>".toList := by
  decide

/-! ## C6: the selector policy of `scopeCSS` -/

/-- C6 (code at the failing input): `scopeCSS` puts the component class in
front of every space-separated part of a selector instead of once in front
of the whole selector: `a b` becomes `.Foo a .Foo b`, and in `a > b` the
combinator receives a prefix of its own. The scoping written inline in
`processComponent` and in `AutoParse` gives `.Foo a b` on the same rule. -/
theorem scopeCSS_compound_selector (L : GoLib) (os : Nat → MapOrder) (ro : MapOrder) :
    scopeCSS "<style>a b{}</style>".toList "Foo".toList =
      "<style>\n.Foo a .Foo b {}\n</style>".toList ∧
    scopeCSS "<style>a > b{}</style>".toList "Foo".toList =
      "<style>\n.Foo a .Foo > .Foo b {}\n</style>".toList ∧
    processComponent L os ro "<style>a b{}</style>".toList "Foo".toList =
      ("<style>\n.Foo a b {}\n</style>".toList, none) ∧
    scopeRulesInline "Foo".toList "a b{}".toList = ".Foo a b {}".toList := by
  refine ⟨by decide, by decide, rfl, by decide⟩

/-- Selectors without inner white space: in a style block, a rule whose
selectors are solid (no white space inside) and whose first selector is no
at-rule is rewritten selector by selector: a selector starting with the
component class is kept as written, one starting with `:` is kept, every
other selector `s` becomes `.c s`; the selectors are joined with a comma and
a space, and the rest of the block is scoped in the same way. -/
theorem scopeCSS_solid_selectors (c pad0 pad1 s1 : Str) (more : List (Str × Str)) (rest : Str)
    (h0 : ∀ ch ∈ pad0, isSpace ch = true) (h1 : ∀ ch ∈ pad1, isSpace ch = true)
    (hs1 : SolidSelector s1) (hat : hasPrefix s1 ['@'] = false)
    (hmore : ∀ p ∈ more, (∀ ch ∈ p.1, isSpace ch = true) ∧ SolidSelector p.2)
    (hrest : '{' ∉ rest.takeWhile (· != '}')) (hlt : '<' ∉ rest) :
    scopeCSS ("<style>".toList ++
        ((pad0 ++ selectorList (([], s1) :: more) ++ pad1 ++ '{' :: rest) ++ "</style>".toList)) c =
      styleBlock ([',', ' '].intercalate ((([], s1) :: more).map (scopedSelector c)) ++
        ' ' :: '{' :: scopeRules c rest) := by
  have hcl := selectors_clean pad0 pad1 s1 more h0 h1 hs1 hmore
  rw [scopeCSS_block c _ (by
      intro h
      rcases List.mem_append.mp h with h | h
      · exact (hcl _ h).2.2 rfl
      · rcases List.mem_cons.mp h with h | h
        · exact absurd h (by decide)
        · exact hlt h),
    scopeRules_simple c pad0 pad1 s1 more rest h0 h1 hs1 hat hmore hrest]

/-- The rule `a, .Foo, :hover {color:red}` under the component `Foo`, as an
instance of `scopeCSS_solid_selectors`. -/
theorem scopeCSS_solid_selectors_witness :
    (SolidSelector "a".toList ∧ hasPrefix "a".toList ['@'] = false ∧
      SolidSelector ".Foo".toList ∧ SolidSelector ":hover".toList) ∧
    scopeCSS "<style>a, .Foo, :hover {color:red}</style>".toList "Foo".toList =
      "<style>\n.Foo a,  .Foo, :hover {color:red}\n</style>".toList :=
  have hA : SolidSelector "a".toList := ⟨by decide, by decide⟩
  have hB : SolidSelector ".Foo".toList := ⟨by decide, by decide⟩
  have hC : SolidSelector ":hover".toList := ⟨by decide, by decide⟩
  have h := scopeCSS_solid_selectors "Foo".toList [] " ".toList "a".toList
    [(" ".toList, ".Foo".toList), (" ".toList, ":hover".toList)] "color:red\x7d".toList
    (by decide) (by decide) hA (by decide)
    (by
      intro p hp
      simp only [List.mem_cons, List.mem_singleton, List.not_mem_nil, or_false] at hp
      rcases hp with rfl | rfl
      · exact ⟨by decide, hB⟩
      · exact ⟨by decide, hC⟩)
    (by decide) (by decide)
  ⟨⟨hA, by decide, hB, hC⟩, h.trans (by decide)⟩

/-! ## C7: the selector policy of the pipeline -/

/-- C7 (code at the failing input): the scoping written inline in
`processComponent` prefixes a selector that already starts with the component
class once more, whereas `scopeCSS` leaves it alone. -/
theorem processComponent_prefixes_scoped_selector (L : GoLib) (os : Nat → MapOrder)
    (ro : MapOrder) :
    processComponent L os ro "<style>.Foo a{}</style>".toList "Foo".toList =
      ("<style>\n.Foo .Foo a {}\n</style>".toList, none) ∧
    scopeCSS "<style>.Foo a{}</style>".toList "Foo".toList =
      "<style>\n.Foo a {}\n</style>".toList := by
  constructor
  · rfl
  · decide

/-! ## C8: at-rules -/

/-- C8 (code at the failing input): the test for `@` is made on each match of
`([^}]*){` by itself, so it covers an at-rule only up to the first `{` run of
its block. The second rule nested in `@media x{a{}b{}}` and the step `to` of
a `@keyframes` block receive the component class, in `scopeCSS` as in the
scoping written inline in `processComponent` and in `AutoParse`; and the rule
`a` written after `@import url(x.css);` is read as part of the at-rule and
left without the class. -/
theorem scopeCSS_rewrites_nested_rule (L : GoLib) (os : Nat → MapOrder) (ro : MapOrder) :
    scopeCSS "<style>@media x{a{}b{}}</style>".toList "Foo".toList =
      "<style>\n@media x{a {}.Foo b {}}\n</style>".toList ∧
    scopeCSS "<style>@keyframes k{from{}to{}}</style>".toList "Foo".toList =
      "<style>\n@keyframes k{from {}.Foo to {}}\n</style>".toList ∧
    scopeCSS "<style>@import url(x.css); a{}</style>".toList "Foo".toList =
      "<style>\n@import url(x.css); a {}\n</style>".toList ∧
    processComponent L os ro "<style>@media x{a{}b{}}</style>".toList "Foo".toList =
      ("<style>\n@media x{a {}.Foo b {}}\n</style>".toList, none) ∧
    scopeRulesInline "Foo".toList "@media x{a{}b{}}".toList =
      "@media x{a {}.Foo b {}}".toList := by
  refine ⟨by decide, by decide, by decide, rfl, by decide⟩

/-- What the test for `@` does cover: in a style block, the text `x` that
runs up to the last `{` before the first `}` and starts, once trimmed, with
`@` is only trimmed and followed by ` {`, and the text `body` up to the first
`}` is left as it is; the rule after that `}` is scoped selector by selector
like any other rule. -/
theorem scopeCSS_at_rule (c x body pad0 pad1 s1 : Str) (more : List (Str × Str)) (rest : Str)
    (hx : '}' ∉ x) (hxlt : '<' ∉ x) (hat : hasPrefix (trimSpace x) ['@'] = true)
    (hbody : '{' ∉ body) (hblt : '<' ∉ body)
    (h0 : ∀ ch ∈ pad0, isSpace ch = true) (h1 : ∀ ch ∈ pad1, isSpace ch = true)
    (hs1 : SolidSelector s1) (hs1at : hasPrefix s1 ['@'] = false)
    (hmore : ∀ p ∈ more, (∀ ch ∈ p.1, isSpace ch = true) ∧ SolidSelector p.2)
    (hrest : '{' ∉ rest.takeWhile (· != '}')) (hlt : '<' ∉ rest) :
    scopeCSS ("<style>".toList ++
        ((x ++ '{' :: (body ++ '}' ::
          (pad0 ++ selectorList (([], s1) :: more) ++ pad1 ++ '{' :: rest))) ++
          "</style>".toList)) c =
      styleBlock (trimSpace x ++ ' ' :: '{' :: (body ++ '}' ::
        ([',', ' '].intercalate ((([], s1) :: more).map (scopedSelector c)) ++
          ' ' :: '{' :: scopeRules c rest))) := by
  have hcl := selectors_clean pad0 pad1 s1 more h0 h1 hs1 hmore
  have hclean : '<' ∉ x ++ '{' :: (body ++ '}' ::
      (pad0 ++ selectorList (([], s1) :: more) ++ pad1 ++ '{' :: rest)) := by
    intro h
    simp only [List.mem_append, List.mem_cons] at h
    rcases h with h | h | h | h | h | h | h
    · exact hxlt h
    · exact absurd h (by decide)
    · exact hblt h
    · exact absurd h (by decide)
    · exact (hcl _ (by simp only [List.mem_append]; exact h)).2.2 rfl
    · exact absurd h (by decide)
    · exact hlt h
  have hstop : '{' ∉ (body ++ '}' ::
      (pad0 ++ selectorList (([], s1) :: more) ++ pad1 ++ '{' :: rest)).takeWhile (· != '}') :=
    fun e => hbody (mem_of_mem_takeWhile_stop (p := (· != '}')) (by simp) body e)
  rw [scopeCSS_block c _ hclean, scopeRules_step c x _ hx hstop, scopeSelector_at c x hat,
    scopeRules_body c body _ hbody,
    scopeRules_simple c pad0 pad1 s1 more rest h0 h1 hs1 hs1at hmore hrest]
  simp

/-- The block `@media x { a { k:v } b { k:w } }` under the component `Foo`,
as an instance of `scopeCSS_at_rule`. -/
theorem scopeCSS_at_rule_witness :
    (hasPrefix (trimSpace "@media x \x7b a ".toList) ['@'] = true ∧ SolidSelector "b".toList) ∧
    scopeCSS "<style>@media x { a { k:v } b { k:w } }</style>".toList "Foo".toList =
      "<style>\n@media x { a { k:v }.Foo b { k:w } }\n</style>".toList :=
  have hB : SolidSelector "b".toList := ⟨by decide, by decide⟩
  have h := scopeCSS_at_rule "Foo".toList "@media x \x7b a ".toList " k:v ".toList " ".toList
    " ".toList "b".toList [] " k:w \x7d \x7d".toList
    (by decide) (by decide) (by decide) (by decide) (by decide) (by decide) (by decide) hB
    (by decide) (by simp) (by decide) (by decide)
  ⟨⟨by decide, hB⟩, h.trans (by decide)⟩

/-! ## C9: empty containers -/

/-- C9 (code at the failing input): with an empty script list the text
assembled by `AutoParse` starts with a script container holding only white
space, which the code's own expression for empty containers matches, and is
followed by such a style container when the style list is empty too;
`mergeScriptsAndStyles` on no contents returns two empty containers. -/
theorem finalContent_keeps_empty_containers (L : GoLib) (mergedContent : Str) :
    finalContent [] [] mergedContent =
      "<script>\n\n</script>\n<style>\n\n</style>\n".toList ++ mergedContent ∧
    emptyBlockRe "<script>".toList "</script>".toList none (finalContent [] [] mergedContent) =
      some (19, []) ∧
    mergeScriptsAndStyles L [] = ("<script>\n</script>\n".toList, "<style>\n</style>\n".toList) := by
  refine ⟨rfl, rfl, rfl⟩

/-! ## C10: the end-to-end scenario -/

/-- C10, amended: in the end-to-end scenario of the specification the
component `Counter` with the script `let count = 0` and the markup
`<div>{count}</div>` is turned, without error, into the script
`let Counter_count = 0` and the markup
`<div class="Counter">{Counter_count}</div>`. More generally, take any
component `content` in which the script expression finds exactly one block,
with body `s`, and a component name `c` of letters, digits and underscores,
and let `T` be `content` with the first occurrence of `s` replaced by the
renamed body (step 1 of `processComponent`). Then there is a renaming `g` of
names, with `g x = c_x` for every `x` declared in `s` whose prefixed name
`c_x` is not itself declared in `s`, and `g w = w` for every `w` not declared
in `s`, such that:
the result of `processComponent` is the class injection applied to the style
scoping applied to `T` with every reference `{w}` replaced by `{g w}`, all
other characters kept;
the references of the result are, in order, those of `T` sent through `g`
(class injection and style scoping keep every reference);
when the first occurrence of `s` is the body of the block, the markup before
the block and the markup after it are changed by this substitution alone
before the styles are scoped and the classes injected;
and the first occurrence of `s` is the body of the block in every component
that starts with its script block and declares a name.
This holds for every order in which the identifier map is visited. -/
theorem processComponent_scenario (L : GoLib) (os : Nat → MapOrder) (ro : MapOrder)
    (hos : ∀ j, (os j).Valid) (hro : ro.Valid) (content blk s c : Str)
    (hc : ∀ ch ∈ c, isWordChar ch = true)
    (hone : findAllSubmatch scriptRe content = [[blk, s]]) :
    processComponent L os ro "<script>let count = 0</script><div>{count}</div>".toList
        "Counter".toList =
      ("<script>let Counter_count = 0</script><div class=\"Counter\">{Counter_count}</div>".toList,
        none) ∧
    ∃ g : Str → Str,
      (∀ x ∈ declaredNames s, newNameOf c x ∉ declaredNames s → g x = newNameOf c x) ∧
      (∀ w, w ∉ declaredNames s → g w = w) ∧
      processComponent L os ro content c =
        (replaceAllFunc htmlRe (fun mt _ => injectClassInline L c mt)
          (scopeStylesInline
            (substRefs g (replaceFirst s (renameIdentifiers L (os 0) s c).1 content)) c),
          none) ∧
      refNames (processComponent L os ro content c).1 =
        (refNames (replaceFirst s (renameIdentifiers L (os 0) s c).1 content)).map g ∧
      (∀ pre m, content = pre ++ ("<script>".toList ++ (s ++ ("</script>".toList ++ m))) →
        index s content = some (pre.length + 8) →
        substRefs g (replaceFirst s (renameIdentifiers L (os 0) s c).1 content) =
          substRefs g pre ++ ("<script>".toList ++
            (substRefs g (renameIdentifiers L (os 0) s c).1 ++
              ("</script>".toList ++ substRefs g m)))) ∧
      (∀ m, declaredNames s ≠ [] →
        index s ("<script>".toList ++ (s ++ ("</script>".toList ++ m))) = some 8) := by
  refine ⟨processComponent_counter L os ro hos hro,
    fun w => (ro.refs (buildVarMap s c)).foldl refName w, ?_, ?_, ?_, ?_, ?_, ?_⟩
  · intro x hx hclash
    have hperm := (hro (buildVarMap s c)).2.2.2
    apply foldl_refName_declared c x
    · exact fun e he => (buildVarMap_entries (hperm.subset he)).2
    · obtain ⟨e, he, hex⟩ := buildVarMap_keys (c := c) hx
      exact ⟨e, hperm.symm.subset he, hex⟩
    · intro e he heq
      exact hclash (heq ▸ (buildVarMap_entries (hperm.subset he)).1)
  · intro w hw
    apply foldl_refName_stable
    intro e he heq
    exact hw (heq ▸ (buildVarMap_entries (((hro (buildVarMap s c)).2.2.2).subset he)).1)
  · exact processComponent_single L os ro hro content blk s c hc hone
  · rw [processComponent_single L os ro hro content blk s c hc hone]
    show refNames (replaceAllFunc htmlRe (fun mt _ => injectClassInline L c mt)
      (scopeStylesInline _ c)) = _
    rw [refNames_scope_inject L hc, refNames_substRefs]
    intro w hw
    exact foldl_refName_good _ w (fun e he => (refs_entries hro hc e he).2.1) hw
  · intro pre m hm hi
    rw [hm] at hi ⊢
    exact substRefs_component _ pre s _ m hi
  · intro m hdecl
    exact index_script_body s _ hdecl

/-- C10, instance: a component with markup before and after its script
block, a style block, three references to the declared name `n` and one to
the undeclared name `m`, under the name `Foo` and for the insertion order
of the maps, together with its result, its references and the place of its
script body. -/
theorem processComponent_scenario_witness :
    ((∀ j : Nat, ((fun _ => insertionOrder) j : MapOrder).Valid) ∧ insertionOrder.Valid ∧
      (∀ ch ∈ "Foo".toList, isWordChar ch = true) ∧
      findAllSubmatch scriptRe
        "<h1>{n}</h1><script>let n = 1</script><style>p{}</style><p title={n}>{n} {m}</p>".toList =
        [["<script>let n = 1</script>".toList, "let n = 1".toList]]) ∧
    (processComponent demoLib (fun _ => insertionOrder) insertionOrder
        "<script>let count = 0</script><div>{count}</div>".toList "Counter".toList =
      ("<script>let Counter_count = 0</script><div class=\"Counter\">{Counter_count}</div>".toList,
        none) ∧
    ∃ g : Str → Str,
      (∀ x ∈ declaredNames "let n = 1".toList,
        newNameOf "Foo".toList x ∉ declaredNames "let n = 1".toList →
          g x = newNameOf "Foo".toList x) ∧
      (∀ w, w ∉ declaredNames "let n = 1".toList → g w = w) ∧
      processComponent demoLib (fun _ => insertionOrder) insertionOrder
          "<h1>{n}</h1><script>let n = 1</script><style>p{}</style><p title={n}>{n} {m}</p>".toList
          "Foo".toList =
        (replaceAllFunc htmlRe (fun mt _ => injectClassInline demoLib "Foo".toList mt)
          (scopeStylesInline
            (substRefs g (replaceFirst "let n = 1".toList
              (renameIdentifiers demoLib insertionOrder "let n = 1".toList "Foo".toList).1
              "<h1>{n}</h1><script>let n = 1</script><style>p{}</style><p title={n}>{n} {m}</p>".toList))
            "Foo".toList), none) ∧
      refNames (processComponent demoLib (fun _ => insertionOrder) insertionOrder
          "<h1>{n}</h1><script>let n = 1</script><style>p{}</style><p title={n}>{n} {m}</p>".toList
          "Foo".toList).1 =
        (refNames (replaceFirst "let n = 1".toList
          (renameIdentifiers demoLib insertionOrder "let n = 1".toList "Foo".toList).1
          "<h1>{n}</h1><script>let n = 1</script><style>p{}</style><p title={n}>{n} {m}</p>".toList)).map
          g ∧
      (∀ pre m,
        "<h1>{n}</h1><script>let n = 1</script><style>p{}</style><p title={n}>{n} {m}</p>".toList =
          pre ++ ("<script>".toList ++ ("let n = 1".toList ++ ("</script>".toList ++ m))) →
        index "let n = 1".toList
          "<h1>{n}</h1><script>let n = 1</script><style>p{}</style><p title={n}>{n} {m}</p>".toList =
          some (pre.length + 8) →
        substRefs g (replaceFirst "let n = 1".toList
            (renameIdentifiers demoLib insertionOrder "let n = 1".toList "Foo".toList).1
            "<h1>{n}</h1><script>let n = 1</script><style>p{}</style><p title={n}>{n} {m}</p>".toList) =
          substRefs g pre ++ ("<script>".toList ++
            (substRefs g (renameIdentifiers demoLib insertionOrder "let n = 1".toList
              "Foo".toList).1 ++ ("</script>".toList ++ substRefs g m)))) ∧
      (∀ m, declaredNames "let n = 1".toList ≠ [] →
        index "let n = 1".toList
          ("<script>".toList ++ ("let n = 1".toList ++ ("</script>".toList ++ m))) = some 8)) ∧
    processComponent demoLib (fun _ => insertionOrder) insertionOrder
        "<h1>{n}</h1><script>let n = 1</script><style>p{}</style><p title={n}>{n} {m}</p>".toList
        "Foo".toList =
      (("<h1 class=\"Foo\">{Foo_n}</h1><script>let Foo_n = 1</script><style>\n.Foo p {}\n</style>" ++
        "<p title={Foo_n} class=\"Foo\">{Foo_n} {m}</p>").toList, none) ∧
    refNames
        "<h1>{n}</h1><script>let n = 1</script><style>p{}</style><p title={n}>{n} {m}</p>".toList =
      ["n".toList, "n".toList, "n".toList, "m".toList] ∧
    "<h1>{n}</h1><script>let n = 1</script><style>p{}</style><p title={n}>{n} {m}</p>".toList =
      "<h1>{n}</h1>".toList ++ ("<script>".toList ++ ("let n = 1".toList ++
        ("</script>".toList ++ "<style>p{}</style><p title={n}>{n} {m}</p>".toList))) ∧
    index "let n = 1".toList
        "<h1>{n}</h1><script>let n = 1</script><style>p{}</style><p title={n}>{n} {m}</p>".toList =
      some ("<h1>{n}</h1>".toList.length + 8) :=
  ⟨⟨fun _ => insertionOrder_valid, insertionOrder_valid, by decide, by decide⟩,
    processComponent_scenario demoLib (fun _ => insertionOrder) insertionOrder
      (fun _ => insertionOrder_valid) insertionOrder_valid
      "<h1>{n}</h1><script>let n = 1</script><style>p{}</style><p title={n}>{n} {m}</p>".toList
      "<script>let n = 1</script>".toList "let n = 1".toList "Foo".toList (by decide) (by decide),
    by decide, by decide, by decide, by decide⟩

/-- C10, counterexample: when the script declares both `a` and `Foo_a` and
the map is visited in insertion order, the markup reference `{a}` of the
component `Foo` is rewritten twice and ends as `{Foo_Foo_a}`. -/
theorem processComponent_reference_renamed_twice :
    processComponent demoLib (fun _ => insertionOrder) insertionOrder
        "<script>let a = 1; let Foo_a = 2</script><div>{a}</div>".toList "Foo".toList =
      (("<script>let Foo_Foo_a = 1; let Foo_Foo_a = 2</script>" ++
        "<div class=\"Foo\">{Foo_Foo_a}</div>").toList, none) := by
  decide

/-! ## C11: no identifier renamed twice -/

/-- C11 as amended: for a component name `c` of letters, digits and
underscores and a script `s` in which no declared identifier is `c_y` for a
declared `y`, the loop over the identifier map (lines 46-48, and the same
loop nested in the restoring loop), in any visiting order and on any text
`z`, turns every maximal run of word characters of `z`
that is a declared identifier `x` into `c_x`, once, and keeps every other run
and character: text produced by the declaration rewrite or by an earlier pass
is not rewritten. For a script without an opening brace this gives the text
returned by `renameIdentifiers`. -/
theorem renameUses_single_pass (L : GoLib) (o : MapOrder) (ho : o.Valid) (s c : Str)
    (hc : ∀ ch ∈ c, isWordChar ch = true)
    (hfresh : ∀ x ∈ declaredNames s, newNameOf c x ∉ declaredNames s) :
    (∀ z, (o.vars (buildVarMap s c)).foldl (renameWord L) z =
      ((pieces z).map (renameToken (declaredNames s) c)).flatten) ∧
    (∀ k z, (o.inner k (buildVarMap s c)).foldl (renameWord L) z =
      ((pieces z).map (renameToken (declaredNames s) c)).flatten) ∧
    (∀ z, (pieces z).flatten = z) ∧
    ('{' ∉ s → (renameIdentifiers L o s c).1 =
      ((pieces (replaceAllFunc declRe (fun mt _ => renameDecl (buildVarMap s c) mt) s)).map
        (renameToken (declaredNames s) c)).flatten) := by
  have h1 : ∀ z, (o.vars (buildVarMap s c)).foldl (renameWord L) z =
      ((pieces z).map (renameToken (declaredNames s) c)).flatten :=
    fun z => foldl_renameWord_any_order L s c _ (ho (buildVarMap s c)).1 hc hfresh z
  refine ⟨h1, fun k z => foldl_renameWord_any_order L s c _ ((ho (buildVarMap s c)).2.2.1 k)
    hc hfresh z, fun z => (pieces_spec z).1, ?_⟩
  intro hb
  obtain ⟨hp, he⟩ := protect_no_brace L s hb
  have hnil : o.exprs [] = [] := perm_nil_eq (ho []).2.1
  unfold renameIdentifiers
  simp only [hp, he, hnil, List.foldl_nil]
  exact h1 _

/-- Instance of C11 as amended: in `let a = 1; a + b` with the component name
`Foo` the use of `a` becomes `Foo_a` and the new names stay. -/
theorem renameUses_single_pass_witness :
    (insertionOrder.Valid ∧ (∀ ch ∈ "Foo".toList, isWordChar ch = true) ∧
      (∀ x ∈ declaredNames "let a = 1; a + b".toList,
        newNameOf "Foo".toList x ∉ declaredNames "let a = 1; a + b".toList) ∧
      '{' ∉ "let a = 1; a + b".toList) ∧
    (renameIdentifiers demoLib insertionOrder "let a = 1; a + b".toList "Foo".toList).1 =
      ((pieces (replaceAllFunc declRe
          (fun mt _ => renameDecl (buildVarMap "let a = 1; a + b".toList "Foo".toList) mt)
          "let a = 1; a + b".toList)).map
        (renameToken (declaredNames "let a = 1; a + b".toList) "Foo".toList)).flatten ∧
    (renameIdentifiers demoLib insertionOrder "let a = 1; a + b".toList "Foo".toList).1 =
      "let Foo_a = 1; Foo_a + b".toList :=
  ⟨⟨insertionOrder_valid, by decide, by decide, by decide⟩,
    (renameUses_single_pass demoLib insertionOrder insertionOrder_valid
      "let a = 1; a + b".toList "Foo".toList (by decide) (by decide)).2.2.2 (by decide),
    by decide⟩

/-- C11 fails as stated: when `a` and `Foo_a` are both declared, the name
`Foo_a` that the declaration rewrite produced for `a` is renamed again, to
`Foo_Foo_a`; and with the component name `a-b` the new name `a-b_a` of `a` is
itself rewritten by the pass for `a`. -/
theorem renameIdentifiers_renames_twice :
    renameIdentifiers demoLib insertionOrder "let a = 1; let Foo_a = 2".toList "Foo".toList =
      ("let Foo_Foo_a = 1; let Foo_Foo_a = 2".toList,
        [("a".toList, "Foo_a".toList), ("Foo_a".toList, "Foo_Foo_a".toList)]) ∧
    renameIdentifiers demoLib insertionOrder "let a = 1".toList "a-b".toList =
      ("let a-b_a-b_a = 1".toList, [("a".toList, "a-b_a".toList)]) := by
  decide

/-! ## C12: the identifier map -/

/-- C12, amended: every key of the map returned by `renameIdentifiers` is an
identifier that follows `let`, `const`, `function` or `var` in the script
(the keyword at a word boundary, then white space, the identifier up to a
word boundary); every identifier that follows such a keyword is a key,
except where the keyword before it is itself the identifier that follows
another keyword: there the keyword is a key. So the keys are exactly those
identifiers when none of the four keywords itself follows a keyword. Every
key occurs once and is mapped to `c_k`, and the map is empty when no
identifier follows a keyword. -/
theorem renameIdentifiers_map (L : GoLib) (o : MapOrder) (s c : Str) :
    (∀ k, (∃ e ∈ (renameIdentifiers L o s c).2, e.1 = k) → FollowsKeyword s k) ∧
    (∀ pre kw ws x post, DeclaredAt s pre kw ws x post →
      (∃ e ∈ (renameIdentifiers L o s c).2, e.1 = x) ∨
      ((∃ e ∈ (renameIdentifiers L o s c).2, e.1 = kw) ∧
        ∃ pre0 kw0 ws0, pre = pre0 ++ (kw0 ++ ws0) ∧
          DeclaredAt s pre0 kw0 ws0 kw (ws ++ (x ++ post)))) ∧
    ((∀ kw ∈ declKeywords, ¬ FollowsKeyword s kw) →
      ∀ k, (∃ e ∈ (renameIdentifiers L o s c).2, e.1 = k) ↔ FollowsKeyword s k) ∧
    (∀ e ∈ (renameIdentifiers L o s c).2, e.2 = newNameOf c e.1) ∧
    (((renameIdentifiers L o s c).2).map Prod.fst).Nodup ∧
    ((∀ x, ¬ FollowsKeyword s x) → (renameIdentifiers L o s c).2 = []) := by
  have hm : (renameIdentifiers L o s c).2 = buildVarMap s c := rfl
  rw [hm]
  have sound : ∀ k, (∃ e ∈ buildVarMap s c, e.1 = k) → FollowsKeyword s k := by
    rintro k ⟨e, he, rfl⟩
    obtain ⟨pre, kw, ws, post, h⟩ := declaredNames_position (buildVarMap_entries he).1
    exact ⟨pre, kw, ws, post, h⟩
  have complete : ∀ pre kw ws x post, DeclaredAt s pre kw ws x post →
      (∃ e ∈ buildVarMap s c, e.1 = x) ∨
      ((∃ e ∈ buildVarMap s c, e.1 = kw) ∧
        ∃ pre0 kw0 ws0, pre = pre0 ++ (kw0 ++ ws0) ∧
          DeclaredAt s pre0 kw0 ws0 kw (ws ++ (x ++ post))) := by
    intro pre kw ws x post h
    rcases declaredAt_found h with hx | ⟨hkw, hrest⟩
    · exact Or.inl (buildVarMap_keys hx)
    · exact Or.inr ⟨buildVarMap_keys hkw, hrest⟩
  refine ⟨sound, complete, ?_, fun e he => (buildVarMap_entries he).2, buildVarMap_nodup s c, ?_⟩
  · intro hno k
    refine ⟨sound k, ?_⟩
    rintro ⟨pre, kw, ws, post, h⟩
    rcases complete pre kw ws k post h with hx | ⟨_, pre0, kw0, ws0, _, h0⟩
    · exact hx
    · exact absurd ⟨pre0, kw0, ws0, _, h0⟩ (hno kw h.2.1)
  · intro hno
    cases hb : buildVarMap s c with
    | nil => rfl
    | cons e m =>
      exact absurd (sound e.1 ⟨e, by rw [hb]; exact List.mem_cons_self _ _, rfl⟩) (hno e.1)

/-- C12, counterexample: in `let var x` the identifier `x` follows the
keyword `var` at a word boundary and after white space, yet the only key of
the map is `var`: the scan took `var` for the identifier declared by `let`
and went on after it. -/
theorem renameIdentifiers_map_skips_declaration :
    DeclaredAt "let var x".toList "let ".toList "var".toList " ".toList "x".toList [] ∧
    (renameIdentifiers demoLib insertionOrder "let var x".toList "Foo".toList).2 =
      [("var".toList, "Foo_var".toList)] ∧
    ¬ ∃ e ∈ (renameIdentifiers demoLib insertionOrder "let var x".toList "Foo".toList).2,
      e.1 = "x".toList := by
  refine ⟨by unfold DeclaredAt; decide, by decide, by decide⟩

/-! ## C13: every listed tag carries the class -/

/-- C13 fails on the code: a listed tag whose class attribute is written with
single quotes is returned without the component class, by `addComponentClass`
and by `processComponent` alike, and for a tag with the attribute
`data-class="x"` the component name is appended to that attribute while the
tag gets no class attribute. -/
theorem addComponentClass_misses_class (L : GoLib) (os : Nat → MapOrder) (ro : MapOrder) :
    addComponentClass L "<div class='x'>".toList "Foo".toList = "<div class='x'>".toList ∧
    processComponent L os ro "<div class='x'>".toList "Foo".toList =
      ("<div class='x'>".toList, none) ∧
    addComponentClass L "<div data-class=\"x\">".toList "Foo".toList =
      "<div data-class=\"x Foo\">".toList := by
  refine ⟨by rfl, by rfl, by rfl⟩

/-! ## C14: `AutoParse` fails fast -/

/-- C14: `AutoParse` returns the error (and with it the empty text) of the
first step that fails: the directory listing, the reading of a component
file, the registration of a component template, the rendering of the root
template, or the compiler call. In the first four cases the result is the
same whatever the compiler would do: the compiler call is not reached. -/
theorem AutoParse_fail_fast (L : GoLib) (W : World) (os : Nat → Nat → MapOrder)
    (regOrder : List (Str × Str) → List (Str × Str)) (e : Str) :
    (W.readDir = .error e →
      ∀ p, AutoParse L (withCompiler W p) os regOrder = .error e) ∧
    (∀ pre name post, W.readDir = .ok (pre ++ (name, false) :: post) →
      (∀ f ∈ pre, f.2 = false → ∃ content, W.readFile ("./src/".toList ++ f.1) = .ok content) →
      W.readFile ("./src/".toList ++ name) = .error e →
      ∀ p, AutoParse L (withCompiler W p) os regOrder = .error e) ∧
    (∀ files st pre nm body post, W.readDir = .ok files →
      autoParseFiles L W os files 0 ⟨[], [], []⟩ = .ok st →
      regOrder st.components = pre ++ (nm, body) :: post →
      (∀ q ∈ pre, W.tmplParse q.1 q.2 = .ok ()) →
      W.tmplParse nm body = .error e →
      ∀ p, AutoParse L (withCompiler W p) os regOrder = .error e) ∧
    (∀ files st, W.readDir = .ok files →
      autoParseFiles L W os files 0 ⟨[], [], []⟩ = .ok st →
      registerAll W (regOrder st.components) = .ok () →
      W.tmplExecute (regOrder st.components) = .error e →
      ∀ p, AutoParse L (withCompiler W p) os regOrder = .error e) ∧
    (∀ files st rendered, W.readDir = .ok files →
      autoParseFiles L W os files 0 ⟨[], [], []⟩ = .ok st →
      registerAll W (regOrder st.components) = .ok () →
      W.tmplExecute (regOrder st.components) = .ok rendered →
      W.parseSvelte (finalContent st.allScripts st.allStyles (cleanMerged L rendered)) =
        .error e →
      AutoParse L W os regOrder = .error e) := by
  refine ⟨?_, ?_, ?_, ?_, ?_⟩
  · intro h p
    rw [AutoParse_withCompiler, h]
  · intro pre name post hd hpre hname p
    rw [AutoParse_withCompiler, hd]
    simp only []
    rw [autoParseFiles_read_error L W os e name post hname pre 0 ⟨[], [], []⟩ hpre]
  · intro files st pre nm body post hd hf hreg hpre hbad p
    rw [AutoParse_withCompiler, hd]
    simp only []
    rw [hf]
    simp only []
    rw [hreg, registerAll_error W e nm body post hbad pre hpre]
  · intro files st hd hf hr hx p
    rw [AutoParse_withCompiler, hd]
    simp only []
    rw [hf]
    simp only []
    rw [hr]
    simp only []
    rw [hx]
  · intro files st rendered hd hf hr hx hp
    unfold AutoParse
    rw [hd]
    simp only []
    rw [hf]
    simp only []
    rw [hr]
    simp only []
    rw [hx]
    simp only []
    rw [hp]

/-- Instances of C14: a directory that cannot be read; and a directory with
`App.svelte` (content `<div>hi</div>`) where, in turn, a second file cannot
be read, the template does not parse, the root template does not render, the
compiler fails. -/
theorem AutoParse_fail_fast_witness :
    (∀ p, AutoParse demoLib (withCompiler noDirWorld p) (fun _ _ => insertionOrder) id =
      .error "no such directory".toList) ∧
    (∀ p, AutoParse demoLib (withCompiler (oneFileWorld true false false false) p)
      (fun _ _ => insertionOrder) id = .error "unreadable".toList) ∧
    (∀ p, AutoParse demoLib (withCompiler (oneFileWorld false true false false) p)
      (fun _ _ => insertionOrder) id = .error "bad template".toList) ∧
    (∀ p, AutoParse demoLib (withCompiler (oneFileWorld false false true false) p)
      (fun _ _ => insertionOrder) id = .error "no App".toList) ∧
    AutoParse demoLib (oneFileWorld false false false true) (fun _ _ => insertionOrder) id =
      .error "compiler failed".toList ∧
    AutoParse demoLib (oneFileWorld false false false false) (fun _ _ => insertionOrder) id =
      .ok "<script>\n\n</script>\n<style>\n\n</style>\n<div class=\"App\">hi</div>".toList :=
  ⟨(AutoParse_fail_fast demoLib noDirWorld (fun _ _ => insertionOrder) id
      "no such directory".toList).1 rfl,
    (AutoParse_fail_fast demoLib (oneFileWorld true false false false)
      (fun _ _ => insertionOrder) id "unreadable".toList).2.1
      [("App.svelte".toList, false)] "Bad.svelte".toList [] rfl
      (fun f hf _ => by
        rw [List.mem_singleton] at hf
        subst hf
        exact ⟨"<div>hi</div>".toList, rfl⟩)
      rfl,
    (AutoParse_fail_fast demoLib (oneFileWorld false true false false)
      (fun _ _ => insertionOrder) id "bad template".toList).2.2.1
      [("App.svelte".toList, false)]
      ⟨[("App".toList, "<div class=\"App\">hi</div>".toList)], [], []⟩
      [] "App".toList "<div class=\"App\">hi</div>".toList [] rfl rfl rfl
      (fun q hq => absurd hq (List.not_mem_nil q)) rfl,
    (AutoParse_fail_fast demoLib (oneFileWorld false false true false)
      (fun _ _ => insertionOrder) id "no App".toList).2.2.2.1
      [("App.svelte".toList, false)]
      ⟨[("App".toList, "<div class=\"App\">hi</div>".toList)], [], []⟩ rfl rfl rfl rfl,
    (AutoParse_fail_fast demoLib (oneFileWorld false false false true)
      (fun _ _ => insertionOrder) id "compiler failed".toList).2.2.2.2
      [("App.svelte".toList, false)]
      ⟨[("App".toList, "<div class=\"App\">hi</div>".toList)], [], []⟩
      "<div class=\"App\">hi</div>".toList rfl rfl rfl rfl rfl,
    rfl⟩

/-! ## C15: the visiting order of the maps -/

/-- C15 as amended: for a script `s` that does not contain `EXPR_` and a
component name `c` of letters, digits and underscores such that `c_` does
not contain `EXPR_` either, and such that no declared identifier is `c_y` for
a declared `y`, the text and the map returned by `renameIdentifiers` are the
same for every admissible visiting order of the identifier map and of the
placeholder map. -/
theorem renameIdentifiers_order_independent (L : GoLib) (o1 o2 : MapOrder)
    (h1 : o1.Valid) (h2 : o2.Valid) (s c : Str)
    (hc : ∀ ch ∈ c, isWordChar ch = true)
    (hfresh : ∀ x ∈ declaredNames s, newNameOf c x ∉ declaredNames s)
    (hs : contains s "EXPR_".toList = false)
    (hcm : contains (c ++ ['_']) "EXPR_".toList = false) :
    renameIdentifiers L o1 s c = renameIdentifiers L o2 s c := by
  rw [renameIdentifiers_canonical L o1 h1 s c hc hfresh (noMarker_of_contains hs)
      (noMarker_of_contains hcm),
    renameIdentifiers_canonical L o2 h2 s c hc hfresh (noMarker_of_contains hs)
      (noMarker_of_contains hcm)]

/-- Instance of C15 as amended: a script with two declarations and two
protected expressions, every map visited forwards and backwards. -/
theorem renameIdentifiers_order_independent_witness :
    (insertionOrder.Valid ∧ backwardOrder.Valid ∧
      (∀ ch ∈ "Foo".toList, isWordChar ch = true) ∧
      (∀ x ∈ declaredNames "let a = 1; let b = 2; {a} {b}".toList,
        newNameOf "Foo".toList x ∉ declaredNames "let a = 1; let b = 2; {a} {b}".toList) ∧
      contains "let a = 1; let b = 2; {a} {b}".toList "EXPR_".toList = false ∧
      contains ("Foo".toList ++ ['_']) "EXPR_".toList = false) ∧
    renameIdentifiers tableLib insertionOrder "let a = 1; let b = 2; {a} {b}".toList
        "Foo".toList =
      renameIdentifiers tableLib backwardOrder "let a = 1; let b = 2; {a} {b}".toList
        "Foo".toList ∧
    renameIdentifiers tableLib backwardOrder "let a = 1; let b = 2; {a} {b}".toList
        "Foo".toList =
      ("let Foo_a = 1; let Foo_b = 2; {Foo_a} {Foo_b}".toList,
        [("a".toList, "Foo_a".toList), ("b".toList, "Foo_b".toList)]) :=
  ⟨⟨insertionOrder_valid, backwardOrder_valid, by decide, by decide, by decide, by decide⟩,
    renameIdentifiers_order_independent tableLib insertionOrder backwardOrder
      insertionOrder_valid backwardOrder_valid
      "let a = 1; let b = 2; {a} {b}".toList "Foo".toList (by decide) (by decide)
      (by decide) (by decide),
    by decide⟩

/-- C15 fails as stated: with the component name `__EXPR_<digest of {b}>__`
(letters, digits and underscores) the script `let x = 1 {x} {b}`, which does
not contain `EXPR_`, comes back as `let {b}_x = 1 {{b}_x} {b}` when the
placeholder map is visited in insertion order and with the second text still
holding the placeholder when it is visited backwards. -/
theorem renameIdentifiers_depends_on_order :
    contains "let x = 1 \x7bx\x7d \x7bb\x7d".toList "EXPR_".toList = false ∧
    (∀ ch ∈ "__EXPR_09b94c63eb71025f4fd0a42b9413455f__".toList, isWordChar ch = true) ∧
    (∀ x ∈ declaredNames "let x = 1 \x7bx\x7d \x7bb\x7d".toList,
      newNameOf "__EXPR_09b94c63eb71025f4fd0a42b9413455f__".toList x ∉
        declaredNames "let x = 1 \x7bx\x7d \x7bb\x7d".toList) ∧
    insertionOrder.Valid ∧ reverseOrder.Valid ∧
    renameIdentifiers tableLib insertionOrder "let x = 1 \x7bx\x7d \x7bb\x7d".toList
        "__EXPR_09b94c63eb71025f4fd0a42b9413455f__".toList =
      ("let \x7bb\x7d_x = 1 \x7b\x7bb\x7d_x\x7d \x7bb\x7d".toList,
        [("x".toList, "__EXPR_09b94c63eb71025f4fd0a42b9413455f___x".toList)]) ∧
    renameIdentifiers tableLib reverseOrder "let x = 1 \x7bx\x7d \x7bb\x7d".toList
        "__EXPR_09b94c63eb71025f4fd0a42b9413455f__".toList =
      ("let \x7bb\x7d_x = 1 \x7b__EXPR_09b94c63eb71025f4fd0a42b9413455f___x\x7d \x7bb\x7d".toList,
        [("x".toList, "__EXPR_09b94c63eb71025f4fd0a42b9413455f___x".toList)]) :=
  ⟨by decide, by decide, by decide, insertionOrder_valid, reverseOrder_valid, by decide,
    by decide⟩

/-! ## C16: `processComponent` never fails -/

/-- C16: `processComponent` with every index step (`match[2]`, `script[1]`,
`FindStringSubmatch(match)[1]`), every slice step
(`selector[:len(selector)-1]`, `match[:tagEnd]`, `match[tagEnd:]`) and every
pattern built from a declared identifier checked never fails, for every
component text and component name and every visiting order of the maps: it
returns what `processComponent` returns, and the returned error is `nil`. -/
theorem processComponent_total (L : GoLib) (os : Nat → MapOrder) (ro : MapOrder)
    (hos : ∀ j, (os j).Valid) (hro : ro.Valid) (content componentName : Str) :
    processComponentChecked L os ro content componentName =
      some (processComponent L os ro content componentName) ∧
    (processComponent L os ro content componentName).2 = none := by
  refine ⟨?_, rfl⟩
  unfold processComponentChecked processComponent
  rw [renameScriptsChecked_total L os hos componentName (findAllSubmatch scriptRe content) 0
    (content, none) (fun mt hmt => findAll_blockRe_groups "<script>".toList "</script>".toList hmt)]
  simp only []
  have h2 : (match (renameScripts L os componentName (findAllSubmatch scriptRe content) 0
        (content, none)).2 with
      | some varMap => foldChecked (updateRefsChecked L) (ro.refs varMap)
          (renameScripts L os componentName (findAllSubmatch scriptRe content) 0 (content, none)).1
      | none => some
          (renameScripts L os componentName (findAllSubmatch scriptRe content) 0 (content, none)).1) =
      some (match (renameScripts L os componentName (findAllSubmatch scriptRe content) 0
        (content, none)).2 with
      | some varMap => (ro.refs varMap).foldl (updateRefs L)
          (renameScripts L os componentName (findAllSubmatch scriptRe content) 0 (content, none)).1
      | none =>
          (renameScripts L os componentName (findAllSubmatch scriptRe content) 0 (content, none)).1) := by
    rcases renameScripts_map L os componentName (findAllSubmatch scriptRe content) 0
      (content, none) with h | ⟨s, h⟩
    · rw [h]
    · rw [h]
      simp only []
      exact foldChecked_total _ _
        (fun a ha b => updateRefsChecked_total L (((hro (buildVarMap s componentName)).2.2.2).subset ha) b)
  rw [h2]
  simp only []
  rw [scopeStylesInlineChecked_total]
  simp only []
  have h4 : ∀ text, replaceAllFuncChecked htmlRe
      (fun mt _ => injectClassInlineChecked L componentName mt) text =
      some (replaceAllFunc htmlRe (fun mt _ => injectClassInline L componentName mt) text) := by
    intro text
    unfold replaceAllFuncChecked replaceAllFunc
    apply replaceAllAuxChecked_total
    intro p s n g hm _
    exact injectClassInlineChecked_total L componentName hm
  rw [h4]

/-- Instance of C16: a component with a script, a style block and markup. -/
theorem processComponent_total_witness :
    ((∀ j : Nat, ((fun _ => insertionOrder) j : MapOrder).Valid) ∧ insertionOrder.Valid) ∧
    processComponentChecked demoLib (fun _ => insertionOrder) insertionOrder
        "<script>let n = 0</script><style>a, b{x:y}</style><p>{n}</p>".toList "C".toList =
      some (processComponent demoLib (fun _ => insertionOrder) insertionOrder
        "<script>let n = 0</script><style>a, b{x:y}</style><p>{n}</p>".toList "C".toList) ∧
    processComponent demoLib (fun _ => insertionOrder) insertionOrder
        "<script>let n = 0</script><style>a, b{x:y}</style><p>{n}</p>".toList "C".toList =
      ("<script>let C_n = 0</script><style>\n.C a, .C b {x:y}\n</style><p class=\"C\">{C_n}</p>".toList,
        none) :=
  ⟨⟨fun _ => insertionOrder_valid, insertionOrder_valid⟩,
    (processComponent_total demoLib (fun _ => insertionOrder) insertionOrder
      (fun _ => insertionOrder_valid) insertionOrder_valid
      "<script>let n = 0</script><style>a, b{x:y}</style><p>{n}</p>".toList "C".toList).1,
    by decide⟩

/-! ## C17: the two class injections -/

/-- C17: the class injection written inline in `processComponent` (tag cut at
its first `>`) and `addComponentClass` (tag cut at its last `>`, guarded
against a missing `>`) rewrite every text in the same way, for every
component name. -/
theorem injectClassInline_eq_addComponentClass (L : GoLib) (content componentName : Str) :
    replaceAllFunc htmlRe (fun mt _ => injectClassInline L componentName mt) content =
      addComponentClass L content componentName := by
  unfold addComponentClass replaceAllFunc
  apply replaceAllAux_congr
  intro p s n g h
  obtain ⟨h1, h2⟩ := htmlRe_first_last h
  simp only [injectClassInline, injectClass, h1, h2]

end Sveltigo
